import Mathlib

/-!
# hdifuse: FAT12 chain engine and file operations

A shallow embedding of the FAT12 code of `src/fat12.cpp` and `src/hdifuse.cpp`.

* A `Region` is the byte array that starts at `Region.ptr`.  Bytes are natural
  numbers; a stored byte is reduced modulo 256 the way an assignment to a
  `uint8_t` is.  The source never checks an index against `Region.size`;
  the embedding reads `0` outside the list and drops a store outside it.
* An address in the data region is an integer offset from `dataRegion.ptr`;
  it is negative for the clusters 0 and 1, which lie before the region.
* `uint16_t`, `uint32_t` and `size_t` values are natural numbers, reduced
  modulo `2 ^ 16`, `2 ^ 32`, `2 ^ 64` where the source converts.
* A `FileEntry *` is passed and returned by value; the FAT, the data region
  and the entry are separate values, as they are separate arguments of the
  source functions.
* A `while` loop takes a bound on its number of iterations and answers `none`
  when the bound is used up; the theorems give a bound that suffices.
-/

set_option maxRecDepth 1000000

namespace Hdifuse

/-- The bytes of a region of the image, starting at `Region.ptr`. -/
abbrev Region := List Nat

/-- Every element of the region is a `uint8_t`. -/
def IsBytes (r : Region) : Prop := ∀ b ∈ r, b < 256

instance (r : Region) : Decidable (IsBytes r) := by
  unfold IsBytes
  infer_instance

/-! ## FAT entries (`src/fat12.cpp`, lines 301-319 and 447-452) -/

/-- The `struct FatEntry` of `fat12.h`: `ptr` is kept as the byte offset from
the beginning of the FAT region. -/
structure FatEntry where
  ptr : Nat
  odd : Bool
deriving DecidableEq, Repr

/-- The `getFatEntry` of the source: `idx = ((uint32_t)i * 12) / 8`, `odd = i % 2`.
The index `i` is a `uint16_t`, so the 32-bit product does not wrap. -/
def getFatEntry (i : Nat) : FatEntry :=
  { ptr := i * 12 / 8, odd := i % 2 != 0 }

/-- The `FatEntry::getValue` of the source; the result is a `uint16_t`. -/
def FatEntry.getValue (e : FatEntry) (fat : Region) : Nat :=
  if e.odd then
    ((fat.getD e.ptr 0 >>> 4) + (fat.getD (e.ptr + 1) 0 <<< 4)) % 2 ^ 16
  else
    (fat.getD e.ptr 0 + ((fat.getD (e.ptr + 1) 0 &&& 0x0f) <<< 8)) % 2 ^ 16

/-- The `FatEntry::setValue` of the source; both stores go to `uint8_t`. -/
def FatEntry.setValue (e : FatEntry) (fat : Region) (value : Nat) : Region :=
  if e.odd then
    let fat1 := fat.set e.ptr
      (((fat.getD e.ptr 0 &&& 0b1111) ||| ((value &&& 0b1111) <<< 4)) % 256)
    fat1.set (e.ptr + 1) (((value >>> 4) &&& 0b11111111) % 256)
  else
    let fat1 := fat.set e.ptr ((value &&& 0b11111111) % 256)
    fat1.set (e.ptr + 1)
      (((fat1.getD (e.ptr + 1) 0 &&& 0b11110000) + (value >>> 8)) % 256)

/-- The value of FAT entry `i`: `getFatEntry(fat, i).getValue()`. -/
def fatGet (fat : Region) (i : Nat) : Nat := (getFatEntry i).getValue fat

/-- The FAT after `getFatEntry(fat, i).setValue(v)`. -/
def fatSet (fat : Region) (i v : Nat) : Region := (getFatEntry i).setValue fat v

/-! ## Directory entries (`src/fat12.h`, `src/fat12.cpp` lines 135-209) -/

/-- The error numbers that the file operations throw or reply with. -/
inductive Errno where
  | ESPIPE
  | EINVAL
  | EILSEQ
  | ENOSPC
  | EISDIR
  | EACCES
  | ENOENT
  | EBUSY
  | ENOTDIR
  | EMFILE
  | ENOMEM
  | EFAULT
deriving DecidableEq, Repr

/-- The packed 32-byte `struct FileEntry`, field by field. -/
structure FileEntry where
  filename : List Nat
  attr : Nat
  reserved : Nat
  creationTimeTenth : Nat
  creationTime : Nat
  creationDate : Nat
  lastAccessDate : Nat
  firstDataClusterHigh : Nat
  writeTime : Nat
  writeDate : Nat
  firstDataClusterLow : Nat
  size : Nat
deriving DecidableEq, Repr

/-- The entry after `FileEntry::reset`: `memset(this, 0x00, sizeof(*this))`. -/
def FileEntry.reset (_ : FileEntry) : FileEntry :=
  { filename := List.replicate 11 0, attr := 0, reserved := 0, creationTimeTenth := 0,
    creationTime := 0, creationDate := 0, lastAccessDate := 0, firstDataClusterHigh := 0,
    writeTime := 0, writeDate := 0, firstDataClusterLow := 0, size := 0 }

/-- The `ATTR_READ_ONLY` of `fat12.h`. -/
def ATTR_READ_ONLY : Nat := 0x01

/-- The `ATTR_DIRECTORY` of `fat12.h`. -/
def ATTR_DIRECTORY : Nat := 0x10

/-- The `FileEntry::isDirectory` of the source. -/
def FileEntry.isDirectory (e : FileEntry) : Bool := e.attr &&& ATTR_DIRECTORY != 0

/-- The `FileEntry::isRO` of the source. -/
def FileEntry.isRO (e : FileEntry) : Bool := e.attr &&& ATTR_READ_ONLY != 0

/-! ## Positions in a chain (`src/hdifuse.cpp`, lines 218-237) -/

/-- The `struct ClusterPos` of the source. -/
structure ClusterPos where
  cluster : Nat
  fileClusterOffset : Nat
  clusterOffset : Nat
deriving DecidableEq, Repr

/-- The `for` loop of `seek`: the first argument is the number of iterations
that `i < skipCluster` still allows; the result is `(cluster, skippedCluster)`. -/
def seekLoop (fatRegion : Region) : Nat → Nat → Nat → Nat × Nat
  | 0, cluster, skippedCluster => (cluster, skippedCluster)
  | n + 1, cluster, skippedCluster =>
    if cluster != 0xFFF then
      seekLoop fatRegion n (fatGet fatRegion cluster) (skippedCluster + 1)
    else (cluster, skippedCluster)

/-- The `seek` of the source.  `skipCluster` is an `unsigned int`, the product
is a `size_t`, and the remainder is taken of the two 32-bit conversions. -/
def seek (fatRegion : Region) (cluster clusterSize offset : Nat) : ClusterPos :=
  let skipCluster := offset / clusterSize % 2 ^ 32
  let r := seekLoop fatRegion skipCluster cluster 0
  { cluster := r.1,
    fileClusterOffset := r.2 * clusterSize % 2 ^ 64,
    clusterOffset := offset % 2 ^ 32 % (clusterSize % 2 ^ 32) }

/-! ## Cluster data (`src/hdifuse.cpp`, lines 241-253 and 311-330) -/

/-- The address `dataRegion.ptr + ((pos.cluster - 2) * clusterSize) + pos.clusterOffset`
as an offset from `dataRegion.ptr`; it is negative for the clusters 0 and 1. -/
def clusterAddr (cluster clusterSize clusterOffset : Nat) : Int :=
  ((cluster : Int) - 2) * (clusterSize : Int) + (clusterOffset : Int)

/-- The `n` bytes found at offset `addr` of a region.  An address outside the
region reads as 0 here; the source reads whatever lies at that address (the
regions are slices of one buffer, see `getFatVolume`).  The two agree for
addresses inside the region. -/
def memRead (r : Region) (addr : Int) (n : Nat) : List Nat :=
  (List.range n).map fun (k : Nat) =>
    if 0 ≤ addr + (k : Int) then r.getD (addr + (k : Int)).toNat 0 else 0

/-- The region after `memcpy(r + addr, bytes, |bytes|)`.  A store at an
address outside the region leaves the region as it is here; in the source the
`memcpy` has no bound check and the bytes land outside the region (in a
neighbouring region of the same buffer, or outside the buffer).  The two agree
for stores inside the region. -/
def memWrite (r : Region) (addr : Int) : List Nat → Region
  | [] => r
  | b :: bs => memWrite (if 0 ≤ addr then r.set addr.toNat b else r) (addr + 1) bs

/-- The conversion of a `size_t` to `int` and back to `size_t`, as in
`int rd = readCluster(...); hasRead += rd;`. -/
def intOfSize (x : Nat) : Nat :=
  if x % 2 ^ 32 < 2 ^ 31 then x % 2 ^ 32 else 2 ^ 64 - 2 ^ 32 + x % 2 ^ 32

/-- The `readCluster` of the source: the bytes are pushed on `memory`, the
result is `(readSize, memory)`.  `pos.clusterOffset` is below `clusterSize`
at both call sites, so the `size_t` difference does not wrap. -/
def readCluster (dataRegion : Region) (clusterSize : Nat) (pos : ClusterPos)
    (readCount : Nat) (memory : List Nat) : Nat × List Nat :=
  let readSize := min (clusterSize - pos.clusterOffset) readCount
  (readSize,
    memory ++ memRead dataRegion (clusterAddr pos.cluster clusterSize pos.clusterOffset) readSize)

/-- The `writeCluster` of the source: the result is `(toWrite, dataRegion)`.
The data region is a list of its own here, so the function agrees with the
source for the clusters that lie inside the data region (the clusters 2 and
above that the region holds); `writeLoopTrace` hands back the clusters of a
write. -/
def writeCluster (dataRegion : Region) (clusterSize : Nat) (pos : ClusterPos)
    (writeCount : Nat) (data : List Nat) : Nat × Region :=
  let maxWriteSize := clusterSize - pos.clusterOffset
  let toWrite := min maxWriteSize writeCount
  (toWrite,
    memWrite dataRegion (clusterAddr pos.cluster clusterSize pos.clusterOffset)
      (data.take toWrite))

/-! ## Reading a file (`src/hdifuse.cpp`, lines 255-309) -/

/-- What a function of the source hands back: a value, or a thrown `int`. -/
inductive Ret (α : Type) where
  | ok (a : α)
  | throw (e : Errno)
deriving DecidableEq, Repr

/-- The `while (pos.cluster != 0xFFF && hasRead != toRead)` loop of
`dumpRegularFile`; the first argument bounds the iterations. -/
def readLoop (fatRegion dataRegion : Region) (clusterSize toRead : Nat) :
    Nat → ClusterPos → Nat → List Nat → Option (List Nat)
  | 0, pos, hasRead, memory =>
    if pos.cluster != 0xFFF && hasRead != toRead then none else some memory
  | fuel + 1, pos, hasRead, memory =>
    if pos.cluster != 0xFFF && hasRead != toRead then
      let r := readCluster dataRegion clusterSize pos (toRead - hasRead) memory
      readLoop fatRegion dataRegion clusterSize toRead fuel
        { pos with cluster := fatGet fatRegion pos.cluster, clusterOffset := 0 }
        ((hasRead + intOfSize r.1) % 2 ^ 64) r.2
    else some memory

/-- The `dumpRegularFile` of the source; the result is the used part of the
returned `Memory`.  The `malloc` of `Memory` is taken to succeed. -/
def dumpRegularFile (fuel : Nat) (fatRegion dataRegion : Region) (file : FileEntry)
    (clusterSize size offset : Nat) : Option (Ret (List Nat)) :=
  if file.size == 0 || file.size ≤ offset then some (Ret.ok [])
  else
    let toRead := min (file.size - offset) size
    let pos := seek fatRegion file.firstDataClusterLow clusterSize offset
    if (pos.fileClusterOffset + pos.clusterOffset) % 2 ^ 64 != offset then
      some (Ret.throw Errno.EINVAL)
    else
      (readLoop fatRegion dataRegion clusterSize toRead fuel pos 0 []).map Ret.ok

/-! ## Writing a file (`src/hdifuse.cpp`, lines 332-412) -/

/-- The `for` loop of `getFreeCluster`: the first argument is the number of
iterations that `i < maxCluster` still allows, the second is `i`. -/
def getFreeClusterFrom (fatRegion : Region) : Nat → Nat → Nat
  | 0, _ => 0xfff
  | n + 1, i =>
    if fatGet fatRegion i == 0 then i else getFreeClusterFrom fatRegion n (i + 1)

/-- The `getFreeCluster` of the source: the scan starts at `i = 0`. -/
def getFreeCluster (fatRegion : Region) (maxCluster : Nat) : Nat :=
  getFreeClusterFrom fatRegion maxCluster 0

/-- The image and the entry as `writeFile` leaves them, with what it hands back. -/
structure WriteResult where
  ret : Ret Nat
  fat : Region
  data : Region
  file : FileEntry
deriving DecidableEq, Repr

/-- How the `while (written != toWrite)` loop of `writeFile` ends: `done` when
the loop condition fails, `noSpace` at the `return written` inside the loop. -/
inductive LoopExit where
  | done
  | noSpace
deriving DecidableEq, Repr

/-- The state at the end of the write loop. -/
structure WriteLoopResult where
  exit : LoopExit
  fat : Region
  data : Region
  written : Nat
deriving DecidableEq, Repr

/-- The `while (written != toWrite)` loop of `writeFile`; the first argument
bounds the iterations. -/
def writeLoop (clusterSize maxCluster : Nat) (bytes : List Nat) :
    Nat → Region → Region → ClusterPos → Nat → Option WriteLoopResult
  | 0, fat, data, _, written =>
    if written != bytes.length then none
    else some { exit := LoopExit.done, fat := fat, data := data, written := written }
  | fuel + 1, fat, data, pos, written =>
    if written != bytes.length then
      let w := writeCluster data clusterSize pos (bytes.length - written) (bytes.drop written)
      let written1 := written + w.1
      if written1 != bytes.length then
        if fatGet fat pos.cluster == 0xFFF then
          let newCluster := getFreeCluster fat maxCluster
          if newCluster == 0xFFF then
            some { exit := LoopExit.noSpace, fat := fat, data := w.2, written := written1 }
          else
            writeLoop clusterSize maxCluster bytes fuel
              (fatSet (fatSet fat pos.cluster newCluster) newCluster 0xFFF) w.2
              { pos with cluster := newCluster, clusterOffset := 0 } written1
        else
          writeLoop clusterSize maxCluster bytes fuel fat w.2
            { pos with cluster := fatGet fat pos.cluster, clusterOffset := 0 } written1
      else
        writeLoop clusterSize maxCluster bytes fuel fat w.2 pos written1
    else some { exit := LoopExit.done, fat := fat, data := data, written := written }

/-- The `writeFile` of the source from its `while` loop to its end (lines
380-411), on the FAT, the entry and the position that the first part leaves. -/
def writeFileLoop (fuel : Nat) (fatRegion dataRegion : Region) (file : FileEntry)
    (clusterSize : Nat) (bytes : List Nat) (offset maxCluster : Nat) (pos : ClusterPos) :
    Option WriteResult :=
  (writeLoop clusterSize maxCluster bytes fuel fatRegion dataRegion pos 0).map fun r =>
    match r.exit with
    | LoopExit.noSpace =>
      { ret := Ret.ok r.written, fat := r.fat, data := r.data, file := file }
    | LoopExit.done =>
      { ret := Ret.ok r.written, fat := r.fat, data := r.data,
        file := { file with size := max ((offset + r.written) % 2 ^ 32) file.size } }

/-- The `writeFile` of the source; `toWrite` is the length of `bytes`. -/
def writeFile (fuel : Nat) (fatRegion dataRegion : Region) (file : FileEntry)
    (clusterSize : Nat) (bytes : List Nat) (offset maxCluster : Nat) : Option WriteResult :=
  let pos := seek fatRegion file.firstDataClusterLow clusterSize offset
  if (pos.fileClusterOffset + pos.clusterOffset) % 2 ^ 64 != offset then
    some { ret := Ret.throw Errno.ESPIPE, fat := fatRegion, data := dataRegion, file := file }
  else if bytes.length == 0 then
    some { ret := Ret.ok 0, fat := fatRegion, data := dataRegion, file := file }
  else if file.firstDataClusterLow == 0 then
    let newCluster := getFreeCluster fatRegion maxCluster
    if newCluster == 0xFFF then
      some { ret := Ret.ok 0, fat := fatRegion, data := dataRegion, file := file }
    else
      writeFileLoop fuel (fatSet fatRegion newCluster 0xFFF) dataRegion
        { file with firstDataClusterLow := newCluster } clusterSize bytes offset maxCluster
        { pos with cluster := newCluster }
  else
    writeFileLoop fuel fatRegion dataRegion file clusterSize bytes offset maxCluster pos

/-- What `fat12_ll_write` answers to the request. -/
inductive WriteReply where
  | err (e : Errno)
  | written (n : Nat)
deriving DecidableEq, Repr

/-- The `fat12_ll_write` of the source (lines 1059-1095) on the entry of the
open file: `none` for the entry when `getOpenFile` finds no handle. -/
def fat12_ll_write (fuel : Nat) (fatRegion dataRegion : Region) (file : Option FileEntry)
    (clusterSize : Nat) (buf : List Nat) (off maxCluster : Nat) :
    Option (WriteReply × Region × Region × Option FileEntry) :=
  match file with
  | none => some (WriteReply.err Errno.EINVAL, fatRegion, dataRegion, none)
  | some f =>
    (writeFile fuel fatRegion dataRegion f clusterSize buf off maxCluster).map fun r =>
      match r.ret with
      | Ret.throw e => (WriteReply.err e, r.fat, r.data, some r.file)
      | Ret.ok sz =>
        if sz == 0 then (WriteReply.err Errno.ENOSPC, r.fat, r.data, some r.file)
        else (WriteReply.written sz, r.fat, r.data, some r.file)

/-! ## Releasing a chain (`src/hdifuse.cpp`, lines 414-443 and 846-895) -/

/-- The `while (1)` loop of `f_unlink`; the first argument bounds the iterations. -/
def unlinkLoop : Nat → Region → Nat → Option Region
  | 0, _, _ => none
  | fuel + 1, fat, cluster =>
    if fatGet fat cluster == 0xFFF then some (fatSet fat cluster 0)
    else unlinkLoop fuel (fatSet fat cluster 0) (fatGet fat cluster)

/-- The `f_unlink` of the source: the result is what it throws, the FAT and the entry. -/
def f_unlink (fuel : Nat) (fatRegion : Region) (file : FileEntry) :
    Option (Ret Unit × Region × FileEntry) :=
  if file.firstDataClusterLow == 0 then some (Ret.ok (), fatRegion, file.reset)
  else if file.firstDataClusterLow == 0xFFF then
    some (Ret.throw Errno.EILSEQ, fatRegion, file)
  else
    (unlinkLoop fuel fatRegion file.firstDataClusterLow).map fun fat =>
      (Ret.ok (), fat, file.reset)

/-- The `while (cluster != 0xFFF)` loop of `trunc`; the first argument bounds
the iterations. -/
def truncLoop : Nat → Region → Nat → Option Region
  | 0, fat, cluster => if cluster != 0xFFF then none else some fat
  | fuel + 1, fat, cluster =>
    if cluster != 0xFFF then truncLoop fuel (fatSet fat cluster 0xFFF) (fatGet fat cluster)
    else some fat

/-- The `trunc` of the source. -/
def trunc (fuel : Nat) (entry : FileEntry) (fatRegion : Region) :
    Option (FileEntry × Region) :=
  if entry.size == 0 || entry.firstDataClusterLow == 0 then some (entry, fatRegion)
  else
    (truncLoop fuel fatRegion entry.firstDataClusterLow).map fun fat =>
      ({ entry with firstDataClusterLow := 0 }, fat)

/-- The `O_WRONLY` of `fcntl.h`. -/
def O_WRONLY : Nat := 0o1

/-- The `O_RDWR` of `fcntl.h`. -/
def O_RDWR : Nat := 0o2

/-- The `O_TRUNC` of `fcntl.h`. -/
def O_TRUNC : Nat := 0o1000

/-- The `fat12_ll_open` of the source from the entry of the found inode up to
the allocation of the handle (lines 878-895): the error that is replied, if
any, then the entry and the FAT. -/
def fat12_ll_open_entry (fuel : Nat) (fileEntry : FileEntry) (flags : Nat)
    (fatRegion : Region) : Option (Option Errno × FileEntry × Region) :=
  if fileEntry.isDirectory then some (some Errno.EISDIR, fileEntry, fatRegion)
  else if (flags &&& O_WRONLY != 0 || flags &&& O_RDWR != 0) && fileEntry.isRO then
    some (some Errno.EACCES, fileEntry, fatRegion)
  else if flags &&& O_TRUNC != 0 then
    (trunc fuel fileEntry fatRegion).map fun r => (none, { r.1 with size := 0 }, r.2)
  else some (none, fileEntry, fatRegion)

/-! ## Name codec (`src/codepage.cpp`, `src/ms932.h`, `src/util.cpp`) -/

/-- The three functions that `ms932.h` declares.  The table behind them is not
among the sources, so they are parameters: `none` stands for the result
`false`, `some v` for `true` with `v` in the reference argument. -/
structure MS932 where
  unicodeToMS932 : Nat → Option Nat
  ms932ToUnicode : Nat → Option Nat
  isLeadByte : Nat → Bool

/-- The bytes of a C string: those before the first `'\0'`. -/
def cstr (s : List Nat) : List Nat := s.takeWhile (· != 0)

/-- The `nextUTF8` of the source on `chstr[0]`; `validContByte` returns `true`
for every byte, so the bytes that follow do not matter. -/
def nextUTF8 (c : Nat) : Int :=
  if c == 0 then 0
  else if c &&& 0b10000000 == 0 then 1
  else if c &&& 0b11000000 == 0b11000000 && c &&& 0b00100000 == 0 then 2
  else if c &&& 0b11100000 == 0b11100000 && c &&& 0b00010000 == 0 then 3
  else if c &&& 0b11110000 == 0b11110000 && c &&& 0b00001000 == 0 then 4
  else -1

/-- The code point that `getUnicodeFromUTF8` builds from a sequence of `ret`
bytes (`uint32_t`). -/
def utf8CodePoint (ret : Int) (u0 u1 u2 u3 : Nat) : Nat :=
  if ret = 1 then u0
  else if ret = 2 then ((u0 &&& 0b00011111) <<< 6) ||| (u1 &&& 0b00111111)
  else if ret = 3 then
    ((u0 &&& 0b00001111) <<< 12) ||| ((u1 &&& 0b00111111) <<< 6) ||| (u2 &&& 0b00111111)
  else if ret = 4 then
    ((u0 &&& 0b00000111) <<< 18) ||| ((u1 &&& 0b00111111) <<< 12)
      ||| ((u2 &&& 0b00111111) <<< 6) ||| (u3 &&& 0b00111111)
  else 0

/-- The loop of `getUnicodeFromUTF8` on the bytes found at `utf8`; a read past
the end of the list gives 0, the terminator (a sequence that the end of the
string cuts short takes the terminator as its missing bytes, and decoding ends
there, where the source steps over the terminator and goes on behind it; the
two agree for the strings whose sequences are complete, `utf8Complete`).
Every iteration advances by at least one byte, so a `fuel` above the
length of the list is never used up.  `none` is `std::nullopt`. -/
def getUnicodeFromUTF8Loop : Nat → List Nat → Option (List Nat)
  | 0, _ => some []
  | fuel + 1, utf8 =>
    let ret := nextUTF8 (utf8.getD 0 0)
    if ret = 0 then some []
    else if ret = -1 then none
    else
      (getUnicodeFromUTF8Loop fuel (utf8.drop ret.toNat)).map
        (utf8CodePoint ret (utf8.getD 0 0) (utf8.getD 1 0) (utf8.getD 2 0) (utf8.getD 3 0) :: ·)

/-- The `getUnicodeFromUTF8` of the source. -/
def getUnicodeFromUTF8 (utf8 : List Nat) : Option (List Nat) :=
  getUnicodeFromUTF8Loop (utf8.length + 1) utf8

/-- The upper-case loop of `getMS932UpperCaseString` on one code point. -/
def upperCodePoint (e : Nat) : Nat :=
  if 0x0061 ≤ e ∧ e ≤ 0x007A then e - 0x20 else e

/-- The second loop of `getMS932UpperCaseString`: every code point through
`unicodeToMS932`, `std::nullopt` at the first one that has no mapping. -/
def mapToMS932 (t : MS932) : List Nat → Option (List Nat)
  | [] => some []
  | e :: es =>
    match t.unicodeToMS932 e with
    | none => none
    | some ms932 => (mapToMS932 t es).map (ms932 :: ·)

/-- The `getMS932UpperCaseString` of the source. -/
def getMS932UpperCaseString (t : MS932) (utf8Name : List Nat) : Option (List Nat) :=
  match getUnicodeFromUTF8 utf8Name with
  | none => none
  | some unicode => mapToMS932 t (unicode.map upperCodePoint)

/-- The loop of `getUnicodeFromDOSName`: the first argument is `sz - i`, the
second the bytes found at `dosName + i`.  The test `i == sz` under
`isLeadByte` is never true inside the loop, so the byte after a lead byte is
read even when it lies behind the part. -/
def getUnicodeFromDOSNameLoop (t : MS932) : Nat → List Nat → Option (List Nat)
  | 0, _ => some []
  | n + 1, mem =>
    if t.isLeadByte (mem.getD 0 0) then
      match t.ms932ToUnicode (((mem.getD 0 0 <<< 8) % 2 ^ 16 + mem.getD 1 0) % 2 ^ 16) with
      | none => none
      | some codePoint =>
        match n with
        | 0 => some [codePoint]
        | m + 1 => (getUnicodeFromDOSNameLoop t m (mem.drop 2)).map (codePoint :: ·)
    else
      match t.ms932ToUnicode (mem.getD 0 0) with
      | none => none
      | some codePoint => (getUnicodeFromDOSNameLoop t n (mem.drop 1)).map (codePoint :: ·)

/-- The `getUnicodeFromDOSName` of the source on the bytes found at `dosName`. -/
def getUnicodeFromDOSName (t : MS932) (dosName : List Nat) (sz : Nat) : Option (List Nat) :=
  if sz == 0 then none else getUnicodeFromDOSNameLoop t sz dosName

/-- The bytes that `getUTF8FromUnicode` appends for one code point. -/
def utf8Bytes (e : Nat) : Option (List Nat) :=
  if e < 0x80 then some [e % 256]
  else if e < 0x800 then
    some [(0b11000000 ||| ((e &&& 0b11111000000) >>> 6)) % 256,
          (0b10000000 ||| (e &&& 0b111111)) % 256]
  else if e < 0x10000 then
    some [(0b11100000 ||| ((e &&& 0b1111000000000000) >>> 12)) % 256,
          (0b10000000 ||| ((e &&& 0b0000111111000000) >>> 6)) % 256,
          (0b10000000 ||| (e &&& 0b0000000000111111)) % 256]
  else if e ≤ 0x10FFFF then
    some [(0b11110000 ||| ((e &&& 0b000111000000000000000000) >>> 18)) % 256,
          (0b10000000 ||| ((e &&& 0b000000111111000000000000) >>> 12)) % 256,
          (0b10000000 ||| ((e &&& 0b000000000000111111000000) >>> 6)) % 256,
          (0b10000000 ||| (e &&& 0b000000000000000000111111)) % 256]
  else none

/-- The `getUTF8FromUnicode` of the source. -/
def getUTF8FromUnicode : List Nat → Option (List Nat)
  | [] => some []
  | e :: es =>
    match utf8Bytes e with
    | none => none
    | some bytes => (getUTF8FromUnicode es).map (bytes ++ ·)

/-- The `removeTrailingSpaces` of the source: `std::find_first_of` finds the
first space, and the string is cut there. -/
def removeTrailingSpaces (str : List Nat) : List Nat := str.takeWhile (· != 0x20)

/-- The `getUTF8Name` of the source.  `*utf8Base` is used without a test; the
empty string stands for it when `getUTF8FromUnicode` returned `std::nullopt`. -/
def getUTF8Name (t : MS932) (dosNameDirty : List Nat) : Option (List Nat) :=
  let dosName := if dosNameDirty.getD 0 0 == 0x05 then dosNameDirty.set 0 0xE5 else dosNameDirty
  match getUnicodeFromDOSName t dosName 8 with
  | none => none
  | some codePointsBase =>
    let utf8Base := (getUTF8FromUnicode codePointsBase).getD []
    if dosName.getD 8 0 == 0x20 && dosName.getD 9 0 == 0x20 && dosName.getD 10 0 == 0x20 then
      some (removeTrailingSpaces utf8Base)
    else
      match getUnicodeFromDOSName t (dosName.drop 8) 3 with
      | none => none
      | some codePointsExt =>
        match getUTF8FromUnicode codePointsExt with
        | none => none
        | some utf8Ext =>
          some (removeTrailingSpaces utf8Base ++ [0x2E] ++ removeTrailingSpaces utf8Ext)

/-- The `hextable` of `util.cpp`. -/
def hextable : List Nat :=
  [0x30, 0x31, 0x32, 0x33, 0x34, 0x35, 0x36, 0x37, 0x38, 0x39, 0x41, 0x42, 0x43, 0x44, 0x45, 0x46]

/-- The `hexenc` of `util.cpp`. -/
def hexenc (buffer : List Nat) (sz : Nat) : List Nat :=
  ((List.range sz).map fun i =>
    [hextable.getD (buffer.getD i 0 >>> 4) 0, hextable.getD (buffer.getD i 0 &&& 0b1111) 0]).foldr
    (· ++ ·) []

/-- The `getCanonicalString` of the source. -/
def getCanonicalString (t : MS932) (filename : List Nat) : List Nat :=
  match getUTF8Name t filename with
  | none => hexenc filename 11
  | some utf8Name => utf8Name

/-- The loop of `split`: the pieces of `str` between the bytes `term`, the
empty ones left out; `cur` is the piece begun so far. -/
def splitLoop (term : Nat) : List Nat → List Nat → List (List Nat)
  | [], cur => if cur.isEmpty then [] else [cur]
  | c :: cs, cur =>
    if c == term then
      if cur.isEmpty then splitLoop term cs [] else cur :: splitLoop term cs []
    else splitLoop term cs (cur ++ [c])

/-- The `split` of the source. -/
def split (str : List Nat) (term : Nat) : List (List Nat) := splitLoop term str []

/-- The `decodeLen` that the first loop of `decodeLimited` computes. -/
def decodeLen : List Nat → Nat
  | [] => 0
  | w :: ws => (if w > 0xFF then 2 else 1) + decodeLen ws

/-- The second loop of `decodeLimited`: `dosName[cur] = ms932[i]` stores the
low byte, `dosName[cur + 1] = ms932[i] >> 8` the high byte. -/
def decodeStore : List Nat → Nat → List Nat → List Nat
  | dosName, _, [] => dosName
  | dosName, cur, w :: ws =>
    if w > 0xFF then
      decodeStore ((dosName.set cur (w % 256)).set (cur + 1) ((w >>> 8) % 256)) (cur + 2) ws
    else decodeStore (dosName.set cur (w % 256)) (cur + 1) ws

/-- The `decodeLimited` of the source on the array that holds `dosName`, the
pointer being `start` bytes into it: the returned flag and the array. -/
def decodeLimited (ms932 : List Nat) (dosName : List Nat) (start sz : Nat) :
    Bool × List Nat :=
  if decodeLen ms932 > sz then (false, dosName)
  else (true, decodeStore dosName start ms932)

/-- The `getDOSName(base, dosName)` of the source. -/
def getDOSNameBase (t : MS932) (base : List Nat) (dosName : List Nat) : Bool × List Nat :=
  match getMS932UpperCaseString t base with
  | none => (false, dosName)
  | some ms932 => decodeLimited ms932 dosName 0 8

/-- The `getDOSName(base, ext, dosName)` of the source. -/
def getDOSNameBaseExt (t : MS932) (base ext : List Nat) (dosName : List Nat) :
    Bool × List Nat :=
  let r := getDOSNameBase t base dosName
  if !r.1 then (false, r.2)
  else
    match getMS932UpperCaseString t ext with
    | none => (false, r.2)
    | some ms932 => decodeLimited ms932 r.2 8 3

/-- The `getDOSNameDirty` of the source.  `parts[0]` and `parts[1]` are read
without a test of `parts.size()`; the empty string stands for a part that the
vector does not have, where the source reads outside the vector.  The two
agree for the names that have at least one part (`nameInBounds`). -/
def getDOSNameDirty (t : MS932) (codeName : List Nat) : Bool × List Nat :=
  let dosName := List.replicate 11 0x20
  let parts := split (cstr codeName) 0x2E
  if parts.length == 1 then getDOSNameBase t (parts.getD 0 []) dosName
  else getDOSNameBaseExt t (parts.getD 0 []) (parts.getD 1 []) dosName

/-- The `getDOSName(codeName, dosName)` of the source: the returned flag and
the eleven bytes. -/
def getDOSName (t : MS932) (codeName : List Nat) : Bool × List Nat :=
  let r := getDOSNameDirty t codeName
  if r.1 && r.2.getD 0 0 == 0xE5 then (r.1, r.2.set 0 0x05) else r

/-! ## Directory slots in memory (`src/fat12.h`, `src/fat12.cpp` lines 127-166) -/

/-- The `FileEntry::isValid` of the source. -/
def FileEntry.isValid (e : FileEntry) : Bool :=
  if e.filename.getD 0 0 == 0xE5 then false
  else if e.filename.getD 0 0 == 0 then false
  else if e.firstDataClusterLow == 1 then false
  else if e.firstDataClusterLow == 0 && e.size != 0 then false
  else true

/-- The value of a `UINT16LE` stored at offset `i` of `b`. -/
def le16 (b : List Nat) (i : Nat) : Nat := b.getD i 0 + 256 * b.getD (i + 1) 0

/-- The value of a `UINT32LE` stored at offset `i` of `b`. -/
def le32 (b : List Nat) (i : Nat) : Nat :=
  b.getD i 0 + 256 * b.getD (i + 1) 0 + 65536 * b.getD (i + 2) 0 + 16777216 * b.getD (i + 3) 0

/-- The packed `struct FileEntry` that 32 bytes of memory hold. -/
def FileEntry.ofBytes (b : List Nat) : FileEntry :=
  { filename := b.take 11, attr := b.getD 11 0, reserved := b.getD 12 0,
    creationTimeTenth := b.getD 13 0, creationTime := le16 b 14, creationDate := le16 b 16,
    lastAccessDate := le16 b 18, firstDataClusterHigh := le16 b 20, writeTime := le16 b 22,
    writeDate := le16 b 24, firstDataClusterLow := le16 b 26, size := le32 b 28 }

/-- The 32 bytes of memory that hold a packed `struct FileEntry`. -/
def FileEntry.toBytes (e : FileEntry) : List Nat :=
  (List.range 11).map (fun i => e.filename.getD i 0 % 256) ++
    [e.attr % 256, e.reserved % 256, e.creationTimeTenth % 256,
     e.creationTime % 256, e.creationTime / 256 % 256,
     e.creationDate % 256, e.creationDate / 256 % 256,
     e.lastAccessDate % 256, e.lastAccessDate / 256 % 256,
     e.firstDataClusterHigh % 256, e.firstDataClusterHigh / 256 % 256,
     e.writeTime % 256, e.writeTime / 256 % 256,
     e.writeDate % 256, e.writeDate / 256 % 256,
     e.firstDataClusterLow % 256, e.firstDataClusterLow / 256 % 256,
     e.size % 256, e.size / 256 % 256, e.size / 65536 % 256, e.size / 16777216 % 256]

/-- Where a `FileEntry *` of the source points: at the `entry` member of the
`FuseContext` (the root directory), `off` bytes into the root region, or
`addr` bytes from `dataRegion.ptr`. -/
inductive EntryPtr where
  | rootEntry
  | root (off : Int)
  | data (addr : Int)
deriving DecidableEq, Repr

/-- The members of `struct Fat12Volume` that the session uses; `rootEntries`
is `regionBPB.bootBlock.rootEntries`. -/
structure Fat12Volume where
  fatRegion : Region
  rootRegion : Region
  dataRegion : Region
  rootEntries : Nat
  clusterSize : Nat
  maxCluster : Nat
deriving DecidableEq, Repr

/-! ## The inode tree (`src/hdifuse.cpp`, lines 37-180) -/

/-- The `FUSE_ROOT_ID` of libfuse. -/
def FUSE_ROOT_ID : Nat := 1

/-- The `class Fat12Inode` of the source. -/
inductive Fat12Inode where
  | mk (file : EntryPtr) (children : List Fat12Inode) (inode : Nat) (nlookup : Nat)
      (zombie : Bool)

/-- The member `file`. -/
def Fat12Inode.file : Fat12Inode → EntryPtr
  | mk file _ _ _ _ => file

/-- The member `children`. -/
def Fat12Inode.children : Fat12Inode → List Fat12Inode
  | mk _ children _ _ _ => children

/-- The member `inode`. -/
def Fat12Inode.inode : Fat12Inode → Nat
  | mk _ _ inode _ _ => inode

/-- The member `nlookup`. -/
def Fat12Inode.nlookup : Fat12Inode → Nat
  | mk _ _ _ nlookup _ => nlookup

/-- The member `zombie`. -/
def Fat12Inode.zombie : Fat12Inode → Bool
  | mk _ _ _ _ zombie => zombie

/-- The node after an assignment to `children`. -/
def Fat12Inode.setChildren (n : Fat12Inode) (children : List Fat12Inode) : Fat12Inode :=
  .mk n.file children n.inode n.nlookup n.zombie

/-- The node after an assignment to `nlookup`. -/
def Fat12Inode.setNlookup (n : Fat12Inode) (nlookup : Nat) : Fat12Inode :=
  .mk n.file n.children n.inode nlookup n.zombie

/-- The node after an assignment to `zombie`. -/
def Fat12Inode.setZombie (n : Fat12Inode) (zombie : Bool) : Fat12Inode :=
  .mk n.file n.children n.inode n.nlookup zombie

/-- A `Fat12Inode *` into the tree below the node on which a method is called:
the indices to follow in the `children` vectors, `[]` being `this`. -/
abbrev NodePtr := List Nat

mutual
/-- The `Fat12Inode::findInode` of the source: the pointer it returns and the
node found there; `none` is the null pointer. -/
def Fat12Inode.findInode (inode_ : Nat) : Fat12Inode → Option (NodePtr × Fat12Inode)
  | .mk file children inode nlookup zombie =>
    if inode_ == inode then some ([], .mk file children inode nlookup zombie)
    else findInodeIn inode_ 0 children
/-- The `for (auto &child : children)` loop of `findInode`, from the child of
index `i` on. -/
def findInodeIn (inode_ : Nat) : Nat → List Fat12Inode → Option (NodePtr × Fat12Inode)
  | _, [] => none
  | i, child :: rest =>
    match child.findInode inode_ with
    | some (result, node) => some (i :: result, node)
    | none => findInodeIn inode_ (i + 1) rest
end

mutual
/-- The `Fat12Inode::findParent` of the source: when the search in a child
succeeds the method returns `this`, whatever the child returned. -/
def Fat12Inode.findParent (inode_ : Nat) : Fat12Inode → Option (NodePtr × Fat12Inode)
  | .mk file children inode nlookup zombie =>
    if inode_ == inode then some ([], .mk file children inode nlookup zombie)
    else if findParentIn inode_ children then some ([], .mk file children inode nlookup zombie)
    else none
/-- The `for (auto &child : children)` loop of `findParent`: whether the
search in some child returns a pointer. -/
def findParentIn (inode_ : Nat) : List Fat12Inode → Bool
  | [] => false
  | child :: rest =>
    match child.findParent inode_ with
    | some _ => true
    | none => findParentIn inode_ rest
end

/-- The node that a pointer into the tree points at. -/
def Fat12Inode.at : NodePtr → Fat12Inode → Option Fat12Inode
  | [], n => some n
  | i :: p, n =>
    match n.children.get? i with
    | none => none
    | some c => Fat12Inode.at p c

/-- The tree after the node that a pointer points at has been changed by `g`. -/
def Fat12Inode.update : NodePtr → (Fat12Inode → Fat12Inode) → Fat12Inode → Fat12Inode
  | [], g, n => g n
  | i :: p, g, n =>
    match n.children.get? i with
    | none => n
    | some c => n.setChildren (n.children.set i (Fat12Inode.update p g c))

/-- The first child that `pred` accepts, with its index, from index `i` on: the
shape of the loops over `children` in `lookup` and `fat12_ll_unlink`. -/
def scanChildren (pred : Fat12Inode → Bool) : Nat → List Fat12Inode → Option (Nat × Fat12Inode)
  | _, [] => none
  | i, child :: rest => if pred child then some (i, child) else scanChildren pred (i + 1) rest

/-- The vector after `children.erase(std::find(children.begin(),
children.end(), *child))`, where `operator==` compares the `inode` members;
`none` when `std::find` returns `end()`, for which `erase` is undefined. -/
def eraseFind (inode : Nat) : List Fat12Inode → Option (List Fat12Inode)
  | [] => none
  | c :: rest => if c.inode == inode then some rest else (eraseFind inode rest).map (c :: ·)

/-! ## The session (`src/hdifuse.cpp`, lines 445-522) -/

/-- The `class FuseFile` of the source. -/
structure FuseFile where
  handle : Nat
  inode : Fat12Inode

/-- The `class FuseContext` of the source, with the volume it refers to. -/
structure FuseContext where
  fat12Volume : Fat12Volume
  inodeCounter : Nat
  entry : FileEntry
  rootInode : Fat12Inode
  activeFiles : List FuseFile

/-- The `FileEntry` that a `FileEntry *` points at. -/
def FuseContext.readEntry (ctx : FuseContext) : EntryPtr → FileEntry
  | .rootEntry => ctx.entry
  | .root off => FileEntry.ofBytes (memRead ctx.fat12Volume.rootRegion off 32)
  | .data addr => FileEntry.ofBytes (memRead ctx.fat12Volume.dataRegion addr 32)

/-- The session after `*entry = e` (or a `memset`/`memcpy` over the whole
entry that leaves it as `e`). -/
def FuseContext.writeEntry (ctx : FuseContext) (entry : EntryPtr) (e : FileEntry) :
    FuseContext :=
  match entry with
  | .rootEntry => { ctx with entry := e }
  | .root off =>
    { ctx with fat12Volume :=
        { ctx.fat12Volume with rootRegion := memWrite ctx.fat12Volume.rootRegion off e.toBytes } }
  | .data addr =>
    { ctx with fat12Volume :=
        { ctx.fat12Volume with dataRegion := memWrite ctx.fat12Volume.dataRegion addr e.toBytes } }

/-- The session after `entry->filename[0] = v`. -/
def FuseContext.setFilename0 (ctx : FuseContext) (entry : EntryPtr) (v : Nat) : FuseContext :=
  match entry with
  | .rootEntry => { ctx with entry := { ctx.entry with filename := ctx.entry.filename.set 0 v } }
  | .root off =>
    { ctx with fat12Volume :=
        { ctx.fat12Volume with rootRegion := memWrite ctx.fat12Volume.rootRegion off [v] } }
  | .data addr =>
    { ctx with fat12Volume :=
        { ctx.fat12Volume with dataRegion := memWrite ctx.fat12Volume.dataRegion addr [v] } }

/-- The `FuseContext::existsFile` of the source. -/
def FuseContext.existsFile (ctx : FuseContext) (handle : Nat) : Bool :=
  ctx.activeFiles.any fun cDir => cDir.handle == handle

/-- The `FuseContext::getFreeFileHandle` of the source. -/
def FuseContext.getFreeFileHandle (ctx : FuseContext) : Ret Nat :=
  match (List.range 128).find? fun i => !ctx.existsFile i with
  | some i => Ret.ok i
  | none => Ret.throw Errno.EMFILE

/-- The loop of `FuseContext::releaseFile`: after `erase` at index `i` the
loop goes on with `i + 1`, so the element that moved to index `i` is not
looked at. -/
def releaseFileLoop (handle : Nat) : List FuseFile → List FuseFile
  | [] => []
  | f :: rest =>
    if f.handle == handle then
      match rest with
      | [] => []
      | g :: rest2 => g :: releaseFileLoop handle rest2
    else f :: releaseFileLoop handle rest

/-- The `FuseContext::releaseFile` of the source. -/
def FuseContext.releaseFile (ctx : FuseContext) (handle : Nat) : FuseContext :=
  { ctx with activeFiles := releaseFileLoop handle ctx.activeFiles }

/-- The `FuseContext::isInUse` of the source. -/
def FuseContext.isInUse (ctx : FuseContext) (inode : Nat) : Bool :=
  ctx.activeFiles.any fun f => f.inode.inode == inode

/-! ## Free directory slots (`src/hdifuse.cpp`, lines 138-180) -/

/-- The first slot that is not valid among the `n` slots of 32 bytes that
begin at offset `off` of the root region. -/
def firstInvalidRoot (rootRegion : Region) : Nat → Int → Option EntryPtr
  | 0, _ => none
  | n + 1, off =>
    if !(FileEntry.ofBytes (memRead rootRegion off 32)).isValid then some (.root off)
    else firstInvalidRoot rootRegion n (off + 32)

/-- The first slot that is not valid among the `n` slots of 32 bytes that
begin at `addr` in the data region. -/
def firstInvalidData (dataRegion : Region) : Nat → Int → Option EntryPtr
  | 0, _ => none
  | n + 1, addr =>
    if !(FileEntry.ofBytes (memRead dataRegion addr 32)).isValid then some (.data addr)
    else firstInvalidData dataRegion n (addr + 32)

/-- The `while (clusterNumber != 0xFFF)` loop of `getFreeFileEntry`; the first
argument bounds the iterations, `none` is a walk that needs more. -/
def getFreeFileEntryLoop (vol : Fat12Volume) : Nat → Nat → Option (Option EntryPtr)
  | 0, _ => none
  | fuel + 1, clusterNumber =>
    if clusterNumber != 0xFFF then
      match firstInvalidData vol.dataRegion (vol.clusterSize / 32)
          (clusterAddr clusterNumber vol.clusterSize 0) with
      | some entry => some (some entry)
      | none => getFreeFileEntryLoop vol fuel (fatGet vol.fatRegion clusterNumber)
    else some none

/-- The `Fat12Inode::getFreeFileEntry` of the source on a node whose entry is
`file`; `some none` is the null pointer.  The `assert(file->isDirectory())` is
not part of the model. -/
def getFreeFileEntry (fuel : Nat) (vol : Fat12Volume) (inode : Nat) (file : FileEntry) :
    Option (Option EntryPtr) :=
  if inode == FUSE_ROOT_ID then some (firstInvalidRoot vol.rootRegion vol.rootEntries 0)
  else getFreeFileEntryLoop vol fuel file.firstDataClusterLow

/-! ## Lookup (`src/hdifuse.cpp`, lines 646-702) -/

/-- The `tolower` of the C library in the "C" locale. -/
def tolower (c : Nat) : Nat := if 0x41 ≤ c ∧ c ≤ 0x5A then c + 0x20 else c

/-- The test `strcasecmp(a, b) == 0` of the C library in the "C" locale, on
the bytes found at the two pointers. -/
def strcasecmpEq (a b : List Nat) : Bool := (cstr a).map tolower == (cstr b).map tolower

/-- What `lookup` replies: `fuse_reply_entry` with `e.ino`, or `fuse_reply_err`. -/
inductive LookupReply where
  | entry (ino : Nat)
  | err (e : Errno)
deriving DecidableEq, Repr

/-- The `lookup` of the source on the `children` of the node at `parent`. -/
def lookup (t : MS932) (ctx : FuseContext) (name : List Nat) (parent : NodePtr)
    (children : List Fat12Inode) : LookupReply × FuseContext :=
  match scanChildren
      (fun child => strcasecmpEq (getCanonicalString t (ctx.readEntry child.file).filename) name)
      0 children with
  | some (i, child) =>
    (LookupReply.entry child.inode,
      { ctx with rootInode :=
          ctx.rootInode.update (parent ++ [i]) fun n => n.setNlookup ((n.nlookup + 1) % 2 ^ 64) })
  | none => (LookupReply.err Errno.ENOENT, ctx)

/-- The `fat12_ll_lookup` of the source. -/
def fat12_ll_lookup (t : MS932) (ctx : FuseContext) (parent : Nat) (name : List Nat) :
    LookupReply × FuseContext :=
  match ctx.rootInode.findInode parent with
  | some (p, inode) => lookup t ctx name p inode.children
  | none => (LookupReply.err Errno.ENOENT, ctx)

/-! ## Unlink and forget (`src/hdifuse.cpp`, lines 1097-1277) -/

/-- The `fat12_ll_unlink` of the source: the argument of `fuse_reply_err`
(`none` is 0) and the session.  The `==` of `std::string` with `name` compares
all bytes of the canonical name with the C string `name`. -/
def fat12_ll_unlink (t : MS932) (ctx : FuseContext) (parent : Nat) (name : List Nat) :
    Option Errno × FuseContext :=
  match ctx.rootInode.findInode parent with
  | some (p, parentNode) =>
    match scanChildren
        (fun child => getCanonicalString t (ctx.readEntry child.file).filename == cstr name)
        0 parentNode.children with
    | some (i, child) =>
      if ctx.isInUse child.inode then (some Errno.EBUSY, ctx)
      else (none, { ctx with rootInode := ctx.rootInode.update (p ++ [i]) fun n => n.setZombie true })
    | none => (some Errno.ENOENT, ctx)
  | none => (some Errno.ENOENT, ctx)

/-- The `while (true)` loop of `cleanDirectoryFilesRoot`, `entry` being `off`
bytes into the root region; the first argument bounds the iterations. -/
def cleanDirectoryFilesRootLoop : Nat → Region → Int → Option Region
  | 0, _, _ => none
  | fuel + 1, rootRegion, off =>
    if (FileEntry.ofBytes (memRead rootRegion off 32)).isValid then some rootRegion
    else if off - 32 = 0 then some (memWrite rootRegion off [0])
    else cleanDirectoryFilesRootLoop fuel (memWrite rootRegion off [0]) (off - 32)

/-- The `cleanDirectoryFilesRoot` of the source. -/
def cleanDirectoryFilesRoot (fuel : Nat) (rootRegion : Region) (rootEntries : Nat) :
    Option Region :=
  cleanDirectoryFilesRootLoop fuel rootRegion (32 * ((rootEntries : Int) - 1))

/-- The `for` loop in the first `while` of `cleanDirectoryFilesEntry`, from
index `i` on: the new `lastValidEntry`. -/
def lastValidInCluster (dataRegion : Region) (addr : Int) : Nat → Nat → Nat → Nat
  | 0, _, lastValidEntry => lastValidEntry
  | n + 1, i, lastValidEntry =>
    lastValidInCluster dataRegion addr n (i + 1)
      (if (FileEntry.ofBytes (memRead dataRegion (addr + 32 * (i : Int)) 32)).isValid then i
       else lastValidEntry)

/-- The first `while` of `cleanDirectoryFilesEntry`: the `lastValidEntry` it
leaves; the first argument bounds the iterations. -/
def lastValidLoop (fatRegion dataRegion : Region) (clusterSize : Nat) :
    Nat → Nat → Nat → Option Nat
  | 0, _, _ => none
  | fuel + 1, clusterNumber, lastValidEntry =>
    if clusterNumber != 0xFFF then
      lastValidLoop fatRegion dataRegion clusterSize fuel (fatGet fatRegion clusterNumber)
        (lastValidInCluster dataRegion (clusterAddr clusterNumber clusterSize 0)
          (clusterSize / 32) 0 lastValidEntry)
    else some lastValidEntry

/-- The `for` loop in the second `while` of `cleanDirectoryFilesEntry`, from
index `i` on: the data region and `curEntry`. -/
def clearAfterInCluster (addr : Int) (lastValidEntry : Nat) :
    Nat → Nat → Region → Nat → Region × Nat
  | 0, _, dataRegion, curEntry => (dataRegion, curEntry)
  | n + 1, i, dataRegion, curEntry =>
    clearAfterInCluster addr lastValidEntry n (i + 1)
      (if lastValidEntry + 1 ≤ curEntry then memWrite dataRegion (addr + 32 * (i : Int)) [0]
       else dataRegion)
      ((curEntry + 1) % 2 ^ 32)

/-- The second `while` of `cleanDirectoryFilesEntry`, which ends every
iteration with `clusterNumber = dir->firstDataClusterLow`; the first argument
bounds the iterations. -/
def clearAfterLoop (dir : FileEntry) (clusterSize lastValidEntry : Nat) :
    Nat → Nat → Region → Nat → Option Region
  | 0, _, _, _ => none
  | fuel + 1, clusterNumber, dataRegion, curEntry =>
    if clusterNumber != 0xFFF then
      clearAfterLoop dir clusterSize lastValidEntry fuel dir.firstDataClusterLow
        (clearAfterInCluster (clusterAddr clusterNumber clusterSize 0) lastValidEntry
          (clusterSize / 32) 0 dataRegion curEntry).1
        (clearAfterInCluster (clusterAddr clusterNumber clusterSize 0) lastValidEntry
          (clusterSize / 32) 0 dataRegion curEntry).2
    else some dataRegion

/-- The `cleanDirectoryFilesEntry` of the source: the data region it leaves.
The two `assert`s are not part of the model. -/
def cleanDirectoryFilesEntry (fuel : Nat) (dir : FileEntry) (fatRegion dataRegion : Region)
    (clusterSize : Nat) : Option Region :=
  match lastValidLoop fatRegion dataRegion clusterSize fuel dir.firstDataClusterLow 2 with
  | none => none
  | some lastValidEntry =>
    clearAfterLoop dir clusterSize lastValidEntry fuel dir.firstDataClusterLow dataRegion 0

/-- The `cleanDirectoryFiles` of the source on the node `fuseDir`, whose entry
is `dir`: the volume it leaves. -/
def cleanDirectoryFiles (fuel : Nat) (fuseDir : Fat12Inode) (dir : FileEntry)
    (vol : Fat12Volume) : Option Fat12Volume :=
  if fuseDir.inode == FUSE_ROOT_ID then
    (cleanDirectoryFilesRoot fuel vol.rootRegion vol.rootEntries).map fun rootRegion =>
      { vol with rootRegion := rootRegion }
  else
    (cleanDirectoryFilesEntry fuel dir vol.fatRegion vol.dataRegion vol.clusterSize).map
      fun dataRegion => { vol with dataRegion := dataRegion }

/-- How `fat12_ll_forget` ends: with `fuse_reply_err` (`none` is 0), or in
`parent->children.erase(end())`, which is undefined; the session is then given
as it is before that call. -/
inductive ForgetExit where
  | replied (err : Option Errno)
  | eraseEnd
deriving DecidableEq, Repr

/-- The `fat12_ll_forget` of the source; the first argument bounds the
iterations of the loops it runs. -/
def fat12_ll_forget (fuel : Nat) (ctx : FuseContext) (ino nlookup : Nat) :
    Option (ForgetExit × FuseContext) :=
  match ctx.rootInode.findInode ino with
  | none => some (ForgetExit.replied (some Errno.ENOENT), ctx)
  | some (p, child) =>
    let n := (child.nlookup + (2 ^ 64 - nlookup % 2 ^ 64)) % 2 ^ 64
    let ctx1 := { ctx with rootInode := ctx.rootInode.update p fun c => c.setNlookup n }
    if n == 0 && child.zombie then
      match ctx1.rootInode.findParent ino with
      | none => some (ForgetExit.replied (some Errno.ENOENT), ctx1)
      | some (q, parent) =>
        match f_unlink fuel ctx1.fat12Volume.fatRegion (ctx1.readEntry child.file) with
        | none => none
        | some (r, fatRegion, file) =>
          let ctx2 :=
            ({ ctx1 with fat12Volume := { ctx1.fat12Volume with fatRegion := fatRegion } }
              ).writeEntry child.file file
          match r with
          | Ret.throw e => some (ForgetExit.replied (some e), ctx2)
          | Ret.ok _ =>
            let ctx3 := ctx2.setFilename0 child.file 0xE5
            match cleanDirectoryFiles fuel parent (ctx3.readEntry parent.file)
                ctx3.fat12Volume with
            | none => none
            | some vol =>
              let ctx4 := { ctx3 with fat12Volume := vol }
              match eraseFind child.inode parent.children with
              | none => some (ForgetExit.eraseEnd, ctx4)
              | some children =>
                some (ForgetExit.replied none,
                  { ctx4 with rootInode := ctx4.rootInode.update q fun c => c.setChildren children })
    else some (ForgetExit.replied none, ctx1)

/-! ## Create (`src/hdifuse.cpp`, lines 974-1057) -/

/-- What `fat12_ll_create` replies: `fuse_reply_create` with `e.ino` and
`fi->fh`, or `fuse_reply_err`. -/
inductive CreateReply where
  | create (ino fh : Nat)
  | err (e : Errno)
deriving DecidableEq, Repr

/-- The `fat12_ll_create` of the source; the first argument bounds the walk
of `getFreeFileEntry`.  The constructor of the new node finds `attr == 0` in
the entry, so it reads no children; it takes `inodeCounter` as the id and
increments it (`uint32_t`). -/
def fat12_ll_create (fuel : Nat) (t : MS932) (ctx : FuseContext) (parent : Nat)
    (name : List Nat) : Option (CreateReply × FuseContext) :=
  if !(getDOSName t name).1 then some (CreateReply.err Errno.EINVAL, ctx)
  else
    match ctx.rootInode.findInode parent with
    | none => some (CreateReply.err Errno.ENOTDIR, ctx)
    | some (p, inode) =>
      match ctx.getFreeFileHandle with
      | Ret.throw e => some (CreateReply.err e, ctx)
      | Ret.ok handle =>
        match getFreeFileEntry fuel ctx.fat12Volume inode.inode (ctx.readEntry inode.file) with
        | none => none
        | some none => some (CreateReply.err Errno.ENOMEM, ctx.releaseFile handle)
        | some (some entry) =>
          let backup := ctx.readEntry entry
          let ctx1 := ctx.writeEntry entry
            { backup.reset with filename := (getDOSName t name).2 }
          if !(ctx1.readEntry entry).isValid then
            some (CreateReply.err Errno.EFAULT, (ctx1.releaseFile handle).writeEntry entry backup)
          else
            let newInode := Fat12Inode.mk entry [] ctx1.inodeCounter 1 false
            some (CreateReply.create newInode.inode handle,
              { ctx1 with
                inodeCounter := (ctx1.inodeCounter + 1) % 2 ^ 32,
                rootInode := ctx1.rootInode.update p fun n =>
                  n.setChildren (n.children ++ [newInode]),
                activeFiles := ctx1.activeFiles ++ [{ handle := handle, inode := newInode }] })

/-! ## Timestamps (`src/hdifuse.cpp`, lines 525-613) -/

/-- The fields of `struct tm` that `getDateTime` sets. -/
structure Tm where
  tm_sec : Nat
  tm_min : Nat
  tm_hour : Nat
  tm_mday : Nat
  tm_mon : Nat
  tm_year : Nat
deriving DecidableEq, Repr

/-- The `result` that `getDateTime` starts with and returns for a date or time
it does not accept: all zero but `tm_year = 80` and `tm_mday = 1`. -/
def Tm.epoch : Tm :=
  { tm_sec := 0, tm_min := 0, tm_hour := 0, tm_mday := 1, tm_mon := 0, tm_year := 80 }

/-- The `getDateTime` of the source: the `result` it leaves (`date` and
`clock` are `uint16_t`, the six locals `uint8_t`). -/
def getDateTime (date clock : Nat) : Tm :=
  if date == 0 then Tm.epoch
  else
    let day := (date &&& 0b11111) % 256
    let month := ((date >>> 5) &&& 0b1111) % 256
    let year := (date >>> (5 + 4)) % 256
    if day == 0 || day > 31 then Tm.epoch
    else if month == 0 || month > 12 then Tm.epoch
    else
      let seconds := ((clock &&& 0b11111) * 2) % 256
      let minutes := ((clock >>> 5) &&& 0b111111) % 256
      let hours := (clock >>> (5 + 6)) % 256
      if seconds > 58 then Tm.epoch
      else if minutes > 59 then Tm.epoch
      else if hours > 23 then Tm.epoch
      else
        { tm_sec := seconds, tm_min := minutes, tm_hour := hours, tm_mday := day,
          tm_mon := month, tm_year := 80 + year }

/-- The `struct tm` that `fat12_stat` hands to `timegm` for `st_atim`:
`getDateTime(entry->lastAccessDate, 0, result)`. -/
def statAtime (entry : FileEntry) : Tm := getDateTime entry.lastAccessDate 0

/-- The `struct tm` that `fat12_stat` hands to `timegm` for `st_mtim`:
`getDateTime(entry->writeDate, entry->writeTime, result)`. -/
def statMtime (entry : FileEntry) : Tm := getDateTime entry.writeDate entry.writeTime

/-! ## The boot block and the regions (`src/fat12.h`, `src/fat12.cpp` lines 12-114, 211-405) -/

/-- The packed 512-byte `struct BPB`, field by field. -/
structure BPB where
  jump : List Nat
  name : List Nat
  bytesPerSector : Nat
  sectorsPerCluster : Nat
  reservedSectors : Nat
  fatCount : Nat
  rootEntries : Nat
  totalSectors16 : Nat
  mediaType : Nat
  sectorPerFat : Nat
  sectionsPerTrack : Nat
  headCount : Nat
  hiddenSectors : Nat
  totalSectors32 : Nat
  driveNumber : Nat
  reserved : Nat
  bootSignature : Nat
  serialNumber : Nat
  volumeLabel : List Nat
  fileSysType : List Nat
  remainingDataTillSignature : List Nat
  signature : List Nat
deriving DecidableEq, Repr

/-- The `struct BPB` that 512 bytes of memory hold. -/
def BPB.ofBytes (b : List Nat) : BPB :=
  { jump := (b.take 3), name := (b.drop 3).take 8, bytesPerSector := le16 b 11,
    sectorsPerCluster := b.getD 13 0, reservedSectors := le16 b 14, fatCount := b.getD 16 0,
    rootEntries := le16 b 17, totalSectors16 := le16 b 19, mediaType := b.getD 21 0,
    sectorPerFat := le16 b 22, sectionsPerTrack := le16 b 24, headCount := le16 b 26,
    hiddenSectors := le32 b 28, totalSectors32 := le32 b 32, driveNumber := b.getD 36 0,
    reserved := b.getD 37 0, bootSignature := b.getD 38 0, serialNumber := le32 b 39,
    volumeLabel := (b.drop 43).take 11, fileSysType := (b.drop 54).take 8,
    remainingDataTillSignature := (b.drop 62).take 448, signature := (b.drop 510).take 2 }

/-- The `checkJump` of the source: `true` when it does not throw. -/
def checkJump (jumpBoot : List Nat) : Bool :=
  if jumpBoot.getD 0 0 == 0xEB && jumpBoot.getD 2 0 == 0x90 then true
  else if jumpBoot.getD 0 0 == 0xE9 then true
  else false

/-- The `checkBytesPerSector` of the source: `true` when it does not throw. -/
def checkBytesPerSector (bytesPerSector : Nat) : Bool :=
  if bytesPerSector != 512 && bytesPerSector != 1024 && bytesPerSector != 2048
      && bytesPerSector != 4096 then false
  else true

/-- The `checkSectorsPerCluster` of the source: `true` when it does not throw. -/
def checkSectorsPerCluster (sectorsPerCluster : Nat) : Bool :=
  if sectorsPerCluster != 1 && sectorsPerCluster != 2 && sectorsPerCluster != 4
      && sectorsPerCluster != 8 && sectorsPerCluster != 16 && sectorsPerCluster != 32
      && sectorsPerCluster != 64 && sectorsPerCluster != 128 then false
  else true

/-- The `checkMediaType` of the source: `true` when it does not throw. -/
def checkMediaType (mediatype : Nat) : Bool :=
  if mediatype != 0xF0 && mediatype != 0xF8 && mediatype != 0xF9 && mediatype != 0xFA
      && mediatype != 0xFB && mediatype != 0xFC && mediatype != 0xFD && mediatype != 0xFE
      && mediatype != 0xFF then false
  else true

/-- The `checkSectorCount` of the source: it prints a warning when both counts
are zero or both are set, and throws in no case. -/
def checkSectorCount (_totalSectors16 _totalSectors32 : Nat) : Bool := true

/-- The `checkDriveNumber` of the source: `true` when it does not throw. -/
def checkDriveNumber (driveNumber : Nat) : Bool :=
  if driveNumber != 0x00 && driveNumber != 0x80 then false else true

/-- The `checkReserved` of the source: `true` when it does not throw. -/
def checkReserved (reserved : Nat) : Bool := if reserved != 0 then false else true

/-- The `checkSignature` of the source: it prints a warning when the two bytes
are not `0x55 0x0A`, and throws in no case. -/
def checkSignature (_signature : List Nat) : Bool := true

/-- The `checkRootEntries` of the source: `true` when it does not throw
(`rootSize` is a `uint32_t`). -/
def checkRootEntries (rootEntries bytesPerSector : Nat) : Bool :=
  if (rootEntries * 32) % 2 ^ 32 % bytesPerSector != 0 then false else true

/-- The `BPB::check` of the source: `true` when no check throws, in the order
of the calls. -/
def BPB.check (b : BPB) : Bool :=
  checkJump b.jump && checkBytesPerSector b.bytesPerSector
    && checkSectorsPerCluster b.sectorsPerCluster
    && checkRootEntries b.rootEntries b.bytesPerSector && checkMediaType b.mediaType
    && checkSectorCount b.totalSectors16 b.totalSectors32 && checkDriveNumber b.driveNumber
    && checkReserved b.reserved && checkSignature b.signature

/-- The `scanForBPBRegion` of the source: the index `i` of the first block of
512 bytes with `(i + 1) * 512 < buffer.size()` that `BPB::check` accepts;
`none` is `throw -1`.  The bound of the loop only grows with `i`, so the search
over the indices up to `buffer.size() / 512` finds the same block. -/
def scanForBPBRegion (buffer : List Nat) : Option Nat :=
  (List.range (buffer.length / 512 + 1)).find? fun i =>
    decide ((i + 1) * 512 < buffer.length)
      && (BPB.ofBytes (memRead buffer ((512 * i : Nat) : Int) 512)).check

/-- The loop of `checkFatTable`: `i` is a `uint8_t`, `bound` is `fatCount - 1`
as a `size_t`; `some false` is `throw -1`, `some true` the end of the loop,
and the first argument bounds the iterations. -/
def checkFatTableLoop (volume : Region) (fatOffset fatSize bound : Nat) :
    Nat → Nat → Option Bool
  | 0, _ => none
  | fuel + 1, i =>
    if i < bound then
      if memRead volume ((fatOffset + i * fatSize : Nat) : Int) fatSize
          != memRead volume ((fatOffset + (i + 1) * fatSize : Nat) : Int) fatSize then
        some false
      else checkFatTableLoop volume fatOffset fatSize bound fuel ((i + 1) % 256)
    else some true

/-- The `checkFatTable` of the source on the bytes of the volume, `size` being
`volume.size`: `some false` is `throw -1`. -/
def checkFatTable (fuel : Nat) (volume : Region) (size fatOffset fatSize fatCount : Nat) :
    Option Bool :=
  if fatOffset + fatSize * fatCount > size then some false
  else checkFatTableLoop volume fatOffset fatSize ((fatCount + 2 ^ 64 - 1) % 2 ^ 64) fuel 0

/-- The offsets (from the start of the volume) and sizes that `getFatVolume`
returns in `struct Fat12Volume`, with the offset of the volume in the buffer. -/
structure Fat12Layout where
  bootOffset : Nat
  volumeSize : Nat
  reservedSize : Nat
  fatOffset : Nat
  fatRegionSize : Nat
  rootOffset : Nat
  rootSize : Nat
  dataOffset : Nat
  dataSize : Nat
  clusterSize : Nat
  maxCluster : Nat
deriving DecidableEq, Repr

/-- The `getFatVolume` of the source; the first argument bounds the loop of
`checkFatTable`, `some none` is `throw -1`.  The fields of the boot block are
within their types; `totalSectors32 * bytesPerSector` is an `unsigned int`
product, the differences are taken in `size_t`, and `dataSize / clusterSize`
goes through `int` into the `uint16_t maxCluster`. -/
def getFatVolume (fuel : Nat) (filedata : List Nat) : Option (Option Fat12Layout) :=
  match scanForBPBRegion filedata with
  | none => some none
  | some i =>
    let bpb := BPB.ofBytes (memRead filedata ((512 * i : Nat) : Int) 512)
    let bootOffset := i * 512
    let reservedSize := bpb.reservedSectors * bpb.bytesPerSector
    let volumeSize :=
      if bpb.totalSectors16 != 0 then bpb.totalSectors16 * bpb.bytesPerSector
      else (bpb.totalSectors32 * bpb.bytesPerSector) % 2 ^ 32
    let remainingBufferSize := filedata.length - bootOffset
    if volumeSize > remainingBufferSize then some none
    else
      let fatOffset := bpb.reservedSectors * bpb.bytesPerSector
      let fatSize := bpb.sectorPerFat * bpb.bytesPerSector
      let fatRegionSize := bpb.fatCount * fatSize
      match checkFatTable fuel (filedata.drop bootOffset) volumeSize fatOffset fatSize
          bpb.fatCount with
      | none => none
      | some false => some none
      | some true =>
        let rootDirOffset := fatOffset + fatRegionSize
        let rootDirSize := bpb.rootEntries * 32
        let dataOffset := rootDirOffset + rootDirSize
        let dataSize :=
          (volumeSize + 3 * 2 ^ 64 - fatRegionSize - rootDirSize - reservedSize) % 2 ^ 64
        let clusterSize := bpb.sectorsPerCluster * bpb.bytesPerSector
        let q : Int := if (dataSize / clusterSize) % 2 ^ 32 < 2 ^ 31 then
            (((dataSize / clusterSize) % 2 ^ 32 : Nat) : Int)
          else (((dataSize / clusterSize) % 2 ^ 32 : Nat) : Int) - 2 ^ 32
        let maxCluster0 := (min q ((1 <<< 12 : Nat) - 2 : Int) % 2 ^ 16).toNat
        let maxCluster := min maxCluster0 (fatSize * 8 / 12) % 2 ^ 16
        some (some
          { bootOffset := bootOffset, volumeSize := volumeSize, reservedSize := reservedSize,
            fatOffset := fatOffset, fatRegionSize := fatRegionSize,
            rootOffset := rootDirOffset, rootSize := rootDirSize, dataOffset := dataOffset,
            dataSize := dataSize, clusterSize := clusterSize, maxCluster := maxCluster })

/-- The loop of `syncFAT`, from the index `i` on, for `n` further iterations. -/
def syncFATLoop (fatOffset fatSize : Nat) : Nat → Nat → Region → Region
  | 0, _, volume => volume
  | n + 1, i, volume =>
    syncFATLoop fatOffset fatSize n (i + 1)
      (memWrite volume ((fatOffset + (i + 1) * fatSize : Nat) : Int)
        (memRead volume ((fatOffset + i * fatSize : Nat) : Int) fatSize))

/-- The `syncFAT` of the source on the bytes of the volume.  The index `i` is a
`uint8_t` and is compared with `fatCount - 1` as an `int`: the loop runs
`fatCount - 1` times, and not at all for `fatCount = 0`. -/
def syncFAT (bootBlock : BPB) (volume : Region) : Region :=
  syncFATLoop (bootBlock.reservedSectors * bootBlock.bytesPerSector)
    (bootBlock.sectorPerFat * bootBlock.bytesPerSector) (bootBlock.fatCount - 1) 0 volume

/-! ## Open, opendir and release (`src/hdifuse.cpp`, lines 762-790, 826-844, 864-920, 954-972) -/

/-- What `fat12_ll_open` and `fat12_ll_opendir` reply: `fuse_reply_open` with
`fi->fh`, or `fuse_reply_err`. -/
inductive OpenReply where
  | fh (handle : Nat)
  | err (e : Errno)
deriving DecidableEq, Repr

/-- The `fat12_ll_open` of the source; the first argument bounds the loop of
`trunc`.  The `push_back` is taken to succeed. -/
def fat12_ll_open (fuel : Nat) (ctx : FuseContext) (ino flags : Nat) :
    Option (OpenReply × FuseContext) :=
  match ctx.rootInode.findInode ino with
  | none => some (OpenReply.err Errno.ENOENT, ctx)
  | some (_, fileNode) =>
    let fileEntry := ctx.readEntry fileNode.file
    if fileEntry.isDirectory then some (OpenReply.err Errno.EISDIR, ctx)
    else if (flags &&& O_WRONLY != 0 || flags &&& O_RDWR != 0) && fileEntry.isRO then
      some (OpenReply.err Errno.EACCES, ctx)
    else
      let truncated : Option FuseContext :=
        if flags &&& O_TRUNC != 0 then
          (trunc fuel fileEntry ctx.fat12Volume.fatRegion).map fun r =>
            ({ ctx with fat12Volume := { ctx.fat12Volume with fatRegion := r.2 } }
              ).writeEntry fileNode.file { r.1 with size := 0 }
        else some ctx
      match truncated with
      | none => none
      | some ctx1 =>
        match ctx1.getFreeFileHandle with
        | Ret.throw e => some (OpenReply.err e, ctx1)
        | Ret.ok fileHandle =>
          some (OpenReply.fh fileHandle,
            { ctx1 with
              activeFiles := ctx1.activeFiles ++ [{ handle := fileHandle, inode := fileNode }] })

/-- The `fat12_ll_opendir` of the source. -/
def fat12_ll_opendir (ctx : FuseContext) (ino : Nat) : OpenReply × FuseContext :=
  match ctx.rootInode.findInode ino with
  | some (_, fat12Inode) =>
    match ctx.getFreeFileHandle with
    | Ret.throw e => (OpenReply.err e, ctx)
    | Ret.ok handle =>
      (OpenReply.fh handle,
        { ctx with activeFiles := ctx.activeFiles ++ [{ handle := handle, inode := fat12Inode }] })
  | none => (OpenReply.err Errno.ENOENT, ctx)

/-- The `fat12_ll_release` of the source: it replies 0; the session it leaves. -/
def fat12_ll_release (ctx : FuseContext) (fh : Nat) : FuseContext := ctx.releaseFile fh

/-- The `fat12_ll_releasedir` of the source: it replies 0; the session it leaves. -/
def fat12_ll_releasedir (ctx : FuseContext) (fh : Nat) : FuseContext := ctx.releaseFile fh

/-! ## Chains, free clusters and file contents, as the specification speaks of them -/

/-- The walk from cluster `c` along the FAT links visits exactly the clusters
of `l`, in this order, and then reads the end-of-chain value `0xFFF`. -/
def IsChain (fat : Region) : Nat → List Nat → Prop
  | c, [] => c = 0xFFF
  | c, x :: rest => x = c ∧ c ≠ 0xFFF ∧ IsChain fat (fatGet fat c) rest

/-- The walk from cluster `c` along the FAT links begins with the clusters of
`l`, none of which is the end-of-chain value. -/
def ChainPrefix (fat : Region) : Nat → List Nat → Prop
  | _, [] => True
  | c, x :: rest => x = c ∧ c ≠ 0xFFF ∧ ChainPrefix fat (fatGet fat c) rest

instance IsChain.instDecidable (fat : Region) : ∀ c l, Decidable (IsChain fat c l)
  | c, [] => inferInstanceAs (Decidable (c = 0xFFF))
  | c, x :: rest =>
    have := IsChain.instDecidable fat (fatGet fat c) rest
    inferInstanceAs (Decidable (x = c ∧ c ≠ 0xFFF ∧ IsChain fat (fatGet fat c) rest))

instance ChainPrefix.instDecidable (fat : Region) : ∀ c l, Decidable (ChainPrefix fat c l)
  | _, [] => inferInstanceAs (Decidable True)
  | c, x :: rest =>
    have := ChainPrefix.instDecidable fat (fatGet fat c) rest
    inferInstanceAs (Decidable (x = c ∧ c ≠ 0xFFF ∧ ChainPrefix fat (fatGet fat c) rest))

/-- The number of clusters in `[2, maxCluster)` whose FAT entry is 0. -/
def freeCount (fat : Region) (maxCluster : Nat) : Nat :=
  (List.range maxCluster).countP fun i => decide (2 ≤ i) && fatGet fat i == 0

/-- The `clusterSize` bytes of cluster `c` (`2 ≤ c`) in the data region. -/
def clusterBytes (data : Region) (clusterSize c : Nat) : List Nat :=
  (List.range clusterSize).map fun k => data.getD ((c - 2) * clusterSize + k) 0

/-- The concatenation of the clusters of `l`, in the order of `l`. -/
def chainBytes (data : Region) (clusterSize : Nat) : List Nat → List Nat
  | [] => []
  | c :: rest => clusterBytes data clusterSize c ++ chainBytes data clusterSize rest

mutual
/-- The tree with every `zombie` flag cleared: what two trees share when they
differ in `zombie` flags only. -/
def Fat12Inode.clearZombie : Fat12Inode → Fat12Inode
  | .mk file children inode nlookup _ => .mk file (clearZombieList children) inode nlookup false
/-- The list of trees with every `zombie` flag cleared. -/
def clearZombieList : List Fat12Inode → List Fat12Inode
  | [] => []
  | child :: rest => child.clearZombie :: clearZombieList rest
end

/-- The slots of the root directory, in the order of the root region. -/
def rootSlots (vol : Fat12Volume) : List EntryPtr :=
  (List.range vol.rootEntries).map fun (i : Nat) => EntryPtr.root (32 * (i : Int))

/-- The slots of cluster `c` of the data region, in the order of the cluster. -/
def clusterSlots (vol : Fat12Volume) (c : Nat) : List EntryPtr :=
  (List.range (vol.clusterSize / 32)).map fun (i : Nat) =>
    EntryPtr.data (clusterAddr c vol.clusterSize 0 + 32 * (i : Int))

/-- The 32 bytes of the slot lie inside its region. -/
def EntryPtr.inside (vol : Fat12Volume) : EntryPtr → Bool
  | .rootEntry => true
  | .root off => decide (0 ≤ off ∧ off + 32 ≤ (vol.rootRegion.length : Int))
  | .data addr => decide (0 ≤ addr ∧ addr + 32 ≤ (vol.dataRegion.length : Int))

/-- A request that opens or releases a handle. -/
inductive HandleOp where
  | open (ino flags : Nat)
  | opendir (ino : Nat)
  | create (parent : Nat) (name : List Nat)
  | release (fh : Nat)
  | releasedir (fh : Nat)
deriving DecidableEq, Repr

/-- The session after one request that returns. -/
def stepOp (fuel : Nat) (t : MS932) (ctx : FuseContext) : HandleOp → Option FuseContext
  | .open ino flags => (fat12_ll_open fuel ctx ino flags).map Prod.snd
  | .opendir ino => some (fat12_ll_opendir ctx ino).2
  | .create parent name => (fat12_ll_create fuel t ctx parent name).map Prod.snd
  | .release fh => some (fat12_ll_release ctx fh)
  | .releasedir fh => some (fat12_ll_releasedir ctx fh)

/-- The session after a sequence of requests that all return. -/
def runOps (fuel : Nat) (t : MS932) : List HandleOp → FuseContext → Option FuseContext
  | [], ctx => some ctx
  | op :: ops, ctx =>
    match stepOp fuel t ctx op with
    | none => none
    | some ctx1 => runOps fuel t ops ctx1

/-- The handles of the open files are pairwise distinct and below 128. -/
def HandlesOK (ctx : FuseContext) : Prop :=
  (ctx.activeFiles.map FuseFile.handle).Nodup ∧ ∀ h ∈ ctx.activeFiles.map FuseFile.handle, h < 128

instance (ctx : FuseContext) : Decidable (HandlesOK ctx) := by
  unfold HandlesOK; infer_instance

/-! ## The inode tree at mount time (`src/hdifuse.cpp`, lines 47-91 and 463-470) -/

/-- The `FileEntry::isDotOrDotDot` of the source. -/
def FileEntry.isDotOrDotDot (e : FileEntry) : Bool := e.filename.getD 0 0 == 0x2E

/-- The `entry` member that the constructor of `FuseContext` makes:
`FileEntry("root      ", ATTR_DIRECTORY)`, the name with its terminator being
eleven bytes. -/
def rootDirEntry : FileEntry :=
  { filename := [0x72, 0x6F, 0x6F, 0x74, 0x20, 0x20, 0x20, 0x20, 0x20, 0x20, 0x00],
    attr := ATTR_DIRECTORY, reserved := 0, creationTimeTenth := 0, creationTime := 0,
    creationDate := 0, lastAccessDate := 0, firstDataClusterHigh := 0, writeTime := 0,
    writeDate := 0, firstDataClusterLow := 0, size := 0 }

/-- The `FileEntry` that a `FileEntry *` points at while the constructor of
`FuseContext` runs: `entry` is `rootDirEntry` then. -/
def Fat12Volume.slot (vol : Fat12Volume) : EntryPtr → FileEntry
  | .rootEntry => rootDirEntry
  | .root off => FileEntry.ofBytes (memRead vol.rootRegion off 32)
  | .data addr => FileEntry.ofBytes (memRead vol.dataRegion addr 32)

/-- A `for` loop over slots that pushes `{fat12Volume, entry, inodeCounter}` on
`children` for every slot that `valid` accepts: the children and the counter.
`construct` stands for the constructor of the child. -/
def constructSlots (construct : EntryPtr → Nat → Option (Fat12Inode × Nat))
    (valid : EntryPtr → Bool) : List EntryPtr → Nat → Option (List Fat12Inode × Nat)
  | [], inodeCounter => some ([], inodeCounter)
  | entry :: rest, inodeCounter =>
    if valid entry then
      match construct entry inodeCounter with
      | none => none
      | some (child, inodeCounter1) =>
        (constructSlots construct valid rest inodeCounter1).map fun r => (child :: r.1, r.2)
    else constructSlots construct valid rest inodeCounter

/-- The `while (clusterNumber != 0xFFF)` loop of the constructor of
`Fat12Inode`; the first argument bounds the iterations. -/
def constructChain (construct : EntryPtr → Nat → Option (Fat12Inode × Nat))
    (vol : Fat12Volume) (valid : EntryPtr → Bool) :
    Nat → Nat → Nat → Option (List Fat12Inode × Nat)
  | 0, _, _ => none
  | fuel + 1, clusterNumber, inodeCounter =>
    if clusterNumber != 0xFFF then
      match constructSlots construct valid (clusterSlots vol clusterNumber) inodeCounter with
      | none => none
      | some (children, inodeCounter1) =>
        (constructChain construct vol valid fuel (fatGet vol.fatRegion clusterNumber)
          inodeCounter1).map fun r => (children ++ r.1, r.2)
    else some ([], inodeCounter)

/-- The constructor `Fat12Inode(fat12Volume, file_, inodeCounter)` of the
source: the node and the counter it leaves (`uint32_t`).  The first argument
bounds the depth of the recursion, the second the iterations of each walk
along a chain. -/
def Fat12Inode.construct (vol : Fat12Volume) (fuel : Nat) :
    Nat → EntryPtr → Nat → Option (Fat12Inode × Nat)
  | 0, _, _ => none
  | depth + 1, file, inodeCounter =>
    if (vol.slot file).isDirectory && !(vol.slot file).isDotOrDotDot then
      (constructChain (fun entry counter => Fat12Inode.construct vol fuel depth entry counter)
        vol (fun entry => (vol.slot entry).isValid && !(vol.slot file).isDotOrDotDot)
        fuel (vol.slot file).firstDataClusterLow ((inodeCounter + 1) % 2 ^ 32)).map
        fun r => (Fat12Inode.mk file r.1 inodeCounter 0 false, r.2)
    else some (Fat12Inode.mk file [] inodeCounter 0 false, (inodeCounter + 1) % 2 ^ 32)

/-- The constructor `Fat12Inode(fat12Volume, file_, entries, ptr,
inodeCounter)` of the source, as `FuseContext` calls it for the root.  The
constructor does not set `nlookup`; 0 stands for it. -/
def Fat12Inode.constructRoot (vol : Fat12Volume) (fuel depth : Nat) (inodeCounter : Nat) :
    Option (Fat12Inode × Nat) :=
  (constructSlots (fun entry counter => Fat12Inode.construct vol fuel depth entry counter)
    (fun entry => (vol.slot entry).isValid) (rootSlots vol)
    ((inodeCounter + 1) % 2 ^ 32)).map
    fun r => (Fat12Inode.mk .rootEntry r.1 inodeCounter 0 false, r.2)

/-- The constructor of `FuseContext`. -/
def FuseContext.construct (vol : Fat12Volume) (fuel depth : Nat) : Option FuseContext :=
  (Fat12Inode.constructRoot vol fuel depth 1).map fun r =>
    { fat12Volume := vol, inodeCounter := r.2, entry := rootDirEntry, rootInode := r.1,
      activeFiles := [] }

/-! ## The mounted tree, as the specification speaks of it -/

mutual
/-- The ids of the nodes of the tree in depth-first pre-order: the id of the
node, then the ids of the trees of its children, child by child. -/
def Fat12Inode.preorderIds : Fat12Inode → List Nat
  | .mk _ children inode _ _ => inode :: preorderIdsList children
/-- The ids of the nodes of a list of trees, tree by tree, each in pre-order. -/
def preorderIdsList : List Fat12Inode → List Nat
  | [] => []
  | child :: rest => child.preorderIds ++ preorderIdsList rest
end

/-- The values `c, c + 1, ..., c + k - 1` of a `uint32_t` counter. -/
def idsFrom (c k : Nat) : List Nat := (List.range k).map fun (i : Nat) => (c + i) % 2 ^ 32

mutual
/-- Every node of the tree holds what the mount puts there: a node whose entry
is a directory other than dot and dot-dot has as children exactly the valid
slots of the clusters of its chain, in the order of the chain, and any other
node has no children. -/
def Fat12Inode.MountedBelow (vol : Fat12Volume) : Fat12Inode → Prop
  | .mk file children _ _ _ =>
    (if (vol.slot file).isDirectory && !(vol.slot file).isDotOrDotDot then
        ∃ chain, IsChain vol.fatRegion (vol.slot file).firstDataClusterLow chain
          ∧ children.map Fat12Inode.file
            = (chain.flatMap (clusterSlots vol)).filter fun e => (vol.slot e).isValid
      else children = [])
    ∧ MountedBelowList vol children
/-- Every tree of the list holds what the mount puts there. -/
def MountedBelowList (vol : Fat12Volume) : List Fat12Inode → Prop
  | [] => True
  | child :: rest => child.MountedBelow vol ∧ MountedBelowList vol rest
end

/-- The clusters of the walk from cluster `c` along the FAT links up to the
end-of-chain value, `none` when the walk has not met it after `fuel` reads. -/
def dirChain (fat : Region) : Nat → Nat → Option (List Nat)
  | 0, _ => none
  | fuel + 1, c =>
    if c != 0xFFF then (dirChain fat fuel (fatGet fat c)).map (c :: ·) else some []

/-- The directory behind `file` is well formed to the depth `depth`: when the
entry is a directory other than dot and dot-dot, the walk along its chain meets
the end-of-chain value within `fuel` reads, every slot of the clusters of the
chain lies inside the data region, and every valid one of them is well formed
to the depth `depth - 1`. -/
def wellFormedDir (vol : Fat12Volume) (fuel : Nat) : Nat → EntryPtr → Bool
  | 0, _ => false
  | depth + 1, file =>
    if (vol.slot file).isDirectory && !(vol.slot file).isDotOrDotDot then
      match dirChain vol.fatRegion fuel (vol.slot file).firstDataClusterLow with
      | none => false
      | some chain =>
        (chain.flatMap (clusterSlots vol)).all fun e =>
          e.inside vol && (!(vol.slot e).isValid || wellFormedDir vol fuel depth e)
    else true

/-- What the constructor of a node leaves when it is called for the slot
`entry` with the counter `c`: the node of that slot, holding below it what the
mount puts there, its ids in pre-order being the values of the counter from
`c` on, and the counter advanced by the number of its nodes. -/
def MountResult (vol : Fat12Volume) (entry : EntryPtr) (c : Nat) (r : Fat12Inode × Nat) : Prop :=
  r.1.file = entry ∧ r.1.MountedBelow vol
    ∧ r.1.preorderIds = idsFrom c r.1.preorderIds.length
    ∧ r.2 = (c + r.1.preorderIds.length) % 2 ^ 32

/-! ## The stores of an allocation, one by one (`src/hdifuse.cpp`, lines 397-398) -/

/-- The value range of the FAT: the reserved entries 0 and 1 are non-zero, and
every entry `i` in `[2, maxCluster)` is 0, `0xFFF` or a cluster index in
`[2, maxCluster)`. -/
def FatRangeOK (fat : Region) (maxCluster : Nat) : Prop :=
  fatGet fat 0 ≠ 0 ∧ fatGet fat 1 ≠ 0
    ∧ ∀ i, i < maxCluster → 2 ≤ i →
        fatGet fat i = 0 ∨ fatGet fat i = 0xFFF
          ∨ (2 ≤ fatGet fat i ∧ fatGet fat i < maxCluster)

instance FatRangeOK.instDecidable (fat : Region) (maxCluster : Nat) :
    Decidable (FatRangeOK fat maxCluster) :=
  inferInstanceAs (Decidable (fatGet fat 0 ≠ 0 ∧ fatGet fat 1 ≠ 0
    ∧ ∀ i, i < maxCluster → 2 ≤ i →
        fatGet fat i = 0 ∨ fatGet fat i = 0xFFF
          ∨ (2 ≤ fatGet fat i ∧ fatGet fat i < maxCluster)))

/-- Single ownership of clusters: every pair `(head, chain)` of `chains` is the
walk from `head` along the FAT links up to `0xFFF`, no cluster of a chain is
free (its FAT entry is not 0), and no cluster is a member of two chains. -/
def Owned (fat : Region) (chains : List (Nat × List Nat)) : Prop :=
  (∀ p ∈ chains, IsChain fat p.1 p.2 ∧ ∀ x ∈ p.2, fatGet fat x ≠ 0)
    ∧ chains.Pairwise fun (p q : Nat × List Nat) => ∀ x ∈ p.2, x ∉ q.2

instance Owned.instDecidable (fat : Region) (chains : List (Nat × List Nat)) :
    Decidable (Owned fat chains) :=
  inferInstanceAs (Decidable ((∀ p ∈ chains, IsChain fat p.1 p.2 ∧ ∀ x ∈ p.2, fatGet fat x ≠ 0)
    ∧ chains.Pairwise fun (p q : Nat × List Nat) => ∀ x ∈ p.2, x ∉ q.2))

/-- What the loop of `writeFile` keeps from one iteration to the next, for the
FAT `fat0` that the write began with and the chains `chains` of `fat0`: the
FAT `f` of the iteration holds bytes, its reserved entries are non-zero, an
entry that differs from `fat0` held 0 and holds `0xFFF`, or held 0 or `0xFFF`
and holds a cluster of `[2, maxCluster)` that was free in `fat0`, and `f` has
chains with the heads `H` that keep single ownership and begin with the chains
of `fat0`. When `inChain` holds, moreover the cluster `c` of the iteration is
in the chain of the head `h`, the chains of the other heads are those of
`fat0`, and the entries that differ are those of clusters of the chain of `h`. -/
def WriteInv (fat0 : Region) (maxCluster : Nat) (chains : List (Nat × List Nat))
    (H : List Nat) (h : Nat) (inChain : Prop) (f : Region) (c : Nat) : Prop :=
  IsBytes f ∧ f.length = fat0.length ∧ fatGet f 0 ≠ 0 ∧ fatGet f 1 ≠ 0
    ∧ (∀ j, fatGet f j = fatGet fat0 j
        ∨ (fatGet fat0 j = 0 ∧ fatGet f j = 0xFFF)
        ∨ ((fatGet fat0 j = 0 ∨ fatGet fat0 j = 0xFFF)
          ∧ 2 ≤ fatGet f j ∧ fatGet f j < maxCluster ∧ fatGet fat0 (fatGet f j) = 0))
    ∧ ∃ chains2 : List (Nat × List Nat), Owned f chains2 ∧ chains2.map Prod.fst = H
        ∧ (∀ p ∈ chains, ∃ q ∈ chains2, q.1 = p.1 ∧ p.2 <+: q.2)
        ∧ (inChain →
            (∃ q ∈ chains2, q.1 = h ∧ c ∈ q.2)
            ∧ (∀ p ∈ chains, p.1 ≠ h → p ∈ chains2)
            ∧ ∀ j, fatGet f j ≠ fatGet fat0 j → ∃ q ∈ chains2, q.1 = h ∧ j ∈ q.2)

/-! ## Names inside their strings, and the sessions that requests reach -/

/-- The `while (written != toWrite)` loop of `writeFile` as in `writeLoop`,
handing back besides its result the values of `pos.cluster` at the calls of
`writeCluster`, in order: the clusters whose bytes the loop stores into; these
are also the indices of the FAT entries that it reads and stores into. -/
def writeLoopTrace (clusterSize maxCluster : Nat) (bytes : List Nat) :
    Nat → Region → Region → ClusterPos → Nat → Option (WriteLoopResult × List Nat)
  | 0, fat, data, _, written =>
    if written != bytes.length then none
    else some ({ exit := LoopExit.done, fat := fat, data := data, written := written }, [])
  | fuel + 1, fat, data, pos, written =>
    if written != bytes.length then
      let w := writeCluster data clusterSize pos (bytes.length - written) (bytes.drop written)
      let written1 := written + w.1
      if written1 != bytes.length then
        if fatGet fat pos.cluster == 0xFFF then
          let newCluster := getFreeCluster fat maxCluster
          if newCluster == 0xFFF then
            some ({ exit := LoopExit.noSpace, fat := fat, data := w.2, written := written1 },
              [pos.cluster])
          else
            (writeLoopTrace clusterSize maxCluster bytes fuel
              (fatSet (fatSet fat pos.cluster newCluster) newCluster 0xFFF) w.2
              { pos with cluster := newCluster, clusterOffset := 0 } written1).map
              fun r => (r.1, pos.cluster :: r.2)
        else
          (writeLoopTrace clusterSize maxCluster bytes fuel fat w.2
            { pos with cluster := fatGet fat pos.cluster, clusterOffset := 0 } written1).map
            fun r => (r.1, pos.cluster :: r.2)
      else
        (writeLoopTrace clusterSize maxCluster bytes fuel fat w.2 pos written1).map
          fun r => (r.1, pos.cluster :: r.2)
    else some ({ exit := LoopExit.done, fat := fat, data := data, written := written }, [])

/-- The `writeFile` of the source as in `writeFile`, handing back besides its
result the clusters that its loop goes through. -/
def writeFileTrace (fuel : Nat) (fatRegion dataRegion : Region) (file : FileEntry)
    (clusterSize : Nat) (bytes : List Nat) (offset maxCluster : Nat) :
    Option (WriteResult × List Nat) :=
  let pos := seek fatRegion file.firstDataClusterLow clusterSize offset
  if (pos.fileClusterOffset + pos.clusterOffset) % 2 ^ 64 != offset then
    some ({ ret := Ret.throw Errno.ESPIPE, fat := fatRegion, data := dataRegion, file := file },
      [])
  else if bytes.length == 0 then
    some ({ ret := Ret.ok 0, fat := fatRegion, data := dataRegion, file := file }, [])
  else if file.firstDataClusterLow == 0 then
    let newCluster := getFreeCluster fatRegion maxCluster
    if newCluster == 0xFFF then
      some ({ ret := Ret.ok 0, fat := fatRegion, data := dataRegion, file := file }, [])
    else
      (writeLoopTrace clusterSize maxCluster bytes fuel (fatSet fatRegion newCluster 0xFFF)
        dataRegion { pos with cluster := newCluster } 0).map fun r =>
        (match r.1.exit with
          | LoopExit.noSpace =>
            { ret := Ret.ok r.1.written, fat := r.1.fat, data := r.1.data,
              file := { file with firstDataClusterLow := newCluster } }
          | LoopExit.done =>
            { ret := Ret.ok r.1.written, fat := r.1.fat, data := r.1.data,
              file := { file with
                firstDataClusterLow := newCluster,
                size := max ((offset + r.1.written) % 2 ^ 32) file.size } },
          r.2)
  else
    (writeLoopTrace clusterSize maxCluster bytes fuel fatRegion dataRegion pos 0).map fun r =>
      (match r.1.exit with
        | LoopExit.noSpace =>
          { ret := Ret.ok r.1.written, fat := r.1.fat, data := r.1.data, file := file }
        | LoopExit.done =>
          { ret := Ret.ok r.1.written, fat := r.1.fat, data := r.1.data,
            file := { file with size := max ((offset + r.1.written) % 2 ^ 32) file.size } },
        r.2)

/-! ## Concrete images -/

/-- A FAT of four entries: `FAT[0] = 0xFF8`, `FAT[1] = 0xFFF`, cluster 2 ends
a chain of one cluster, cluster 3 is free. -/
def fatA : Region := [0xF8, 0xFF, 0xFF, 0xFF, 0x0F, 0x00]

/-- A FAT of four entries: `FAT[0] = 0xFF8`, `FAT[1] = 0xFFF`, clusters 2 and
3 are free. -/
def fatB : Region := [0xF8, 0xFF, 0xFF, 0x00, 0x00, 0x00]

/-- A FAT of four entries: `FAT[0] = 0xFF8`, `FAT[1] = 0xFFF`, the chain
`2 -> 3 -> 0xFFF`. -/
def fatC : Region := [0xF8, 0xFF, 0xFF, 0x03, 0xF0, 0xFF]

/-- A FAT of four entries: `FAT[0] = 0xFF8`, `FAT[1] = 0xFFF`, clusters 2 and
3 both hold `0xFFF`. -/
def fatFull : Region := [0xF8, 0xFF, 0xFF, 0xFF, 0xFF, 0xFF]

/-- The entry of a regular file `A` with the given first cluster and size. -/
def fileA (firstCluster size : Nat) : FileEntry :=
  { filename := [0x41, 0x20, 0x20, 0x20, 0x20, 0x20, 0x20, 0x20, 0x20, 0x20, 0x20],
    attr := 0x20, reserved := 0, creationTimeTenth := 0,
    creationTime := 0, creationDate := 0, lastAccessDate := 0, firstDataClusterHigh := 0,
    writeTime := 0, writeDate := 0, firstDataClusterLow := firstCluster, size := size }

/-- A data region of `n` clusters of 512 bytes, all zero. -/
def zeroData (n : Nat) : Region := List.replicate (n * 512) 0

/-- A sample table: every ASCII code point to itself in both directions, no
other mapping and no lead byte. -/
def asciiTable : MS932 :=
  { unicodeToMS932 := fun u => if u < 0x80 then some u else none,
    ms932ToUnicode := fun m => if m < 0x80 then some m else none,
    isLeadByte := fun _ => false }

/-- A sample table: every ASCII code point to itself and U+3000 to the
two-byte value `0x8140`, in both directions, with the lead bytes `0x81..0x9F`
and `0xE0..0xFC`. -/
def sampleTable : MS932 :=
  { unicodeToMS932 := fun u => if u < 0x80 then some u else if u == 0x3000 then some 0x8140 else none,
    ms932ToUnicode := fun m => if m < 0x80 then some m else if m == 0x8140 then some 0x3000 else none,
    isLeadByte := fun b => (0x81 ≤ b && b ≤ 0x9F) || (0xE0 ≤ b && b ≤ 0xFC) }

/-- A sample table: every ASCII code point to itself and U+00E5 to the
single byte `0xE5`, in both directions, no lead byte. -/
def e5Table : MS932 :=
  { unicodeToMS932 := fun u => if u < 0x80 then some u else if u == 0xE5 then some 0xE5 else none,
    ms932ToUnicode := fun m => if m < 0x80 then some m else if m == 0xE5 then some 0xE5 else none,
    isLeadByte := fun _ => false }

/-- The 32 bytes of a directory slot with the given name, attribute byte,
first cluster and size, all other fields 0. -/
def slotBytes (name : List Nat) (attr firstCluster size : Nat) : List Nat :=
  FileEntry.toBytes
    { filename := name, attr := attr, reserved := 0, creationTimeTenth := 0, creationTime := 0,
      creationDate := 0, lastAccessDate := 0, firstDataClusterHigh := 0, writeTime := 0,
      writeDate := 0, firstDataClusterLow := firstCluster, size := size }

/-- A root region of 16 slots: the directory `SUB` (cluster 2), the empty file
`A.TXT`, thirteen unused slots and a deleted entry in the last slot. -/
def rootImg : Region :=
  slotBytes [0x53, 0x55, 0x42, 0x20, 0x20, 0x20, 0x20, 0x20, 0x20, 0x20, 0x20] 0x10 2 0
    ++ slotBytes [0x41, 0x20, 0x20, 0x20, 0x20, 0x20, 0x20, 0x20, 0x54, 0x58, 0x54] 0 0 0
    ++ List.replicate (13 * 32) 0 ++ (0xE5 :: List.replicate 31 0)

/-- A data region of two clusters of 512 bytes: cluster 2 holds the directory
`SUB` with the entries `.`, `..` and the file `INNER.BIN` (cluster 3, 5 bytes),
cluster 3 the data of that file. -/
def dataImg : Region :=
  slotBytes [0x2E, 0x20, 0x20, 0x20, 0x20, 0x20, 0x20, 0x20, 0x20, 0x20, 0x20] 0x10 2 0
    ++ slotBytes [0x2E, 0x2E, 0x20, 0x20, 0x20, 0x20, 0x20, 0x20, 0x20, 0x20, 0x20] 0x10 0 0
    ++ slotBytes [0x49, 0x4E, 0x4E, 0x45, 0x52, 0x20, 0x20, 0x20, 0x42, 0x49, 0x4E] 0 3 5
    ++ List.replicate (13 * 32) 0 ++ List.replicate 512 7

/-- The inode tree that mirrors `rootImg` and `dataImg`: the root (1), `SUB`
(2) with `.` (3), `..` (4) and `INNER.BIN` (5), and `A.TXT` (6). -/
def treeImg : Fat12Inode :=
  .mk .rootEntry
    [.mk (.root 0)
        [.mk (.data 0) [] 3 0 false, .mk (.data 32) [] 4 0 false, .mk (.data 64) [] 5 0 false]
        2 0 false,
     .mk (.root 32) [] 6 0 false]
    1 0 false

/-- A session on the volume of `rootImg` and `dataImg` with no open file. -/
def ctxImg : FuseContext :=
  { fat12Volume :=
      { fatRegion := fatFull, rootRegion := rootImg, dataRegion := dataImg, rootEntries := 16,
        clusterSize := 512, maxCluster := 4 },
    inodeCounter := 7,
    entry :=
      { filename := [0x72, 0x6F, 0x6F, 0x74, 0x20, 0x20, 0x20, 0x20, 0x20, 0x20, 0x00],
        attr := ATTR_DIRECTORY, reserved := 0, creationTimeTenth := 0, creationTime := 0,
        creationDate := 0, lastAccessDate := 0, firstDataClusterHigh := 0, writeTime := 0,
        writeDate := 0, firstDataClusterLow := 0, size := 0 },
    rootInode := treeImg,
    activeFiles := [] }

/-- The session `ctxImg` after `lookup(2, "INNER.BIN")` and `unlink(2, "INNER.BIN")`. -/
def ctxZombie : FuseContext :=
  (fat12_ll_unlink asciiTable
    (fat12_ll_lookup asciiTable ctxImg 2 [0x49, 0x4E, 0x4E, 0x45, 0x52, 0x2E, 0x42, 0x49, 0x4E]).2
    2 [0x49, 0x4E, 0x4E, 0x45, 0x52, 0x2E, 0x42, 0x49, 0x4E]).2

/-- A boot block of 512 bytes: jump `EB 3C 90`, 512 bytes per sector, one
sector per cluster, one reserved sector, `fatCount` FATs of one sector, 16
root entries, `totalSectors16` sectors, media type `0xF8`, `totalSectors32`
0, drive number 0, reserved 0, the other bytes 0. -/
def bootBlock (fatCount totalSectors16 : Nat) : List Nat :=
  [0xEB, 0x3C, 0x90] ++ List.replicate 8 0x20 ++ [0x00, 0x02, 0x01, 0x01, 0x00, fatCount, 0x10, 0x00,
    totalSectors16 % 256, totalSectors16 / 256, 0xF8, 0x01, 0x00] ++ List.replicate 488 0

/-- A buffer of five sectors of 512 bytes that is one volume: the boot block
`bootBlock 2 5`, two FAT copies of one sector that begin with `fat0` and
`fat1` (each of 6 bytes), a root directory of 16 unused slots and one cluster
of data. -/
def imageTwoFats (fat0 fat1 : Region) : List Nat :=
  bootBlock 2 5 ++ (fat0 ++ List.replicate 506 0) ++ (fat1 ++ List.replicate 506 0)
    ++ List.replicate 512 0 ++ List.replicate 512 0

/-- A root region of 16 slots with no valid entry: a deleted entry in slot 0,
fifteen unused slots. -/
def rootDeleted : Region := (0xE5 :: List.replicate 31 0) ++ List.replicate (15 * 32) 0

/-- A FAT of four entries: `FAT[0] = 0xFF8`, `FAT[1] = 0xFFF`, cluster 2 ends
a chain of one cluster with the value `0xFF8`, cluster 3 is free. -/
def fatE : Region := [0xF8, 0xFF, 0xFF, 0xF8, 0x0F, 0x00]

/-- A root region of 16 slots whose first slot is unused (all bytes 0) and
whose second slot holds the empty file `A.TXT`; the other slots are unused. -/
def rootGap : Region :=
  List.replicate 32 0
    ++ slotBytes [0x41, 0x20, 0x20, 0x20, 0x20, 0x20, 0x20, 0x20, 0x54, 0x58, 0x54] 0 0 0
    ++ List.replicate (14 * 32) 0

/-- The volume of `rootGap`, with the FAT `fatA` and one cluster of data. -/
def volGap : Fat12Volume :=
  { fatRegion := fatA, rootRegion := rootGap, dataRegion := List.replicate 512 0, rootEntries := 16,
    clusterSize := 512, maxCluster := 3 }

/-- A buffer of 1025 bytes that begins with a volume of two sectors: the boot
block `bootBlock 1 2` (one reserved sector, one FAT of one sector, 16 root
entries, 2 sectors in all) and the FAT, which begins with `fatA`. The volume
has no room for the root directory of 512 bytes that the boot block declares. -/
def imageNoRoot : List Nat := bootBlock 1 2 ++ (fatA ++ List.replicate 506 0) ++ [0]

/-- A buffer of eight sectors of 512 bytes that is one volume: the boot block
`bootBlock 2 8` and seven sectors of zero bytes, that is two FAT copies whose
entries are all 0 (also the reserved entries 0 and 1), a root directory of 16
unused slots and four clusters of data. -/
def imageZeroFat : List Nat := bootBlock 2 8 ++ List.replicate 3584 0

/-- The session `ctxImg` after `open(6, O_RDONLY)`: the file `A.TXT` is open
with handle 0. -/
def ctxOpenA : FuseContext :=
  match fat12_ll_open 1 ctxImg 6 0 with
  | some (_, ctx) => ctx
  | none => ctxImg

/-- The FAT copy of `imageOneFat`, one sector: `FAT[0] = 0`, `FAT[1] = 0xFFF`,
the chain `2 -> 3 -> 0xFFF` of one file and the chain `4 -> 0xFFF` of another;
every further entry is 0. -/
def fatOne : Region :=
  [0x00, 0xF0, 0xFF, 0x03, 0xF0, 0xFF, 0xFF, 0x0F, 0x00] ++ List.replicate 503 0

/-- A buffer of eight sectors of 512 bytes that is one volume: the boot block
`bootBlock 1 8`, one FAT copy `fatOne`, a root directory of 16 slots and five
clusters of data, all zero. -/
def imageOneFat : List Nat := bootBlock 1 8 ++ fatOne ++ List.replicate 3072 0

/-- A FAT of twelve sectors (6144 bytes, so that every 12-bit entry lies inside
it) in which the chain of cluster 2 ends with the value `0xFF8`, as in `fatE`;
the entry `0xFF8` (bytes 6132 and 6133) holds 0. -/
def fatF : Region := fatE ++ List.replicate 6138 0

/-! ## Bit-level facts -/

theorem and_15 (x : Nat) : x &&& 15 = x % 16 :=
  Nat.and_pow_two_sub_one_eq_mod x 4

theorem and_255 (x : Nat) : x &&& 255 = x % 256 :=
  Nat.and_pow_two_sub_one_eq_mod x 8

theorem and_240 (x : Nat) : x &&& 240 = x / 16 % 16 * 16 := by
  have h : x &&& 240 = ((x >>> 4) &&& 15) <<< 4 := by
    have e : (240 : Nat) = 15 <<< 4 := by decide
    rw [e]
    apply Nat.eq_of_testBit_eq
    intro i
    simp only [Nat.testBit_and, Nat.testBit_shiftLeft, Nat.testBit_shiftRight]
    by_cases hi : 4 ≤ i
    · simp [hi, Nat.add_sub_cancel' hi]
    · simp [hi]
  rw [h, Nat.and_pow_two_sub_one_eq_mod _ 4, Nat.shiftLeft_eq, Nat.shiftRight_eq_div_pow]

theorem lor_shift4 (a b : Nat) (h : a < 16) : a ||| (b <<< 4) = a + b * 16 := by
  rw [Nat.shiftLeft_eq, Nat.lor_comm, Nat.mul_comm,
    ← Nat.mul_add_lt_is_or (by simpa using h)]
  omega

theorem shl4 (x : Nat) : x <<< 4 = x * 16 := by simp [Nat.shiftLeft_eq]

theorem shl8 (x : Nat) : x <<< 8 = x * 256 := by simp [Nat.shiftLeft_eq]

theorem shr4 (x : Nat) : x >>> 4 = x / 16 := by simp [Nat.shiftRight_eq_div_pow]

theorem shr8 (x : Nat) : x >>> 8 = x / 256 := by simp [Nat.shiftRight_eq_div_pow]

/-! ## Reading a region after a store -/

theorem getD_set (l : Region) (i j v : Nat) :
    (l.set i v).getD j 0 = if i = j ∧ i < l.length then v else l.getD j 0 := by
  induction l generalizing i j with
  | nil => simp
  | cons a t ih =>
    cases i with
    | zero =>
      cases j with
      | zero => simp
      | succ j => simp
    | succ i =>
      cases j with
      | zero => simp
      | succ j =>
        simp only [List.set_cons_succ, List.getD_cons_succ, ih, List.length_cons]
        simp

theorem getD_set_ne (l : Region) (i j v : Nat) (h : i ≠ j) :
    (l.set i v).getD j 0 = l.getD j 0 := by
  rw [getD_set]; simp [h]

theorem getD_set_eq (l : Region) (i v : Nat) (h : i < l.length) :
    (l.set i v).getD i 0 = v := by
  rw [getD_set]; simp [h]

theorem getD_of_le (l : Region) (i : Nat) (h : l.length ≤ i) : l.getD i 0 = 0 := by
  simp [List.getD_eq_getElem?_getD, List.getElem?_eq_none h]

/-- The two byte values that `setValue` stores. -/
theorem setValue_length (e : FatEntry) (fat : Region) (v : Nat) :
    (e.setValue fat v).length = fat.length := by
  unfold FatEntry.setValue
  split <;> simp

theorem setValue_getD_other (e : FatEntry) (fat : Region) (v k : Nat)
    (h0 : k ≠ e.ptr) (h1 : k ≠ e.ptr + 1) :
    (e.setValue fat v).getD k 0 = fat.getD k 0 := by
  unfold FatEntry.setValue
  split
  · simp only []
    rw [getD_set_ne _ _ _ _ (Ne.symm h1), getD_set_ne _ _ _ _ (Ne.symm h0)]
  · simp only []
    rw [getD_set_ne _ _ _ _ (Ne.symm h1), getD_set_ne _ _ _ _ (Ne.symm h0)]

theorem getFatEntry_even (k : Nat) : getFatEntry (2 * k) = { ptr := 3 * k, odd := false } := by
  unfold getFatEntry
  have h1 : 2 * k * 12 / 8 = 3 * k := by omega
  have h2 : 2 * k % 2 = 0 := by omega
  simp [h1, h2]

theorem getFatEntry_odd (k : Nat) :
    getFatEntry (2 * k + 1) = { ptr := 3 * k + 1, odd := true } := by
  unfold getFatEntry
  have h1 : (2 * k + 1) * 12 / 8 = 3 * k + 1 := by omega
  have h2 : (2 * k + 1) % 2 = 1 := by omega
  simp [h1, h2]

theorem setValue_even_byte0 (p : Nat) (fat : Region) (v : Nat) :
    ((FatEntry.mk p false).setValue fat v).getD p 0
      = if p < fat.length then v % 256 else 0 := by
  simp only [FatEntry.setValue, Bool.false_eq_true, if_false]
  rw [getD_set_ne _ _ _ _ (by omega), getD_set, and_255]
  by_cases h : p < fat.length
  · simp [h]
  · simp only [h, and_false, if_false, getD_of_le fat p (by omega)]

theorem setValue_even_byte1 (p : Nat) (fat : Region) (v : Nat) :
    ((FatEntry.mk p false).setValue fat v).getD (p + 1) 0
      = if p + 1 < fat.length
        then (fat.getD (p + 1) 0 / 16 % 16 * 16 + v / 256) % 256 else 0 := by
  simp only [FatEntry.setValue, Bool.false_eq_true, if_false]
  rw [getD_set, getD_set_ne _ _ _ _ (by omega), and_240, shr8, List.length_set]
  by_cases h : p + 1 < fat.length
  · simp [h]
  · simp only [h, and_false, if_false, getD_of_le fat (p + 1) (by omega)]

theorem setValue_odd_byte0 (p : Nat) (fat : Region) (v : Nat) :
    ((FatEntry.mk p true).setValue fat v).getD p 0
      = if p < fat.length then (fat.getD p 0 % 16 + v % 16 * 16) % 256 else 0 := by
  simp only [FatEntry.setValue, if_true]
  rw [getD_set_ne _ _ _ _ (by omega), getD_set, and_15, and_15,
    lor_shift4 _ _ (Nat.mod_lt _ (by norm_num))]
  by_cases h : p < fat.length
  · simp [h]
  · simp only [h, and_false, if_false, getD_of_le fat p (by omega)]

theorem setValue_odd_byte1 (p : Nat) (fat : Region) (v : Nat) :
    ((FatEntry.mk p true).setValue fat v).getD (p + 1) 0
      = if p + 1 < fat.length then v / 16 % 256 else 0 := by
  simp only [FatEntry.setValue, if_true]
  rw [getD_set, getD_set_ne _ _ _ _ (by omega), and_255, shr4, List.length_set]
  by_cases h : p + 1 < fat.length
  · simp [h]
  · simp only [h, and_false, if_false, getD_of_le fat (p + 1) (by omega)]

/-- Reading back the entry that was just stored (in bounds, twelve-bit value). -/
theorem fatGet_fatSet_same (fat : Region) (i v : Nat)
    (hin : (getFatEntry i).ptr + 1 < fat.length) (hv : v ≤ 0xFFF) :
    fatGet (fatSet fat i v) i = v := by
  unfold fatGet fatSet
  rcases Nat.even_or_odd' i with ⟨k, rfl | rfl⟩
  · rw [getFatEntry_even] at hin ⊢
    simp only [] at hin
    simp only [FatEntry.getValue, Bool.false_eq_true, if_false]
    rw [setValue_even_byte0, setValue_even_byte1, and_15, shl8]
    simp only [hin, show 3 * k < fat.length by omega, if_true]
    omega
  · rw [getFatEntry_odd] at hin ⊢
    simp only [] at hin
    simp only [FatEntry.getValue, if_true]
    rw [setValue_odd_byte0, setValue_odd_byte1, shr4, shl4]
    simp only [hin, show 3 * k + 1 < fat.length by omega, if_true]
    omega

theorem IsBytes.getD_lt {r : Region} (h : IsBytes r) (k : Nat) : r.getD k 0 < 256 := by
  by_cases hk : k < r.length
  · rw [List.getD_eq_getElem _ _ hk]
    exact h _ (List.getElem_mem _)
  · rw [getD_of_le r k (by omega)]
    norm_num

/-- A store to entry `i` leaves every other entry as it was. -/
theorem fatGet_fatSet_other (fat : Region) (hb : IsBytes fat) (i j v : Nat)
    (hv : v ≤ 0xFFF) (hij : j ≠ i) :
    fatGet (fatSet fat i v) j = fatGet fat j := by
  unfold fatGet fatSet
  rcases Nat.even_or_odd' i with ⟨k, rfl | rfl⟩ <;>
    rcases Nat.even_or_odd' j with ⟨m, rfl | rfl⟩
  · rw [getFatEntry_even, getFatEntry_even]
    simp only [FatEntry.getValue, Bool.false_eq_true, if_false]
    rw [setValue_getD_other _ _ _ (3 * m) (by simp only []; omega) (by simp only []; omega),
      setValue_getD_other _ _ _ (3 * m + 1) (by simp only []; omega) (by simp only []; omega)]
  · rw [getFatEntry_even, getFatEntry_odd]
    simp only [FatEntry.getValue, if_true]
    rw [setValue_getD_other _ _ _ (3 * m + 1 + 1) (by simp only []; omega)
      (by simp only []; omega)]
    by_cases hkm : m = k
    · subst hkm
      rw [setValue_even_byte1]
      have hbyte := hb.getD_lt (3 * m + 1)
      by_cases hlen : 3 * m + 1 < fat.length
      · simp only [hlen, if_true, shr4]
        omega
      · simp only [hlen, if_false, getD_of_le fat (3 * m + 1) (by omega)]
    · rw [setValue_getD_other _ _ _ (3 * m + 1) (by simp only []; omega)
        (by simp only []; omega)]
  · rw [getFatEntry_odd, getFatEntry_even]
    simp only [FatEntry.getValue, Bool.false_eq_true, if_false]
    rw [setValue_getD_other _ _ _ (3 * m) (by simp only []; omega) (by simp only []; omega)]
    by_cases hkm : m = k
    · subst hkm
      rw [setValue_odd_byte0, and_15, and_15]
      by_cases hlen : 3 * m + 1 < fat.length
      · simp only [hlen, if_true]
        omega
      · simp only [hlen, if_false, getD_of_le fat (3 * m + 1) (by omega)]
    · rw [setValue_getD_other _ _ _ (3 * m + 1) (by simp only []; omega)
        (by simp only []; omega)]
  · rw [getFatEntry_odd, getFatEntry_odd]
    simp only [FatEntry.getValue, if_true]
    rw [setValue_getD_other _ _ _ (3 * m + 1) (by simp only []; omega) (by simp only []; omega),
      setValue_getD_other _ _ _ (3 * m + 1 + 1) (by simp only []; omega)
        (by simp only []; omega)]

/-! ## Stores keep the FAT a region of bytes -/

theorem IsBytes.set {r : Region} (h : IsBytes r) (i v : Nat) (hv : v < 256) :
    IsBytes (r.set i v) := by
  intro b hbm
  rcases List.mem_or_eq_of_mem_set hbm with hm | rfl
  · exact h b hm
  · exact hv

theorem IsBytes.fatSet {fat : Region} (h : IsBytes fat) (i v : Nat) :
    IsBytes (fatSet fat i v) := by
  unfold Hdifuse.fatSet FatEntry.setValue
  split
  · exact (h.set _ _ (Nat.mod_lt _ (by norm_num))).set _ _ (Nat.mod_lt _ (by norm_num))
  · exact (h.set _ _ (Nat.mod_lt _ (by norm_num))).set _ _ (Nat.mod_lt _ (by norm_num))

theorem fatSet_length (fat : Region) (i v : Nat) : (fatSet fat i v).length = fat.length :=
  setValue_length _ fat v

/-- Entries below `maxCluster` lie in a FAT of at least `maxCluster * 12 / 8` bytes. -/
theorem entry_in_bounds (fat : Region) (maxCluster i : Nat)
    (hfat : maxCluster * 3 ≤ fat.length * 2) (hi : i < maxCluster) :
    (getFatEntry i).ptr + 1 < fat.length := by
  simp only [getFatEntry]
  omega

/-! ## Chains -/

theorem IsChain.congr {fat fat' : Region} :
    ∀ (l : List Nat) (c : Nat), (∀ x ∈ l, fatGet fat' x = fatGet fat x) →
      IsChain fat c l → IsChain fat' c l := by
  intro l
  induction l with
  | nil => intro c _ h; exact h
  | cons x rest ih =>
    intro c hsame h
    obtain ⟨hx, hne, hrest⟩ := h
    subst hx
    refine ⟨rfl, hne, ?_⟩
    rw [hsame x (List.mem_cons_self _ _)]
    exact ih _ (fun y hy => hsame y (List.mem_cons_of_mem _ hy)) hrest

theorem IsChain.toPrefix {fat : Region} :
    ∀ (l : List Nat) (c : Nat), IsChain fat c l → ChainPrefix fat c l := by
  intro l
  induction l with
  | nil => intro c _; trivial
  | cons x rest ih =>
    intro c h
    exact ⟨h.1, h.2.1, ih _ h.2.2⟩

/-- Every cluster of a chain whose members are at least 2 has a non-zero FAT entry. -/
theorem IsChain.entry_ne_zero {fat : Region} :
    ∀ (l : List Nat) (c : Nat), IsChain fat c l → (∀ x ∈ l, 2 ≤ x) →
      ∀ x ∈ l, fatGet fat x ≠ 0 := by
  intro l
  induction l with
  | nil => intro c _ _ x hx; cases hx
  | cons y rest ih =>
    intro c h hge x hx
    obtain ⟨hy, _, hrest⟩ := h
    subst hy
    rcases List.mem_cons.1 hx with rfl | hmem
    · cases rest with
      | nil =>
        have h0 : fatGet fat x = 0xFFF := hrest
        rw [h0]; norm_num
      | cons z rest' =>
        have hz : z = fatGet fat x := hrest.1
        have := hge z (by simp)
        omega
    · exact ih _ hrest (fun z hz => hge z (List.mem_cons_of_mem _ hz)) x hmem

/-! ## Counting free clusters -/

theorem countP_range_congr (P Q : Nat → Bool) (n : Nat) (h : ∀ j, j < n → Q j = P j) :
    (List.range n).countP Q = (List.range n).countP P := by
  induction n with
  | zero => simp
  | succ n ih =>
    rw [List.range_succ, List.countP_append, List.countP_append,
      ih (fun j hj => h j (by omega))]
    simp [List.countP_cons, h n (by omega)]

theorem countP_range_single (P Q : Nat → Bool) (x n : Nat) (hx : x < n)
    (hP : P x = false) (hQ : Q x = true) (h : ∀ j, j ≠ x → Q j = P j) :
    (List.range n).countP Q = (List.range n).countP P + 1 := by
  induction n with
  | zero => omega
  | succ n ih =>
    rw [List.range_succ, List.countP_append, List.countP_append]
    by_cases hxn : x = n
    · subst hxn
      rw [countP_range_congr P Q x (fun j hj => h j (by omega))]
      simp [List.countP_cons, hP, hQ]
    · rw [ih (by omega)]
      simp [List.countP_cons, h n (fun e => hxn e.symm)]
      omega

theorem countP_range_nodup (n : Nat) :
    ∀ (l : List Nat) (P Q : Nat → Bool), l.Nodup →
      (∀ x ∈ l, x < n ∧ P x = false ∧ Q x = true) → (∀ j, j ∉ l → Q j = P j) →
      (List.range n).countP Q = (List.range n).countP P + l.length := by
  intro l
  induction l with
  | nil =>
    intro P Q _ _ hf
    simp [countP_range_congr P Q n (fun j _ => hf j (by simp))]
  | cons x rest ih =>
    intro P Q hnd hl hf
    obtain ⟨hxr, hndr⟩ := List.nodup_cons.1 hnd
    obtain ⟨hxn, hPx, hQx⟩ := hl x (List.mem_cons_self _ _)
    have h1 := ih (fun j => if j = x then true else P j) Q hndr
      (fun y hy => by
        obtain ⟨hyn, hPy, hQy⟩ := hl y (List.mem_cons_of_mem _ hy)
        have hyx : y ≠ x := fun e => hxr (e ▸ hy)
        exact ⟨hyn, by simp [hyx, hPy], hQy⟩)
      (fun j hj => by
        by_cases hjx : j = x
        · simp [hjx, hQx]
        · simp only [hjx, if_false]
          exact hf j (by simp [hjx, hj]))
    have h2 := countP_range_single P (fun j => if j = x then true else P j) x n hxn hPx
      (by simp) (fun j hj => by simp [hj])
    rw [h1, h2, List.length_cons]
    omega

theorem freeCount_add (fat fat' : Region) (maxCluster : Nat) (l : List Nat)
    (hnd : l.Nodup) (hr : ∀ x ∈ l, 2 ≤ x ∧ x < maxCluster)
    (hold : ∀ x ∈ l, fatGet fat x ≠ 0) (hnew : ∀ x ∈ l, fatGet fat' x = 0)
    (hf : ∀ j, j ∉ l → fatGet fat' j = fatGet fat j) :
    freeCount fat' maxCluster = freeCount fat maxCluster + l.length := by
  unfold freeCount
  apply countP_range_nodup maxCluster l _ _ hnd
  · intro x hx
    refine ⟨(hr x hx).2, ?_, ?_⟩
    · simp [hold x hx]
    · simp [hnew x hx, (hr x hx).1]
  · intro j hj
    simp [hf j hj]

/-! ## The loop of `f_unlink` -/

theorem unlinkLoop_chain :
    ∀ (l : List Nat) (c : Nat) (fat : Region) (fuel : Nat), IsBytes fat →
      IsChain fat c l → l ≠ [] → l.Nodup →
      (∀ x ∈ l, (getFatEntry x).ptr + 1 < fat.length) → l.length ≤ fuel →
      ∃ fat', unlinkLoop fuel fat c = some fat' ∧ IsBytes fat'
        ∧ fat'.length = fat.length
        ∧ (∀ x ∈ l, fatGet fat' x = 0)
        ∧ (∀ j, j ∉ l → fatGet fat' j = fatGet fat j) := by
  intro l
  induction l with
  | nil => intro c fat fuel _ _ hne; exact absurd rfl hne
  | cons x rest ih =>
    intro c fat fuel hb hl _ hnd hin hfuel
    obtain ⟨hx, hcne, hrest⟩ := hl
    subst hx
    obtain ⟨hxr, hndr⟩ := List.nodup_cons.1 hnd
    cases fuel with
    | zero => simp at hfuel
    | succ fuel =>
      have hinx := hin x (List.mem_cons_self _ _)
      cases rest with
      | nil =>
        have hend : fatGet fat x = 0xFFF := hrest
        refine ⟨fatSet fat x 0, ?_, hb.fatSet _ _, fatSet_length _ _ _, ?_, ?_⟩
        · simp [unlinkLoop, hend]
        · intro y hy
          have : y = x := by simpa using hy
          subst this
          exact fatGet_fatSet_same fat y 0 hinx (by norm_num)
        · intro j hj
          exact fatGet_fatSet_other fat hb x j 0 (by norm_num) (by simpa using hj)
      | cons y rest' =>
        have hy : y = fatGet fat x := hrest.1
        have hyne : fatGet fat x ≠ 0xFFF := hrest.2.1
        have hcond : (fatGet fat x == 0xFFF) = false := by simpa using hyne
        have hchain1 : IsChain (fatSet fat x 0) (fatGet fat x) (y :: rest') :=
          IsChain.congr (y :: rest') _
            (fun z hz => fatGet_fatSet_other fat hb x z 0 (by norm_num)
              (fun e => hxr (e ▸ hz))) hrest
        obtain ⟨fat', hrun, hb', hlen', hzero, hframe⟩ :=
          ih (fatGet fat x) (fatSet fat x 0) fuel (hb.fatSet _ _) hchain1 (by simp) hndr
            (fun z hz => by
              rw [fatSet_length]
              exact hin z (List.mem_cons_of_mem _ hz))
            (by simpa using hfuel)
        refine ⟨fat', ?_, hb', by rw [hlen', fatSet_length], ?_, ?_⟩
        · simp only [unlinkLoop, hcond]
          exact hrun
        · intro z hz
          rcases List.mem_cons.1 hz with rfl | hmem
          · rw [hframe z hxr]
            exact fatGet_fatSet_same fat z 0 hinx (by norm_num)
          · exact hzero z hmem
        · intro j hj
          have hjx : j ≠ x := fun e => hj (e ▸ List.mem_cons_self _ _)
          have hjr : j ∉ y :: rest' := fun hm => hj (List.mem_cons_of_mem _ hm)
          rw [hframe j hjr]
          exact fatGet_fatSet_other fat hb x j 0 (by norm_num) hjx

/-! ## The walk of `seek` -/

theorem seekLoop_skipped (fat : Region) (n : Nat) :
    ∀ (c : Nat) (l : List Nat) (s : Nat), IsChain fat c l →
      (seekLoop fat n c s).2 = s + min n l.length := by
  induction n with
  | zero => intro c l s _; simp [seekLoop]
  | succ n ih =>
    intro c l s hl
    cases l with
    | nil =>
      have hc : c = 0xFFF := hl
      subst hc
      simp [seekLoop]
    | cons x rest =>
      obtain ⟨_, hne, hrest⟩ := hl
      have hcond : (c != 0xFFF) = true := by simpa using hne
      rw [seekLoop, if_pos hcond, ih _ rest _ hrest]
      simp only [List.length_cons]
      omega

theorem seek_short_chain (fat : Region) (c cs offset : Nat) (l : List Nat)
    (hcs : 0 < cs) (hcs32 : cs < 2 ^ 32) (hl : IsChain fat c l)
    (hlt : l.length < offset / cs) :
    ((seek fat c cs offset).fileClusterOffset + (seek fat c cs offset).clusterOffset) % 2 ^ 64
      ≠ offset := by
  simp only [seek, seekLoop_skipped fat _ c l 0 hl, Nat.zero_add]
  have hco : offset % 2 ^ 32 % (cs % 2 ^ 32) < cs := by
    rw [Nat.mod_eq_of_lt hcs32]
    exact Nat.mod_lt _ hcs
  have h1 : min (offset / cs % 2 ^ 32) l.length + 1 ≤ offset / cs := by omega
  have h2 : (min (offset / cs % 2 ^ 32) l.length + 1) * cs ≤ offset / cs * cs :=
    Nat.mul_le_mul_right cs h1
  have h3 : offset / cs * cs ≤ offset := Nat.div_mul_le_self offset cs
  have h4 : (min (offset / cs % 2 ^ 32) l.length + 1) * cs
      = min (offset / cs % 2 ^ 32) l.length * cs + cs := by ring
  have h5 : min (offset / cs % 2 ^ 32) l.length * cs % 2 ^ 64
      ≤ min (offset / cs % 2 ^ 32) l.length * cs := Nat.mod_le _ _
  have h6 := Nat.mod_le
    (min (offset / cs % 2 ^ 32) l.length * cs % 2 ^ 64 + offset % 2 ^ 32 % (cs % 2 ^ 32))
    (2 ^ 64)
  omega

/-! ## Reading along a chain -/

theorem clusterAddr_of_ge (c cs co : Nat) (hc : 2 ≤ c) :
    clusterAddr c cs co = (((c - 2) * cs + co : Nat) : Int) := by
  unfold clusterAddr
  have : ((c : Int) - 2) = ((c - 2 : Nat) : Int) := by omega
  rw [this]
  push_cast
  ring

theorem memRead_nat (r : Region) (a n : Nat) :
    memRead r (a : Int) n = (List.range n).map fun k => r.getD (a + k) 0 := by
  unfold memRead
  apply List.map_congr_left
  intro k _
  have h : (0 : Int) ≤ (a : Int) + (k : Int) := by omega
  rw [if_pos h]
  congr 1

theorem clusterBytes_length (data : Region) (cs c : Nat) :
    (clusterBytes data cs c).length = cs := by
  simp [clusterBytes]

theorem memRead_cluster (data : Region) (c cs co len : Nat) (hc : 2 ≤ c)
    (hlen : co + len ≤ cs) :
    memRead data (clusterAddr c cs co) len = ((clusterBytes data cs c).drop co).take len := by
  rw [clusterAddr_of_ge c cs co hc, memRead_nat]
  apply List.ext_getElem
  · simp [clusterBytes]; omega
  · intro i h1 h2
    simp [clusterBytes]
    rw [Nat.add_assoc]

theorem chainBytes_length (data : Region) (cs : Nat) (l : List Nat) :
    (chainBytes data cs l).length = l.length * cs := by
  induction l with
  | nil => simp [chainBytes]
  | cons x rest ih => simp [chainBytes, ih, clusterBytes_length]; ring

theorem chainBytes_drop (data : Region) (cs : Nat) :
    ∀ (l : List Nat) (k : Nat), k ≤ l.length →
      (chainBytes data cs l).drop (k * cs) = chainBytes data cs (l.drop k) := by
  intro l
  induction l with
  | nil => intro k hk; simp [chainBytes]
  | cons x rest ih =>
    intro k hk
    cases k with
    | zero => simp
    | succ k =>
      have hk' : k ≤ rest.length := by simpa using hk
      have e : (k + 1) * cs = (clusterBytes data cs x).length + k * cs := by
        rw [clusterBytes_length]; ring
      rw [chainBytes, e, List.drop_append, List.drop_succ_cons]
      exact ih k hk'

theorem intOfSize_small (x : Nat) (h : x < 2 ^ 31) : intOfSize x = x := by
  unfold intOfSize
  have h1 : x % 2 ^ 32 = x := Nat.mod_eq_of_lt (by omega)
  rw [h1, if_pos h]

theorem ChainPrefix.drop {fat : Region} :
    ∀ (n : Nat) (c : Nat) (l : List Nat) (s : Nat), ChainPrefix fat c l → n ≤ l.length →
      (seekLoop fat n c s).2 = s + n
        ∧ ChainPrefix fat (seekLoop fat n c s).1 (l.drop n) := by
  intro n
  induction n with
  | zero => intro c l s h _; simpa [seekLoop] using h
  | succ n ih =>
    intro c l s h hn
    cases l with
    | nil => simp at hn
    | cons x rest =>
      obtain ⟨_, hne, hrest⟩ := h
      have hcond : (c != 0xFFF) = true := by simpa using hne
      have := ih (fatGet fat c) rest (s + 1) hrest (by simpa using hn)
      rw [seekLoop, if_pos hcond, List.drop_succ_cons]
      refine ⟨?_, this.2⟩
      rw [this.1]
      omega

theorem readLoop_chain (fat data : Region) (cs toRead : Nat) (hcs : 0 < cs)
    (hcs31 : cs < 2 ^ 31) (htr : toRead < 2 ^ 32) :
    ∀ (l : List Nat) (c fco co h : Nat) (m : List Nat) (fuel : Nat),
      ChainPrefix fat c l → (∀ x ∈ l, 2 ≤ x) → co < cs → h ≤ toRead →
      (toRead - h) + co ≤ l.length * cs → l.length ≤ fuel →
      readLoop fat data cs toRead fuel
          { cluster := c, fileClusterOffset := fco, clusterOffset := co } h m
        = some (m ++ ((chainBytes data cs l).drop co).take (toRead - h)) := by
  intro l
  induction l with
  | nil =>
    intro c fco co h m fuel _ _ _ hh hlen _
    have heq : h = toRead := by simp at hlen; omega
    subst heq
    cases fuel <;> simp [readLoop]
  | cons x rest ih =>
    intro c fco co h m fuel hp hge hco hh hlen hfuel
    obtain ⟨hx, hne, hrest⟩ := hp
    subst hx
    by_cases heq : h = toRead
    · subst heq
      cases fuel <;> simp [readLoop]
    · cases fuel with
      | zero => simp at hfuel
      | succ fuel =>
        have hcond : (x != 0xFFF && h != toRead) = true := by
          simp [hne, heq]
        have hx2 : 2 ≤ x := hge x (List.mem_cons_self _ _)
        have hrs : min (cs - co) (toRead - h) < 2 ^ 31 := by omega
        have hlen' : (rest.length + 1) * cs = rest.length * cs + cs := by ring
        simp only [List.length_cons] at hlen hfuel
        rw [hlen'] at hlen
        simp only [readLoop, hcond, if_true, readCluster]
        rw [intOfSize_small _ hrs, Nat.mod_eq_of_lt (by omega),
          memRead_cluster data x cs co _ hx2 (by omega)]
        rw [ih (fatGet fat x) fco 0 _ _ fuel hrest
          (fun y hy => hge y (List.mem_cons_of_mem _ hy)) hcs (by omega) (by omega) (by omega)]
        simp only [List.drop_zero, chainBytes, List.append_assoc]
        congr 2
        rw [List.drop_append_of_le_length (by rw [clusterBytes_length]; omega),
          List.take_append_eq_append_take, List.length_drop, clusterBytes_length]
        by_cases hcase : toRead - h ≤ cs - co
        · rw [Nat.min_eq_right hcase]
          have e1 : toRead - (h + (toRead - h)) = 0 := by omega
          have e2 : toRead - h - (cs - co) = 0 := by omega
          rw [e1, e2]
        · have hcase' : cs - co ≤ toRead - h := by omega
          rw [Nat.min_eq_left hcase']
          have e1 : toRead - (h + (cs - co)) = toRead - h - (cs - co) := by omega
          rw [e1]
          congr 1
          rw [List.take_of_length_le (by rw [List.length_drop, clusterBytes_length]),
            List.take_of_length_le (by rw [List.length_drop, clusterBytes_length]; omega)]

theorem seek_chainPrefix (fat : Region) (c cs offset : Nat) (l : List Nat)
    (hcs32 : cs < 2 ^ 32) (hoff : offset < 2 ^ 32)
    (hp : ChainPrefix fat c l) (hk : offset / cs ≤ l.length) :
    ∃ c', seek fat c cs offset
        = { cluster := c', fileClusterOffset := offset / cs * cs,
            clusterOffset := offset % cs }
      ∧ ChainPrefix fat c' (l.drop (offset / cs)) := by
  have hk32 : offset / cs % 2 ^ 32 = offset / cs :=
    Nat.mod_eq_of_lt (lt_of_le_of_lt (Nat.div_le_self _ _) hoff)
  have hd := ChainPrefix.drop (offset / cs) c l 0 hp hk
  have hmul : offset / cs * cs ≤ offset := Nat.div_mul_le_self offset cs
  refine ⟨(seekLoop fat (offset / cs) c 0).1, ?_, hd.2⟩
  simp only [seek, hk32, hd.1, Nat.zero_add]
  rw [Nat.mod_eq_of_lt (show offset / cs * cs < 2 ^ 64 by omega),
    Nat.mod_eq_of_lt hoff, Nat.mod_eq_of_lt hcs32]

theorem dumpRegularFile_chain (fat data : Region) (file : FileEntry) (cs n offset : Nat)
    (l : List Nat) (fuel : Nat) (hcs : 0 < cs) (hcs31 : cs < 2 ^ 31)
    (hsize : file.size < 2 ^ 32) (hp : ChainPrefix fat file.firstDataClusterLow l)
    (hge : ∀ x ∈ l, 2 ≤ x) (hlen : file.size ≤ l.length * cs)
    (hoff : offset < file.size) (hfuel : l.length ≤ fuel) :
    dumpRegularFile fuel fat data file cs n offset
      = some (Ret.ok (((chainBytes data cs l).drop offset).take (min n (file.size - offset)))) := by
  have hk : offset / cs < l.length :=
    Nat.div_lt_of_lt_mul (by rw [Nat.mul_comm]; omega)
  obtain ⟨c', hseek, hp'⟩ :=
    seek_chainPrefix fat file.firstDataClusterLow cs offset l (by omega) (by omega) hp
      (by omega)
  have hdm : offset / cs * cs + offset % cs = offset := by
    rw [Nat.mul_comm]; exact Nat.div_add_mod offset cs
  have hmod : offset % cs < cs := Nat.mod_lt _ hcs
  have hc1 : (file.size == 0 || decide (file.size ≤ offset)) = false := by
    simp only [Bool.or_eq_false_iff, beq_eq_false_iff_ne, decide_eq_false_iff_not]
    omega
  have hsub : (l.length - offset / cs) * cs = l.length * cs - offset / cs * cs :=
    Nat.sub_mul _ _ _
  have hrun := readLoop_chain fat data cs (min (file.size - offset) n) hcs hcs31 (by omega)
    (l.drop (offset / cs)) c' (offset / cs * cs) (offset % cs) 0 [] fuel hp'
    (fun x hx => hge x (List.mem_of_mem_drop hx)) hmod (by omega)
    (by rw [List.length_drop, hsub]; omega)
    (by rw [List.length_drop]; exact le_trans (Nat.sub_le _ _) hfuel)
  unfold dumpRegularFile
  rw [if_neg (by simpa using hc1)]
  simp only [hseek, hdm]
  rw [Nat.mod_eq_of_lt (show offset < 2 ^ 64 by omega)]
  simp only [bne_self_eq_false, Bool.false_eq_true, if_false, hrun, Option.map_some',
    List.nil_append, Nat.sub_zero]
  rw [← chainBytes_drop data cs l (offset / cs) (by omega), List.drop_drop,
    Nat.min_comm, hdm]


/-! ## Storing into the data region -/

theorem memWrite_length (bs : List Nat) : ∀ (r : Region) (a : Int),
    (memWrite r a bs).length = r.length := by
  induction bs with
  | nil => intro r a; rfl
  | cons b bs ih =>
    intro r a
    rw [memWrite, ih]
    split <;> simp

theorem memWrite_getD (bs : List Nat) : ∀ (r : Region) (a j : Nat),
    a + bs.length ≤ r.length →
    (memWrite r (a : Int) bs).getD j 0
      = if a ≤ j ∧ j < a + bs.length then bs.getD (j - a) 0 else r.getD j 0 := by
  induction bs with
  | nil =>
    intro r a j _
    have h : ¬ (a ≤ j ∧ j < a + ([] : List Nat).length) := by simp
    rw [if_neg h]
    rfl
  | cons b bs ih =>
    intro r a j hlen
    simp only [List.length_cons] at hlen
    have h0 : (0 : Int) ≤ (a : Int) := by omega
    have e : ((a : Int) + 1) = ((a + 1 : Nat) : Int) := by push_cast; rfl
    rw [memWrite, if_pos h0, e, Int.toNat_ofNat, ih _ _ _ (by rw [List.length_set]; omega)]
    simp only [List.length_cons]
    by_cases hj : a = j
    · subst hj
      have h1 : ¬ (a + 1 ≤ a ∧ a < a + 1 + bs.length) := by omega
      have h2 : a ≤ a ∧ a < a + (bs.length + 1) := by omega
      rw [if_neg h1, if_pos h2, getD_set_eq _ _ _ (by omega)]
      simp
    · rw [getD_set_ne _ _ _ _ hj]
      by_cases hin : a + 1 ≤ j ∧ j < a + 1 + bs.length
      · have h2 : a ≤ j ∧ j < a + (bs.length + 1) := by omega
        rw [if_pos hin, if_pos h2]
        have e2 : j - a = (j - (a + 1)) + 1 := by omega
        rw [e2, List.getD_cons_succ]
      · have h2 : ¬ (a ≤ j ∧ j < a + (bs.length + 1)) := by omega
        rw [if_neg hin, if_neg h2]

theorem cluster_end_le (c cs maxCluster dlen : Nat) (hc2 : 2 ≤ c) (hc : c < maxCluster)
    (hdata : (maxCluster - 2) * cs ≤ dlen) : (c - 2) * cs + cs ≤ dlen := by
  have h1 : (c - 2 + 1) * cs ≤ (maxCluster - 2) * cs := Nat.mul_le_mul_right cs (by omega)
  have h2 : (c - 2 + 1) * cs = (c - 2) * cs + cs := by ring
  omega

theorem cluster_disjoint (x c cs k k' : Nat) (hx : 2 ≤ x) (hc : 2 ≤ c) (hne : x ≠ c)
    (hk : k < cs) (hk' : k' < cs) : (x - 2) * cs + k ≠ (c - 2) * cs + k' := by
  rcases Nat.lt_or_gt_of_ne hne with h | h
  · have h1 : (x - 2 + 1) * cs ≤ (c - 2) * cs := Nat.mul_le_mul_right cs (by omega)
    have h2 : (x - 2 + 1) * cs = (x - 2) * cs + cs := by ring
    omega
  · have h1 : (c - 2 + 1) * cs ≤ (x - 2) * cs := Nat.mul_le_mul_right cs (by omega)
    have h2 : (c - 2 + 1) * cs = (c - 2) * cs + cs := by ring
    omega

theorem clusterBytes_memWrite_same (data : Region) (c cs : Nat) (chunk : List Nat)
    (hc : 2 ≤ c) (hlen : chunk.length ≤ cs) (hin : (c - 2) * cs + cs ≤ data.length) :
    (clusterBytes (memWrite data (clusterAddr c cs 0) chunk) cs c).take chunk.length
      = chunk := by
  rw [clusterAddr_of_ge c cs 0 hc]
  apply List.ext_getElem
  · simp [clusterBytes]; omega
  · intro i h1 h2
    simp only [clusterBytes, List.getElem_take, List.getElem_map, List.getElem_range]
    rw [memWrite_getD _ _ _ _ (by omega), if_pos (by omega)]
    have e : (c - 2) * cs + i - ((c - 2) * cs + 0) = i := by omega
    rw [e, List.getD_eq_getElem _ _ h2]

theorem clusterBytes_memWrite_other (data : Region) (c x cs co : Nat) (chunk : List Nat)
    (hc : 2 ≤ c) (hx : 2 ≤ x) (hne : x ≠ c) (hlen : co + chunk.length ≤ cs)
    (hin : (c - 2) * cs + cs ≤ data.length) :
    clusterBytes (memWrite data (clusterAddr c cs co) chunk) cs x = clusterBytes data cs x := by
  rw [clusterAddr_of_ge c cs co hc]
  unfold clusterBytes
  apply List.map_congr_left
  intro k hk
  have hk' : k < cs := List.mem_range.1 hk
  rw [memWrite_getD _ _ _ _ (by omega)]
  rw [if_neg]
  intro h
  have := cluster_disjoint x c cs k ((x - 2) * cs + k - ((c - 2) * cs)) hx hc hne hk' (by omega)
  omega


/-! ## Allocation -/

theorem getFreeClusterFrom_spec (fat : Region) : ∀ (n i : Nat),
    (∃ j, i ≤ j ∧ j < i + n ∧ fatGet fat j = 0) →
    i ≤ getFreeClusterFrom fat n i ∧ getFreeClusterFrom fat n i < i + n
      ∧ fatGet fat (getFreeClusterFrom fat n i) = 0 := by
  intro n
  induction n with
  | zero => intro i ⟨j, h1, h2, _⟩; omega
  | succ n ih =>
    intro i ⟨j, h1, h2, h3⟩
    by_cases hi : fatGet fat i = 0
    · have hcond : (fatGet fat i == 0) = true := by simpa using hi
      rw [getFreeClusterFrom, if_pos hcond]
      exact ⟨le_refl _, by omega, hi⟩
    · have hcond : (fatGet fat i == 0) = false := by simpa using hi
      simp only [getFreeClusterFrom, hcond, Bool.false_eq_true, if_false]
      have hji : j ≠ i := fun e => hi (e ▸ h3)
      have := ih (i + 1) ⟨j, by omega, by omega, h3⟩
      omega

theorem getFreeClusterFrom_none (fat : Region) : ∀ (n i : Nat),
    (∀ j, i ≤ j → j < i + n → fatGet fat j ≠ 0) → getFreeClusterFrom fat n i = 0xfff := by
  intro n
  induction n with
  | zero => intro i _; rfl
  | succ n ih =>
    intro i h
    have hcond : (fatGet fat i == 0) = false := by simpa using h i (le_refl _) (by omega)
    simp only [getFreeClusterFrom, hcond, Bool.false_eq_true, if_false]
    exact ih (i + 1) (fun j h1 h2 => h j (by omega) (by omega))

theorem freeCount_pos_exists (fat : Region) (maxCluster : Nat)
    (h : 0 < freeCount fat maxCluster) :
    ∃ j, 2 ≤ j ∧ j < maxCluster ∧ fatGet fat j = 0 := by
  unfold freeCount at h
  obtain ⟨j, hj, hp⟩ := List.countP_pos_iff.1 h
  simp only [Bool.and_eq_true, decide_eq_true_eq, beq_iff_eq] at hp
  exact ⟨j, hp.1, List.mem_range.1 hj, hp.2⟩

theorem getFreeCluster_spec (fat : Region) (maxCluster : Nat)
    (h0 : fatGet fat 0 ≠ 0) (h1 : fatGet fat 1 ≠ 0) (h : 0 < freeCount fat maxCluster) :
    2 ≤ getFreeCluster fat maxCluster ∧ getFreeCluster fat maxCluster < maxCluster
      ∧ fatGet fat (getFreeCluster fat maxCluster) = 0 := by
  obtain ⟨j, hj2, hjm, hjz⟩ := freeCount_pos_exists fat maxCluster h
  have := getFreeClusterFrom_spec fat maxCluster 0 ⟨j, by omega, by omega, hjz⟩
  unfold getFreeCluster
  refine ⟨?_, by omega, this.2.2⟩
  by_contra hlt
  have hcases : getFreeClusterFrom fat maxCluster 0 = 0 ∨ getFreeClusterFrom fat maxCluster 0 = 1 := by
    omega
  rcases hcases with e | e
  · rw [e] at this; exact h0 this.2.2
  · rw [e] at this; exact h1 this.2.2

theorem freeCount_add_of_iff (fat fat' : Region) (maxCluster : Nat) (l : List Nat)
    (hnd : l.Nodup) (hr : ∀ x ∈ l, 2 ≤ x ∧ x < maxCluster)
    (hold : ∀ x ∈ l, fatGet fat x ≠ 0) (hnew : ∀ x ∈ l, fatGet fat' x = 0)
    (hf : ∀ j, j ∉ l → (fatGet fat' j = 0 ↔ fatGet fat j = 0)) :
    freeCount fat' maxCluster = freeCount fat maxCluster + l.length := by
  unfold freeCount
  apply countP_range_nodup maxCluster l _ _ hnd
  · intro x hx
    refine ⟨(hr x hx).2, ?_, ?_⟩
    · simp [hold x hx]
    · simp [hnew x hx, (hr x hx).1]
  · intro j hj
    have e : (fatGet fat' j == 0) = (fatGet fat j == 0) := by
      rw [Bool.eq_iff_iff]
      simpa using hf j hj
    simp only [e]

/-- The FAT after the allocation of the free cluster `d` as the successor of `c`. -/
theorem alloc_link (fat : Region) (maxCluster c d : Nat) (hb : IsBytes fat)
    (hfat : maxCluster * 3 ≤ fat.length * 2) (hmax : maxCluster ≤ 0xFFF)
    (hc2 : 2 ≤ c) (hc : c < maxCluster) (hcv : fatGet fat c = 0xFFF)
    (hd2 : 2 ≤ d) (hd : d < maxCluster) (hdv : fatGet fat d = 0) :
    fatGet (fatSet (fatSet fat c d) d 0xFFF) c = d
      ∧ fatGet (fatSet (fatSet fat c d) d 0xFFF) d = 0xFFF
      ∧ (∀ j, j ≠ c → j ≠ d → fatGet (fatSet (fatSet fat c d) d 0xFFF) j = fatGet fat j)
      ∧ freeCount fat maxCluster = freeCount (fatSet (fatSet fat c d) d 0xFFF) maxCluster + 1 := by
  have hcd : c ≠ d := by
    intro e
    rw [e, hdv] at hcv
    norm_num at hcv
  have hb1 : IsBytes (fatSet fat c d) := hb.fatSet _ _
  have hinc := entry_in_bounds fat maxCluster c hfat hc
  have hind : (getFatEntry d).ptr + 1 < (fatSet fat c d).length := by
    rw [fatSet_length]; exact entry_in_bounds fat maxCluster d hfat hd
  have e1 : fatGet (fatSet (fatSet fat c d) d 0xFFF) c = d := by
    rw [fatGet_fatSet_other _ hb1 d c 0xFFF (by norm_num) hcd]
    exact fatGet_fatSet_same fat c d hinc (by omega)
  have e2 : fatGet (fatSet (fatSet fat c d) d 0xFFF) d = 0xFFF :=
    fatGet_fatSet_same _ d 0xFFF hind (by norm_num)
  have e3 : ∀ j, j ≠ c → j ≠ d →
      fatGet (fatSet (fatSet fat c d) d 0xFFF) j = fatGet fat j := by
    intro j hjc hjd
    rw [fatGet_fatSet_other _ hb1 d j 0xFFF (by norm_num) hjd,
      fatGet_fatSet_other _ hb c j d (by omega) hjc]
  refine ⟨e1, e2, e3, ?_⟩
  have := freeCount_add_of_iff (fatSet (fatSet fat c d) d 0xFFF) fat maxCluster [d]
    (List.nodup_singleton d)
    (fun x hx => by
      have : x = d := by simpa using hx
      subst this; exact ⟨hd2, hd⟩)
    (fun x hx => by
      have : x = d := by simpa using hx
      subst this; rw [e2]; norm_num)
    (fun x hx => by
      have : x = d := by simpa using hx
      subst this; exact hdv)
    (fun j hj => by
      have hjd : j ≠ d := by simpa using hj
      by_cases hjc : j = c
      · subst hjc
        rw [hcv, e1]
        constructor
        · intro h; norm_num at h
        · intro h; omega
      · rw [e3 j hjc hjd])
  simpa using this

/-! ## The loop of `writeFile` -/

theorem writeLoop_done (cs maxCluster : Nat) (bytes : List Nat) (fuel : Nat)
    (fat data : Region) (pos : ClusterPos) :
    writeLoop cs maxCluster bytes fuel fat data pos bytes.length
      = some { exit := LoopExit.done, fat := fat, data := data, written := bytes.length } := by
  cases fuel <;> simp [writeLoop]

theorem writeLoop_step_last (cs maxCluster : Nat) (bytes : List Nat) (fuel : Nat)
    (fat data : Region) (c fco written : Nat) (hw : written < bytes.length)
    (hrem : bytes.length - written ≤ cs) :
    writeLoop cs maxCluster bytes (fuel + 1) fat data
        { cluster := c, fileClusterOffset := fco, clusterOffset := 0 } written
      = some { exit := LoopExit.done, fat := fat,
               data := memWrite data (clusterAddr c cs 0) (bytes.drop written),
               written := bytes.length } := by
  have hcond : (written != bytes.length) = true := by
    simp only [bne_iff_ne, ne_eq]; omega
  have hmin : min (cs - 0) (bytes.length - written) = bytes.length - written := by
    rw [Nat.sub_zero]; exact Nat.min_eq_right hrem
  have hsum : written + (bytes.length - written) = bytes.length := by omega
  have htake : (bytes.drop written).take (bytes.length - written) = bytes.drop written :=
    List.take_of_length_le (by rw [List.length_drop])
  rw [writeLoop, if_pos hcond]
  simp only [writeCluster, hmin, hsum, bne_self_eq_false, Bool.false_eq_true, if_false, htake]
  exact writeLoop_done cs maxCluster bytes fuel fat _ _

theorem writeLoop_step_alloc (cs maxCluster : Nat) (bytes : List Nat) (fuel : Nat)
    (fat data : Region) (c fco written : Nat) (hrem : cs < bytes.length - written)
    (hend : fatGet fat c = 0xFFF) (hfree : getFreeCluster fat maxCluster ≠ 0xFFF) :
    writeLoop cs maxCluster bytes (fuel + 1) fat data
        { cluster := c, fileClusterOffset := fco, clusterOffset := 0 } written
      = writeLoop cs maxCluster bytes fuel
          (fatSet (fatSet fat c (getFreeCluster fat maxCluster))
            (getFreeCluster fat maxCluster) 0xFFF)
          (memWrite data (clusterAddr c cs 0) ((bytes.drop written).take cs))
          { cluster := getFreeCluster fat maxCluster, fileClusterOffset := fco,
            clusterOffset := 0 }
          (written + cs) := by
  have hcond : (written != bytes.length) = true := by
    simp only [bne_iff_ne, ne_eq]; omega
  have hmin : min (cs - 0) (bytes.length - written) = cs := by
    rw [Nat.sub_zero]; exact Nat.min_eq_left (by omega)
  have hcond2 : (written + cs != bytes.length) = true := by
    simp only [bne_iff_ne, ne_eq]; omega
  have hfree' : (getFreeCluster fat maxCluster == 0xFFF) = false := by
    simpa using hfree
  rw [writeLoop, if_pos hcond]
  simp only [writeCluster, hmin, hcond2, if_true, hend, beq_self_eq_true, hfree',
    Bool.false_eq_true, if_false]

theorem writeLoop_grow (cs maxCluster : Nat) (bytes : List Nat) (hmax : maxCluster ≤ 0xFFF) :
    ∀ (k : Nat) (fat data : Region) (c fco written fuel : Nat),
      IsBytes fat → maxCluster * 3 ≤ fat.length * 2 → (maxCluster - 2) * cs ≤ data.length →
      fatGet fat 0 ≠ 0 → fatGet fat 1 ≠ 0 →
      2 ≤ c → c < maxCluster → fatGet fat c = 0xFFF →
      k * cs < bytes.length - written → bytes.length - written ≤ (k + 1) * cs →
      k ≤ freeCount fat maxCluster → k + 1 ≤ fuel →
      ∃ (r : WriteLoopResult) (l : List Nat),
        writeLoop cs maxCluster bytes fuel fat data
            { cluster := c, fileClusterOffset := fco, clusterOffset := 0 } written = some r
          ∧ r.exit = LoopExit.done ∧ r.written = bytes.length
          ∧ l.length = k + 1 ∧ IsChain r.fat c l ∧ l.Nodup
          ∧ (∀ x ∈ l, 2 ≤ x ∧ x < maxCluster ∧ (x = c ∨ fatGet fat x = 0))
          ∧ (∀ j, j ∉ l → fatGet r.fat j = fatGet fat j)
          ∧ (chainBytes r.data cs l).take (bytes.length - written) = bytes.drop written
          ∧ (∀ x, 2 ≤ x → x ∉ l → clusterBytes r.data cs x = clusterBytes data cs x) := by
  intro k
  induction k with
  | zero =>
    intro fat data c fco written fuel hb hfat hdata h0 h1 hc2 hc hcv hlo hhi _ hfuel
    obtain ⟨fuel, rfl⟩ : ∃ f, fuel = f + 1 := ⟨fuel - 1, by omega⟩
    simp only [Nat.zero_mul, Nat.zero_add, Nat.one_mul] at hlo hhi
    have hcne : c ≠ 0xFFF := by omega
    have hin := cluster_end_le c cs maxCluster data.length hc2 hc hdata
    refine ⟨_, [c], writeLoop_step_last cs maxCluster bytes fuel fat data c fco written
      (by omega) hhi, rfl, rfl, rfl, ⟨rfl, hcne, hcv⟩, List.nodup_singleton c, ?_, ?_, ?_, ?_⟩
    · intro x hx
      have : x = c := by simpa using hx
      subst this
      exact ⟨hc2, hc, Or.inl rfl⟩
    · intro j _; rfl
    · have hl : (bytes.drop written).length = bytes.length - written := List.length_drop _ _
      have := clusterBytes_memWrite_same data c cs (bytes.drop written) hc2
        (by rw [hl]; exact hhi) hin
      simp only [chainBytes, List.append_nil]
      rw [← hl]
      exact this
    · intro x hx2 hx
      have hxc : x ≠ c := by simpa using hx
      exact clusterBytes_memWrite_other data c x cs 0 _ hc2 hx2 hxc
        (by rw [List.length_drop]; omega) hin
  | succ k ih =>
    intro fat data c fco written fuel hb hfat hdata h0 h1 hc2 hc hcv hlo hhi hfree hfuel
    obtain ⟨fuel, rfl⟩ : ∃ f, fuel = f + 1 := ⟨fuel - 1, by omega⟩
    have e1 : (k + 1) * cs = k * cs + cs := by ring
    have e2 : (k + 1 + 1) * cs = k * cs + cs + cs := by ring
    rw [e1] at hlo
    rw [e2] at hhi
    have hcne : c ≠ 0xFFF := by omega
    have hin := cluster_end_le c cs maxCluster data.length hc2 hc hdata
    obtain ⟨hd2, hd, hdv⟩ := getFreeCluster_spec fat maxCluster h0 h1 (by omega)
    generalize hdd : getFreeCluster fat maxCluster = d at hd2 hd hdv
    obtain ⟨hl1, hl2, hl3, hl4⟩ := alloc_link fat maxCluster c d hb hfat hmax hc2 hc hcv hd2 hd hdv
    have hcd : c ≠ d := by
      intro e
      rw [e, hdv] at hcv
      norm_num at hcv
    have hstep := writeLoop_step_alloc cs maxCluster bytes fuel fat data c fco written
      (by omega) hcv (by rw [hdd]; omega)
    rw [hdd] at hstep
    obtain ⟨r, l2, hrun, hexit, hwr, hlen, hchain, hnd, hmem, hframe, hbytes, hdframe⟩ :=
      ih (fatSet (fatSet fat c d) d 0xFFF)
        (memWrite data (clusterAddr c cs 0) ((bytes.drop written).take cs)) d fco
        (written + cs) fuel ((hb.fatSet _ _).fatSet _ _)
        (by rw [fatSet_length, fatSet_length]; exact hfat)
        (by rw [memWrite_length]; exact hdata)
        (by rw [hl3 0 (by omega) (by omega)]; exact h0)
        (by rw [hl3 1 (by omega) (by omega)]; exact h1)
        hd2 hd hl2 (by omega) (by omega) (by omega) (by omega)
    have hdmem : d ∈ l2 := by
      cases l2 with
      | nil => simp at hlen
      | cons y rest => rw [hchain.1]; exact List.mem_cons_self _ _
    have hcl2 : c ∉ l2 := by
      intro hm
      rcases (hmem c hm).2.2 with e | e
      · exact hcd e
      · rw [hl1] at e; omega
    have hchunk : ((bytes.drop written).take cs).length = cs := by
      rw [List.length_take, List.length_drop]; omega
    refine ⟨r, c :: l2, hstep.trans hrun, hexit, hwr, by simp [hlen], ?_,
      List.nodup_cons.2 ⟨hcl2, hnd⟩, ?_, ?_, ?_, ?_⟩
    · refine ⟨rfl, hcne, ?_⟩
      rw [hframe c hcl2, hl1]
      exact hchain
    · intro x hx
      rcases List.mem_cons.1 hx with rfl | hm
      · exact ⟨hc2, hc, Or.inl rfl⟩
      · obtain ⟨hx2, hxm, hor⟩ := hmem x hm
        refine ⟨hx2, hxm, Or.inr ?_⟩
        rcases hor with e | e
        · rw [e]; exact hdv
        · have hxc : x ≠ c := fun e' => hcl2 (e' ▸ hm)
          by_cases hxd : x = d
          · rw [hxd]; exact hdv
          · rw [← hl3 x hxc hxd]; exact e
    · intro j hj
      have hjc : j ≠ c := fun e => hj (e ▸ List.mem_cons_self _ _)
      have hjl : j ∉ l2 := fun hm => hj (List.mem_cons_of_mem _ hm)
      have hjd : j ≠ d := fun e => hjl (e ▸ hdmem)
      rw [hframe j hjl, hl3 j hjc hjd]
    · have hsame := clusterBytes_memWrite_same data c cs ((bytes.drop written).take cs) hc2
        (by rw [hchunk]) hin
      rw [hchunk] at hsame
      have hfull : (clusterBytes (memWrite data (clusterAddr c cs 0)
          ((bytes.drop written).take cs)) cs c).take cs
          = clusterBytes (memWrite data (clusterAddr c cs 0)
              ((bytes.drop written).take cs)) cs c :=
        List.take_of_length_le (by rw [clusterBytes_length])
      rw [hfull] at hsame
      simp only [chainBytes]
      rw [hdframe c hc2 hcl2, hsame, List.take_append_eq_append_take, hchunk,
        List.take_of_length_le (by rw [hchunk]; omega)]
      have e3 : bytes.length - written - cs = bytes.length - (written + cs) := by omega
      have e4 : (bytes.drop written).drop cs = bytes.drop (written + cs) := by
        rw [List.drop_drop]
      rw [e3, hbytes, ← e4, List.take_append_drop]
    · intro x hx2 hx
      have hxc : x ≠ c := fun e => hx (e ▸ List.mem_cons_self _ _)
      have hxl : x ∉ l2 := fun hm => hx (List.mem_cons_of_mem _ hm)
      rw [hdframe x hx2 hxl]
      exact clusterBytes_memWrite_other data c x cs 0 _ hc2 hx2 hxc
        (by rw [hchunk]; omega) hin

/-- The FAT after the allocation of the free cluster `d` as a first cluster. -/
theorem alloc_first (fat : Region) (maxCluster d : Nat) (hb : IsBytes fat)
    (hfat : maxCluster * 3 ≤ fat.length * 2)
    (hd2 : 2 ≤ d) (hd : d < maxCluster) (hdv : fatGet fat d = 0) :
    fatGet (fatSet fat d 0xFFF) d = 0xFFF
      ∧ (∀ j, j ≠ d → fatGet (fatSet fat d 0xFFF) j = fatGet fat j)
      ∧ freeCount fat maxCluster = freeCount (fatSet fat d 0xFFF) maxCluster + 1 := by
  have e2 : fatGet (fatSet fat d 0xFFF) d = 0xFFF :=
    fatGet_fatSet_same fat d 0xFFF (entry_in_bounds fat maxCluster d hfat hd) (by norm_num)
  have e3 : ∀ j, j ≠ d → fatGet (fatSet fat d 0xFFF) j = fatGet fat j :=
    fun j hj => fatGet_fatSet_other fat hb d j 0xFFF (by norm_num) hj
  refine ⟨e2, e3, ?_⟩
  have := freeCount_add_of_iff (fatSet fat d 0xFFF) fat maxCluster [d]
    (List.nodup_singleton d)
    (fun x hx => by
      have : x = d := by simpa using hx
      subst this; exact ⟨hd2, hd⟩)
    (fun x hx => by
      have : x = d := by simpa using hx
      subst this; rw [e2]; norm_num)
    (fun x hx => by
      have : x = d := by simpa using hx
      subst this; exact hdv)
    (fun j hj => by
      have hjd : j ≠ d := by simpa using hj
      rw [e3 j hjd])
  simpa using this

theorem ceil_div_bounds (n cs : Nat) (hcs : 0 < cs) (hn : 0 < n) :
    ∃ k, (n + cs - 1) / cs = k + 1 ∧ k * cs < n ∧ n ≤ (k + 1) * cs := by
  have h1 := Nat.div_add_mod (n + cs - 1) cs
  have h2 := Nat.mod_lt (n + cs - 1) hcs
  have hq : 1 ≤ (n + cs - 1) / cs := (Nat.le_div_iff_mul_le hcs).2 (by omega)
  obtain ⟨k, hk⟩ : ∃ k, (n + cs - 1) / cs = k + 1 := ⟨(n + cs - 1) / cs - 1, by omega⟩
  rw [hk] at h1
  have e1 : cs * (k + 1) = k * cs + cs := by ring
  have e2 : (k + 1) * cs = k * cs + cs := by ring
  refine ⟨k, hk, ?_, ?_⟩
  · omega
  · omega

theorem seek_zero (fat : Region) (c cs : Nat) :
    seek fat c cs 0 = { cluster := c, fileClusterOffset := 0, clusterOffset := 0 } := by
  simp [seek, seekLoop]

/-! ## The position that `seek` returns at the end of a chain -/

/-- Whatever the data region holds: a byte written at offset 512 of a file of
512 bytes in one cluster of 512 bytes goes to the address of a cluster
`0xFFF`, and the read at that offset returns no byte. -/
theorem writeFile_at_chain_end (data : Region) :
    writeFile 8 fatA data (fileA 2 512) 512 [7] 512 4
        = some { ret := Ret.ok 1, fat := fatA,
                 data := memWrite data (clusterAddr 0xFFF 512 0) [7], file := fileA 2 513 }
      ∧ dumpRegularFile 8 fatA (memWrite data (clusterAddr 0xFFF 512 0) [7]) (fileA 2 513)
          512 1 512 = some (Ret.ok []) := by
  constructor <;> rfl

/-- A write to a file without a cluster on a volume without a zero entry below
`maxCluster` is answered with `ENOSPC` and changes nothing. -/
theorem fat12_ll_write_without_cluster_full_volume (fuel : Nat) (fat data : Region)
    (file : FileEntry) (cs maxCluster : Nat) (bytes : List Nat)
    (hfc : file.firstDataClusterLow = 0) (hn : 0 < bytes.length)
    (hfull : ∀ j, j < maxCluster → fatGet fat j ≠ 0) :
    fat12_ll_write fuel fat data (some file) cs bytes 0 maxCluster
      = some (WriteReply.err Errno.ENOSPC, fat, data, some file) := by
  have hfree : getFreeCluster fat maxCluster = 0xFFF :=
    getFreeClusterFrom_none fat maxCluster 0 (fun j _ hj => hfull j (by omega))
  have hlen0 : (bytes.length == 0) = false := by
    simp only [beq_eq_false_iff_ne]; omega
  simp [fat12_ll_write, writeFile, seek_zero, hfc, hlen0, hfree]

/-! ## The first free cluster and the walk of `seek` -/

theorem getFreeClusterFrom_min (fat : Region) : ∀ (n i j : Nat),
    i ≤ j → j < getFreeClusterFrom fat n i → j < i + n → fatGet fat j ≠ 0 := by
  intro n
  induction n with
  | zero => intro i j h1 _ h3; omega
  | succ n ih =>
    intro i j h1 h2 h3
    by_cases hi : fatGet fat i = 0
    · have hcond : (fatGet fat i == 0) = true := by simpa using hi
      rw [getFreeClusterFrom, if_pos hcond] at h2
      omega
    · have hcond : (fatGet fat i == 0) = false := by simpa using hi
      rw [getFreeClusterFrom, hcond] at h2
      simp only [Bool.false_eq_true, if_false] at h2
      by_cases hji : j = i
      · rw [hji]; exact hi
      · exact ih (i + 1) j (by omega) h2 (by omega)

theorem seekLoop_walk (fat : Region) : ∀ (n c s : Nat),
    ∃ m, m ≤ n ∧ seekLoop fat n c s = ((fatGet fat)^[m] c, s + m)
      ∧ (∀ j, j < m → (fatGet fat)^[j] c ≠ 0xFFF)
      ∧ (m = n ∨ (fatGet fat)^[m] c = 0xFFF) := by
  intro n
  induction n with
  | zero =>
    intro c s
    exact ⟨0, le_refl _, rfl, fun j hj => by omega, Or.inl rfl⟩
  | succ n ih =>
    intro c s
    by_cases hc : c = 0xFFF
    · refine ⟨0, Nat.zero_le _, ?_, fun j hj => by omega, Or.inr hc⟩
      subst hc
      simp [seekLoop]
    · obtain ⟨m, hm, hrun, hbefore, hend⟩ := ih (fatGet fat c) (s + 1)
      have hcond : (c != 0xFFF) = true := by simpa using hc
      refine ⟨m + 1, by omega, ?_, ?_, ?_⟩
      · rw [seekLoop, if_pos hcond, hrun, Function.iterate_succ_apply]
        congr 1
        omega
      · intro j hj
        cases j with
        | zero => simpa using hc
        | succ j =>
          rw [Function.iterate_succ_apply]
          exact hbefore j (by omega)
      · rcases hend with e | e
        · exact Or.inl (by omega)
        · right
          rw [Function.iterate_succ_apply]
          exact e


/-! ## The name codec -/

theorem decodeStore_length : ∀ (ms : List Nat) (buf : List Nat) (cur : Nat),
    (decodeStore buf cur ms).length = buf.length := by
  intro ms
  induction ms with
  | nil => intro buf cur; rfl
  | cons w ws ih =>
    intro buf cur
    unfold decodeStore
    split
    · rw [ih]; simp
    · rw [ih]; simp

theorem decodeStore_getD_outside : ∀ (ms : List Nat) (buf : List Nat) (cur i : Nat),
    (i < cur ∨ cur + decodeLen ms ≤ i) →
    (decodeStore buf cur ms).getD i 0 = buf.getD i 0 := by
  intro ms
  induction ms with
  | nil => intro buf cur i _; rfl
  | cons w ws ih =>
    intro buf cur i h
    unfold decodeStore
    unfold decodeLen at h
    split
    · rename_i hw
      rw [if_pos hw] at h
      rw [ih _ _ _ (by omega), getD_set_ne _ _ _ _ (by omega), getD_set_ne _ _ _ _ (by omega)]
    · rename_i hw
      rw [if_neg hw] at h
      rw [ih _ _ _ (by omega), getD_set_ne _ _ _ _ (by omega)]


theorem getDOSNameBase_fst (t : MS932) (base buf : List Nat) :
    (getDOSNameBase t base buf).1 = false ↔
      (getMS932UpperCaseString t base = none
        ∨ ∃ ms, getMS932UpperCaseString t base = some ms ∧ 8 < decodeLen ms) := by
  unfold getDOSNameBase decodeLimited
  cases getMS932UpperCaseString t base with
  | none => simp
  | some ms =>
    by_cases h : decodeLen ms > 8
    · simp [h]
    · simp [h]

theorem getDOSNameBase_snd (t : MS932) (base buf ms : List Nat)
    (h : (getDOSNameBase t base buf).1 = true) (hms : getMS932UpperCaseString t base = some ms) :
    (getDOSNameBase t base buf).2 = decodeStore buf 0 ms ∧ decodeLen ms ≤ 8 := by
  unfold getDOSNameBase decodeLimited at *
  rw [hms] at h ⊢
  by_cases h8 : decodeLen ms > 8
  · simp [h8] at h
  · simp [h8]; omega


theorem decodeLen_single : ∀ (ms : List Nat), (∀ w ∈ ms, w ≤ 0xFF) → decodeLen ms = ms.length := by
  intro ms
  induction ms with
  | nil => intro _; rfl
  | cons w ws ih =>
    intro h
    have hw : ¬ w > 0xFF := by have := h w (List.mem_cons_self _ _); omega
    rw [decodeLen, if_neg hw, ih (fun x hx => h x (List.mem_cons_of_mem _ hx)), List.length_cons]
    omega

theorem decodeStore_getD_single : ∀ (ms : List Nat) (buf : List Nat) (cur i : Nat),
    (∀ w ∈ ms, w ≤ 0xFF) → i < ms.length → cur + i < buf.length →
    (decodeStore buf cur ms).getD (cur + i) 0 = ms.getD i 0 := by
  intro ms
  induction ms with
  | nil => intro buf cur i _ hi; simp at hi
  | cons w ws ih =>
    intro buf cur i h hi hb
    have hw : ¬ w > 0xFF := by have := h w (List.mem_cons_self _ _); omega
    have hws : ∀ x ∈ ws, x ≤ 0xFF := fun x hx => h x (List.mem_cons_of_mem _ hx)
    rw [decodeStore, if_neg hw]
    cases i with
    | zero =>
      rw [decodeStore_getD_outside _ _ _ _ (by omega), Nat.add_zero, getD_set_eq _ _ _ (by omega)]
      simp only [List.getD_cons_zero]
      omega
    | succ j =>
      have := ih (buf.set cur (w % 256)) (cur + 1) j hws (by simpa using hi)
        (by rw [List.length_set]; omega)
      rw [show cur + (j + 1) = cur + 1 + j by omega, this]
      simp

theorem getDOSNameDirty_length (t : MS932) (name : List Nat) :
    (getDOSNameDirty t name).2.length = 11 := by
  unfold getDOSNameDirty getDOSNameBaseExt getDOSNameBase decodeLimited
  simp only []
  repeat' split
  all_goals simp [decodeStore_length]

theorem getDOSName_length (t : MS932) (name : List Nat) :
    (getDOSName t name).2.length = 11 := by
  unfold getDOSName
  simp only []
  split
  · simp [getDOSNameDirty_length]
  · exact getDOSNameDirty_length t name


theorem getDOSName_fst (t : MS932) (name : List Nat) :
    (getDOSName t name).1 = (getDOSNameDirty t name).1 := by
  unfold getDOSName
  simp only []
  split <;> rfl

theorem getDOSName_getD_succ (t : MS932) (name : List Nat) (i : Nat) (hi : 0 < i) :
    (getDOSName t name).2.getD i 0 = (getDOSNameDirty t name).2.getD i 0 := by
  unfold getDOSName
  simp only []
  split
  · exact getD_set_ne _ _ _ _ (by omega)
  · rfl

theorem getDOSName_getD_zero (t : MS932) (name : List Nat)
    (h : (getDOSName t name).1 = true) :
    (getDOSName t name).2.getD 0 0 =
      if (getDOSNameDirty t name).2.getD 0 0 = 0xE5 then 0x05
      else (getDOSNameDirty t name).2.getD 0 0 := by
  have h1 : (getDOSNameDirty t name).1 = true := by rw [← getDOSName_fst]; exact h
  unfold getDOSName
  simp only [h1, Bool.true_and, beq_iff_eq]
  split
  · rename_i h5
    rw [getD_set_eq _ _ _ (by rw [getDOSNameDirty_length]; decide)]
  · rfl

theorem getUTF8Name_escape (t : MS932) (rest : List Nat) :
    getUTF8Name t (0x05 :: rest) = getUTF8Name t (0xE5 :: rest) := by
  unfold getUTF8Name
  simp


theorem getDOSNameDirty_one (t : MS932) (name base : List Nat)
    (hsplit : split (cstr name) 0x2E = [base]) :
    getDOSNameDirty t name = getDOSNameBase t base (List.replicate 11 0x20) := by
  unfold getDOSNameDirty
  simp only [hsplit]
  rfl

theorem getDOSNameDirty_two (t : MS932) (name base ext : List Nat) (tail : List (List Nat))
    (hsplit : split (cstr name) 0x2E = base :: ext :: tail) :
    getDOSNameDirty t name = getDOSNameBaseExt t base ext (List.replicate 11 0x20) := by
  unfold getDOSNameDirty
  simp only [hsplit]
  rfl

theorem getDOSNameBaseExt_fst (t : MS932) (base ext buf : List Nat) :
    (getDOSNameBaseExt t base ext buf).1 = false ↔
      (getDOSNameBase t base buf).1 = false
        ∨ getMS932UpperCaseString t ext = none
        ∨ ∃ ms, getMS932UpperCaseString t ext = some ms ∧ 3 < decodeLen ms := by
  unfold getDOSNameBaseExt decodeLimited
  simp only []
  cases hb : (getDOSNameBase t base buf).1 with
  | false => simp
  | true =>
    cases getMS932UpperCaseString t ext with
    | none => simp
    | some ms =>
      by_cases h : decodeLen ms > 3
      · simp [h]
      · simp [h]

theorem getDOSNameBaseExt_snd (t : MS932) (base ext buf mse : List Nat)
    (h : (getDOSNameBaseExt t base ext buf).1 = true)
    (hms : getMS932UpperCaseString t ext = some mse) :
    (getDOSNameBase t base buf).1 = true
    ∧ (getDOSNameBaseExt t base ext buf).2 = decodeStore (getDOSNameBase t base buf).2 8 mse
    ∧ decodeLen mse ≤ 3 := by
  unfold getDOSNameBaseExt decodeLimited at *
  simp only [] at *
  cases hb : (getDOSNameBase t base buf).1 with
  | false => simp [hb] at h
  | true =>
    rw [hms] at h ⊢
    by_cases h3 : decodeLen mse > 3
    · simp [hb, h3] at h
    · simp [h3]; omega


theorem getD_replicate_space (i : Nat) (hi : i < 11) : (List.replicate 11 0x20).getD i 0 = 0x20 := by
  interval_cases i <;> rfl

theorem getDOSName_space (t : MS932) (name : List Nat) (i : Nat)
    (h : (getDOSNameDirty t name).2.getD i 0 = 0x20) :
    (getDOSName t name).2.getD i 0 = 0x20 := by
  cases i with
  | zero =>
    unfold getDOSName
    simp only []
    split
    · rename_i h5
      simp only [Bool.and_eq_true, beq_iff_eq] at h5
      rw [h] at h5
      exact absurd h5.2 (by decide)
    · exact h
  | succ j => rw [getDOSName_getD_succ _ _ _ (by omega)]; exact h


theorem nextUTF8_ascii (c : Nat) (h0 : 0 < c) (h : c < 0x80) : nextUTF8 c = 1 := by
  interval_cases c <;> rfl

theorem getUnicodeFromUTF8Loop_ascii : ∀ (s : List Nat) (fuel : Nat), s.length < fuel →
    (∀ c ∈ s, 0 < c ∧ c < 0x80) → getUnicodeFromUTF8Loop fuel s = some s := by
  intro s
  induction s with
  | nil =>
    intro fuel hf _
    cases fuel with
    | zero => simp at hf
    | succ f => rfl
  | cons c cs ih =>
    intro fuel hf h
    cases fuel with
    | zero => simp at hf
    | succ f =>
      have hc := h c (List.mem_cons_self _ _)
      have h1 := nextUTF8_ascii c hc.1 hc.2
      rw [getUnicodeFromUTF8Loop]
      simp only [List.getD_cons_zero, h1]
      rw [if_neg (by decide), if_neg (by decide)]
      have : (c :: cs).drop (1 : Int).toNat = cs := rfl
      rw [this, ih f (by simpa using hf) (fun x hx => h x (List.mem_cons_of_mem _ hx))]
      rfl

theorem getUnicodeFromUTF8_ascii (s : List Nat) (h : ∀ c ∈ s, 0 < c ∧ c < 0x80) :
    getUnicodeFromUTF8 s = some s :=
  getUnicodeFromUTF8Loop_ascii s _ (Nat.lt_succ_self _) h

theorem upperCodePoint_ascii (c : Nat) (h : c < 0x80) : upperCodePoint c < 0x80 := by
  unfold upperCodePoint; split <;> omega

theorem upperCodePoint_ne (c v : Nat) (h : c ≠ v) (hv : v < 0x41 ∨ 0x5A < v) :
    upperCodePoint c ≠ v := by
  unfold upperCodePoint; split <;> omega

theorem mapToMS932_ascii (t : MS932) (ht : ∀ c, c < 0x80 → t.unicodeToMS932 c = some c) :
    ∀ (s : List Nat), (∀ c ∈ s, c < 0x80) → mapToMS932 t s = some s := by
  intro s
  induction s with
  | nil => intro _; rfl
  | cons c cs ih =>
    intro h
    rw [mapToMS932, ht c (h c (List.mem_cons_self _ _)),
      ih (fun x hx => h x (List.mem_cons_of_mem _ hx))]
    rfl

theorem getMS932UpperCaseString_ascii (t : MS932)
    (ht : ∀ c, c < 0x80 → t.unicodeToMS932 c = some c)
    (s : List Nat) (h : ∀ c ∈ s, 0 < c ∧ c < 0x80) :
    getMS932UpperCaseString t s = some (s.map upperCodePoint) := by
  rw [getMS932UpperCaseString, getUnicodeFromUTF8_ascii s h]
  apply mapToMS932_ascii t ht
  intro c hc
  obtain ⟨a, ha, rfl⟩ := List.mem_map.1 hc
  exact upperCodePoint_ascii a (h a ha).2

theorem set_length_append (pre tl : List Nat) (m v : Nat) :
    (pre ++ m :: tl).set pre.length v = pre ++ v :: tl := by
  induction pre with
  | nil => rfl
  | cons a p ih => simp [ih]

theorem decodeStore_single_eq : ∀ (ms pre mid post : List Nat), (∀ w ∈ ms, w ≤ 0xFF) →
    mid.length = ms.length →
    decodeStore (pre ++ mid ++ post) pre.length ms = pre ++ ms ++ post := by
  intro ms
  induction ms with
  | nil =>
    intro pre mid post _ hl
    have : mid = [] := List.length_eq_zero.1 hl
    subst this; rfl
  | cons w ws ih =>
    intro pre mid post h hl
    have hw : ¬ w > 0xFF := by have := h w (List.mem_cons_self _ _); omega
    have hws : ∀ x ∈ ws, x ≤ 0xFF := fun x hx => h x (List.mem_cons_of_mem _ hx)
    cases mid with
    | nil => simp at hl
    | cons m mid2 =>
      have hwm : w % 256 = w := by omega
      rw [decodeStore, if_neg hw, hwm]
      have e1 : (pre ++ m :: mid2 ++ post).set pre.length w = (pre ++ [w]) ++ mid2 ++ post := by
        simp
      rw [e1]
      have := ih (pre ++ [w]) mid2 post hws (by simp at hl; omega)
      rw [List.length_append, List.length_singleton] at this
      rw [this]
      simp

theorem getUnicodeFromDOSNameLoop_ascii (t : MS932)
    (ht : ∀ c, c < 0x80 → t.ms932ToUnicode c = some c ∧ t.isLeadByte c = false) :
    ∀ (n : Nat) (mem : List Nat), n ≤ mem.length → (∀ c ∈ mem.take n, c < 0x80) →
      getUnicodeFromDOSNameLoop t n mem = some (mem.take n) := by
  intro n
  induction n with
  | zero => intro mem _ _; rfl
  | succ n ih =>
    intro mem hl h
    cases mem with
    | nil => simp at hl
    | cons c tl =>
      have hc : c < 0x80 := h c (by simp)
      have h2 := ih tl (by simp at hl; omega) (fun x hx => h x (by simp [hx]))
      rw [getUnicodeFromDOSNameLoop]
      simp only [List.getD_cons_zero, (ht c hc).2, (ht c hc).1, List.drop_one, List.tail_cons, h2]
      simp

theorem getUTF8FromUnicode_ascii : ∀ (s : List Nat), (∀ c ∈ s, c < 0x80) →
    getUTF8FromUnicode s = some s := by
  intro s
  induction s with
  | nil => intro _; rfl
  | cons c cs ih =>
    intro h
    have hc : c < 0x80 := h c (List.mem_cons_self _ _)
    have hm : c % 256 = c := by omega
    rw [getUTF8FromUnicode, utf8Bytes, if_pos hc, hm,
      ih (fun x hx => h x (List.mem_cons_of_mem _ hx))]
    rfl

theorem removeTrailingSpaces_append (a : List Nat) (k : Nat) (h : ∀ c ∈ a, c ≠ 0x20) :
    removeTrailingSpaces (a ++ List.replicate k 0x20) = a := by
  unfold removeTrailingSpaces
  induction a with
  | nil => cases k <;> simp [List.replicate]
  | cons c cs ih =>
    have hc := h c (List.mem_cons_self _ _)
    simp only [List.cons_append]
    rw [List.takeWhile_cons_of_pos (by simpa using hc),
      ih (fun x hx => h x (List.mem_cons_of_mem _ hx))]

theorem cstr_of_pos (s : List Nat) (h : ∀ c ∈ s, 0 < c) : cstr s = s := by
  unfold cstr
  rw [List.takeWhile_eq_self_iff]
  intro c hc
  have := h c hc
  simp; omega

theorem splitLoop_append (term : Nat) : ∀ (s rest cur : List Nat), (∀ c ∈ s, c ≠ term) →
    splitLoop term (s ++ rest) cur = splitLoop term rest (cur ++ s) := by
  intro s
  induction s with
  | nil => intro rest cur _; simp
  | cons c cs ih =>
    intro rest cur h
    have hc := h c (List.mem_cons_self _ _)
    simp only [List.cons_append]
    rw [splitLoop, if_neg (by simp [hc]), ih _ _ (fun x hx => h x (List.mem_cons_of_mem _ hx))]
    simp


theorem nextUTF8_cases (c : Nat) :
    nextUTF8 c = 0 ∧ c = 0 ∨ nextUTF8 c = -1 ∨ nextUTF8 c = 1 ∨ nextUTF8 c = 2 ∨ nextUTF8 c = 3
      ∨ nextUTF8 c = 4 := by
  unfold nextUTF8
  split
  · rename_i h; simp at h; simp [h]
  · split_ifs <;> simp

theorem getUnicodeFromUTF8Loop_fuel : ∀ (fuel1 fuel2 : Nat) (s : List Nat),
    s.length < fuel1 → s.length < fuel2 →
    getUnicodeFromUTF8Loop fuel1 s = getUnicodeFromUTF8Loop fuel2 s := by
  intro fuel1
  induction fuel1 with
  | zero => intro _ _ h; simp at h
  | succ f1 ih =>
    intro fuel2 s h1 h2
    cases fuel2 with
    | zero => simp at h2
    | succ f2 =>
      rw [getUnicodeFromUTF8Loop, getUnicodeFromUTF8Loop]
      split
      · rfl
      · split
        · rfl
        · rename_i h0 hm
          have hlen : (s.drop (nextUTF8 (s.getD 0 0)).toNat).length < s.length := by
            cases s with
            | nil => exact absurd rfl h0
            | cons c cs =>
              simp only [List.getD_cons_zero] at h0 hm ⊢
              rcases nextUTF8_cases c with h | h | h | h | h | h
              · exact absurd h.1 h0
              · exact absurd h hm
              all_goals rw [h]; simp [List.length_drop]; try omega
          rw [ih f2 _ (by omega) (by omega)]


/-- The eleven bytes that hold an ASCII base and extension. -/
theorem getDOSNameDirty_ascii (t : MS932)
    (ht : ∀ c, c < 0x80 → t.unicodeToMS932 c = some c)
    (base ext : List Nat)
    (hbase : ∀ c ∈ base, 0 < c ∧ c < 0x80 ∧ c ≠ 0x2E)
    (hext : ∀ c ∈ ext, 0 < c ∧ c < 0x80 ∧ c ≠ 0x2E)
    (hb1 : 1 ≤ base.length) (hb8 : base.length ≤ 8) (he3 : ext.length ≤ 3) :
    getDOSNameDirty t (if ext = [] then base else base ++ 0x2E :: ext) =
      (true, base.map upperCodePoint ++ List.replicate (8 - base.length) 0x20
        ++ (ext.map upperCodePoint ++ List.replicate (3 - ext.length) 0x20)) := by
  have hbne : base ≠ [] := by intro h; rw [h] at hb1; simp at hb1
  have hUb : ∀ w ∈ base.map upperCodePoint, w ≤ 0xFF := by
    intro w hw
    obtain ⟨a, ha, rfl⟩ := List.mem_map.1 hw
    have := upperCodePoint_ascii a (hbase a ha).2.1
    omega
  have hUe : ∀ w ∈ ext.map upperCodePoint, w ≤ 0xFF := by
    intro w hw
    obtain ⟨a, ha, rfl⟩ := List.mem_map.1 hw
    have := upperCodePoint_ascii a (hext a ha).2.1
    omega
  have hmb := getMS932UpperCaseString_ascii t ht base (fun c hc => ⟨(hbase c hc).1, (hbase c hc).2.1⟩)
  have hme := getMS932UpperCaseString_ascii t ht ext (fun c hc => ⟨(hext c hc).1, (hext c hc).2.1⟩)
  have hlb : decodeLen (base.map upperCodePoint) = base.length := by
    rw [decodeLen_single _ hUb, List.length_map]
  have hle : decodeLen (ext.map upperCodePoint) = ext.length := by
    rw [decodeLen_single _ hUe, List.length_map]
  -- the base written into eleven spaces
  have hstore1 : decodeStore (List.replicate 11 0x20) 0 (base.map upperCodePoint) =
      base.map upperCodePoint ++ List.replicate (11 - base.length) 0x20 := by
    have := decodeStore_single_eq (base.map upperCodePoint) [] (List.replicate base.length 0x20)
      (List.replicate (11 - base.length) 0x20) hUb (by simp)
    rw [List.nil_append, ← List.replicate_add, List.length_nil,
      show base.length + (11 - base.length) = 11 by omega] at this
    rw [this, List.nil_append]
  have hbaseRes : getDOSNameBase t base (List.replicate 11 0x20) =
      (true, base.map upperCodePoint ++ List.replicate (11 - base.length) 0x20) := by
    rw [getDOSNameBase, hmb]
    simp only [decodeLimited]
    rw [hlb, if_neg (by omega), hstore1]
  by_cases hext0 : ext = []
  · subst hext0
    rw [if_pos rfl]
    have hsplit : split (cstr base) 0x2E = [base] := by
      rw [cstr_of_pos base (fun c hc => (hbase c hc).1), split]
      have := splitLoop_append 0x2E base [] [] (fun c hc => (hbase c hc).2.2)
      rw [List.append_nil, List.nil_append] at this
      rw [this, splitLoop]
      cases base with
      | nil => exact absurd rfl hbne
      | cons a b => rfl
    rw [getDOSNameDirty_one t _ base hsplit, hbaseRes]
    simp only [List.map_nil, List.nil_append, List.length_nil, Nat.sub_zero]
    rw [List.append_assoc, ← List.replicate_add, show 8 - base.length + 3 = 11 - base.length by omega]
  · rw [if_neg hext0]
    have hsplit : split (cstr (base ++ 0x2E :: ext)) 0x2E = [base, ext] := by
      rw [cstr_of_pos _ (by
        intro c hc
        rcases List.mem_append.1 hc with h | h
        · exact (hbase c h).1
        · rcases List.mem_cons.1 h with h | h
          · rw [h]; decide
          · exact (hext c h).1), split]
      rw [splitLoop_append 0x2E base _ [] (fun c hc => (hbase c hc).2.2), List.nil_append,
        splitLoop]
      have hbe : base.isEmpty = false := by
        cases base with
        | nil => exact absurd rfl hbne
        | cons a b => rfl
      simp only [beq_self_eq_true, if_true, hbe, Bool.false_eq_true, if_false]
      have := splitLoop_append 0x2E ext [] [] (fun c hc => (hext c hc).2.2)
      rw [List.append_nil, List.nil_append] at this
      rw [this, splitLoop]
      cases ext with
      | nil => exact absurd rfl hext0
      | cons a b => rfl
    rw [getDOSNameDirty_two t _ base ext [] hsplit, getDOSNameBaseExt, hbaseRes]
    simp only [Bool.not_true, Bool.false_eq_true, if_false, hme, decodeLimited]
    rw [hle, if_neg (by omega)]
    have := decodeStore_single_eq (ext.map upperCodePoint)
      (base.map upperCodePoint ++ List.replicate (8 - base.length) 0x20)
      (List.replicate ext.length 0x20) (List.replicate (3 - ext.length) 0x20) hUe (by simp)
    have hlen : (base.map upperCodePoint ++ List.replicate (8 - base.length) 0x20).length = 8 := by
      simp; omega
    rw [hlen] at this
    have hsp : base.map upperCodePoint ++ List.replicate (8 - base.length) 0x20
        ++ List.replicate ext.length 0x20 ++ List.replicate (3 - ext.length) 0x20
        = base.map upperCodePoint ++ List.replicate (11 - base.length) 0x20 := by
      rw [List.append_assoc, List.append_assoc, ← List.replicate_add, ← List.replicate_add,
        show 8 - base.length + (ext.length + (3 - ext.length)) = 11 - base.length by omega]
    rw [hsp] at this
    rw [this, List.append_assoc]

theorem getUTF8Name_ascii_parts (t : MS932)
    (ht : ∀ c, c < 0x80 → t.ms932ToUnicode c = some c ∧ t.isLeadByte c = false)
    (X Y : List Nat) (hXlen : X.length = 8) (hYlen : Y.length = 3)
    (hX : ∀ c ∈ X, c < 0x80) (hY : ∀ c ∈ Y, c < 0x80) (h05 : X.getD 0 0 ≠ 0x05) :
    getUTF8Name t (X ++ Y) =
      if Y.getD 0 0 == 0x20 && Y.getD 1 0 == 0x20 && Y.getD 2 0 == 0x20 then
        some (removeTrailingSpaces X)
      else some (removeTrailingSpaces X ++ [0x2E] ++ removeTrailingSpaces Y) := by
  have hd0 : (X ++ Y).getD 0 0 = X.getD 0 0 := by
    cases X with
    | nil => simp at hXlen
    | cons a b => rfl
  have hbase : getUnicodeFromDOSName t (X ++ Y) 8 = some X := by
    rw [getUnicodeFromDOSName, if_neg (by decide),
      getUnicodeFromDOSNameLoop_ascii t ht 8 _ (by rw [List.length_append, hXlen]; omega)
        (by rw [List.take_left' hXlen]; exact hX),
      List.take_left' hXlen]
  have htake : Y.take 3 = Y := List.take_of_length_le (by rw [hYlen])
  have hext : getUnicodeFromDOSName t ((X ++ Y).drop 8) 3 = some Y := by
    rw [List.drop_left' hXlen, getUnicodeFromDOSName, if_neg (by decide),
      getUnicodeFromDOSNameLoop_ascii t ht 3 _ (by rw [hYlen]) (by rw [htake]; exact hY), htake]
  have hget : ∀ i, (X ++ Y).getD (8 + i) 0 = Y.getD i 0 := by
    intro i
    rw [List.getD_append_right _ _ _ _ (by rw [hXlen]; omega), hXlen, Nat.add_sub_cancel_left]
  unfold getUTF8Name
  simp only [hd0]
  rw [if_neg (by simpa using h05)]
  simp only [hbase, getUTF8FromUnicode_ascii _ hX, Option.getD_some, hext,
    getUTF8FromUnicode_ascii _ hY]
  rw [show (8 : Nat) = 8 + 0 from rfl, show (9 : Nat) = 8 + 1 from rfl,
    show (10 : Nat) = 8 + 2 from rfl, hget, hget, hget]

theorem getUTF8Name_ascii (t : MS932)
    (ht : ∀ c, c < 0x80 → t.ms932ToUnicode c = some c ∧ t.isLeadByte c = false)
    (B E : List Nat)
    (hB : ∀ c ∈ B, c < 0x80 ∧ c ≠ 0x20) (hE : ∀ c ∈ E, c < 0x80 ∧ c ≠ 0x20)
    (hb1 : 1 ≤ B.length) (hb8 : B.length ≤ 8) (he3 : E.length ≤ 3)
    (h05 : B.getD 0 0 ≠ 0x05) :
    getUTF8Name t (B ++ List.replicate (8 - B.length) 0x20
        ++ (E ++ List.replicate (3 - E.length) 0x20)) =
      some (if E = [] then B else B ++ [0x2E] ++ E) := by
  have hXlen : (B ++ List.replicate (8 - B.length) 0x20).length = 8 := by simp; omega
  have hYlen : (E ++ List.replicate (3 - E.length) 0x20).length = 3 := by simp; omega
  have hX : ∀ c ∈ B ++ List.replicate (8 - B.length) 0x20, c < 0x80 := by
    intro c hc
    rcases List.mem_append.1 hc with h | h
    · exact (hB c h).1
    · rw [List.eq_of_mem_replicate h]; decide
  have hY : ∀ c ∈ E ++ List.replicate (3 - E.length) 0x20, c < 0x80 := by
    intro c hc
    rcases List.mem_append.1 hc with h | h
    · exact (hE c h).1
    · rw [List.eq_of_mem_replicate h]; decide
  have hd0 : (B ++ List.replicate (8 - B.length) 0x20).getD 0 0 = B.getD 0 0 := by
    cases B with
    | nil => simp at hb1
    | cons a b => rfl
  rw [getUTF8Name_ascii_parts t ht _ _ hXlen hYlen hX hY (by rw [hd0]; exact h05),
    removeTrailingSpaces_append B _ (fun c hc => (hB c hc).2),
    removeTrailingSpaces_append E _ (fun c hc => (hE c hc).2)]
  cases E with
  | nil => rfl
  | cons e0 E2 =>
    have he0 := (hE e0 (List.mem_cons_self _ _)).2
    simp only [List.cons_append, List.getD_cons_zero]
    rw [if_neg (by simp [he0]), if_neg (by simp)]

/-! ## The inode tree and the session -/

theorem Fat12Inode.eta (n : Fat12Inode) :
    Fat12Inode.mk n.file n.children n.inode n.nlookup n.zombie = n := by
  cases n; rfl

theorem setChildren_children (n : Fat12Inode) (cs : List Fat12Inode) :
    (n.setChildren cs).children = cs := rfl

theorem get?_set_self (l : List Fat12Inode) (i : Nat) (c d : Fat12Inode)
    (h : l.get? i = some c) : (l.set i d).get? i = some d := by
  have hi : i < l.length := by
    rcases Nat.lt_or_ge i l.length with hlt | hge
    · exact hlt
    · rw [List.get?_eq_none.2 hge] at h; simp at h
  rw [List.get?_eq_getElem?, List.getElem?_set_self hi]

mutual
theorem findInode_at (ino : Nat) : ∀ (root : Fat12Inode) (p : NodePtr) (n : Fat12Inode),
    root.findInode ino = some (p, n) → root.at p = some n ∧ n.inode = ino
  | .mk file children inode nlookup zombie, p, n, h => by
    rw [Fat12Inode.findInode] at h
    split at h
    · rename_i he
      simp only [Option.some.injEq, Prod.mk.injEq] at h
      obtain ⟨rfl, rfl⟩ := h
      exact ⟨rfl, by simp at he; exact he.symm⟩
    · obtain ⟨j, q, c, rfl, hc, hat, hino⟩ := findInodeIn_at ino 0 children p n h
      refine ⟨?_, hino⟩
      rw [Fat12Inode.at]
      simp only [Fat12Inode.children, Nat.zero_add, hc, hat]
theorem findInodeIn_at (ino : Nat) : ∀ (k : Nat) (cs : List Fat12Inode) (p : NodePtr)
    (n : Fat12Inode), findInodeIn ino k cs = some (p, n) →
    ∃ j q c, p = (k + j) :: q ∧ cs.get? j = some c ∧ c.at q = some n ∧ n.inode = ino
  | _, [], p, n, h => by simp [findInodeIn] at h
  | k, c :: cs, p, n, h => by
    rw [findInodeIn] at h
    split at h
    · rename_i q m hf
      simp only [Option.some.injEq, Prod.mk.injEq] at h
      obtain ⟨rfl, rfl⟩ := h
      obtain ⟨h1, h2⟩ := findInode_at ino c q m hf
      exact ⟨0, q, c, rfl, rfl, h1, h2⟩
    · obtain ⟨j, q, c2, rfl, hc, hat, hino⟩ := findInodeIn_at ino (k + 1) cs p n h
      exact ⟨j + 1, q, c2, by simp; omega, by simpa using hc, hat, hino⟩
end

theorem at_append : ∀ (p r : NodePtr) (root n : Fat12Inode), root.at p = some n →
    root.at (p ++ r) = n.at r := by
  intro p
  induction p with
  | nil => intro r root n h; simp only [Fat12Inode.at, Option.some.injEq] at h; rw [h]; rfl
  | cons i p ih =>
    intro r root n h
    rw [Fat12Inode.at] at h
    rw [List.cons_append, Fat12Inode.at]
    cases hc : root.children.get? i with
    | none => rw [hc] at h; simp at h
    | some c => rw [hc] at h; simp only [] at h ⊢; exact ih r c n h

theorem at_child (p : NodePtr) (root n c : Fat12Inode) (i : Nat) (h : root.at p = some n)
    (hc : n.children.get? i = some c) : root.at (p ++ [i]) = some c := by
  rw [at_append p [i] root n h, Fat12Inode.at, hc]
  rfl

theorem at_update (g : Fat12Inode → Fat12Inode) : ∀ (p : NodePtr) (root n : Fat12Inode),
    root.at p = some n → (root.update p g).at p = some (g n) := by
  intro p
  induction p with
  | nil => intro root n h; simp only [Fat12Inode.at, Option.some.injEq] at h; rw [h]; rfl
  | cons i p ih =>
    intro root n h
    rw [Fat12Inode.at] at h
    rw [Fat12Inode.update]
    cases hc : root.children.get? i with
    | none => rw [hc] at h; simp at h
    | some c =>
      rw [hc] at h
      simp only [] at h ⊢
      rw [Fat12Inode.at, setChildren_children, get?_set_self _ _ _ _ hc]
      exact ih c n h

theorem at_update_below (g : Fat12Inode → Fat12Inode) (i : Nat) :
    ∀ (p : NodePtr) (root n c : Fat12Inode), root.at p = some n →
      n.children.get? i = some c →
      (root.update (p ++ [i]) g).at p = some (n.setChildren (n.children.set i (g c))) := by
  intro p
  induction p with
  | nil =>
    intro root n c h hc
    simp only [Fat12Inode.at, Option.some.injEq] at h
    subst h
    simp only [List.nil_append, Fat12Inode.update, hc, Fat12Inode.at]
  | cons j p ih =>
    intro root n c h hc
    rw [Fat12Inode.at] at h
    rw [List.cons_append, Fat12Inode.update]
    cases hj : root.children.get? j with
    | none => rw [hj] at h; simp at h
    | some d =>
      rw [hj] at h
      simp only [] at h ⊢
      rw [Fat12Inode.at, setChildren_children, get?_set_self _ _ _ _ hj]
      exact ih d n c h hc

/-! ## The scans over `children` -/

theorem scanChildren_some (pred : Fat12Inode → Bool) : ∀ (l : List Fat12Inode) (k j : Nat)
    (c : Fat12Inode), scanChildren pred k l = some (j, c) →
    ∃ i, j = k + i ∧ l.get? i = some c ∧ pred c = true
      ∧ ∀ i2 c2, i2 < i → l.get? i2 = some c2 → pred c2 = false := by
  intro l
  induction l with
  | nil => intro k j c h; simp [scanChildren] at h
  | cons a l ih =>
    intro k j c h
    rw [scanChildren] at h
    split at h
    · rename_i hp
      simp only [Option.some.injEq, Prod.mk.injEq] at h
      obtain ⟨rfl, rfl⟩ := h
      exact ⟨0, rfl, rfl, hp, fun i2 c2 h2 => by omega⟩
    · rename_i hp
      obtain ⟨i, rfl, hc, hpc, hbefore⟩ := ih (k + 1) j c h
      refine ⟨i + 1, by omega, by simpa using hc, hpc, ?_⟩
      intro i2 c2 h2 hc2
      cases i2 with
      | zero =>
        simp only [List.get?_cons_zero, Option.some.injEq] at hc2
        subst hc2
        simpa using hp
      | succ i3 => exact hbefore i3 c2 (by omega) (by simpa using hc2)

theorem scanChildren_first (pred : Fat12Inode → Bool) : ∀ (l : List Fat12Inode) (k i : Nat)
    (c : Fat12Inode), l.get? i = some c → pred c = true →
    (∀ i2 c2, i2 < i → l.get? i2 = some c2 → pred c2 = false) →
    scanChildren pred k l = some (k + i, c) := by
  intro l
  induction l with
  | nil => intro k i c h; simp at h
  | cons a l ih =>
    intro k i c h hp hbefore
    rw [scanChildren]
    cases i with
    | zero =>
      simp only [List.get?_cons_zero, Option.some.injEq] at h
      subst h
      rw [if_pos hp]; rfl
    | succ i2 =>
      have ha : pred a = false := hbefore 0 a (by omega) rfl
      rw [if_neg (by simp [ha])]
      rw [ih (k + 1) i2 c (by simpa using h) hp
        (fun i3 c3 h3 hc3 => hbefore (i3 + 1) c3 (by omega) (by simpa using hc3))]
      congr 2; omega

theorem scanChildren_none (pred : Fat12Inode → Bool) : ∀ (l : List Fat12Inode) (k : Nat),
    (∀ c ∈ l, pred c = false) → scanChildren pred k l = none := by
  intro l
  induction l with
  | nil => intro k _; rfl
  | cons a l ih =>
    intro k h
    rw [scanChildren, if_neg (by simp [h a (List.mem_cons_self _ _)])]
    exact ih (k + 1) (fun c hc => h c (List.mem_cons_of_mem _ hc))

theorem scanChildren_exists (pred : Fat12Inode → Bool) : ∀ (l : List Fat12Inode) (k i : Nat)
    (c : Fat12Inode), l.get? i = some c → pred c = true →
    ∃ j d, j ≤ i ∧ scanChildren pred k l = some (k + j, d) ∧ l.get? j = some d ∧ pred d = true
      ∧ ∀ i2 c2, i2 < j → l.get? i2 = some c2 → pred c2 = false := by
  intro l
  induction l with
  | nil => intro k i c h; simp at h
  | cons a l ih =>
    intro k i c h hp
    by_cases ha : pred a = true
    · exact ⟨0, a, Nat.zero_le _, by rw [scanChildren, if_pos ha]; rfl, rfl, ha,
        fun i2 c2 h2 => by omega⟩
    · cases i with
      | zero =>
        simp only [List.get?_cons_zero, Option.some.injEq] at h
        subst h
        exact absurd hp ha
      | succ i2 =>
        obtain ⟨j, d, hj, hs, hd, hpd, hbefore⟩ := ih (k + 1) i2 c (by simpa using h) hp
        refine ⟨j + 1, d, by omega, ?_, by simpa using hd, hpd, ?_⟩
        · rw [scanChildren, if_neg ha, hs]; congr 2; omega
        · intro i3 c3 h3 hc3
          cases i3 with
          | zero =>
            simp only [List.get?_cons_zero, Option.some.injEq] at hc3
            subst hc3
            simpa using ha
          | succ i4 => exact hbefore i4 c3 (by omega) (by simpa using hc3)

theorem findInode_fst_congr (ino : Nat) (x y : Fat12Inode) (h1 : x.inode = y.inode)
    (h2 : x.children = y.children) :
    (x.findInode ino).map Prod.fst = (y.findInode ino).map Prod.fst := by
  cases x with
  | mk f c i n z =>
    cases y with
    | mk f2 c2 i2 n2 z2 =>
      simp only [Fat12Inode.inode, Fat12Inode.children] at h1 h2
      subst h1 h2
      rw [Fat12Inode.findInode, Fat12Inode.findInode]
      split
      · rfl
      · rfl

theorem findInodeIn_set_fst (ino : Nat) : ∀ (l : List Fat12Inode) (j k : Nat)
    (ch ch2 : Fat12Inode), l.get? j = some ch →
    (ch2.findInode ino).map Prod.fst = (ch.findInode ino).map Prod.fst →
    (findInodeIn ino k (l.set j ch2)).map Prod.fst = (findInodeIn ino k l).map Prod.fst := by
  intro l
  induction l with
  | nil => intro j k ch ch2 h; simp at h
  | cons a l ih =>
    intro j k ch ch2 h hf
    cases j with
    | zero =>
      simp only [List.get?_cons_zero, Option.some.injEq] at h
      subst h
      rw [List.set_cons_zero, findInodeIn, findInodeIn]
      cases h1 : ch2.findInode ino with
      | none =>
        cases h2 : a.findInode ino with
        | none => rfl
        | some r => rw [h1, h2] at hf; simp at hf
      | some r1 =>
        cases h2 : a.findInode ino with
        | none => rw [h1, h2] at hf; simp at hf
        | some r2 =>
          rw [h1, h2] at hf
          simp only [Option.map_some', Option.some.injEq] at hf
          obtain ⟨p1, n1⟩ := r1
          obtain ⟨p2, n2⟩ := r2
          simp only at hf
          subst hf
          rfl
    | succ j2 =>
      rw [List.set_cons_succ, findInodeIn, findInodeIn]
      cases h2 : a.findInode ino with
      | none => exact ih j2 (k + 1) ch ch2 (by simpa using h) hf
      | some r => rfl

theorem findInode_update_fst (ino : Nat) (g : Fat12Inode → Fat12Inode)
    (hg1 : ∀ n, (g n).inode = n.inode) (hg2 : ∀ n, (g n).children = n.children) :
    ∀ (q : NodePtr) (root : Fat12Inode),
      ((root.update q g).findInode ino).map Prod.fst = (root.findInode ino).map Prod.fst := by
  intro q
  induction q with
  | nil => intro root; exact findInode_fst_congr ino _ _ (hg1 root) (hg2 root)
  | cons j q ih =>
    intro root
    rw [Fat12Inode.update]
    cases hc : root.children.get? j with
    | none => rfl
    | some c =>
      simp only []
      cases root with
      | mk f cs i n z =>
        simp only [Fat12Inode.children] at hc
        simp only [Fat12Inode.setChildren, Fat12Inode.children, Fat12Inode.file,
          Fat12Inode.inode, Fat12Inode.nlookup, Fat12Inode.zombie]
        rw [Fat12Inode.findInode, Fat12Inode.findInode]
        split
        · rfl
        · exact findInodeIn_set_fst ino cs j 0 c _ hc (ih c)

theorem cstr_idem (s : List Nat) : cstr (cstr s) = cstr s := by
  unfold cstr
  rw [List.takeWhile_eq_self_iff]
  intro c hc
  exact List.mem_takeWhile_imp (p := fun x => x != 0) hc

theorem strcasecmpEq_of_eq (a name : List Nat) (h : a = cstr name) :
    strcasecmpEq a name = true := by
  subst h
  unfold strcasecmpEq
  rw [cstr_idem]
  simp

theorem readEntry_rootInode (ctx : FuseContext) (root : Fat12Inode) (p : EntryPtr) :
    ({ ctx with rootInode := root } : FuseContext).readEntry p = ctx.readEntry p := by
  cases p <;> rfl

theorem isInUse_rootInode (ctx : FuseContext) (root : Fat12Inode) (i : Nat) :
    ({ ctx with rootInode := root } : FuseContext).isInUse i = ctx.isInUse i := rfl

/-- What a reply 0 of `fat12_ll_unlink` says about the session before. -/
theorem fat12_ll_unlink_ok (t : MS932) (ctx ctx2 : FuseContext) (parent : Nat)
    (name : List Nat) (h : fat12_ll_unlink t ctx parent name = (none, ctx2)) :
    ∃ p parentNode i child, ctx.rootInode.findInode parent = some (p, parentNode)
      ∧ parentNode.children.get? i = some child
      ∧ getCanonicalString t (ctx.readEntry child.file).filename = cstr name
      ∧ (∀ j c, j < i → parentNode.children.get? j = some c →
          getCanonicalString t (ctx.readEntry c.file).filename ≠ cstr name)
      ∧ ctx.isInUse child.inode = false
      ∧ ctx2 = { ctx with rootInode := ctx.rootInode.update (p ++ [i]) fun n => n.setZombie true } := by
  unfold fat12_ll_unlink at h
  cases hf : ctx.rootInode.findInode parent with
  | none => rw [hf] at h; simp at h
  | some r =>
    obtain ⟨p, parentNode⟩ := r
    rw [hf] at h
    simp only [] at h
    cases hs : scanChildren
        (fun child => getCanonicalString t (ctx.readEntry child.file).filename == cstr name)
        0 parentNode.children with
    | none => rw [hs] at h; simp at h
    | some r2 =>
      obtain ⟨i, child⟩ := r2
      rw [hs] at h
      simp only [] at h
      obtain ⟨i2, hi, hc, hp, hbefore⟩ := scanChildren_some _ _ _ _ _ hs
      rw [Nat.zero_add] at hi
      subst hi
      cases hu : ctx.isInUse child.inode with
      | true => rw [hu] at h; simp at h
      | false =>
        rw [hu] at h
        simp only [Bool.false_eq_true, if_false, Prod.mk.injEq, true_and] at h
        refine ⟨p, parentNode, i, child, rfl, hc, by simpa using hp, ?_, hu, h.symm⟩
        intro j c hj hcj
        have := hbefore j c hj hcj
        simpa using this

theorem clearZombieList_set : ∀ (l : List Fat12Inode) (j : Nat) (c d : Fat12Inode),
    l.get? j = some c → d.clearZombie = c.clearZombie →
    clearZombieList (l.set j d) = clearZombieList l := by
  intro l
  induction l with
  | nil => intro j c d h; simp at h
  | cons a l ih =>
    intro j c d h hd
    cases j with
    | zero =>
      simp only [List.get?_cons_zero, Option.some.injEq] at h
      subst h
      rw [List.set_cons_zero, clearZombieList, clearZombieList, hd]
    | succ j2 =>
      rw [List.set_cons_succ, clearZombieList, clearZombieList,
        ih j2 c d (by simpa using h) hd]

theorem clearZombie_setZombie (n : Fat12Inode) (b : Bool) :
    (n.setZombie b).clearZombie = n.clearZombie := by
  cases n; rfl

theorem clearZombie_update (b : Bool) : ∀ (q : NodePtr) (root : Fat12Inode),
    (root.update q fun n => n.setZombie b).clearZombie = root.clearZombie := by
  intro q
  induction q with
  | nil => intro root; exact clearZombie_setZombie root b
  | cons j q ih =>
    intro root
    rw [Fat12Inode.update]
    cases hc : root.children.get? j with
    | none => rfl
    | some c =>
      simp only []
      cases root with
      | mk f cs i n z =>
        simp only [Fat12Inode.children] at hc
        simp only [Fat12Inode.setChildren, Fat12Inode.children, Fat12Inode.file,
          Fat12Inode.inode, Fat12Inode.nlookup, Fat12Inode.zombie]
        rw [Fat12Inode.clearZombie, Fat12Inode.clearZombie,
          clearZombieList_set cs j c _ hc (ih c)]

theorem setZombie_children (n : Fat12Inode) (b : Bool) : (n.setZombie b).children = n.children := by
  cases n; rfl

theorem setZombie_inode (n : Fat12Inode) (b : Bool) : (n.setZombie b).inode = n.inode := by
  cases n; rfl

theorem setZombie_file (n : Fat12Inode) (b : Bool) : (n.setZombie b).file = n.file := by
  cases n; rfl

theorem setZombie_zombie (n : Fat12Inode) (b : Bool) : (n.setZombie b).zombie = b := by
  cases n; rfl

theorem setChildren_zombie (n : Fat12Inode) (cs : List Fat12Inode) :
    (n.setChildren cs).zombie = n.zombie := by
  cases n; rfl

/-- A change of one `zombie` flag leaves the `zombie` flag of every other node. -/
theorem zombie_update_other (b : Bool) : ∀ (q q2 : NodePtr) (root : Fat12Inode), q2 ≠ q →
    ((root.update q fun n => n.setZombie b).at q2).map Fat12Inode.zombie
      = (root.at q2).map Fat12Inode.zombie := by
  intro q
  induction q with
  | nil =>
    intro q2 root hne
    cases q2 with
    | nil => exact absurd rfl hne
    | cons j r =>
      rw [Fat12Inode.update, Fat12Inode.at, Fat12Inode.at, setZombie_children]
  | cons i q ih =>
    intro q2 root hne
    rw [Fat12Inode.update]
    cases hc : root.children.get? i with
    | none => rfl
    | some c =>
      simp only []
      cases q2 with
      | nil =>
        simp only [Fat12Inode.at, Option.map_some', setChildren_zombie]
      | cons j r =>
        rw [Fat12Inode.at, Fat12Inode.at, setChildren_children]
        by_cases hji : j = i
        · subst hji
          rw [get?_set_self _ _ _ _ hc, hc]
          simp only []
          exact ih r c (fun h => hne (by rw [h]))
        · have : (root.children.set i (Fat12Inode.update q (fun n => n.setZombie b) c)).get? j
              = root.children.get? j := by
            rw [List.get?_eq_getElem?, List.get?_eq_getElem?,
              List.getElem?_set_ne (fun h => hji h.symm)]
          rw [this]

/-! ## Slots in memory -/

theorem memRead_length (r : Region) (a : Int) (n : Nat) : (memRead r a n).length = n := by
  simp [memRead]

theorem memRead_memWrite_same (r : Region) (a : Int) (bs : List Nat) (h0 : 0 ≤ a)
    (hlen : a + bs.length ≤ r.length) : memRead (memWrite r a bs) a bs.length = bs := by
  obtain ⟨k, rfl⟩ := Int.eq_ofNat_of_zero_le h0
  have hl : k + bs.length ≤ r.length := by omega
  rw [memRead_nat]
  apply List.ext_getElem
  · simp
  · intro i h1 h2
    simp only [List.getElem_map, List.getElem_range]
    rw [memWrite_getD bs r k (k + i) hl, if_pos (by omega), Nat.add_sub_cancel_left,
      List.getD_eq_getElem _ _ h2]

theorem writeEntry_activeFiles (ctx : FuseContext) (entry : EntryPtr) (e : FileEntry) :
    (ctx.writeEntry entry e).activeFiles = ctx.activeFiles := by
  cases entry <;> rfl

theorem le16_lt (b : List Nat) (i : Nat) (hb : IsBytes b) : le16 b i < 2 ^ 16 := by
  have h0 := IsBytes.getD_lt hb i
  have h1 := IsBytes.getD_lt hb (i + 1)
  unfold le16
  omega

theorem checkJump_iff (j : List Nat) :
    checkJump j = true ↔ (j.getD 0 0 = 0xEB ∧ j.getD 2 0 = 0x90) ∨ j.getD 0 0 = 0xE9 := by
  unfold checkJump
  generalize j.getD 0 0 = a
  generalize j.getD 2 0 = b
  by_cases h1 : a = 0xEB ∧ b = 0x90
  · simp [h1]
  · by_cases h2 : a = 0xE9
    · simp [h2]
    · have : ¬ (a = 235 ∧ b = 144) := h1
      simp [h2, this]

theorem checkBytesPerSector_iff (x : Nat) :
    checkBytesPerSector x = true ↔ x = 512 ∨ x = 1024 ∨ x = 2048 ∨ x = 4096 := by
  unfold checkBytesPerSector
  simp only [bne_iff_ne, ne_eq, Bool.and_eq_true, decide_eq_true_eq, ite_eq_right_iff,
    Bool.false_eq_true, imp_false]
  omega

theorem checkSectorsPerCluster_iff (x : Nat) :
    checkSectorsPerCluster x = true ↔
      x = 1 ∨ x = 2 ∨ x = 4 ∨ x = 8 ∨ x = 16 ∨ x = 32 ∨ x = 64 ∨ x = 128 := by
  unfold checkSectorsPerCluster
  simp only [bne_iff_ne, ne_eq, Bool.and_eq_true, decide_eq_true_eq, ite_eq_right_iff,
    Bool.false_eq_true, imp_false]
  omega

theorem checkMediaType_iff (x : Nat) :
    checkMediaType x = true ↔ x = 0xF0 ∨ (0xF8 ≤ x ∧ x ≤ 0xFF) := by
  unfold checkMediaType
  simp only [bne_iff_ne, ne_eq, Bool.and_eq_true, decide_eq_true_eq, ite_eq_right_iff,
    Bool.false_eq_true, imp_false]
  omega

theorem checkDriveNumber_iff (x : Nat) : checkDriveNumber x = true ↔ x = 0x00 ∨ x = 0x80 := by
  unfold checkDriveNumber
  simp only [bne_iff_ne, ne_eq, Bool.and_eq_true, decide_eq_true_eq, ite_eq_right_iff,
    Bool.false_eq_true, imp_false]
  omega

theorem checkReserved_iff (x : Nat) : checkReserved x = true ↔ x = 0 := by
  unfold checkReserved
  simp

theorem checkRootEntries_iff (r b : Nat) (hr : r < 2 ^ 16) :
    checkRootEntries r b = true ↔ (r * 32) % b = 0 := by
  unfold checkRootEntries
  rw [Nat.mod_eq_of_lt (show r * 32 < 2 ^ 32 by omega)]
  simp

/-! ## The copies of the FAT -/

theorem memRead_congr (a b : Region) (off n : Nat)
    (h : ∀ k, k < n → a.getD (off + k) 0 = b.getD (off + k) 0) :
    memRead a (off : Int) n = memRead b (off : Int) n := by
  rw [memRead_nat, memRead_nat]
  apply List.map_congr_left
  intro k hk
  exact h k (List.mem_range.1 hk)

theorem memRead_getD (r : Region) (off n k : Nat) (hk : k < n) :
    (memRead r (off : Int) n).getD k 0 = r.getD (off + k) 0 := by
  rw [memRead_nat, List.getD_eq_getElem _ _ (by simpa using hk)]
  simp

theorem region_ext (a b : Region) (hlen : a.length = b.length)
    (h : ∀ k, a.getD k 0 = b.getD k 0) : a = b := by
  apply List.ext_getElem hlen
  intro i h1 h2
  have := h i
  rwa [List.getD_eq_getElem _ _ h1, List.getD_eq_getElem _ _ h2] at this

theorem memWrite_self (r : Region) (off : Nat) (bs : List Nat)
    (hlen : off + bs.length ≤ r.length) (h : memRead r (off : Int) bs.length = bs) :
    memWrite r (off : Int) bs = r := by
  apply region_ext _ _ (memWrite_length bs r _)
  intro k
  rw [memWrite_getD bs r off k hlen]
  split
  · rename_i hk
    have := memRead_getD r off bs.length (k - off) (by omega)
    rw [h] at this
    rw [this]
    congr 1
    omega
  · rfl

theorem syncFATLoop_spec (fo fs : Nat) (n : Nat) : ∀ (i : Nat) (v : Region),
    fo + (i + n + 1) * fs ≤ v.length →
    (syncFATLoop fo fs n i v).length = v.length
    ∧ (∀ k, k < fo + (i + 1) * fs ∨ fo + (i + n + 1) * fs ≤ k →
        (syncFATLoop fo fs n i v).getD k 0 = v.getD k 0)
    ∧ (∀ j, i ≤ j → j ≤ i + n →
        memRead (syncFATLoop fo fs n i v) ((fo + j * fs : Nat) : Int) fs
          = memRead v ((fo + i * fs : Nat) : Int) fs) := by
  induction n with
  | zero =>
    intro i v _
    refine ⟨rfl, fun _ _ => rfl, ?_⟩
    intro j h1 h2
    have : j = i := by omega
    subst this; rfl
  | succ n ih =>
    intro i v hfit
    have e1 : (i + 1) * fs = i * fs + fs := by ring
    have e2 : (i + (n + 1) + 1) * fs = i * fs + fs + fs + n * fs := by ring
    have e3 : (i + 1 + n + 1) * fs = i * fs + fs + fs + n * fs := by ring
    have e4 : (i + 1 + 1) * fs = i * fs + fs + fs := by ring
    have hlenF : (memRead v ((fo + i * fs : Nat) : Int) fs).length = fs := memRead_length _ _ _
    have hw : fo + (i + 1) * fs + (memRead v ((fo + i * fs : Nat) : Int) fs).length
        ≤ v.length := by
      rw [hlenF]; omega
    have hlen1 : (memWrite v ((fo + (i + 1) * fs : Nat) : Int)
        (memRead v ((fo + i * fs : Nat) : Int) fs)).length = v.length := memWrite_length _ _ _
    obtain ⟨hl, hout, hcopies⟩ := ih (i + 1)
      (memWrite v ((fo + (i + 1) * fs : Nat) : Int) (memRead v ((fo + i * fs : Nat) : Int) fs))
      (by rw [hlen1]; omega)
    have hg1 : ∀ k, k < fo + (i + 1) * fs ∨ fo + (i + 1) * fs + fs ≤ k →
        (memWrite v ((fo + (i + 1) * fs : Nat) : Int)
          (memRead v ((fo + i * fs : Nat) : Int) fs)).getD k 0 = v.getD k 0 := by
      intro k hk
      rw [memWrite_getD _ v _ k hw, if_neg (by rw [hlenF]; omega)]
    have hsame : memRead (memWrite v ((fo + (i + 1) * fs : Nat) : Int)
          (memRead v ((fo + i * fs : Nat) : Int) fs)) ((fo + (i + 1) * fs : Nat) : Int) fs
        = memRead v ((fo + i * fs : Nat) : Int) fs := by
      have := memRead_memWrite_same v ((fo + (i + 1) * fs : Nat) : Int)
        (memRead v ((fo + i * fs : Nat) : Int) fs) (by omega) (by exact_mod_cast hw)
      rwa [hlenF] at this
    simp only [syncFATLoop]
    refine ⟨by rw [hl, hlen1], ?_, ?_⟩
    · intro k hk
      rw [hout k (by omega), hg1 k (by omega)]
    · intro j h1 h2
      by_cases hj : j = i
      · subst hj
        rw [← memRead_congr v _ (fo + j * fs) fs]
        intro k hk
        rw [hout _ (by omega), hg1 _ (by omega)]
      · rw [hcopies j (by omega) (by omega), hsame]

theorem syncFATLoop_fixed (fo fs : Nat) (n : Nat) : ∀ (i : Nat) (v : Region),
    fo + (i + n + 1) * fs ≤ v.length →
    (∀ j, i ≤ j → j < i + n →
      memRead v ((fo + (j + 1) * fs : Nat) : Int) fs = memRead v ((fo + j * fs : Nat) : Int) fs) →
    syncFATLoop fo fs n i v = v := by
  induction n with
  | zero => intro i v _ _; rfl
  | succ n ih =>
    intro i v hfit heq
    have e1 : (i + 1) * fs = i * fs + fs := by ring
    have e2 : (i + (n + 1) + 1) * fs = i * fs + fs + fs + n * fs := by ring
    have e3 : (i + 1 + n + 1) * fs = i * fs + fs + fs + n * fs := by ring
    have e4 : (i + 1 + 1) * fs = i * fs + fs + fs := by ring
    have hlenF : (memRead v ((fo + i * fs : Nat) : Int) fs).length = fs := memRead_length _ _ _
    have hw : memWrite v ((fo + (i + 1) * fs : Nat) : Int)
        (memRead v ((fo + i * fs : Nat) : Int) fs) = v := by
      apply memWrite_self
      · rw [hlenF]; omega
      · rw [hlenF]; exact heq i (le_refl _) (by omega)
    simp only [syncFATLoop]
    rw [hw]
    exact ih (i + 1) v (by omega) (fun j h1 h2 => heq j (by omega) (by omega))

theorem checkFatTableLoop_equal (volume : Region) (fo fs bound : Nat) (hb : bound < 256) :
    ∀ (fuel i : Nat), i ≤ bound → bound - i < fuel →
    (∀ j, i ≤ j → j < bound →
      memRead volume ((fo + j * fs : Nat) : Int) fs
        = memRead volume ((fo + (j + 1) * fs : Nat) : Int) fs) →
    checkFatTableLoop volume fo fs bound fuel i = some true := by
  intro fuel
  induction fuel with
  | zero => intro i _ h; omega
  | succ fuel ih =>
    intro i hi hfuel heq
    simp only [checkFatTableLoop]
    by_cases hlt : i < bound
    · rw [if_pos hlt, heq i (le_refl _) hlt]
      simp only [bne_self_eq_false, Bool.false_eq_true, if_false]
      rw [Nat.mod_eq_of_lt (by omega)]
      exact ih (i + 1) (by omega) (by omega) (fun j h1 h2 => heq j (by omega) h2)
    · rw [if_neg hlt]

theorem checkFatTableLoop_differ (volume : Region) (fo fs bound : Nat) (fuel : Nat)
    (h0 : 0 < bound)
    (hne : memRead volume ((fo + 0 * fs : Nat) : Int) fs
        ≠ memRead volume ((fo + (0 + 1) * fs : Nat) : Int) fs) :
    checkFatTableLoop volume fo fs bound (fuel + 1) 0 = some false := by
  simp only [checkFatTableLoop]
  rw [if_pos h0, if_pos]
  simpa using hne

/-! ## Timestamps -/

theorem getDateTime_valid (date clock : Nat) (hd : date < 2 ^ 16)
    (hday : 1 ≤ date &&& 0b11111)
    (hmon : 1 ≤ (date >>> 5) &&& 0b1111) (hmon12 : (date >>> 5) &&& 0b1111 ≤ 12)
    (hsec : (clock &&& 0b11111) * 2 ≤ 58) (hmin : (clock >>> 5) &&& 0b111111 ≤ 59)
    (hhour : clock >>> 11 ≤ 23) :
    getDateTime date clock =
      { tm_sec := (clock &&& 0b11111) * 2, tm_min := (clock >>> 5) &&& 0b111111,
        tm_hour := clock >>> 11, tm_mday := date &&& 0b11111,
        tm_mon := (date >>> 5) &&& 0b1111, tm_year := 80 + date >>> 9 } := by
  have hd0 : date ≠ 0 := by
    rintro rfl
    simp at hday
  have hday31 : date &&& 0b11111 ≤ 31 := Nat.and_le_right
  have hyear : date >>> 9 < 128 := by
    rw [Nat.shiftRight_eq_div_pow]
    omega
  unfold getDateTime
  simp only [Nat.reduceAdd]
  rw [Nat.mod_eq_of_lt (show date &&& 0b11111 < 256 by omega),
    Nat.mod_eq_of_lt (show (date >>> 5) &&& 0b1111 < 256 by omega),
    Nat.mod_eq_of_lt (show date >>> 9 < 256 by omega),
    Nat.mod_eq_of_lt (show (clock &&& 0b11111) * 2 < 256 by omega),
    Nat.mod_eq_of_lt (show (clock >>> 5) &&& 0b111111 < 256 by omega),
    Nat.mod_eq_of_lt (show clock >>> 11 < 256 by omega)]
  have e1 : (date == 0) = false := by simpa using hd0
  have e2 : (date &&& 0b11111 == 0 || decide (date &&& 0b11111 > 31)) = false := by
    simp only [Bool.or_eq_false_iff, beq_eq_false_iff_ne, ne_eq, decide_eq_false_iff_not]
    omega
  have e3 : ((date >>> 5) &&& 0b1111 == 0 || decide ((date >>> 5) &&& 0b1111 > 12)) = false := by
    simp only [Bool.or_eq_false_iff, beq_eq_false_iff_ne, ne_eq, decide_eq_false_iff_not]
    omega
  rw [e1, e2, e3]
  simp only [Bool.false_eq_true, if_false]
  rw [if_neg (by omega), if_neg (by omega), if_neg (by omega)]

/-! ## File handles -/

theorem find_range_some (p : Nat → Bool) (n i : Nat) :
    (List.range n).find? p = some i ↔ i < n ∧ p i = true ∧ ∀ j, j < i → p j = false := by
  induction n generalizing i with
  | zero => simp
  | succ n ih =>
    rw [List.range_succ, List.find?_append]
    cases hf : (List.range n).find? p with
    | some k =>
      obtain ⟨hk, hpk, hlt⟩ := (ih k).1 hf
      simp only [Option.or, Option.some.injEq]
      constructor
      · rintro rfl
        exact ⟨by omega, hpk, hlt⟩
      · rintro ⟨_, hpi, hlti⟩
        rcases Nat.lt_trichotomy k i with h | h | h
        · rw [hlti k h] at hpk; cases hpk
        · exact h
        · rw [hlt i h] at hpi; cases hpi
    | none =>
      have hnone : ∀ j, j < n → p j = false := by
        intro j hj
        have := List.find?_eq_none.1 hf j (List.mem_range.2 hj)
        simpa using this
      simp only [Option.or, List.find?_cons, List.find?_nil]
      cases hpn : p n with
      | true =>
        simp only [Option.some.injEq]
        constructor
        · rintro rfl
          exact ⟨by omega, hpn, hnone⟩
        · rintro ⟨hi, hpi, _⟩
          by_contra hne
          have : i < n := by omega
          rw [hnone i this] at hpi; cases hpi
      | false =>
        constructor
        · intro h; cases h
        · rintro ⟨hi, hpi, _⟩
          exfalso
          by_cases hin : i = n
          · subst hin; rw [hpn] at hpi; cases hpi
          · rw [hnone i (by omega)] at hpi; cases hpi

theorem find_range_none (p : Nat → Bool) (n : Nat) :
    (List.range n).find? p = none ↔ ∀ j, j < n → p j = false := by
  rw [List.find?_eq_none]
  constructor
  · intro h j hj
    simpa using h j (List.mem_range.2 hj)
  · intro h x hx
    simpa using h x (List.mem_range.1 hx)

theorem existsFile_iff (ctx : FuseContext) (h : Nat) :
    ctx.existsFile h = true ↔ h ∈ ctx.activeFiles.map FuseFile.handle := by
  unfold FuseContext.existsFile
  simp only [List.any_eq_true, beq_iff_eq, List.mem_map]

theorem getFreeFileHandle_ok (ctx : FuseContext) (h : Nat) :
    ctx.getFreeFileHandle = Ret.ok h ↔
      h < 128 ∧ ctx.existsFile h = false ∧ ∀ j, j < h → ctx.existsFile j = true := by
  have key := find_range_some (fun i => !ctx.existsFile i) 128 h
  unfold FuseContext.getFreeFileHandle
  cases hf : (List.range 128).find? (fun i => !ctx.existsFile i) with
  | none =>
    rw [hf] at key
    simp only [Bool.not_eq_true', Bool.not_eq_false'] at key
    constructor
    · intro h1; cases h1
    · intro h1; exact absurd (key.2 h1) (by simp)
  | some k =>
    rw [hf] at key
    simp only [Bool.not_eq_true', Bool.not_eq_false', Option.some.injEq] at key
    constructor
    · intro h1
      have : k = h := by injection h1
      exact key.1 this
    · intro h1
      rw [key.2 h1]

theorem getFreeFileHandle_throw (ctx : FuseContext) (e : Errno) :
    ctx.getFreeFileHandle = Ret.throw e ↔
      e = Errno.EMFILE ∧ ∀ j, j < 128 → ctx.existsFile j = true := by
  have key := find_range_none (fun i => !ctx.existsFile i) 128
  unfold FuseContext.getFreeFileHandle
  cases hf : (List.range 128).find? (fun i => !ctx.existsFile i) with
  | none =>
    rw [hf] at key
    simp only [Bool.not_eq_false', true_iff] at key
    constructor
    · intro h1
      have : Errno.EMFILE = e := by injection h1
      exact ⟨this.symm, key⟩
    · rintro ⟨rfl, _⟩; rfl
  | some k =>
    rw [hf] at key
    simp only [Bool.not_eq_false', reduceCtorEq, false_iff] at key
    constructor
    · intro h1; cases h1
    · rintro ⟨_, h1⟩; exact absurd h1 key

theorem releaseFileLoop_absent (handle : Nat) (l : List FuseFile)
    (h : handle ∉ l.map FuseFile.handle) : releaseFileLoop handle l = l := by
  induction l with
  | nil => rfl
  | cons f rest ih =>
    simp only [List.map_cons, List.mem_cons, not_or] at h
    have hf : (f.handle == handle) = false := by
      simp only [beq_eq_false_iff_ne, ne_eq]
      exact fun e => h.1 e.symm
    rw [releaseFileLoop.eq_def]
    simp only [hf, Bool.false_eq_true, if_false]
    rw [ih h.2]

theorem filter_absent (handle : Nat) (l : List FuseFile)
    (h : handle ∉ l.map FuseFile.handle) :
    l.filter (fun f => f.handle != handle) = l := by
  rw [List.filter_eq_self]
  intro f hf
  simp only [bne_iff_ne, ne_eq]
  intro e
  exact h (List.mem_map.2 ⟨f, hf, e⟩)

theorem releaseFileLoop_eq_filter (handle : Nat) (l : List FuseFile)
    (hnd : (l.map FuseFile.handle).Nodup) :
    releaseFileLoop handle l = l.filter (fun f => f.handle != handle) := by
  induction l with
  | nil => rfl
  | cons f rest ih =>
    rw [List.map_cons, List.nodup_cons] at hnd
    by_cases hf : f.handle = handle
    · have hab : handle ∉ rest.map FuseFile.handle := hf ▸ hnd.1
      have hb : (f.handle == handle) = true := by simpa using hf
      have hb2 : (f.handle != handle) = false := by simp [hf]
      rw [List.filter_cons, hb2]
      simp only [Bool.false_eq_true, if_false]
      rw [filter_absent handle rest hab]
      cases rest with
      | nil => simp [releaseFileLoop, hb]
      | cons g rest2 =>
        simp only [releaseFileLoop, hb, if_true]
        have hab2 : handle ∉ rest2.map FuseFile.handle := by
          intro hm
          exact hab (by simp only [List.map_cons, List.mem_cons]; exact Or.inr hm)
        rw [releaseFileLoop_absent handle rest2 hab2]
    · have hb : (f.handle == handle) = false := by simpa using hf
      have hb2 : (f.handle != handle) = true := by simpa using hf
      rw [List.filter_cons, hb2]
      rw [releaseFileLoop.eq_def]
      simp only [hb, Bool.false_eq_true, if_false, if_true]
      rw [ih hnd.2]

theorem HandlesOK.push (ctx ctx1 : FuseContext) (h : Nat) (node : Fat12Inode)
    (hok : HandlesOK ctx) (hfree : ctx.getFreeFileHandle = Ret.ok h)
    (h1 : ctx1.activeFiles = ctx.activeFiles ++ [{ handle := h, inode := node }]) :
    HandlesOK ctx1 := by
  obtain ⟨hlt, hex, _⟩ := (getFreeFileHandle_ok ctx h).1 hfree
  have hnot : h ∉ ctx.activeFiles.map FuseFile.handle := by
    intro hm
    rw [(existsFile_iff ctx h).2 hm] at hex
    cases hex
  unfold HandlesOK at hok ⊢
  rw [h1, List.map_append, List.map_cons, List.map_nil]
  constructor
  · rw [List.nodup_append]
    refine ⟨hok.1, List.nodup_singleton _, ?_⟩
    intro a ha hb
    rw [List.mem_singleton] at hb
    have hb2 : a = h := hb
    exact hnot (hb2 ▸ ha)
  · intro a ha
    rw [List.mem_append, List.mem_singleton] at ha
    rcases ha with ha | rfl
    · exact hok.2 a ha
    · exact hlt

theorem HandlesOK.same (ctx ctx1 : FuseContext) (hok : HandlesOK ctx)
    (h1 : ctx1.activeFiles = ctx.activeFiles) : HandlesOK ctx1 := by
  unfold HandlesOK at hok ⊢
  rw [h1]; exact hok

theorem HandlesOK.release (ctx : FuseContext) (fh : Nat) (hok : HandlesOK ctx) :
    HandlesOK (ctx.releaseFile fh) := by
  unfold HandlesOK at hok ⊢
  have : (ctx.releaseFile fh).activeFiles = ctx.activeFiles.filter (fun f => f.handle != fh) :=
    releaseFileLoop_eq_filter fh ctx.activeFiles hok.1
  rw [this]
  constructor
  · exact (List.filter_sublist _).map FuseFile.handle |>.nodup hok.1
  · intro a ha
    obtain ⟨f, hf, rfl⟩ := List.mem_map.1 ha
    exact hok.2 _ (List.mem_map.2 ⟨f, (List.mem_filter.1 hf).1, rfl⟩)

theorem writeEntry_getFreeFileHandle (ctx : FuseContext) (entry : EntryPtr) (e : FileEntry) :
    (ctx.writeEntry entry e).getFreeFileHandle = ctx.getFreeFileHandle := by
  cases entry <;> rfl

theorem fat12_ll_open_handles (fuel : Nat) (ctx ctx1 : FuseContext) (ino flags : Nat)
    (r : OpenReply) (hok : HandlesOK ctx)
    (h : fat12_ll_open fuel ctx ino flags = some (r, ctx1)) : HandlesOK ctx1 := by
  unfold fat12_ll_open at h
  split at h
  · cases h; exact hok
  · rename_i p fileNode hfind
    simp only at h
    split at h
    · cases h; exact hok
    · split at h
      · cases h; exact hok
      · split at h
        · cases h
        · rename_i ctx2 htr
          have h2 : HandlesOK ctx2 := by
            split at htr
            · cases htrunc : trunc fuel (ctx.readEntry fileNode.file) ctx.fat12Volume.fatRegion with
              | none => rw [htrunc] at htr; cases htr
              | some r2 =>
                rw [htrunc] at htr
                simp only [Option.map_some', Option.some.injEq] at htr
                subst htr
                exact HandlesOK.same _ _ hok (by rw [writeEntry_activeFiles])
            · cases htr; exact hok
          split at h
          · cases h; exact h2
          · rename_i fileHandle hfree
            cases h
            exact HandlesOK.push ctx2 _ fileHandle fileNode h2 hfree rfl

theorem fat12_ll_opendir_handles (ctx : FuseContext) (ino : Nat) (hok : HandlesOK ctx) :
    HandlesOK (fat12_ll_opendir ctx ino).2 := by
  unfold fat12_ll_opendir
  split
  · rename_i p node hfind
    split
    · exact hok
    · rename_i handle hfree
      exact HandlesOK.push ctx _ handle node hok hfree rfl
  · exact hok

theorem fat12_ll_create_handles (fuel : Nat) (t : MS932) (ctx ctx1 : FuseContext)
    (parent : Nat) (name : List Nat) (r : CreateReply) (hok : HandlesOK ctx)
    (h : fat12_ll_create fuel t ctx parent name = some (r, ctx1)) : HandlesOK ctx1 := by
  unfold fat12_ll_create at h
  split at h
  · cases h; exact hok
  · split at h
    · cases h; exact hok
    · rename_i p inode hfind
      split at h
      · cases h; exact hok
      · rename_i handle hfree
        split at h
        · cases h
        · cases h; exact HandlesOK.release ctx handle hok
        · rename_i entry hentry
          simp only at h
          split at h
          · cases h
            exact HandlesOK.same _ _
              (HandlesOK.release _ handle
                (HandlesOK.same ctx _ hok (writeEntry_activeFiles _ _ _)))
              (writeEntry_activeFiles _ _ _)
          · cases h
            exact HandlesOK.push (ctx.writeEntry entry _) _ handle _
              (HandlesOK.same ctx _ hok (writeEntry_activeFiles _ _ _))
              (by rw [writeEntry_getFreeFileHandle]; exact hfree) rfl

theorem stepOp_handles (fuel : Nat) (t : MS932) (ctx ctx1 : FuseContext) (op : HandleOp)
    (hok : HandlesOK ctx) (h : stepOp fuel t ctx op = some ctx1) : HandlesOK ctx1 := by
  cases op with
  | «open» ino flags =>
    simp only [stepOp, Option.map_eq_some'] at h
    obtain ⟨⟨r, c⟩, hr, rfl⟩ := h
    exact fat12_ll_open_handles fuel ctx c ino flags r hok hr
  | opendir ino =>
    simp only [stepOp, Option.some.injEq] at h
    subst h
    exact fat12_ll_opendir_handles ctx ino hok
  | create parent name =>
    simp only [stepOp, Option.map_eq_some'] at h
    obtain ⟨⟨r, c⟩, hr, rfl⟩ := h
    exact fat12_ll_create_handles fuel t ctx c parent name r hok hr
  | release fh =>
    simp only [stepOp, Option.some.injEq] at h
    subst h
    exact HandlesOK.release ctx fh hok
  | releasedir fh =>
    simp only [stepOp, Option.some.injEq] at h
    subst h
    exact HandlesOK.release ctx fh hok

theorem runOps_handles (fuel : Nat) (t : MS932) (ops : List HandleOp) (ctx ctx1 : FuseContext)
    (hok : HandlesOK ctx) (h : runOps fuel t ops ctx = some ctx1) : HandlesOK ctx1 := by
  induction ops generalizing ctx with
  | nil =>
    simp only [runOps, Option.some.injEq] at h
    subst h; exact hok
  | cons op ops ih =>
    simp only [runOps] at h
    cases hs : stepOp fuel t ctx op with
    | none => rw [hs] at h; cases h
    | some c =>
      rw [hs] at h
      exact ih c (stepOp_handles fuel t ctx c op hok hs) h

/-! ## The compaction of the root region -/

theorem memRead_below (r : Region) (off : Int) (n : Nat) (h : off + (n : Int) ≤ 0) :
    memRead r off n = List.replicate n 0 := by
  unfold memRead
  apply List.ext_getElem
  · simp
  · intro i h1 h2
    simp only [List.length_map, List.length_range] at h1
    simp only [List.getElem_map, List.getElem_range, List.getElem_replicate]
    rw [if_neg (by omega)]

theorem memWrite_below (r : Region) (off : Int) (b : Nat) (h : off < 0) :
    memWrite r off [b] = r := by
  simp only [memWrite]
  rw [if_neg (by omega)]

theorem cleanDirectoryFilesRootLoop_below (fuel : Nat) (r : Region) (off : Int)
    (h : off + 32 ≤ 0) : cleanDirectoryFilesRootLoop fuel r off = none := by
  induction fuel generalizing off with
  | zero => rfl
  | succ fuel ih =>
    have hv : (FileEntry.ofBytes (memRead r off 32)).isValid = false := by
      rw [memRead_below r off 32 (by omega)]
      decide
    simp only [cleanDirectoryFilesRootLoop, hv, Bool.false_eq_true, if_false]
    rw [if_neg (by omega), memWrite_below r off 0 (by omega)]
    exact ih (off - 32) (by omega)

/-! ## The regions of the volume -/

theorem memRead_isBytes (r : Region) (hb : IsBytes r) (a : Int) (n : Nat) :
    IsBytes (memRead r a n) := by
  intro b hbm
  unfold memRead at hbm
  obtain ⟨k, _, rfl⟩ := List.mem_map.1 hbm
  split
  · exact IsBytes.getD_lt hb _
  · decide

theorem le32_lt (b : List Nat) (i : Nat) (hb : IsBytes b) : le32 b i < 2 ^ 32 := by
  have h0 := IsBytes.getD_lt hb i
  have h1 := IsBytes.getD_lt hb (i + 1)
  have h2 := IsBytes.getD_lt hb (i + 2)
  have h3 := IsBytes.getD_lt hb (i + 3)
  unfold le32
  omega

theorem scanForBPBRegion_some (buffer : List Nat) (i : Nat) :
    scanForBPBRegion buffer = some i ↔
      (i + 1) * 512 < buffer.length
      ∧ (BPB.ofBytes (memRead buffer ((512 * i : Nat) : Int) 512)).check = true
      ∧ ∀ j, j < i → (BPB.ofBytes (memRead buffer ((512 * j : Nat) : Int) 512)).check = false := by
  unfold scanForBPBRegion
  rw [find_range_some]
  simp only [Bool.and_eq_true, decide_eq_true_eq, Bool.and_eq_false_imp]
  constructor
  · rintro ⟨_, ⟨h1, h2⟩, h3⟩
    exact ⟨h1, h2, fun j hj => h3 j hj (by omega)⟩
  · rintro ⟨h1, h2, h3⟩
    refine ⟨?_, ⟨h1, h2⟩, fun j hj _ => h3 j hj⟩
    have : i * 512 / 512 ≤ buffer.length / 512 := Nat.div_le_div_right (by omega)
    rw [Nat.mul_div_cancel _ (by decide)] at this
    omega

theorem scanForBPBRegion_none (buffer : List Nat) :
    scanForBPBRegion buffer = none ↔
      ∀ j, (j + 1) * 512 < buffer.length →
        (BPB.ofBytes (memRead buffer ((512 * j : Nat) : Int) 512)).check = false := by
  unfold scanForBPBRegion
  rw [find_range_none]
  simp only [Bool.and_eq_false_imp, decide_eq_true_eq]
  constructor
  · intro h j hj
    apply h j _ hj
    have : j * 512 / 512 ≤ buffer.length / 512 := Nat.div_le_div_right (by omega)
    rw [Nat.mul_div_cancel _ (by decide)] at this
    omega
  · intro h j _ hj
    exact h j hj

theorem BPB.check_bounds (b : BPB) (h : b.check = true) :
    512 ≤ b.bytesPerSector ∧ 1 ≤ b.sectorsPerCluster := by
  simp only [BPB.check, Bool.and_eq_true, checkBytesPerSector_iff,
    checkSectorsPerCluster_iff] at h
  obtain ⟨⟨⟨⟨⟨⟨⟨⟨_, h1⟩, h2⟩, _⟩, _⟩, _⟩, _⟩, _⟩, _⟩ := h
  omega

theorem getFatVolume_cases (fuel : Nat) (filedata : List Nat) (i : Nat) (bpb : BPB)
    (volumeBytes : Nat) (hbytes : IsBytes filedata)
    (hscan : scanForBPBRegion filedata = some i)
    (hbpb : BPB.ofBytes (memRead filedata ((512 * i : Nat) : Int) 512) = bpb)
    (hvb : volumeBytes = if bpb.totalSectors16 ≠ 0 then bpb.totalSectors16 * bpb.bytesPerSector
      else bpb.totalSectors32 * bpb.bytesPerSector)
    (h32 : bpb.totalSectors16 = 0 → bpb.totalSectors32 * bpb.bytesPerSector < 2 ^ 32) :
    (filedata.length - i * 512 < volumeBytes → getFatVolume fuel filedata = some none)
    ∧ (volumeBytes ≤ filedata.length - i * 512 →
        bpb.fatCount * (bpb.sectorPerFat * bpb.bytesPerSector) + bpb.rootEntries * 32
          + bpb.reservedSectors * bpb.bytesPerSector ≤ volumeBytes →
        1 ≤ bpb.fatCount → bpb.fatCount ≤ fuel →
        (∀ j, j + 1 < bpb.fatCount →
          memRead (filedata.drop (i * 512))
              ((bpb.reservedSectors * bpb.bytesPerSector
                + j * (bpb.sectorPerFat * bpb.bytesPerSector) : Nat) : Int)
              (bpb.sectorPerFat * bpb.bytesPerSector)
            = memRead (filedata.drop (i * 512))
              ((bpb.reservedSectors * bpb.bytesPerSector
                + (j + 1) * (bpb.sectorPerFat * bpb.bytesPerSector) : Nat) : Int)
              (bpb.sectorPerFat * bpb.bytesPerSector)) →
        getFatVolume fuel filedata = some (some
          { bootOffset := i * 512, volumeSize := volumeBytes,
            reservedSize := bpb.reservedSectors * bpb.bytesPerSector,
            fatOffset := bpb.reservedSectors * bpb.bytesPerSector,
            fatRegionSize := bpb.fatCount * (bpb.sectorPerFat * bpb.bytesPerSector),
            rootOffset := bpb.reservedSectors * bpb.bytesPerSector
              + bpb.fatCount * (bpb.sectorPerFat * bpb.bytesPerSector),
            rootSize := bpb.rootEntries * 32,
            dataOffset := bpb.reservedSectors * bpb.bytesPerSector
              + bpb.fatCount * (bpb.sectorPerFat * bpb.bytesPerSector) + bpb.rootEntries * 32,
            dataSize := volumeBytes - bpb.fatCount * (bpb.sectorPerFat * bpb.bytesPerSector)
              - bpb.rootEntries * 32 - bpb.reservedSectors * bpb.bytesPerSector,
            clusterSize := bpb.sectorsPerCluster * bpb.bytesPerSector,
            maxCluster :=
              min (min ((volumeBytes - bpb.fatCount * (bpb.sectorPerFat * bpb.bytesPerSector)
                    - bpb.rootEntries * 32 - bpb.reservedSectors * bpb.bytesPerSector)
                  / (bpb.sectorsPerCluster * bpb.bytesPerSector)) 4094)
                (bpb.sectorPerFat * bpb.bytesPerSector * 8 / 12) }))
    ∧ (volumeBytes ≤ filedata.length - i * 512 →
        bpb.reservedSectors * bpb.bytesPerSector
          + bpb.fatCount * (bpb.sectorPerFat * bpb.bytesPerSector) ≤ volumeBytes →
        2 ≤ bpb.fatCount → 1 ≤ fuel →
        memRead (filedata.drop (i * 512))
            ((bpb.reservedSectors * bpb.bytesPerSector : Nat) : Int)
            (bpb.sectorPerFat * bpb.bytesPerSector)
          ≠ memRead (filedata.drop (i * 512))
            ((bpb.reservedSectors * bpb.bytesPerSector
              + bpb.sectorPerFat * bpb.bytesPerSector : Nat) : Int)
            (bpb.sectorPerFat * bpb.bytesPerSector) →
        getFatVolume fuel filedata = some none) := by
  have hblock : IsBytes (memRead filedata ((512 * i : Nat) : Int) 512) :=
    memRead_isBytes filedata hbytes _ _
  have hcheck : bpb.check = true := by
    rw [← hbpb]; exact ((scanForBPBRegion_some filedata i).1 hscan).2.1
  obtain ⟨hbps, hspc⟩ := BPB.check_bounds bpb hcheck
  have hbps16 : bpb.bytesPerSector < 2 ^ 16 := by rw [← hbpb]; exact le16_lt _ 11 hblock
  have hts16 : bpb.totalSectors16 < 2 ^ 16 := by rw [← hbpb]; exact le16_lt _ 19 hblock
  have hfc : bpb.fatCount < 256 := by rw [← hbpb]; exact IsBytes.getD_lt hblock 16
  have hvs : (if (bpb.totalSectors16 != 0) = true then bpb.totalSectors16 * bpb.bytesPerSector
      else (bpb.totalSectors32 * bpb.bytesPerSector) % 2 ^ 32) = volumeBytes := by
    rw [hvb]
    by_cases h0 : bpb.totalSectors16 = 0
    · simp only [h0, bne_self_eq_false, Bool.false_eq_true, if_false, ne_eq, not_true]
      exact Nat.mod_eq_of_lt (h32 h0)
    · have : (bpb.totalSectors16 != 0) = true := by simpa using h0
      rw [if_pos this, if_pos h0]
  have hv32 : volumeBytes < 2 ^ 32 := by
    rw [hvb]
    by_cases h0 : bpb.totalSectors16 = 0
    · rw [if_neg (by simpa using h0)]; exact h32 h0
    · rw [if_pos h0]
      calc bpb.totalSectors16 * bpb.bytesPerSector < 2 ^ 16 * 2 ^ 16 :=
            Nat.mul_lt_mul'' hts16 hbps16
        _ = 2 ^ 32 := by norm_num
  simp only [getFatVolume, hscan, hbpb, hvs]
  generalize bpb.reservedSectors * bpb.bytesPerSector = fo
  generalize hfs : bpb.sectorPerFat * bpb.bytesPerSector = fs
  generalize bpb.rootEntries * 32 = rs
  have hcs : 512 ≤ bpb.sectorsPerCluster * bpb.bytesPerSector :=
    le_trans hbps (Nat.le_mul_of_pos_left _ hspc)
  generalize bpb.sectorsPerCluster * bpb.bytesPerSector = cs at hcs ⊢
  refine ⟨?_, ?_, ?_⟩
  · intro h
    rw [if_pos h]
  · intro hfit hreg hcount hfuel heq
    rw [if_neg (by omega)]
    have hck : checkFatTable fuel (List.drop (i * 512) filedata) volumeBytes fo fs bpb.fatCount
        = some true := by
      unfold checkFatTable
      rw [if_neg (by rw [Nat.mul_comm]; omega)]
      have hbound : (bpb.fatCount + 2 ^ 64 - 1) % 2 ^ 64 = bpb.fatCount - 1 := by omega
      rw [hbound]
      exact checkFatTableLoop_equal _ fo fs _ (by omega) fuel 0 (Nat.zero_le _) (by omega)
        (fun j _ hj => heq j (by omega))
    rw [hck]
    have hds : (volumeBytes + 3 * 2 ^ 64 - bpb.fatCount * fs - rs - fo) % 2 ^ 64
        = volumeBytes - bpb.fatCount * fs - rs - fo := by omega
    simp only [hds]
    have hq : (volumeBytes - bpb.fatCount * fs - rs - fo) / cs < 2 ^ 23 := by
      have h1 : (volumeBytes - bpb.fatCount * fs - rs - fo) / cs
          ≤ (volumeBytes - bpb.fatCount * fs - rs - fo) / 512 :=
        Nat.div_le_div_left hcs (by decide)
      omega
    generalize (volumeBytes - bpb.fatCount * fs - rs - fo) / cs = q at hq ⊢
    have hshift : (1 <<< 12 : Nat) = 4096 := by decide
    have hmc : ((min (if q % 2 ^ 32 < 2 ^ 31 then ((q % 2 ^ 32 : Nat) : Int)
          else ((q % 2 ^ 32 : Nat) : Int) - 2 ^ 32) (((1 <<< 12 : Nat) : Int) - 2))
          % 2 ^ 16).toNat = min q 4094 := by
      rw [hshift, Nat.mod_eq_of_lt (by omega), if_pos (by omega)]
      omega
    rw [hmc]
    have hmod : min (min q 4094) (fs * 8 / 12) % 2 ^ 16 = min (min q 4094) (fs * 8 / 12) := by
      apply Nat.mod_eq_of_lt
      omega
    rw [hmod]
  · intro hfit hreg hcount hfuel hne
    rw [if_neg (by omega)]
    have hck : checkFatTable fuel (List.drop (i * 512) filedata) volumeBytes fo fs bpb.fatCount
        = some false := by
      unfold checkFatTable
      rw [if_neg (by rw [Nat.mul_comm]; omega)]
      have hbound : (bpb.fatCount + 2 ^ 64 - 1) % 2 ^ 64 = bpb.fatCount - 1 := by omega
      rw [hbound]
      obtain ⟨f, rfl⟩ : ∃ f, fuel = f + 1 := ⟨fuel - 1, by omega⟩
      apply checkFatTableLoop_differ _ fo fs _ f (by omega)
      simpa using hne
    rw [hck]

theorem imageTwoFats_isBytes (fat0 fat1 : Region) (h0 : IsBytes fat0) (h1 : IsBytes fat1) :
    IsBytes (imageTwoFats fat0 fat1) := by
  have hb : IsBytes (bootBlock 2 5) := by decide
  intro b hm
  simp only [imageTwoFats, List.mem_append, List.mem_replicate] at hm
  rcases hm with (((hm | hm | hm) | hm | hm) | hm) | hm
  · exact hb b hm
  · exact h0 b hm
  · omega
  · exact h1 b hm
  · omega
  · omega
  · omega

theorem imageTwoFats_length (fat0 fat1 : Region) (h0 : fat0.length = 6) (h1 : fat1.length = 6) :
    (imageTwoFats fat0 fat1).length = 2560 := by
  simp [imageTwoFats, bootBlock, h0, h1]

theorem memRead_mid (pre x rest : List Nat) (off n : Nat) (ho : off = pre.length)
    (hn : n = x.length) : memRead (pre ++ x ++ rest) (off : Int) n = x := by
  subst ho hn
  rw [memRead_nat]
  apply List.ext_getElem
  · simp
  · intro k h1 h2
    simp only [List.getElem_map, List.getElem_range]
    rw [List.getD_eq_getElem _ _ (by simp; omega)]
    rw [List.getElem_append_left (by simp; omega)]
    rw [List.getElem_append_right (by omega)]
    simp

theorem imageTwoFats_fat0 (fat0 fat1 : Region) (h0 : fat0.length = 6) :
    memRead (imageTwoFats fat0 fat1) ((512 : Nat) : Int) 512 = fat0 ++ List.replicate 506 0 := by
  have himg : imageTwoFats fat0 fat1 = bootBlock 2 5 ++ (fat0 ++ List.replicate 506 0)
      ++ ((fat1 ++ List.replicate 506 0) ++ (List.replicate 512 0 ++ List.replicate 512 0)) := by
    simp only [imageTwoFats, List.append_assoc]
  rw [himg]
  exact memRead_mid (bootBlock 2 5) (fat0 ++ List.replicate 506 0) _ 512 512
    (by simp [bootBlock]) (by simp [h0])

theorem imageTwoFats_fat1 (fat0 fat1 : Region) (h0 : fat0.length = 6) (h1 : fat1.length = 6) :
    memRead (imageTwoFats fat0 fat1) ((1024 : Nat) : Int) 512 = fat1 ++ List.replicate 506 0 := by
  have himg : imageTwoFats fat0 fat1 = (bootBlock 2 5 ++ (fat0 ++ List.replicate 506 0))
      ++ (fat1 ++ List.replicate 506 0) ++ (List.replicate 512 0 ++ List.replicate 512 0) := by
    simp only [imageTwoFats, List.append_assoc]
  rw [himg]
  exact memRead_mid (bootBlock 2 5 ++ (fat0 ++ List.replicate 506 0))
    (fat1 ++ List.replicate 506 0) _ 1024 512 (by simp [bootBlock, h0]) (by simp [h1])

/-! ## The UTF-8 codec on every code point -/

theorem and_shiftRight (a b k : Nat) : (a &&& b) >>> k = (a >>> k) &&& (b >>> k) := by
  apply Nat.eq_of_testBit_eq
  intro j
  simp only [Nat.testBit_shiftRight, Nat.testBit_and]

theorem and_mask_shiftRight (e mask k r : Nat) (h : mask >>> k = 2 ^ r - 1) :
    (e &&& mask) >>> k = e / 2 ^ k % 2 ^ r := by
  rw [and_shiftRight, h, Nat.and_pow_two_sub_one_eq_mod, Nat.shiftRight_eq_div_pow]

theorem and_mask (e mask r : Nat) (h : mask = 2 ^ r - 1) : e &&& mask = e % 2 ^ r := by
  rw [h, Nat.and_pow_two_sub_one_eq_mod]

theorem or_add (i a b : Nat) (h : b < 2 ^ i) : 2 ^ i * a ||| b = 2 ^ i * a + b :=
  (Nat.mul_add_lt_is_or h a).symm

theorem utf8Bytes_one (e : Nat) (h : e < 0x80) : utf8Bytes e = some [e] := by
  unfold utf8Bytes
  rw [if_pos h, Nat.mod_eq_of_lt (by omega)]

theorem utf8Bytes_two (e : Nat) (h1 : 0x80 ≤ e) (h2 : e < 0x800) :
    utf8Bytes e = some [192 + e / 64, 128 + e % 64] := by
  have a0 : (e &&& 0b11111000000) >>> 6 = e / 64 % 32 := and_mask_shiftRight e _ 6 5 (by decide)
  have a1 : e &&& 0b111111 = e % 64 := and_mask e _ 6 (by decide)
  have b0 : 0b11000000 ||| (e / 64 % 32) = 192 + e / 64 % 32 := or_add 5 6 _ (by omega)
  have b1 : 0b10000000 ||| (e % 64) = 128 + e % 64 := or_add 6 2 _ (by omega)
  unfold utf8Bytes
  rw [if_neg (by omega), if_pos h2, a0, a1, b0, b1]
  congr 2
  · omega
  · congr 1
    omega

theorem utf8Bytes_three (e : Nat) (h1 : 0x800 ≤ e) (h2 : e < 0x10000) :
    utf8Bytes e = some [224 + e / 4096, 128 + e / 64 % 64, 128 + e % 64] := by
  have a0 : (e &&& 0b1111000000000000) >>> 12 = e / 4096 % 16 :=
    and_mask_shiftRight e _ 12 4 (by decide)
  have a1 : (e &&& 0b0000111111000000) >>> 6 = e / 64 % 64 :=
    and_mask_shiftRight e _ 6 6 (by decide)
  have a2 : e &&& 0b0000000000111111 = e % 64 := and_mask e _ 6 (by decide)
  have b0 : 0b11100000 ||| (e / 4096 % 16) = 224 + e / 4096 % 16 := or_add 4 14 _ (by omega)
  have b1 : 0b10000000 ||| (e / 64 % 64) = 128 + e / 64 % 64 := or_add 6 2 _ (by omega)
  have b2 : 0b10000000 ||| (e % 64) = 128 + e % 64 := or_add 6 2 _ (by omega)
  unfold utf8Bytes
  rw [if_neg (by omega), if_neg (by omega), if_pos h2, a0, a1, a2, b0, b1, b2]
  congr 2
  · omega
  · congr 1
    · omega
    · congr 1
      omega

theorem utf8Bytes_four (e : Nat) (h1 : 0x10000 ≤ e) (h2 : e ≤ 0x10FFFF) :
    utf8Bytes e
      = some [240 + e / 262144, 128 + e / 4096 % 64, 128 + e / 64 % 64, 128 + e % 64] := by
  have a0 : (e &&& 0b000111000000000000000000) >>> 18 = e / 262144 % 8 :=
    and_mask_shiftRight e _ 18 3 (by decide)
  have a1 : (e &&& 0b000000111111000000000000) >>> 12 = e / 4096 % 64 :=
    and_mask_shiftRight e _ 12 6 (by decide)
  have a2 : (e &&& 0b000000000000111111000000) >>> 6 = e / 64 % 64 :=
    and_mask_shiftRight e _ 6 6 (by decide)
  have a3 : e &&& 0b000000000000000000111111 = e % 64 := and_mask e _ 6 (by decide)
  have b0 : 0b11110000 ||| (e / 262144 % 8) = 240 + e / 262144 % 8 := or_add 3 30 _ (by omega)
  have b1 : 0b10000000 ||| (e / 4096 % 64) = 128 + e / 4096 % 64 := or_add 6 2 _ (by omega)
  have b2 : 0b10000000 ||| (e / 64 % 64) = 128 + e / 64 % 64 := or_add 6 2 _ (by omega)
  have b3 : 0b10000000 ||| (e % 64) = 128 + e % 64 := or_add 6 2 _ (by omega)
  unfold utf8Bytes
  rw [if_neg (by omega), if_neg (by omega), if_neg (by omega), if_pos h2, a0, a1, a2, a3,
    b0, b1, b2, b3]
  congr 2
  · omega
  · congr 1
    · omega
    · congr 1
      · omega
      · congr 1
        omega

theorem nextUTF8_two (x : Nat) (h : x < 32) : nextUTF8 (192 + x) = 2 := by
  interval_cases x <;> rfl

theorem nextUTF8_three (x : Nat) (h : x < 16) : nextUTF8 (224 + x) = 3 := by
  interval_cases x <;> rfl

theorem nextUTF8_four (x : Nat) (h : x < 8) : nextUTF8 (240 + x) = 4 := by
  interval_cases x <;> rfl

theorem utf8CodePoint_two (x y u2 u3 : Nat) (hx : x < 32) (hy : y < 64) :
    utf8CodePoint 2 (192 + x) (128 + y) u2 u3 = x * 64 + y := by
  have a0 : (192 + x) &&& 0b00011111 = (192 + x) % 32 := and_mask _ _ 5 (by decide)
  have a1 : (128 + y) &&& 0b00111111 = (128 + y) % 64 := and_mask _ _ 6 (by decide)
  have c0 : (192 + x) % 32 = x := by omega
  have c1 : (128 + y) % 64 = y := by omega
  unfold utf8CodePoint
  rw [if_neg (by decide), if_pos rfl, a0, a1, c0, c1, Nat.shiftLeft_eq, Nat.mul_comm,
    or_add 6 x y hy]

theorem utf8CodePoint_three (x y z u3 : Nat) (hx : x < 16) (hy : y < 64) (hz : z < 64) :
    utf8CodePoint 3 (224 + x) (128 + y) (128 + z) u3 = x * 4096 + y * 64 + z := by
  have a0 : (224 + x) &&& 0b00001111 = (224 + x) % 16 := and_mask _ _ 4 (by decide)
  have a1 : (128 + y) &&& 0b00111111 = (128 + y) % 64 := and_mask _ _ 6 (by decide)
  have a2 : (128 + z) &&& 0b00111111 = (128 + z) % 64 := and_mask _ _ 6 (by decide)
  have c0 : (224 + x) % 16 = x := by omega
  have c1 : (128 + y) % 64 = y := by omega
  have c2 : (128 + z) % 64 = z := by omega
  have d0 : x <<< 12 ||| y <<< 6 = 2 ^ 6 * (x * 64 + y) := by
    rw [Nat.shiftLeft_eq, Nat.shiftLeft_eq, Nat.mul_comm x, or_add 12 x (y * 2 ^ 6) (by omega)]
    omega
  unfold utf8CodePoint
  rw [if_neg (by decide), if_neg (by decide), if_pos rfl, a0, a1, a2, c0, c1, c2, d0,
    or_add 6 _ z hz]
  omega

theorem utf8CodePoint_four (x y z w : Nat) (hx : x < 8) (hy : y < 64) (hz : z < 64)
    (hw : w < 64) :
    utf8CodePoint 4 (240 + x) (128 + y) (128 + z) (128 + w)
      = x * 262144 + y * 4096 + z * 64 + w := by
  have a0 : (240 + x) &&& 0b00000111 = (240 + x) % 8 := and_mask _ _ 3 (by decide)
  have a1 : (128 + y) &&& 0b00111111 = (128 + y) % 64 := and_mask _ _ 6 (by decide)
  have a2 : (128 + z) &&& 0b00111111 = (128 + z) % 64 := and_mask _ _ 6 (by decide)
  have a3 : (128 + w) &&& 0b00111111 = (128 + w) % 64 := and_mask _ _ 6 (by decide)
  have c0 : (240 + x) % 8 = x := by omega
  have c1 : (128 + y) % 64 = y := by omega
  have c2 : (128 + z) % 64 = z := by omega
  have c3 : (128 + w) % 64 = w := by omega
  have d0 : x <<< 18 ||| y <<< 12 = 2 ^ 12 * (x * 64 + y) := by
    rw [Nat.shiftLeft_eq, Nat.shiftLeft_eq, Nat.mul_comm x, or_add 18 x (y * 2 ^ 12) (by omega)]
    omega
  have d1 : 2 ^ 12 * (x * 64 + y) ||| z <<< 6 = 2 ^ 6 * ((x * 64 + y) * 64 + z) := by
    rw [Nat.shiftLeft_eq, or_add 12 _ (z * 2 ^ 6) (by omega)]
    omega
  unfold utf8CodePoint
  rw [if_neg (by decide), if_neg (by decide), if_neg (by decide), if_pos rfl, a0, a1, a2, a3,
    c0, c1, c2, c3, d0, d1, or_add 6 _ w hw]
  omega

theorem utf8Bytes_decode (e : Nat) (h1 : 1 ≤ e) (h2 : e ≤ 0x10FFFF) (tail : List Nat)
    (fuel : Nat) :
    ∃ bs, utf8Bytes e = some bs
      ∧ bs.length = (if e < 0x80 then 1 else if e < 0x800 then 2 else if e < 0x10000 then 3
          else 4)
      ∧ (∀ b ∈ bs, 0 < b ∧ b < 256)
      ∧ getUnicodeFromUTF8Loop (fuel + 1) (bs ++ tail)
          = (getUnicodeFromUTF8Loop fuel tail).map (e :: ·) := by
  by_cases c1 : e < 0x80
  · refine ⟨[e], utf8Bytes_one e c1, by rw [if_pos c1]; rfl, ?_, ?_⟩
    · intro b hb
      rw [List.mem_singleton] at hb
      omega
    · have hn := nextUTF8_ascii e (by omega) c1
      simp only [getUnicodeFromUTF8Loop, List.cons_append, List.nil_append, List.getD_cons_zero,
        hn]
      rw [if_neg (by decide), if_neg (by decide)]
      rfl
  · by_cases c2 : e < 0x800
    · refine ⟨_, utf8Bytes_two e (by omega) c2, by rw [if_neg c1, if_pos c2]; rfl, ?_, ?_⟩
      · intro b hb
        simp only [List.mem_cons, List.mem_singleton, List.not_mem_nil, or_false] at hb
        omega
      · have hn := nextUTF8_two (e / 64) (by omega)
        have hc := utf8CodePoint_two (e / 64) (e % 64) (tail.getD 0 0) (tail.getD 1 0)
          (by omega) (by omega)
        simp only [getUnicodeFromUTF8Loop, List.cons_append, List.nil_append,
          List.getD_cons_zero, List.getD_cons_succ, hn, hc]
        rw [if_neg (by decide), if_neg (by decide)]
        have he : e / 64 * 64 + e % 64 = e := by omega
        rw [he]
        rfl
    · by_cases c3 : e < 0x10000
      · refine ⟨_, utf8Bytes_three e (by omega) c3,
          by rw [if_neg c1, if_neg c2, if_pos c3]; rfl, ?_, ?_⟩
        · intro b hb
          simp only [List.mem_cons, List.mem_singleton, List.not_mem_nil, or_false] at hb
          omega
        · have hn := nextUTF8_three (e / 4096) (by omega)
          have hc := utf8CodePoint_three (e / 4096) (e / 64 % 64) (e % 64) (tail.getD 0 0)
            (by omega) (by omega) (by omega)
          simp only [getUnicodeFromUTF8Loop, List.cons_append, List.nil_append,
            List.getD_cons_zero, List.getD_cons_succ, hn, hc]
          rw [if_neg (by decide), if_neg (by decide)]
          have he : e / 4096 * 4096 + e / 64 % 64 * 64 + e % 64 = e := by omega
          rw [he]
          rfl
      · refine ⟨_, utf8Bytes_four e (by omega) h2,
          by rw [if_neg c1, if_neg c2, if_neg c3]; rfl, ?_, ?_⟩
        · intro b hb
          simp only [List.mem_cons, List.mem_singleton, List.not_mem_nil, or_false] at hb
          omega
        · have hn := nextUTF8_four (e / 262144) (by omega)
          have hc := utf8CodePoint_four (e / 262144) (e / 4096 % 64) (e / 64 % 64) (e % 64)
            (by omega) (by omega) (by omega) (by omega)
          simp only [getUnicodeFromUTF8Loop, List.cons_append, List.nil_append,
            List.getD_cons_zero, List.getD_cons_succ, hn, hc]
          rw [if_neg (by decide), if_neg (by decide)]
          have he : e / 262144 * 262144 + e / 4096 % 64 * 4096 + e / 64 % 64 * 64 + e % 64
              = e := by omega
          rw [he]
          rfl

theorem getUnicodeFromUTF8Loop_stop (fuel : Nat) (z : List Nat) (hz : z.getD 0 0 = 0) :
    getUnicodeFromUTF8Loop fuel z = some [] := by
  cases fuel with
  | zero => rfl
  | succ f =>
    simp only [getUnicodeFromUTF8Loop, hz]
    rfl

theorem utf8_round_trip (z : List Nat) (hz : z.getD 0 0 = 0) : ∀ (cps : List Nat),
    (∀ e ∈ cps, 1 ≤ e ∧ e ≤ 0x10FFFF) →
    ∃ bytes, getUTF8FromUnicode cps = some bytes
      ∧ bytes.length = (cps.map fun e =>
          if e < 0x80 then 1 else if e < 0x800 then 2 else if e < 0x10000 then 3 else 4).sum
      ∧ (∀ b ∈ bytes, 0 < b ∧ b < 256)
      ∧ ∀ fuel, (bytes ++ z).length < fuel →
          getUnicodeFromUTF8Loop fuel (bytes ++ z) = some cps := by
  intro cps
  induction cps with
  | nil =>
    intro _
    refine ⟨[], rfl, rfl, fun b hb => absurd hb (List.not_mem_nil _), ?_⟩
    intro fuel _
    exact getUnicodeFromUTF8Loop_stop fuel _ hz
  | cons e es ih =>
    intro h
    obtain ⟨bytes, henc, hlen, hbytes, hdec⟩ := ih (fun x hx => h x (List.mem_cons_of_mem _ hx))
    have he := h e (List.mem_cons_self _ _)
    obtain ⟨bs, hbs, hbl, hbb, _⟩ := utf8Bytes_decode e he.1 he.2 [] 0
    refine ⟨bs ++ bytes, ?_, ?_, ?_, ?_⟩
    · simp only [getUTF8FromUnicode, hbs, henc, Option.map_some']
    · rw [List.length_append, hbl, hlen, List.map_cons, List.sum_cons]
    · intro b hb
      rcases List.mem_append.1 hb with hb | hb
      · exact hbb b hb
      · exact hbytes b hb
    · intro fuel hfuel
      obtain ⟨f, rfl⟩ : ∃ f, fuel = f + 1 := ⟨fuel - 1, by omega⟩
      obtain ⟨bs2, hbs2, hbl2, _, hstep⟩ := utf8Bytes_decode e he.1 he.2 (bytes ++ z) f
      have hsame : bs2 = bs := by
        rw [hbs] at hbs2
        exact (Option.some.inj hbs2).symm
      subst hsame
      rw [List.append_assoc, hstep, hdec f]
      · rfl
      · rw [List.append_assoc, List.length_append] at hfuel
        have : 1 ≤ bs2.length := by
          rw [hbl2]; split_ifs <;> omega
        omega

/-! ## The constructors of the tree -/

theorem preorderIds_mk (file : EntryPtr) (children : List Fat12Inode) (inode nlookup : Nat)
    (zombie : Bool) :
    (Fat12Inode.mk file children inode nlookup zombie).preorderIds
      = inode :: preorderIdsList children := by
  simp only [Fat12Inode.preorderIds]

theorem preorderIdsList_cons (child : Fat12Inode) (rest : List Fat12Inode) :
    preorderIdsList (child :: rest) = child.preorderIds ++ preorderIdsList rest := by
  simp only [preorderIdsList]

theorem preorderIdsList_append (a b : List Fat12Inode) :
    preorderIdsList (a ++ b) = preorderIdsList a ++ preorderIdsList b := by
  induction a with
  | nil => simp [preorderIdsList]
  | cons x xs ih => rw [List.cons_append, preorderIdsList_cons, preorderIdsList_cons, ih,
      List.append_assoc]

theorem MountedBelowList_cons (vol : Fat12Volume) (child : Fat12Inode) (rest : List Fat12Inode) :
    MountedBelowList vol (child :: rest) ↔ child.MountedBelow vol ∧ MountedBelowList vol rest := by
  simp only [MountedBelowList]

theorem MountedBelowList_append (vol : Fat12Volume) (a b : List Fat12Inode) :
    MountedBelowList vol (a ++ b) ↔ MountedBelowList vol a ∧ MountedBelowList vol b := by
  induction a with
  | nil => simp [MountedBelowList]
  | cons x xs ih => rw [List.cons_append, MountedBelowList_cons, MountedBelowList_cons, ih,
      and_assoc]

theorem MountedBelow_mk (vol : Fat12Volume) (file : EntryPtr) (children : List Fat12Inode)
    (inode nlookup : Nat) (zombie : Bool) :
    (Fat12Inode.mk file children inode nlookup zombie).MountedBelow vol ↔
      (if (vol.slot file).isDirectory && !(vol.slot file).isDotOrDotDot then
          ∃ chain, IsChain vol.fatRegion (vol.slot file).firstDataClusterLow chain
            ∧ children.map Fat12Inode.file
              = (chain.flatMap (clusterSlots vol)).filter fun e => (vol.slot e).isValid
        else children = [])
      ∧ MountedBelowList vol children := by
  simp only [Fat12Inode.MountedBelow]

theorem idsFrom_length (c k : Nat) : (idsFrom c k).length = k := by
  simp [idsFrom]

theorem idsFrom_mod (c k : Nat) : idsFrom (c % 2 ^ 32) k = idsFrom c k := by
  unfold idsFrom
  apply List.map_congr_left
  intro i _
  simp only [Nat.mod_add_mod]

theorem idsFrom_add (c k1 k2 : Nat) :
    idsFrom c (k1 + k2) = idsFrom c k1 ++ idsFrom (c + k1) k2 := by
  unfold idsFrom
  rw [List.range_add, List.map_append, List.map_map]
  congr 1
  apply List.map_congr_left
  intro i _
  simp only [Function.comp, Nat.add_assoc]

theorem idsFrom_one (c : Nat) (hc : c < 2 ^ 32) : idsFrom c 1 = [c] := by
  have h : (c + 0) % 2 ^ 32 = c := Nat.mod_eq_of_lt hc
  show [(c + 0) % 2 ^ 32] = [c]
  rw [h]

theorem idsFrom_eq_range (c k : Nat) (h : c + k ≤ 2 ^ 32) : idsFrom c k = List.range' c k := by
  unfold idsFrom
  apply List.ext_getElem
  · simp
  · intro i h1 h2
    simp only [List.length_map, List.length_range] at h1
    simp only [List.getElem_map, List.getElem_range, List.getElem_range']
    rw [Nat.mod_eq_of_lt (by omega)]
    omega

theorem constructSlots_spec (vol : Fat12Volume)
    (construct : EntryPtr → Nat → Option (Fat12Inode × Nat)) (valid : EntryPtr → Bool) :
    ∀ (slots : List EntryPtr) (c : Nat) (children : List Fat12Inode) (c1 : Nat), c < 2 ^ 32 →
    (∀ e ∈ slots, valid e = true → ∀ c0 r, c0 < 2 ^ 32 → construct e c0 = some r →
      MountResult vol e c0 r) →
    constructSlots construct valid slots c = some (children, c1) →
    children.map Fat12Inode.file = slots.filter valid
      ∧ MountedBelowList vol children
      ∧ preorderIdsList children = idsFrom c (preorderIdsList children).length
      ∧ c1 = (c + (preorderIdsList children).length) % 2 ^ 32 := by
  intro slots
  induction slots with
  | nil =>
    intro c children c1 hc _ h
    simp only [constructSlots, Option.some.injEq, Prod.mk.injEq] at h
    obtain ⟨rfl, rfl⟩ := h
    refine ⟨rfl, trivial, rfl, ?_⟩
    exact (Nat.mod_eq_of_lt hc).symm
  | cons e rest ih =>
    intro c children c1 hc hcons h
    simp only [constructSlots] at h
    by_cases hv : valid e = true
    · rw [if_pos hv] at h
      cases hce : construct e c with
      | none => rw [hce] at h; cases h
      | some r =>
        obtain ⟨child, c2⟩ := r
        rw [hce] at h
        simp only at h
        cases hrest : constructSlots construct valid rest c2 with
        | none => rw [hrest] at h; cases h
        | some r2 =>
          obtain ⟨children2, c3⟩ := r2
          rw [hrest] at h
          simp only [Option.map_some', Option.some.injEq, Prod.mk.injEq] at h
          obtain ⟨rfl, rfl⟩ := h
          obtain ⟨hfile, hm, hids, hc2⟩ := hcons e (List.mem_cons_self _ _) hv c _ hc hce
          simp only at hfile hm hids hc2
          have hc2lt : c2 < 2 ^ 32 := by rw [hc2]; exact Nat.mod_lt _ (by decide)
          obtain ⟨hf2, hm2, hids2, hc3⟩ := ih c2 children2 c3 hc2lt
            (fun x hx => hcons x (List.mem_cons_of_mem _ hx)) hrest
          refine ⟨?_, (MountedBelowList_cons _ _ _).2 ⟨hm, hm2⟩, ?_, ?_⟩
          · rw [List.map_cons, List.filter_cons, if_pos hv, hfile, hf2]
          · rw [preorderIdsList_cons, List.length_append, idsFrom_add, ← hids]
            congr 1
            rw [hids2, idsFrom_length, hc2, idsFrom_mod]
          · rw [hc3, hc2, preorderIdsList_cons, List.length_append]
            simp only [Nat.mod_add_mod, Nat.add_assoc]
    · rw [if_neg hv] at h
      obtain ⟨hf2, hm2, hids2, hc3⟩ := ih c children c1 hc
        (fun x hx => hcons x (List.mem_cons_of_mem _ hx)) h
      refine ⟨?_, hm2, hids2, hc3⟩
      rw [List.filter_cons, if_neg hv, hf2]

theorem constructChain_spec (vol : Fat12Volume)
    (construct : EntryPtr → Nat → Option (Fat12Inode × Nat)) (valid : EntryPtr → Bool)
    (hcons : ∀ e, valid e = true → ∀ c0 r, c0 < 2 ^ 32 → construct e c0 = some r →
      MountResult vol e c0 r) :
    ∀ (fuel cluster c : Nat) (children : List Fat12Inode) (c1 : Nat), c < 2 ^ 32 →
    constructChain construct vol valid fuel cluster c = some (children, c1) →
    ∃ chain, IsChain vol.fatRegion cluster chain
      ∧ children.map Fat12Inode.file = (chain.flatMap (clusterSlots vol)).filter valid
      ∧ MountedBelowList vol children
      ∧ preorderIdsList children = idsFrom c (preorderIdsList children).length
      ∧ c1 = (c + (preorderIdsList children).length) % 2 ^ 32 := by
  intro fuel
  induction fuel with
  | zero =>
    intro cluster c children c1 _ h
    simp only [constructChain] at h
    cases h
  | succ fuel ih =>
    intro cluster c children c1 hc h
    simp only [constructChain] at h
    by_cases hend : cluster = 0xFFF
    · have hb : (cluster != 0xFFF) = false := by simp [hend]
      rw [hb] at h
      simp only [Bool.false_eq_true, if_false, Option.some.injEq, Prod.mk.injEq] at h
      obtain ⟨rfl, rfl⟩ := h
      refine ⟨[], hend, rfl, trivial, rfl, ?_⟩
      exact (Nat.mod_eq_of_lt hc).symm
    · have hb : (cluster != 0xFFF) = true := by simpa using hend
      rw [hb] at h
      simp only [if_true] at h
      cases hs : constructSlots construct valid (clusterSlots vol cluster) c with
      | none => rw [hs] at h; cases h
      | some r =>
        obtain ⟨children1, c2⟩ := r
        rw [hs] at h
        simp only at h
        cases hr : constructChain construct vol valid fuel (fatGet vol.fatRegion cluster) c2 with
        | none => rw [hr] at h; cases h
        | some r2 =>
          obtain ⟨children2, c3⟩ := r2
          rw [hr] at h
          simp only [Option.map_some', Option.some.injEq, Prod.mk.injEq] at h
          obtain ⟨rfl, rfl⟩ := h
          obtain ⟨hf1, hm1, hids1, hc2⟩ := constructSlots_spec vol construct valid
            (clusterSlots vol cluster) c children1 c2 hc (fun e _ hv => hcons e hv) hs
          have hc2lt : c2 < 2 ^ 32 := by rw [hc2]; exact Nat.mod_lt _ (by decide)
          obtain ⟨chain, hchain, hf2, hm2, hids2, hc3⟩ := ih _ c2 children2 c3 hc2lt hr
          refine ⟨cluster :: chain, ⟨rfl, hend, hchain⟩, ?_,
            (MountedBelowList_append _ _ _).2 ⟨hm1, hm2⟩, ?_, ?_⟩
          · rw [List.map_append, hf1, hf2, List.flatMap_cons, List.filter_append]
          · rw [preorderIdsList_append, List.length_append, idsFrom_add, ← hids1]
            congr 1
            rw [hids2, idsFrom_length, hc2, idsFrom_mod]
          · rw [hc3, hc2, preorderIdsList_append, List.length_append]
            simp only [Nat.mod_add_mod, Nat.add_assoc]

theorem construct_spec (vol : Fat12Volume) (fuel : Nat) :
    ∀ (depth : Nat) (file : EntryPtr) (c : Nat) (r : Fat12Inode × Nat), c < 2 ^ 32 →
    Fat12Inode.construct vol fuel depth file c = some r → MountResult vol file c r := by
  intro depth
  induction depth with
  | zero =>
    intro file c r _ h
    simp only [Fat12Inode.construct] at h
    cases h
  | succ depth ih =>
    intro file c r hc h
    simp only [Fat12Inode.construct] at h
    by_cases hdir : ((vol.slot file).isDirectory && !(vol.slot file).isDotOrDotDot) = true
    · rw [if_pos hdir] at h
      have hdot : (!(vol.slot file).isDotOrDotDot) = true := by
        simp only [Bool.and_eq_true] at hdir
        exact hdir.2
      have hvalid : (fun entry => (vol.slot entry).isValid && !(vol.slot file).isDotOrDotDot)
          = fun entry => (vol.slot entry).isValid := by
        funext entry
        rw [hdot, Bool.and_true]
      rw [hvalid] at h
      cases hch : constructChain
          (fun entry counter => Fat12Inode.construct vol fuel depth entry counter) vol
          (fun entry => (vol.slot entry).isValid) fuel (vol.slot file).firstDataClusterLow
          ((c + 1) % 2 ^ 32) with
      | none => rw [hch] at h; cases h
      | some r2 =>
        obtain ⟨children, c1⟩ := r2
        rw [hch] at h
        simp only [Option.map_some', Option.some.injEq] at h
        subst h
        obtain ⟨chain, hchain, hf, hm, hids, hc1⟩ := constructChain_spec vol _ _
          (fun e _ c0 r0 hc0 hr0 => ih e c0 r0 hc0 hr0) fuel _ _ children c1
          (Nat.mod_lt _ (by decide)) hch
        refine ⟨rfl, ?_, ?_, ?_⟩
        · rw [MountedBelow_mk, if_pos hdir]
          exact ⟨⟨chain, hchain, hf⟩, hm⟩
        · simp only [preorderIds_mk, List.length_cons]
          rw [Nat.add_comm _ 1, idsFrom_add, idsFrom_one c hc, hids, idsFrom_length, idsFrom_mod]
          rfl
        · simp only [preorderIds_mk, List.length_cons]
          rw [hc1]
          simp only [Nat.mod_add_mod]
          congr 1
          omega
    · rw [if_neg hdir] at h
      simp only [Option.some.injEq] at h
      subst h
      refine ⟨rfl, ?_, ?_, ?_⟩
      · rw [MountedBelow_mk, if_neg hdir]
        exact ⟨rfl, trivial⟩
      · simp only [preorderIds_mk, preorderIdsList, List.length_cons, List.length_nil]
        exact (idsFrom_one c hc).symm
      · simp only [preorderIds_mk, preorderIdsList, List.length_cons, List.length_nil]

theorem constructSlots_total (construct : EntryPtr → Nat → Option (Fat12Inode × Nat))
    (valid : EntryPtr → Bool) :
    ∀ (slots : List EntryPtr),
    (∀ e ∈ slots, valid e = true → ∀ c0, ∃ r, construct e c0 = some r) →
    ∀ c, ∃ r, constructSlots construct valid slots c = some r := by
  intro slots
  induction slots with
  | nil => intro _ c; exact ⟨_, rfl⟩
  | cons e rest ih =>
    intro h c
    simp only [constructSlots]
    by_cases hv : valid e = true
    · rw [if_pos hv]
      obtain ⟨⟨child, c1⟩, hr⟩ := h e (List.mem_cons_self _ _) hv c
      obtain ⟨r2, hr2⟩ := ih (fun x hx => h x (List.mem_cons_of_mem _ hx)) c1
      rw [hr]
      simp only [hr2, Option.map_some']
      exact ⟨_, rfl⟩
    · rw [if_neg hv]
      exact ih (fun x hx => h x (List.mem_cons_of_mem _ hx)) c

theorem dirChain_isChain (fat : Region) : ∀ (fuel c : Nat) (chain : List Nat),
    dirChain fat fuel c = some chain → IsChain fat c chain ∧ chain.length < fuel := by
  intro fuel
  induction fuel with
  | zero => intro c chain h; simp only [dirChain] at h; cases h
  | succ fuel ih =>
    intro c chain h
    simp only [dirChain] at h
    by_cases hend : c = 0xFFF
    · have hb : (c != 0xFFF) = false := by simp [hend]
      rw [hb] at h
      simp only [Bool.false_eq_true, if_false, Option.some.injEq] at h
      subst h
      exact ⟨hend, Nat.succ_pos _⟩
    · have hb : (c != 0xFFF) = true := by simpa using hend
      rw [hb] at h
      simp only [if_true] at h
      cases hr : dirChain fat fuel (fatGet fat c) with
      | none => rw [hr] at h; cases h
      | some rest =>
        rw [hr] at h
        simp only [Option.map_some', Option.some.injEq] at h
        subst h
        obtain ⟨h1, h2⟩ := ih _ rest hr
        exact ⟨⟨rfl, hend, h1⟩, by simp only [List.length_cons]; omega⟩

theorem constructChain_total (vol : Fat12Volume)
    (construct : EntryPtr → Nat → Option (Fat12Inode × Nat)) (valid : EntryPtr → Bool) :
    ∀ (fuel cluster : Nat) (chain : List Nat),
    dirChain vol.fatRegion fuel cluster = some chain →
    (∀ e ∈ chain.flatMap (clusterSlots vol), valid e = true → ∀ c0, ∃ r, construct e c0 = some r) →
    ∀ c, ∃ r, constructChain construct vol valid fuel cluster c = some r := by
  intro fuel
  induction fuel with
  | zero => intro cluster chain h; simp only [dirChain] at h; cases h
  | succ fuel ih =>
    intro cluster chain h hall c
    simp only [dirChain] at h
    simp only [constructChain]
    by_cases hend : cluster = 0xFFF
    · have hb : (cluster != 0xFFF) = false := by simp [hend]
      rw [hb]
      exact ⟨_, rfl⟩
    · have hb : (cluster != 0xFFF) = true := by simpa using hend
      rw [hb] at h ⊢
      simp only [if_true] at h ⊢
      cases hr : dirChain vol.fatRegion fuel (fatGet vol.fatRegion cluster) with
      | none => rw [hr] at h; cases h
      | some rest =>
        rw [hr] at h
        simp only [Option.map_some', Option.some.injEq] at h
        subst h
        obtain ⟨⟨children1, c2⟩, hs⟩ := constructSlots_total construct valid
          (clusterSlots vol cluster)
          (fun e he => hall e (by rw [List.flatMap_cons]; exact List.mem_append_left _ he)) c
        obtain ⟨r2, hr2⟩ := ih _ rest hr
          (fun e he => hall e (by rw [List.flatMap_cons]; exact List.mem_append_right _ he)) c2
        rw [hs]
        simp only [hr2, Option.map_some']
        exact ⟨_, rfl⟩

theorem construct_total (vol : Fat12Volume) (fuel : Nat) :
    ∀ (depth : Nat) (file : EntryPtr), wellFormedDir vol fuel depth file = true →
    ∀ c, ∃ r, Fat12Inode.construct vol fuel depth file c = some r := by
  intro depth
  induction depth with
  | zero => intro file h; simp only [wellFormedDir] at h; cases h
  | succ depth ih =>
    intro file h c
    simp only [wellFormedDir] at h
    simp only [Fat12Inode.construct]
    by_cases hdir : ((vol.slot file).isDirectory && !(vol.slot file).isDotOrDotDot) = true
    · rw [if_pos hdir] at h ⊢
      cases hch : dirChain vol.fatRegion fuel (vol.slot file).firstDataClusterLow with
      | none => rw [hch] at h; cases h
      | some chain =>
        rw [hch] at h
        simp only [List.all_eq_true, Bool.and_eq_true, Bool.or_eq_true, Bool.not_eq_true'] at h
        obtain ⟨r, hr⟩ := constructChain_total vol
          (fun entry counter => Fat12Inode.construct vol fuel depth entry counter)
          (fun entry => (vol.slot entry).isValid && !(vol.slot file).isDotOrDotDot)
          fuel _ chain hch
          (by
            intro e he hv c0
            simp only [Bool.and_eq_true] at hv
            rcases (h e he).2 with h1 | h1
            · rw [h1] at hv; exact absurd hv.1 (by decide)
            · exact ih e h1 c0)
          ((c + 1) % 2 ^ 32)
        rw [hr]
        exact ⟨_, rfl⟩
    · rw [if_neg hdir]
      exact ⟨_, rfl⟩

/-! ## What a successful `getFatVolume` has checked -/

theorem getFatVolume_inv (fuel : Nat) (filedata : List Nat) (L : Fat12Layout)
    (h : getFatVolume fuel filedata = some (some L)) :
    ∃ i bpb volumeSize, scanForBPBRegion filedata = some i
      ∧ BPB.ofBytes (memRead filedata ((512 * i : Nat) : Int) 512) = bpb
      ∧ volumeSize = (if bpb.totalSectors16 != 0 then bpb.totalSectors16 * bpb.bytesPerSector
          else (bpb.totalSectors32 * bpb.bytesPerSector) % 2 ^ 32)
      ∧ volumeSize ≤ filedata.length - i * 512
      ∧ bpb.reservedSectors * bpb.bytesPerSector
          + bpb.sectorPerFat * bpb.bytesPerSector * bpb.fatCount ≤ volumeSize
      ∧ L.bootOffset = i * 512
      ∧ L.volumeSize = volumeSize
      ∧ L.reservedSize = bpb.reservedSectors * bpb.bytesPerSector
      ∧ L.fatOffset = bpb.reservedSectors * bpb.bytesPerSector
      ∧ L.fatRegionSize = bpb.fatCount * (bpb.sectorPerFat * bpb.bytesPerSector)
      ∧ L.rootOffset = L.fatOffset + L.fatRegionSize
      ∧ L.rootSize = bpb.rootEntries * 32
      ∧ L.dataOffset = L.rootOffset + L.rootSize
      ∧ L.dataSize
          = (volumeSize + 3 * 2 ^ 64 - L.fatRegionSize - L.rootSize - L.reservedSize) % 2 ^ 64
      ∧ L.clusterSize = bpb.sectorsPerCluster * bpb.bytesPerSector
      ∧ L.maxCluster
          = min
              (min (if (L.dataSize / L.clusterSize) % 2 ^ 32 < 2 ^ 31 then
                    (((L.dataSize / L.clusterSize) % 2 ^ 32 : Nat) : Int)
                  else (((L.dataSize / L.clusterSize) % 2 ^ 32 : Nat) : Int) - 2 ^ 32)
                ((1 <<< 12 : Nat) - 2 : Int) % 2 ^ 16).toNat
              (bpb.sectorPerFat * bpb.bytesPerSector * 8 / 12) % 2 ^ 16 := by
  cases hscan : scanForBPBRegion filedata with
  | none => simp [getFatVolume, hscan] at h
  | some i =>
    generalize hbpb : BPB.ofBytes (memRead filedata ((512 * i : Nat) : Int) 512) = bpb
    generalize hvs : (if bpb.totalSectors16 != 0 then bpb.totalSectors16 * bpb.bytesPerSector
          else (bpb.totalSectors32 * bpb.bytesPerSector) % 2 ^ 32) = volumeSize
    simp only [getFatVolume, hscan, hbpb, hvs] at h
    by_cases hfit : volumeSize > filedata.length - i * 512
    · rw [if_pos hfit] at h; simp at h
    · rw [if_neg hfit] at h
      cases hchk : checkFatTable fuel (filedata.drop (i * 512)) volumeSize
          (bpb.reservedSectors * bpb.bytesPerSector) (bpb.sectorPerFat * bpb.bytesPerSector)
          bpb.fatCount with
      | none => rw [hchk] at h; simp at h
      | some ok =>
        rw [hchk] at h
        cases ok with
        | false => simp at h
        | true =>
          simp only [Option.some.injEq] at h
          subst h
          have hfat : ¬ (bpb.reservedSectors * bpb.bytesPerSector
              + bpb.sectorPerFat * bpb.bytesPerSector * bpb.fatCount > volumeSize) := fun hgt => by
            unfold checkFatTable at hchk
            rw [if_pos hgt] at hchk
            simp at hchk
          exact ⟨i, bpb, volumeSize, rfl, hbpb, hvs.symm, Nat.le_of_not_gt hfit,
            Nat.le_of_not_gt hfat, rfl, rfl, rfl, rfl, rfl, rfl, rfl, rfl, rfl, rfl, rfl⟩

theorem getFatVolume_raw (fuel : Nat) (filedata : List Nat) (i : Nat) (bpb : BPB)
    (volumeSize : Nat)
    (hscan : scanForBPBRegion filedata = some i)
    (hbpb : BPB.ofBytes (memRead filedata ((512 * i : Nat) : Int) 512) = bpb)
    (hvs : (if bpb.totalSectors16 != 0 then bpb.totalSectors16 * bpb.bytesPerSector
          else (bpb.totalSectors32 * bpb.bytesPerSector) % 2 ^ 32) = volumeSize)
    (hfit : volumeSize ≤ filedata.length - i * 512)
    (hchk : checkFatTable fuel (filedata.drop (i * 512)) volumeSize
      (bpb.reservedSectors * bpb.bytesPerSector) (bpb.sectorPerFat * bpb.bytesPerSector)
      bpb.fatCount = some true) :
    ∃ L, getFatVolume fuel filedata = some (some L)
      ∧ L.bootOffset = i * 512
      ∧ L.volumeSize = volumeSize
      ∧ L.reservedSize = bpb.reservedSectors * bpb.bytesPerSector
      ∧ L.fatOffset = bpb.reservedSectors * bpb.bytesPerSector
      ∧ L.fatRegionSize = bpb.fatCount * (bpb.sectorPerFat * bpb.bytesPerSector)
      ∧ L.rootOffset = bpb.reservedSectors * bpb.bytesPerSector
          + bpb.fatCount * (bpb.sectorPerFat * bpb.bytesPerSector)
      ∧ L.rootSize = bpb.rootEntries * 32
      ∧ L.dataOffset = bpb.reservedSectors * bpb.bytesPerSector
          + bpb.fatCount * (bpb.sectorPerFat * bpb.bytesPerSector) + bpb.rootEntries * 32
      ∧ L.dataSize
          = (volumeSize + 3 * 2 ^ 64 - bpb.fatCount * (bpb.sectorPerFat * bpb.bytesPerSector)
              - bpb.rootEntries * 32 - bpb.reservedSectors * bpb.bytesPerSector) % 2 ^ 64
      ∧ L.clusterSize = bpb.sectorsPerCluster * bpb.bytesPerSector
      ∧ L.maxCluster
          = min
              (min (if (L.dataSize / L.clusterSize) % 2 ^ 32 < 2 ^ 31 then
                    (((L.dataSize / L.clusterSize) % 2 ^ 32 : Nat) : Int)
                  else (((L.dataSize / L.clusterSize) % 2 ^ 32 : Nat) : Int) - 2 ^ 32)
                ((1 <<< 12 : Nat) - 2 : Int) % 2 ^ 16).toNat
              (bpb.sectorPerFat * bpb.bytesPerSector * 8 / 12) % 2 ^ 16 := by
  simp only [getFatVolume, hscan, hbpb, hvs, if_neg (Nat.not_lt.2 hfit), hchk]
  exact ⟨_, rfl, rfl, rfl, rfl, rfl, rfl, rfl, rfl, rfl, rfl, rfl, rfl⟩

/-! ## The compaction of a sub-directory -/

theorem bootBlock_length (fatCount totalSectors16 : Nat) :
    (bootBlock fatCount totalSectors16).length = 512 := by
  simp [bootBlock]

theorem imageZeroFat_length : imageZeroFat.length = 4096 := by
  rw [imageZeroFat, List.length_append, List.length_replicate, bootBlock_length]

theorem imageZeroFat_fat0 :
    memRead imageZeroFat ((512 : Nat) : Int) 512 = List.replicate 512 0 := by
  have himg : imageZeroFat = bootBlock 2 8 ++ List.replicate 512 0 ++ List.replicate 3072 0 := by
    rw [List.append_assoc, List.append_replicate_replicate, imageZeroFat]
  rw [himg]
  exact memRead_mid (bootBlock 2 8) (List.replicate 512 0) _ 512 512
    (by rw [bootBlock_length]) (by rw [List.length_replicate])

theorem imageZeroFat_fat1 :
    memRead imageZeroFat ((1024 : Nat) : Int) 512 = List.replicate 512 0 := by
  have himg : imageZeroFat
      = (bootBlock 2 8 ++ List.replicate 512 0) ++ List.replicate 512 0
        ++ List.replicate 2560 0 := by
    rw [List.append_assoc, List.append_assoc, List.append_replicate_replicate,
      List.append_replicate_replicate, imageZeroFat]
  rw [himg]
  exact memRead_mid (bootBlock 2 8 ++ List.replicate 512 0) (List.replicate 512 0) _ 1024 512
    (by rw [List.length_append, bootBlock_length, List.length_replicate])
    (by rw [List.length_replicate])

theorem imageZeroFat_layout :
    getFatVolume 2 imageZeroFat = some (some
        { bootOffset := 0, volumeSize := 4096, reservedSize := 512, fatOffset := 512,
          fatRegionSize := 1024, rootOffset := 1536, rootSize := 512, dataOffset := 2048,
          dataSize := 2048, clusterSize := 512, maxCluster := 4 }) := by
  have hlen := imageZeroFat_length
  have hscan : scanForBPBRegion imageZeroFat = some 0 :=
    (scanForBPBRegion_some _ 0).2 ⟨by rw [hlen]; omega, by decide, fun j hj => absurd hj (by omega)⟩
  have hb : BPB.ofBytes (memRead imageZeroFat ((512 * 0 : Nat) : Int) 512)
      = BPB.ofBytes (bootBlock 2 8) := by decide
  obtain ⟨L, hL, h1, h2, h0, h3, h4, h5, h6, h7, h8, h9, h10⟩ :=
    getFatVolume_raw 2 imageZeroFat 0 (BPB.ofBytes (bootBlock 2 8)) 4096 hscan hb (by decide)
      (by rw [hlen])
      (by
        have hfo : (BPB.ofBytes (bootBlock 2 8)).reservedSectors
            * (BPB.ofBytes (bootBlock 2 8)).bytesPerSector = 512 := by decide
        have hfs : (BPB.ofBytes (bootBlock 2 8)).sectorPerFat
            * (BPB.ofBytes (bootBlock 2 8)).bytesPerSector = 512 := by decide
        have hfc : (BPB.ofBytes (bootBlock 2 8)).fatCount = 2 := by decide
        rw [hfo, hfs, hfc]
        unfold checkFatTable
        rw [if_neg (by decide)]
        apply checkFatTableLoop_equal _ _ _ _ (by decide) 2 0 (by decide) (by decide)
        intro j _ hj
        have hj0 : j = 0 := by
          have : (2 + 2 ^ 64 - 1) % 2 ^ 64 = 1 := by decide
          omega
        subst hj0
        show memRead (List.drop (0 * 512) imageZeroFat) ((512 : Nat) : Int) 512
          = memRead (List.drop (0 * 512) imageZeroFat) ((1024 : Nat) : Int) 512
        rw [Nat.zero_mul, List.drop_zero, imageZeroFat_fat0, imageZeroFat_fat1])
  rw [hL]
  have hd : L.dataSize = 2048 := by rw [h8]; decide
  have hc : L.clusterSize = 512 := by rw [h9]; decide
  have hm : L.maxCluster = 4 := by rw [h10, hd, hc]; decide
  cases L
  simp only at h1 h2 h0 h3 h4 h5 h6 h7 hd hc hm
  subst h1 h2 h0 h3 h4 h5 h6 h7 hd hc hm
  decide

/-! ## What the allocator returns -/

theorem getFreeClusterFrom_cases (fat : Region) : ∀ (n i : Nat),
    getFreeClusterFrom fat n i = 0xfff
      ∨ (i ≤ getFreeClusterFrom fat n i ∧ getFreeClusterFrom fat n i < i + n
          ∧ fatGet fat (getFreeClusterFrom fat n i) = 0) := by
  intro n
  induction n with
  | zero => intro i; left; rfl
  | succ n ih =>
    intro i
    by_cases hi : fatGet fat i = 0
    · have hcond : (fatGet fat i == 0) = true := by simpa using hi
      rw [getFreeClusterFrom, if_pos hcond]
      right
      exact ⟨le_refl _, by omega, hi⟩
    · have hcond : (fatGet fat i == 0) = false := by simpa using hi
      simp only [getFreeClusterFrom, hcond, Bool.false_eq_true, if_false]
      rcases ih (i + 1) with h | h
      · left; exact h
      · right; exact ⟨by omega, by omega, h.2.2⟩

theorem getFreeCluster_found (fat : Region) (maxCluster : Nat)
    (h : getFreeCluster fat maxCluster ≠ 0xFFF) :
    getFreeCluster fat maxCluster < maxCluster
      ∧ fatGet fat (getFreeCluster fat maxCluster) = 0 := by
  unfold getFreeCluster at h ⊢
  rcases getFreeClusterFrom_cases fat maxCluster 0 with h1 | h1
  · exact absurd h1 h
  · exact ⟨by omega, h1.2.2⟩

/-- An entry that reads `0xFFF` has both of its bytes inside the FAT. -/
theorem fatGet_fff_in_bounds (fat : Region) (hb : IsBytes fat) (i : Nat)
    (h : fatGet fat i = 0xFFF) : (getFatEntry i).ptr + 1 < fat.length := by
  by_contra hlen
  have hz : fat.getD ((getFatEntry i).ptr + 1) 0 = 0 := getD_of_le fat _ (by omega)
  have hb0 := hb.getD_lt (getFatEntry i).ptr
  unfold fatGet FatEntry.getValue at h
  rw [hz] at h
  split at h
  · rw [shr4, shl4] at h
    omega
  · rw [shl8] at h
    simp only [Nat.zero_and] at h
    omega

/-! ## The value range of the FAT under the stores of the file operations -/

theorem FatRangeOK.store_zero (fat : Region) (maxCluster x : Nat) (hb : IsBytes fat)
    (h : FatRangeOK fat maxCluster) (hin : (getFatEntry x).ptr + 1 < fat.length)
    (hx : 2 ≤ x) : FatRangeOK (fatSet fat x 0) maxCluster := by
  obtain ⟨h0, h1, hr⟩ := h
  have key : ∀ j, fatGet (fatSet fat x 0) j = if j = x then 0 else fatGet fat j := by
    intro j
    by_cases hj : j = x
    · subst hj; rw [if_pos rfl]; exact fatGet_fatSet_same fat j 0 hin (by omega)
    · rw [if_neg hj]; exact fatGet_fatSet_other fat hb x j 0 (by omega) hj
  refine ⟨?_, ?_, ?_⟩
  · rw [key, if_neg (by omega)]; exact h0
  · rw [key, if_neg (by omega)]; exact h1
  · intro i hi h2
    rw [key]
    split
    · left; rfl
    · exact hr i hi h2

/-! ## A chain visits no cluster twice -/

theorem IsChain.unique {fat : Region} :
    ∀ (l l2 : List Nat) (c : Nat), IsChain fat c l → IsChain fat c l2 → l = l2 := by
  intro l
  induction l with
  | nil =>
    intro l2 c h h2
    cases l2 with
    | nil => rfl
    | cons y rest2 => exact absurd h h2.2.1
  | cons x rest ih =>
    intro l2 c h h2
    cases l2 with
    | nil => exact absurd h2 h.2.1
    | cons y rest2 =>
      obtain ⟨hx, _, hrest⟩ := h
      obtain ⟨hy, _, hrest2⟩ := h2
      rw [hx, hy, ih rest2 _ hrest hrest2]

theorem IsChain.suffix {fat : Region} :
    ∀ (a b : List Nat) (c x : Nat), IsChain fat c (a ++ x :: b) → IsChain fat x (x :: b) := by
  intro a
  induction a with
  | nil =>
    intro b c x h
    obtain ⟨hx, hne, hrest⟩ := h
    subst hx
    exact ⟨rfl, hne, hrest⟩
  | cons y rest ih =>
    intro b c x h
    exact ih b _ x h.2.2

theorem IsChain.nodup {fat : Region} :
    ∀ (l : List Nat) (c : Nat), IsChain fat c l → l.Nodup := by
  intro l
  induction l with
  | nil => intro c _; exact List.nodup_nil
  | cons x rest ih =>
    intro c h
    refine List.nodup_cons.2 ⟨?_, ih _ h.2.2⟩
    intro hmem
    obtain ⟨a, b, hab⟩ := List.append_of_mem hmem
    have h1 : IsChain fat x (x :: b) := by
      have := h.2.2
      rw [hab] at this
      exact IsChain.suffix a b _ x this
    have h2 : IsChain fat x (x :: rest) := by
      obtain ⟨hx, hne, hrest⟩ := h
      subst hx
      exact ⟨rfl, hne, hrest⟩
    have := IsChain.unique _ _ _ h1 h2
    have hlen := congrArg List.length this
    rw [hab] at hlen
    simp at hlen
    omega

/-! ## The write loop: it returns, and it keeps what every allocation keeps -/

theorem writeLoop_total (cs maxCluster : Nat) (bytes : List Nat) :
    ∀ (fuel : Nat) (fat data : Region) (pos : ClusterPos) (written : Nat),
      pos.clusterOffset < cs → written ≤ bytes.length → bytes.length - written ≤ fuel →
      ∃ r, writeLoop cs maxCluster bytes fuel fat data pos written = some r := by
  intro fuel
  induction fuel with
  | zero =>
    intro fat data pos written _ hw hf
    have : written = bytes.length := by omega
    simp [writeLoop, this]
  | succ fuel ih =>
    intro fat data pos written hoff hw hf
    unfold writeLoop
    by_cases hwl : written = bytes.length
    · simp [hwl]
    · have hc : (written != bytes.length) = true := by simpa using hwl
      rw [if_pos hc]
      have hw1 : (writeCluster data cs pos (bytes.length - written) (bytes.drop written)).1
          = min (cs - pos.clusterOffset) (bytes.length - written) := rfl
      simp only [hw1]
      have hpos : 1 ≤ min (cs - pos.clusterOffset) (bytes.length - written) := by
        rw [Nat.le_min]; omega
      have hle : min (cs - pos.clusterOffset) (bytes.length - written)
          ≤ bytes.length - written := Nat.min_le_right _ _
      split
      · split
        · split
          · exact ⟨_, rfl⟩
          · exact ih _ _ _ _ (by simpa using (by omega : 0 < cs)) (by omega) (by omega)
        · exact ih _ _ _ _ (by simpa using (by omega : 0 < cs)) (by omega) (by omega)
      · exact ih _ _ _ _ hoff (by omega) (by omega)

theorem writeLoop_inv (cs maxCluster : Nat) (bytes : List Nat) (P : Region → Prop)
    (hstep : ∀ fat x, P fat → fatGet fat x = 0xFFF → getFreeCluster fat maxCluster ≠ 0xFFF →
      P (fatSet (fatSet fat x (getFreeCluster fat maxCluster))
        (getFreeCluster fat maxCluster) 0xFFF)) :
    ∀ (fuel : Nat) (fat data : Region) (pos : ClusterPos) (written : Nat) (r : WriteLoopResult),
      P fat → writeLoop cs maxCluster bytes fuel fat data pos written = some r → P r.fat := by
  intro fuel
  induction fuel with
  | zero =>
    intro fat data pos written r hP h
    unfold writeLoop at h
    split at h
    · exact absurd h (by simp)
    · simp only [Option.some.injEq] at h
      subst h
      exact hP
  | succ fuel ih =>
    intro fat data pos written r hP h
    unfold writeLoop at h
    split at h
    · simp only at h
      split at h
      · split at h
        · rename_i hfff
          split at h
          · simp only [Option.some.injEq] at h
            subst h
            exact hP
          · rename_i hnew
            exact ih _ _ _ _ r
              (hstep fat pos.cluster hP (by simpa using hfff) (by simpa using hnew)) h
        · exact ih _ _ _ _ r hP h
      · exact ih _ _ _ _ r hP h
    · simp only [Option.some.injEq] at h
      subst h
      exact hP

/-- The ways through `writeFile`: it returns, and the FAT it leaves is the one
it was given, or what the write loop leaves, entered with the FAT it was
given or with the FAT after the first cluster was allocated. -/
theorem writeFile_cases (fuel : Nat) (fat data : Region) (file : FileEntry)
    (cs : Nat) (bytes : List Nat) (offset maxCluster : Nat)
    (hcs : 0 < cs) (hcs32 : cs < 2 ^ 32) (hfuel : bytes.length ≤ fuel) :
    ∃ r, writeFile fuel fat data file cs bytes offset maxCluster = some r
      ∧ ((r.fat = fat ∧ r.file.firstDataClusterLow = file.firstDataClusterLow)
        ∨ (file.firstDataClusterLow = 0 ∧ getFreeCluster fat maxCluster ≠ 0xFFF
            ∧ r.file.firstDataClusterLow = getFreeCluster fat maxCluster
            ∧ ∃ pos lr, pos.cluster = getFreeCluster fat maxCluster
                ∧ writeLoop cs maxCluster bytes fuel
                  (fatSet fat (getFreeCluster fat maxCluster) 0xFFF) data pos 0 = some lr
                ∧ r.fat = lr.fat)
        ∨ (file.firstDataClusterLow ≠ 0
            ∧ r.file.firstDataClusterLow = file.firstDataClusterLow
            ∧ ∃ pos lr, pos.cluster = (seek fat file.firstDataClusterLow cs offset).cluster
                ∧ writeLoop cs maxCluster bytes fuel fat data pos 0 = some lr
                ∧ r.fat = lr.fat)) := by
  have hoff : (seek fat file.firstDataClusterLow cs offset).clusterOffset < cs := by
    show offset % 2 ^ 32 % (cs % 2 ^ 32) < cs
    rw [Nat.mod_eq_of_lt hcs32]
    exact Nat.mod_lt _ hcs
  unfold writeFile
  simp only
  split
  · exact ⟨_, rfl, Or.inl ⟨rfl, rfl⟩⟩
  · split
    · exact ⟨_, rfl, Or.inl ⟨rfl, rfl⟩⟩
    · split
      · rename_i h0
        split
        · exact ⟨_, rfl, Or.inl ⟨rfl, rfl⟩⟩
        · rename_i hnew
          obtain ⟨lr, hlr⟩ := writeLoop_total cs maxCluster bytes fuel
            (fatSet fat (getFreeCluster fat maxCluster) 0xFFF) data
            { seek fat file.firstDataClusterLow cs offset with
              cluster := getFreeCluster fat maxCluster } 0 hoff (Nat.zero_le _) (by omega)
          refine ⟨_, (by simp only [writeFileLoop, hlr, Option.map_some']; rfl), Or.inr (Or.inl
            ⟨by simpa using h0, by simpa using hnew, ?_, _, lr, rfl, hlr, ?_⟩)⟩
          · cases lr.exit <;> rfl
          · cases lr.exit <;> rfl
      · rename_i h0
        obtain ⟨lr, hlr⟩ := writeLoop_total cs maxCluster bytes fuel fat data
          (seek fat file.firstDataClusterLow cs offset) 0 hoff (Nat.zero_le _) (by omega)
        refine ⟨_, (by simp only [writeFileLoop, hlr, Option.map_some']; rfl), Or.inr (Or.inr
          ⟨by simpa using h0, ?_, _, lr, rfl, hlr, ?_⟩)⟩
        · cases lr.exit <;> rfl
        · cases lr.exit <;> rfl

/-! ## The truncation loop on a chain -/

theorem alloc_frame (fat : Region) (x n : Nat) (hb : IsBytes fat) (hn : n ≤ 0xFFF) (j : Nat)
    (hjx : j ≠ x) (hjn : j ≠ n) :
    fatGet (fatSet (fatSet fat x n) n 0xFFF) j = fatGet fat j := by
  rw [fatGet_fatSet_other _ (hb.fatSet _ _) n j 0xFFF (by omega) hjn,
    fatGet_fatSet_other fat hb x j n hn hjx]

theorem alloc_values (fat : Region) (x n : Nat) (hb : IsBytes fat) (hn : n ≤ 0xFFF)
    (hx : fatGet fat x = 0xFFF) (hn0 : fatGet fat n = 0)
    (hnin : (getFatEntry n).ptr + 1 < fat.length) :
    fatGet (fatSet (fatSet fat x n) n 0xFFF) x = n
      ∧ fatGet (fatSet (fatSet fat x n) n 0xFFF) n = 0xFFF := by
  have hxn : x ≠ n := fun e => by rw [e, hn0] at hx; omega
  refine ⟨?_, ?_⟩
  · rw [fatGet_fatSet_other _ (hb.fatSet _ _) n x 0xFFF (by omega) hxn]
    exact fatGet_fatSet_same fat x n (fatGet_fff_in_bounds fat hb x hx) hn
  · exact fatGet_fatSet_same _ n 0xFFF (by rw [fatSet_length]; exact hnin) (by omega)

/-! ## Chains under one allocation -/

theorem IsChain.tail_is_last {fat : Region} (x : Nat) (hx : fatGet fat x = 0xFFF) :
    ∀ (rest : List Nat), IsChain fat (fatGet fat x) rest → rest = [] := by
  intro rest h
  cases rest with
  | nil => rfl
  | cons y rest2 => exact absurd hx h.2.1

theorem IsChain.extend {fat fat2 : Region} (x n : Nat) (hx : fatGet fat x = 0xFFF)
    (hn : n ≠ 0xFFF) (h2x : fatGet fat2 x = n) (h2n : fatGet fat2 n = 0xFFF) :
    ∀ (l : List Nat) (c : Nat), IsChain fat c l → x ∈ l →
      (∀ y ∈ l, y ≠ x → fatGet fat2 y = fatGet fat y) → IsChain fat2 c (l ++ [n]) := by
  intro l
  induction l with
  | nil => intro c _ hm; cases hm
  | cons y rest ih =>
    intro c h hm hsame
    obtain ⟨hy, hne, hrest⟩ := h
    subst hy
    by_cases hyx : y = x
    · subst hyx
      have := IsChain.tail_is_last y hx rest hrest
      subst this
      refine ⟨rfl, hne, ?_⟩
      rw [h2x]
      exact ⟨rfl, hn, h2n⟩
    · have hmr : x ∈ rest := by
        rcases List.mem_cons.1 hm with e | e
        · exact absurd e.symm hyx
        · exact e
      refine ⟨rfl, hne, ?_⟩
      rw [hsame y (List.mem_cons_self _ _) hyx]
      exact ih _ hrest hmr (fun z hz hzx => hsame z (List.mem_cons_of_mem _ hz) hzx)

/-- One allocation keeps single ownership: the chain that ends in `x` gets the
new cluster `n`, every other chain is as it was. -/
theorem Owned.alloc (fat : Region) (chains : List (Nat × List Nat)) (x n : Nat)
    (hb : IsBytes fat) (ho : Owned fat chains) (hx : fatGet fat x = 0xFFF)
    (hn0 : fatGet fat n = 0) (hn2 : 2 ≤ n) (hn : n < 0xFFF)
    (hnin : (getFatEntry n).ptr + 1 < fat.length) :
    Owned (fatSet (fatSet fat x n) n 0xFFF)
        (chains.map fun p => if x ∈ p.2 then (p.1, p.2 ++ [n]) else p) := by
  obtain ⟨hch, hpair⟩ := ho
  obtain ⟨h2x, h2n⟩ := alloc_values fat x n hb (by omega) hx hn0 hnin
  have hframe := alloc_frame fat x n hb (by omega : n ≤ 0xFFF)
  have hnot : ∀ p ∈ chains, n ∉ p.2 := fun p hp hm => (hch p hp).2 n hm hn0
  refine ⟨?_, ?_⟩
  · intro q hq
    obtain ⟨p, hp, rfl⟩ := List.mem_map.1 hq
    obtain ⟨hc, hnf⟩ := hch p hp
    by_cases hxp : x ∈ p.2
    · rw [if_pos hxp]
      refine ⟨IsChain.extend x n hx (by omega) h2x h2n p.2 p.1 hc hxp
        (fun y hy hyx => hframe y hyx (fun e => hnot p hp (e ▸ hy))), ?_⟩
      intro z hz
      rcases List.mem_append.1 hz with hz | hz
      · by_cases hzx : z = x
        · rw [hzx, h2x]; omega
        · rw [hframe z hzx (fun e => hnot p hp (e ▸ hz))]; exact hnf z hz
      · rw [List.mem_singleton.1 hz, h2n]; decide
    · rw [if_neg hxp]
      have hsame : ∀ y ∈ p.2, fatGet (fatSet (fatSet fat x n) n 0xFFF) y = fatGet fat y :=
        fun y hy => hframe y (fun e => hxp (e ▸ hy)) (fun e => hnot p hp (e ▸ hy))
      refine ⟨IsChain.congr p.2 _ hsame hc, ?_⟩
      intro z hz
      rw [hsame z hz]; exact hnf z hz
  · rw [List.pairwise_map]
    refine hpair.imp_of_mem ?_
    intro p q hp hq hd z hz hzq
    have hzp : z ∈ p.2 ∨ (z = n ∧ x ∈ p.2) := by
      by_cases hxp : x ∈ p.2
      · rw [if_pos hxp] at hz
        rcases List.mem_append.1 hz with h | h
        · exact Or.inl h
        · exact Or.inr ⟨List.mem_singleton.1 h, hxp⟩
      · rw [if_neg hxp] at hz; exact Or.inl hz
    have hzq2 : z ∈ q.2 ∨ (z = n ∧ x ∈ q.2) := by
      by_cases hxq : x ∈ q.2
      · rw [if_pos hxq] at hzq
        rcases List.mem_append.1 hzq with h | h
        · exact Or.inl h
        · exact Or.inr ⟨List.mem_singleton.1 h, hxq⟩
      · rw [if_neg hxq] at hzq; exact Or.inl hzq
    rcases hzp with h1 | ⟨h1, h1x⟩ <;> rcases hzq2 with h2 | ⟨h2, h2x⟩
    · exact hd z h1 h2
    · exact hnot p hp (h2 ▸ h1)
    · exact hnot q hq (h1 ▸ h2)
    · exact hd x h1x h2x

/-- The first allocation of a file keeps single ownership: the new cluster is
a chain of its own. -/
theorem Owned.first (fat : Region) (chains : List (Nat × List Nat)) (n : Nat)
    (hb : IsBytes fat) (ho : Owned fat chains)
    (hn0 : fatGet fat n = 0) (hn : n < 0xFFF)
    (hnin : (getFatEntry n).ptr + 1 < fat.length) :
    Owned (fatSet fat n 0xFFF) ((n, [n]) :: chains) := by
  obtain ⟨hch, hpair⟩ := ho
  have h2n : fatGet (fatSet fat n 0xFFF) n = 0xFFF :=
    fatGet_fatSet_same fat n 0xFFF hnin (by omega)
  have hnot : ∀ p ∈ chains, n ∉ p.2 := fun p hp hm => (hch p hp).2 n hm hn0
  have hsame : ∀ p ∈ chains, ∀ y ∈ p.2, fatGet (fatSet fat n 0xFFF) y = fatGet fat y :=
    fun p hp y hy => fatGet_fatSet_other fat hb n y 0xFFF (by omega)
      (fun e => hnot p hp (e ▸ hy))
  refine ⟨?_, ?_⟩
  · intro q hq
    rcases List.mem_cons.1 hq with rfl | hq
    · refine ⟨⟨rfl, by omega, h2n⟩, ?_⟩
      intro z hz
      rw [List.mem_singleton.1 hz, h2n]; decide
    · obtain ⟨hc, hnf⟩ := hch q hq
      refine ⟨IsChain.congr q.2 _ (hsame q hq) hc, ?_⟩
      intro z hz
      rw [hsame q hq z hz]; exact hnf z hz
  · refine List.pairwise_cons.2 ⟨?_, hpair⟩
    intro q hq z hz
    rw [List.mem_singleton.1 hz]
    exact hnot q hq

/-! ## The write loop keeps single ownership -/

theorem pairwise_of_mem {α : Type} (R : α → α → Prop) :
    ∀ (l : List α), l.Pairwise R → ∀ a ∈ l, ∀ b ∈ l, a ≠ b → R a b ∨ R b a := by
  intro l
  induction l with
  | nil => intro _ a ha; cases ha
  | cons x rest ih =>
    intro hp a ha b hb hab
    obtain ⟨hx, hrest⟩ := List.pairwise_cons.1 hp
    rcases List.mem_cons.1 ha with rfl | ha2
    · rcases List.mem_cons.1 hb with rfl | hb2
      · exact absurd rfl hab
      · exact Or.inl (hx b hb2)
    · rcases List.mem_cons.1 hb with rfl | hb2
      · exact Or.inr (hx a ha2)
      · exact ih hrest a ha2 b hb2 hab

theorem IsChain.next_mem {fat : Region} :
    ∀ (l : List Nat) (h : Nat), IsChain fat h l → ∀ c ∈ l, fatGet fat c ≠ 0xFFF →
      fatGet fat c ∈ l := by
  intro l
  induction l with
  | nil => intro h _ c hc; cases hc
  | cons x rest ih =>
    intro h hl c hc hne
    obtain ⟨hx, _, hrest⟩ := hl
    subst hx
    rcases List.mem_cons.1 hc with rfl | hc2
    · cases rest with
      | nil => exact absurd hrest hne
      | cons y rest2 =>
        rw [← hrest.1]
        exact List.mem_cons_of_mem _ (List.mem_cons_self _ _)
    · exact List.mem_cons_of_mem _ (ih _ hrest c hc2 hne)

theorem seekLoop_mem (fat : Region) :
    ∀ (n : Nat) (l : List Nat) (c s : Nat), IsChain fat c l →
      (seekLoop fat n c s).1 = 0xFFF ∨ (seekLoop fat n c s).1 ∈ l := by
  intro n
  induction n with
  | zero =>
    intro l c s hl
    cases l with
    | nil => left; exact hl
    | cons x rest => right; rw [hl.1]; exact List.mem_cons_self _ _
  | succ n ih =>
    intro l c s hl
    cases l with
    | nil =>
      left
      have hc : c = 0xFFF := hl
      subst hc
      rfl
    | cons x rest =>
      obtain ⟨_, hne, hrest⟩ := hl
      have hcond : (c != 0xFFF) = true := by simpa using hne
      rw [seekLoop, if_pos hcond]
      rcases ih rest _ (s + 1) hrest with h | h
      · exact Or.inl h
      · exact Or.inr (List.mem_cons_of_mem _ h)

theorem writeLoop_inv2 (cs maxCluster : Nat) (bytes : List Nat) (P : Region → Nat → Prop)
    (halloc : ∀ fat c, P fat c → fatGet fat c = 0xFFF → getFreeCluster fat maxCluster ≠ 0xFFF →
      P (fatSet (fatSet fat c (getFreeCluster fat maxCluster))
        (getFreeCluster fat maxCluster) 0xFFF) (getFreeCluster fat maxCluster))
    (hfollow : ∀ fat c, P fat c → fatGet fat c ≠ 0xFFF → P fat (fatGet fat c)) :
    ∀ (fuel : Nat) (fat data : Region) (pos : ClusterPos) (written : Nat) (r : WriteLoopResult),
      P fat pos.cluster → writeLoop cs maxCluster bytes fuel fat data pos written = some r →
      ∃ c, P r.fat c := by
  intro fuel
  induction fuel with
  | zero =>
    intro fat data pos written r hP h
    unfold writeLoop at h
    split at h
    · exact absurd h (by simp)
    · simp only [Option.some.injEq] at h
      subst h
      exact ⟨_, hP⟩
  | succ fuel ih =>
    intro fat data pos written r hP h
    unfold writeLoop at h
    split at h
    · simp only at h
      split at h
      · split at h
        · rename_i hfff
          split at h
          · simp only [Option.some.injEq] at h
            subst h
            exact ⟨_, hP⟩
          · rename_i hnew
            exact ih _ _ _ _ r
              (halloc fat pos.cluster hP (by simpa using hfff) (by simpa using hnew)) h
        · rename_i hfff
          exact ih _ _ _ _ r (hfollow fat pos.cluster hP (by simpa using hfff)) h
      · exact ih _ _ _ _ r hP h
    · simp only [Option.some.injEq] at h
      subst h
      exact ⟨_, hP⟩

theorem WriteInv.follow (fat0 : Region) (maxCluster : Nat) (chains : List (Nat × List Nat))
    (H : List Nat) (h : Nat) (inChain : Prop) (f : Region) (c : Nat)
    (hinv : WriteInv fat0 maxCluster chains H h inChain f c) (hne : fatGet f c ≠ 0xFFF) :
    WriteInv fat0 maxCluster chains H h inChain f (fatGet f c) := by
  obtain ⟨hbf, hlf, hf0, hf1, hI, chains2, ho, hH, hpre, htr⟩ := hinv
  refine ⟨hbf, hlf, hf0, hf1, hI, chains2, ho, hH, hpre, fun hT => ?_⟩
  obtain ⟨⟨q, hq, hqh, hcq⟩, hoth, hchg⟩ := htr hT
  exact ⟨⟨q, hq, hqh, IsChain.next_mem q.2 q.1 (ho.1 q hq).1 c hcq hne⟩, hoth, hchg⟩

theorem WriteInv.grow (fat0 : Region) (maxCluster : Nat) (chains : List (Nat × List Nat))
    (H : List Nat) (h : Nat) (inChain : Prop) (f : Region) (x : Nat)
    (hmax : maxCluster ≤ 0xFFF) (hfat : maxCluster * 3 ≤ fat0.length * 2)
    (hinv : WriteInv fat0 maxCluster chains H h inChain f x) (hx : fatGet f x = 0xFFF)
    (hnew : getFreeCluster f maxCluster ≠ 0xFFF) :
    WriteInv fat0 maxCluster chains H h inChain
      (fatSet (fatSet f x (getFreeCluster f maxCluster)) (getFreeCluster f maxCluster) 0xFFF)
      (getFreeCluster f maxCluster) := by
  obtain ⟨hbf, hlf, hf0, hf1, hI, chains2, ho, hH, hpre, htr⟩ := hinv
  obtain ⟨hlt, hz⟩ := getFreeCluster_found f maxCluster hnew
  generalize getFreeCluster f maxCluster = n at hlt hz hnew ⊢
  have hn2 : 2 ≤ n := by
    by_contra hcon
    have hc : n = 0 ∨ n = 1 := by omega
    rcases hc with e | e
    · rw [e] at hz; exact hf0 hz
    · rw [e] at hz; exact hf1 hz
  have hnin : (getFatEntry n).ptr + 1 < f.length :=
    entry_in_bounds f maxCluster n (by rw [hlf]; exact hfat) hlt
  obtain ⟨h2x, h2n⟩ := alloc_values f x n hbf (by omega) hx hz hnin
  have hframe := alloc_frame f x n hbf (by omega : n ≤ 0xFFF)
  have hfn : fatGet fat0 n = 0 := by
    rcases hI n with e | e | e
    · rw [← e]; exact hz
    · exact e.1
    · omega
  have hg1 : ∀ p : Nat × List Nat, (if x ∈ p.2 then (p.1, p.2 ++ [n]) else p).1 = p.1 := by
    intro p; split <;> rfl
  have hg2 : ∀ (p : Nat × List Nat) (j : Nat), j ∈ p.2 →
      j ∈ (if x ∈ p.2 then (p.1, p.2 ++ [n]) else p).2 := by
    intro p j hj
    split
    · exact List.mem_append_left _ hj
    · exact hj
  refine ⟨(hbf.fatSet _ _).fatSet _ _, by rw [fatSet_length, fatSet_length, hlf], ?_, ?_,
    ?_, ?_⟩
  · by_cases h0x : 0 = x
    · subst h0x; rw [h2x]; omega
    · rw [hframe 0 h0x (by omega)]; exact hf0
  · by_cases h1x : 1 = x
    · subst h1x; rw [h2x]; omega
    · rw [hframe 1 h1x (by omega)]; exact hf1
  · intro j
    by_cases hjn : j = n
    · right; left; rw [hjn]; exact ⟨hfn, h2n⟩
    · by_cases hjx : j = x
      · right; right
        rw [hjx, h2x]
        refine ⟨?_, hn2, hlt, hfn⟩
        rcases hI x with e | e | e
        · right; rw [← e]; exact hx
        · left; exact e.1
        · exact e.1
      · rw [hframe j hjx hjn]; exact hI j
  · refine ⟨_, Owned.alloc f chains2 x n hbf ho hx hz hn2 (by omega) hnin, ?_, ?_, ?_⟩
    · rw [List.map_map, ← hH]
      apply List.map_congr_left
      intro p _
      exact hg1 p
    · intro p hp
      obtain ⟨q, hq, hq1, hq2⟩ := hpre p hp
      refine ⟨_, List.mem_map_of_mem _ hq, (hg1 q).trans hq1, ?_⟩
      show p.2 <+: (if x ∈ q.2 then (q.1, q.2 ++ [n]) else q).2
      split
      · exact hq2.trans (List.prefix_append _ _)
      · exact hq2
    · intro hT
      obtain ⟨⟨q, hq, hqh, hcq⟩, hoth, hchg⟩ := htr hT
      refine ⟨⟨_, List.mem_map_of_mem _ hq, (hg1 q).trans hqh, ?_⟩, ?_, ?_⟩
      · rw [if_pos hcq]
        exact List.mem_append_right _ (List.mem_singleton_self _)
      · intro p hp hph
        have hp2 := hoth p hp hph
        have hpq : p ≠ q := fun e => hph (e ▸ hqh)
        have hxp : x ∉ p.2 := by
          intro hxp
          rcases pairwise_of_mem _ chains2 ho.2 p hp2 q hq hpq with hd | hd
          · exact hd x hxp hcq
          · exact hd x hcq hxp
        have : (if x ∈ p.2 then (p.1, p.2 ++ [n]) else p) = p := if_neg hxp
        rw [← this]
        exact List.mem_map_of_mem _ hp2
      · intro j hj
        by_cases hjn : j = n
        · refine ⟨_, List.mem_map_of_mem _ hq, (hg1 q).trans hqh, ?_⟩
          rw [if_pos hcq, hjn]
          exact List.mem_append_right _ (List.mem_singleton_self _)
        · by_cases hjx : j = x
          · exact ⟨_, List.mem_map_of_mem _ hq, (hg1 q).trans hqh, hg2 q j (hjx ▸ hcq)⟩
          · rw [hframe j hjx hjn] at hj
            obtain ⟨q0, hq0, hq0h, hjq⟩ := hchg j hj
            exact ⟨_, List.mem_map_of_mem _ hq0, (hg1 q0).trans hq0h, hg2 q0 j hjq⟩

/-! ## The node that `findParent` returns -/

theorem ChainPrefix.snoc {fat : Region} (x v : Nat) (hx : fatGet fat x = v)
    (hv : v ≠ 0xFFF) :
    ∀ (l : List Nat) (c : Nat), ChainPrefix fat c (l ++ [x]) →
      ChainPrefix fat c (l ++ [x] ++ [v]) := by
  intro l
  induction l with
  | nil =>
    intro c h
    obtain ⟨hc, hne, _⟩ := h
    subst hc
    subst hx
    exact ⟨rfl, hne, rfl, hv, trivial⟩
  | cons y rest ih =>
    intro c h
    obtain ⟨hc, hne, hrest⟩ := h
    exact ⟨hc, hne, ih _ hrest⟩

theorem ChainPrefix.close {fat : Region} (x : Nat) (hx : fatGet fat x = 0xFFF) :
    ∀ (l : List Nat) (c : Nat), ChainPrefix fat c (l ++ [x]) → IsChain fat c (l ++ [x]) := by
  intro l
  induction l with
  | nil =>
    intro c h
    obtain ⟨hc, hne, _⟩ := h
    subst hc
    exact ⟨rfl, hne, hx⟩
  | cons y rest ih =>
    intro c h
    obtain ⟨hc, hne, hrest⟩ := h
    exact ⟨hc, hne, ih _ hrest⟩

theorem seekLoop_isChain (fat : Region) :
    ∀ (l : List Nat) (n c s : Nat), IsChain fat c l → l.length ≤ n →
      seekLoop fat n c s = (0xFFF, s + l.length) := by
  intro l
  induction l with
  | nil =>
    intro n c s h _
    have hc : c = 0xFFF := h
    subst hc
    cases n <;> simp [seekLoop]
  | cons x rest ih =>
    intro n c s h hn
    obtain ⟨_, hne, hrest⟩ := h
    cases n with
    | zero => simp at hn
    | succ n =>
      have hcond : (c != 0xFFF) = true := by simpa using hne
      rw [seekLoop, if_pos hcond, ih n _ _ hrest (by simpa using hn), List.length_cons]
      congr 1
      omega

theorem IsChain.dropWalk {fat : Region} :
    ∀ (n : Nat) (c : Nat) (l : List Nat) (s : Nat), IsChain fat c l → n ≤ l.length →
      IsChain fat (seekLoop fat n c s).1 (l.drop n) := by
  intro n
  induction n with
  | zero => intro c l s h _; simpa [seekLoop] using h
  | succ n ih =>
    intro c l s h hn
    cases l with
    | nil => simp at hn
    | cons x rest =>
      obtain ⟨_, hne, hrest⟩ := h
      have hcond : (c != 0xFFF) = true := by simpa using hne
      rw [seekLoop, if_pos hcond, List.drop_succ_cons]
      exact ih (fatGet fat c) rest (s + 1) hrest (by simpa using hn)

theorem readLoop_isChain (fat data : Region) (cs toRead : Nat) (hcs : 0 < cs)
    (hcs31 : cs < 2 ^ 31) (htr : toRead < 2 ^ 32) :
    ∀ (l : List Nat) (c fco co h : Nat) (m : List Nat) (fuel : Nat),
      IsChain fat c l → (∀ x ∈ l, 2 ≤ x) → co < cs → h ≤ toRead → l.length ≤ fuel →
      readLoop fat data cs toRead fuel
          { cluster := c, fileClusterOffset := fco, clusterOffset := co } h m
        = some (m ++ ((chainBytes data cs l).drop co).take (toRead - h)) := by
  intro l
  induction l with
  | nil =>
    intro c fco co h m fuel hp _ _ hh _
    have hc : c = 0xFFF := hp
    subst hc
    cases fuel <;> simp [readLoop, chainBytes]
  | cons x rest ih =>
    intro c fco co h m fuel hp hge hco hh hfuel
    obtain ⟨hx, hne, hrest⟩ := hp
    subst hx
    by_cases heq : h = toRead
    · subst heq
      cases fuel <;> simp [readLoop]
    · cases fuel with
      | zero => simp at hfuel
      | succ fuel =>
        have hcond : (x != 0xFFF && h != toRead) = true := by
          simp [hne, heq]
        have hx2 : 2 ≤ x := hge x (List.mem_cons_self _ _)
        have hrs : min (cs - co) (toRead - h) < 2 ^ 31 := by omega
        simp only [List.length_cons] at hfuel
        simp only [readLoop, hcond, if_true, readCluster]
        rw [intOfSize_small _ hrs, Nat.mod_eq_of_lt (by omega),
          memRead_cluster data x cs co _ hx2 (by omega)]
        rw [ih (fatGet fat x) fco 0 _ _ fuel hrest
          (fun y hy => hge y (List.mem_cons_of_mem _ hy)) hcs (by omega) (by omega)]
        simp only [List.drop_zero, chainBytes, List.append_assoc]
        congr 2
        rw [List.drop_append_of_le_length (by rw [clusterBytes_length]; omega),
          List.take_append_eq_append_take, List.length_drop, clusterBytes_length]
        by_cases hcase : toRead - h ≤ cs - co
        · rw [Nat.min_eq_right hcase]
          have e1 : toRead - (h + (toRead - h)) = 0 := by omega
          have e2 : toRead - h - (cs - co) = 0 := by omega
          rw [e1, e2]
        · have hcase' : cs - co ≤ toRead - h := by omega
          rw [Nat.min_eq_left hcase']
          have e1 : toRead - (h + (cs - co)) = toRead - h - (cs - co) := by omega
          rw [e1]
          congr 1
          rw [List.take_of_length_le (by rw [List.length_drop, clusterBytes_length]),
            List.take_of_length_le (by rw [List.length_drop, clusterBytes_length]; omega)]

theorem dumpRegularFile_isChain (fat data : Region) (file : FileEntry) (cs n offset : Nat)
    (l : List Nat) (fuel : Nat) (hcs : 0 < cs) (hcs31 : cs < 2 ^ 31)
    (hsize : file.size < 2 ^ 32) (hp : IsChain fat file.firstDataClusterLow l)
    (hge : ∀ x ∈ l, 2 ≤ x) (hk : offset / cs ≤ l.length)
    (hoff : offset < file.size) (hfuel : l.length ≤ fuel) :
    dumpRegularFile fuel fat data file cs n offset
      = some (Ret.ok (((chainBytes data cs l).drop offset).take (min n (file.size - offset)))) := by
  obtain ⟨c', hseek, _⟩ :=
    seek_chainPrefix fat file.firstDataClusterLow cs offset l (by omega) (by omega)
      (IsChain.toPrefix l _ hp) hk
  have hc' : IsChain fat c' (l.drop (offset / cs)) := by
    have h1 := congrArg ClusterPos.cluster hseek
    simp only at h1
    rw [← h1]
    have hk32 : offset / cs % 2 ^ 32 = offset / cs :=
      Nat.mod_eq_of_lt (lt_of_le_of_lt (Nat.div_le_self _ _) (by omega))
    have h2 := IsChain.dropWalk (offset / cs) file.firstDataClusterLow l 0 hp hk
    simp only [seek, hk32]
    exact h2
  have hdm : offset / cs * cs + offset % cs = offset := by
    rw [Nat.mul_comm]; exact Nat.div_add_mod offset cs
  have hmod : offset % cs < cs := Nat.mod_lt _ hcs
  have hc1 : (file.size == 0 || decide (file.size ≤ offset)) = false := by
    simp only [Bool.or_eq_false_iff, beq_eq_false_iff_ne, decide_eq_false_iff_not]
    omega
  have hrun := readLoop_isChain fat data cs (min (file.size - offset) n) hcs hcs31 (by omega)
    (l.drop (offset / cs)) c' (offset / cs * cs) (offset % cs) 0 [] fuel hc'
    (fun x hx => hge x (List.mem_of_mem_drop hx)) hmod (by omega)
    (by rw [List.length_drop]; exact le_trans (Nat.sub_le _ _) hfuel)
  unfold dumpRegularFile
  rw [if_neg (by simpa using hc1)]
  simp only [hseek, hdm]
  rw [Nat.mod_eq_of_lt (show offset < 2 ^ 64 by omega)]
  simp only [bne_self_eq_false, Bool.false_eq_true, if_false, hrun, Option.map_some',
    List.nil_append, Nat.sub_zero]
  rw [← chainBytes_drop data cs l (offset / cs) hk, List.drop_drop,
    Nat.min_comm, hdm]

theorem seekLoop_snoc (fat : Region) (x : Nat) :
    ∀ (l : List Nat) (c s : Nat), ChainPrefix fat c (l ++ [x]) →
      seekLoop fat (l.length + 1) c s = (fatGet fat x, s + (l.length + 1)) := by
  intro l
  induction l with
  | nil =>
    intro c s h
    obtain ⟨hc, hne, _⟩ := h
    subst hc
    have hcond : (x != 0xFFF) = true := by simpa using hne
    simp [seekLoop, hcond]
  | cons y rest ih =>
    intro c s h
    obtain ⟨_, hne, hrest⟩ := h
    have hcond : (c != 0xFFF) = true := by simpa using hne
    rw [List.length_cons, seekLoop, if_pos hcond, ih _ _ hrest]
    congr 1
    omega

theorem chainBytes_append (data : Region) (cs : Nat) :
    ∀ (l l2 : List Nat),
      chainBytes data cs (l ++ l2) = chainBytes data cs l ++ chainBytes data cs l2 := by
  intro l
  induction l with
  | nil => intro l2; simp [chainBytes]
  | cons x rest ih => intro l2; simp [chainBytes, ih]

/-! ## The ids of the tree stay below the counter -/

theorem writeLoopTrace_fst (cs maxCluster : Nat) (bytes : List Nat) :
    ∀ (fuel : Nat) (fat data : Region) (pos : ClusterPos) (written : Nat),
      (writeLoopTrace cs maxCluster bytes fuel fat data pos written).map Prod.fst
        = writeLoop cs maxCluster bytes fuel fat data pos written := by
  intro fuel
  induction fuel with
  | zero =>
    intro fat data pos written
    unfold writeLoopTrace writeLoop
    split <;> rfl
  | succ fuel ih =>
    intro fat data pos written
    unfold writeLoopTrace writeLoop
    split
    · simp only []
      split
      · split
        · split
          · rfl
          · rw [Option.map_map, ← ih]; rfl
        · rw [Option.map_map, ← ih]; rfl
      · rw [Option.map_map, ← ih]; rfl
    · rfl

theorem writeFileTrace_fst (fuel : Nat) (fat data : Region) (file : FileEntry) (cs : Nat)
    (bytes : List Nat) (offset maxCluster : Nat) :
    (writeFileTrace fuel fat data file cs bytes offset maxCluster).map Prod.fst
      = writeFile fuel fat data file cs bytes offset maxCluster := by
  unfold writeFileTrace writeFile writeFileLoop
  simp only []
  split
  · rfl
  · split
    · rfl
    · split
      · split
        · rfl
        · rw [Option.map_map, ← writeLoopTrace_fst, Option.map_map]
          congr 1
      · rw [Option.map_map, ← writeLoopTrace_fst, Option.map_map]
        congr 1

theorem writeLoopTrace_inv (cs maxCluster : Nat) (bytes : List Nat) (P : Region → Nat → Prop)
    (R : Nat → Prop) (hR : ∀ fat c, P fat c → R c)
    (halloc : ∀ fat c, P fat c → fatGet fat c = 0xFFF → getFreeCluster fat maxCluster ≠ 0xFFF →
      P (fatSet (fatSet fat c (getFreeCluster fat maxCluster))
        (getFreeCluster fat maxCluster) 0xFFF) (getFreeCluster fat maxCluster))
    (hfollow : ∀ fat c, P fat c → fatGet fat c ≠ 0xFFF → P fat (fatGet fat c)) :
    ∀ (fuel : Nat) (fat data : Region) (pos : ClusterPos) (written : Nat)
      (r : WriteLoopResult × List Nat),
      P fat pos.cluster → writeLoopTrace cs maxCluster bytes fuel fat data pos written = some r →
      ∀ x ∈ r.2, R x := by
  intro fuel
  induction fuel with
  | zero =>
    intro fat data pos written r hP h
    unfold writeLoopTrace at h
    split at h
    · exact absurd h (by simp)
    · simp only [Option.some.injEq] at h
      subst h
      intro x hx
      exact absurd hx (List.not_mem_nil x)
  | succ fuel ih =>
    intro fat data pos written r hP h
    have hcons : ∀ (o : Option (WriteLoopResult × List Nat)),
        (∀ r2, o = some r2 → ∀ x ∈ r2.2, R x) →
        o.map (fun r => (r.1, pos.cluster :: r.2)) = some r → ∀ x ∈ r.2, R x := by
      intro o ho hmap x hx
      cases o with
      | none => simp at hmap
      | some r2 =>
        simp only [Option.map_some', Option.some.injEq] at hmap
        rw [← hmap] at hx
        rcases List.mem_cons.1 hx with e | e
        · rw [e]; exact hR fat _ hP
        · exact ho r2 rfl x e
    unfold writeLoopTrace at h
    split at h
    · simp only at h
      split at h
      · split at h
        · rename_i hfff
          split at h
          · simp only [Option.some.injEq] at h
            subst h
            intro x hx
            have : x = pos.cluster := by simpa using hx
            rw [this]; exact hR fat _ hP
          · rename_i hnew
            exact hcons _ (fun r2 h2 => ih _ _ _ _ r2
              (halloc fat pos.cluster hP (by simpa using hfff) (by simpa using hnew)) h2) h
        · rename_i hfff
          exact hcons _ (fun r2 h2 => ih _ _ _ _ r2
            (hfollow fat pos.cluster hP (by simpa using hfff)) h2) h
      · exact hcons _ (fun r2 h2 => ih _ _ _ _ r2 hP h2) h
    · simp only [Option.some.injEq] at h
      subst h
      intro x hx
      exact absurd hx (List.not_mem_nil x)

/-- A write that starts on a cluster of the chain of the file, or on the first
cluster that it allocates, goes through clusters of `[2, maxCluster)` only,
when the reserved entries 0 and 1 of the FAT are non-zero: with a FAT that
holds the entries below `maxCluster` and a data region that holds the clusters
below `maxCluster`, all its loads and stores lie inside the two regions. -/
theorem writeFileTrace_in_range (fuel : Nat) (fat data : Region) (file : FileEntry)
    (cs : Nat) (bytes : List Nat) (offset maxCluster : Nat) (l : List Nat)
    (hb : IsBytes fat) (hmax : maxCluster ≤ 0xFFF) (hfat : maxCluster * 3 ≤ fat.length * 2)
    (h0 : fatGet fat 0 ≠ 0) (h1 : fatGet fat 1 ≠ 0) (hcs : 0 < cs) (hcs32 : cs < 2 ^ 32)
    (hoff : offset < 2 ^ 32) (hfuel : bytes.length ≤ fuel)
    (hwf : (file.firstDataClusterLow = 0 ∧ offset < cs)
      ∨ (IsChain fat file.firstDataClusterLow l ∧ (∀ x ∈ l, 2 ≤ x ∧ x < maxCluster)
          ∧ offset / cs ≠ l.length)) :
    ∃ r tr, writeFileTrace fuel fat data file cs bytes offset maxCluster = some (r, tr)
      ∧ writeFile fuel fat data file cs bytes offset maxCluster = some r
      ∧ ∀ x ∈ tr, 2 ≤ x ∧ x < maxCluster := by
  obtain ⟨r, hrun, _⟩ :=
    writeFile_cases fuel fat data file cs bytes offset maxCluster hcs hcs32 hfuel
  have hfst := writeFileTrace_fst fuel fat data file cs bytes offset maxCluster
  rw [hrun] at hfst
  cases htr : writeFileTrace fuel fat data file cs bytes offset maxCluster with
  | none => rw [htr] at hfst; simp at hfst
  | some rt =>
    obtain ⟨r2, tr⟩ := rt
    rw [htr] at hfst
    simp only [Option.map_some', Option.some.injEq] at hfst
    subst hfst
    refine ⟨r2, tr, rfl, hrun, ?_⟩
    -- the invariant of the loop
    have hR : ∀ (f : Region) (c : Nat),
        (IsBytes f ∧ f.length = fat.length ∧ fatGet f 0 ≠ 0 ∧ fatGet f 1 ≠ 0
          ∧ ∃ l2, IsChain f c l2 ∧ l2 ≠ [] ∧ ∀ x ∈ l2, 2 ≤ x ∧ x < maxCluster) →
        2 ≤ c ∧ c < maxCluster := by
      intro f c ⟨_, _, _, _, l2, hl2, hne, hr2⟩
      cases l2 with
      | nil => exact absurd rfl hne
      | cons y rest =>
        have : y = c := hl2.1
        rw [← this]
        exact hr2 y (List.mem_cons_self _ _)
    have halloc : ∀ (f : Region) (c : Nat),
        (IsBytes f ∧ f.length = fat.length ∧ fatGet f 0 ≠ 0 ∧ fatGet f 1 ≠ 0
          ∧ ∃ l2, IsChain f c l2 ∧ l2 ≠ [] ∧ ∀ x ∈ l2, 2 ≤ x ∧ x < maxCluster) →
        fatGet f c = 0xFFF → getFreeCluster f maxCluster ≠ 0xFFF →
        (IsBytes (fatSet (fatSet f c (getFreeCluster f maxCluster))
            (getFreeCluster f maxCluster) 0xFFF)
          ∧ (fatSet (fatSet f c (getFreeCluster f maxCluster))
            (getFreeCluster f maxCluster) 0xFFF).length = fat.length
          ∧ fatGet (fatSet (fatSet f c (getFreeCluster f maxCluster))
            (getFreeCluster f maxCluster) 0xFFF) 0 ≠ 0
          ∧ fatGet (fatSet (fatSet f c (getFreeCluster f maxCluster))
            (getFreeCluster f maxCluster) 0xFFF) 1 ≠ 0
          ∧ ∃ l2, IsChain (fatSet (fatSet f c (getFreeCluster f maxCluster))
                (getFreeCluster f maxCluster) 0xFFF) (getFreeCluster f maxCluster) l2
              ∧ l2 ≠ [] ∧ ∀ x ∈ l2, 2 ≤ x ∧ x < maxCluster) := by
      intro f c hP hx hnew
      have hc := hR f c hP
      obtain ⟨hbf, hlf, hf0, hf1, _⟩ := hP
      obtain ⟨hlt, hz⟩ := getFreeCluster_found f maxCluster hnew
      generalize getFreeCluster f maxCluster = n at hlt hz hnew ⊢
      have hn2 : 2 ≤ n := by
        by_contra hcon
        have hc : n = 0 ∨ n = 1 := by omega
        rcases hc with e | e
        · rw [e] at hz; exact hf0 hz
        · rw [e] at hz; exact hf1 hz
      have hnin : (getFatEntry n).ptr + 1 < f.length :=
        entry_in_bounds f maxCluster n (by rw [hlf]; exact hfat) hlt
      refine ⟨(hbf.fatSet _ _).fatSet _ _, by rw [fatSet_length, fatSet_length, hlf], ?_, ?_,
        [n], ⟨rfl, hnew, (alloc_values f c n hbf (by omega) hx hz hnin).2⟩,
        List.cons_ne_nil _ _, ?_⟩
      · rw [alloc_frame f c n hbf (by omega) 0 (by omega) (by omega)]; exact hf0
      · rw [alloc_frame f c n hbf (by omega) 1 (by omega) (by omega)]; exact hf1
      · intro x hx2
        have : x = n := by simpa using hx2
        rw [this]; exact ⟨hn2, hlt⟩
    have hfollow : ∀ (f : Region) (c : Nat),
        (IsBytes f ∧ f.length = fat.length ∧ fatGet f 0 ≠ 0 ∧ fatGet f 1 ≠ 0
          ∧ ∃ l2, IsChain f c l2 ∧ l2 ≠ [] ∧ ∀ x ∈ l2, 2 ≤ x ∧ x < maxCluster) →
        fatGet f c ≠ 0xFFF →
        (IsBytes f ∧ f.length = fat.length ∧ fatGet f 0 ≠ 0 ∧ fatGet f 1 ≠ 0
          ∧ ∃ l2, IsChain f (fatGet f c) l2 ∧ l2 ≠ [] ∧ ∀ x ∈ l2, 2 ≤ x ∧ x < maxCluster) := by
      intro f c ⟨hbf, hlf, hf0, hf1, l2, hl2, hne, hr2⟩ hnext
      refine ⟨hbf, hlf, hf0, hf1, ?_⟩
      cases l2 with
      | nil => exact absurd rfl hne
      | cons y rest =>
        obtain ⟨_, _, hrest⟩ := hl2
        refine ⟨rest, hrest, ?_, fun x hx => hr2 x (List.mem_cons_of_mem _ hx)⟩
        intro he
        rw [he] at hrest
        exact hnext hrest
    have hloop := writeLoopTrace_inv cs maxCluster bytes _ _ hR halloc hfollow
    unfold writeFileTrace at htr
    simp only [] at htr
    split at htr
    · simp only [Option.some.injEq, Prod.mk.injEq] at htr
      rw [← htr.2]; intro x hx; exact absurd hx (List.not_mem_nil x)
    · rename_i hchk
      split at htr
      · simp only [Option.some.injEq, Prod.mk.injEq] at htr
        rw [← htr.2]; intro x hx; exact absurd hx (List.not_mem_nil x)
      · split at htr
        · rename_i hz0
          split at htr
          · simp only [Option.some.injEq, Prod.mk.injEq] at htr
            rw [← htr.2]; intro x hx; exact absurd hx (List.not_mem_nil x)
          · rename_i hnew
            have hnew2 : getFreeCluster fat maxCluster ≠ 0xFFF := by simpa using hnew
            obtain ⟨hlt, hz⟩ := getFreeCluster_found fat maxCluster hnew2
            have hn2 : 2 ≤ getFreeCluster fat maxCluster := by
              by_contra hcon
              have hc : getFreeCluster fat maxCluster = 0 ∨ getFreeCluster fat maxCluster = 1 := by
                omega
              rcases hc with e | e
              · rw [e] at hz; exact h0 hz
              · rw [e] at hz; exact h1 hz
            have hnin := entry_in_bounds fat maxCluster _ hfat hlt
            cases hlt2 : writeLoopTrace cs maxCluster bytes fuel
                (fatSet fat (getFreeCluster fat maxCluster) 0xFFF) data
                { seek fat file.firstDataClusterLow cs offset with
                  cluster := getFreeCluster fat maxCluster } 0 with
            | none => rw [hlt2] at htr; simp at htr
            | some lr =>
              rw [hlt2] at htr
              simp only [Option.map_some', Option.some.injEq, Prod.mk.injEq] at htr
              rw [← htr.2]
              refine hloop fuel _ data _ 0 lr ?_ hlt2
              refine ⟨hb.fatSet _ _, fatSet_length _ _ _, ?_, ?_, [getFreeCluster fat maxCluster],
                ⟨rfl, hnew2, fatGet_fatSet_same fat _ 0xFFF hnin (by omega)⟩,
                List.cons_ne_nil _ _, ?_⟩
              · rw [fatGet_fatSet_other fat hb _ 0 0xFFF (by omega) (by omega)]; exact h0
              · rw [fatGet_fatSet_other fat hb _ 1 0xFFF (by omega) (by omega)]; exact h1
              · intro x hx
                have : x = getFreeCluster fat maxCluster := by simpa using hx
                rw [this]; exact ⟨hn2, hlt⟩
        · rename_i hnz
          cases hlt2 : writeLoopTrace cs maxCluster bytes fuel fat data
              (seek fat file.firstDataClusterLow cs offset) 0 with
          | none => rw [hlt2] at htr; simp at htr
          | some lr =>
            rw [hlt2] at htr
            simp only [Option.map_some', Option.some.injEq, Prod.mk.injEq] at htr
            rw [← htr.2]
            refine hloop fuel _ data _ 0 lr ?_ hlt2
            refine ⟨hb, rfl, h0, h1, ?_⟩
            rcases hwf with ⟨hz, _⟩ | ⟨hl, hrange, hk⟩
            · exact absurd (by simpa using hz) hnz
            · have hlt : offset / cs < l.length := by
                by_contra hcon
                have hgt : l.length < offset / cs := by omega
                exact seek_short_chain fat _ cs offset l hcs hcs32 hl hgt (by simpa using hchk)
              have hk32 : offset / cs % 2 ^ 32 = offset / cs :=
                Nat.mod_eq_of_lt (lt_of_le_of_lt (Nat.div_le_self _ _) hoff)
              have hd := IsChain.dropWalk (offset / cs) file.firstDataClusterLow l 0 hl
                (by omega)
              refine ⟨l.drop (offset / cs), ?_, ?_, fun x hx => hrange x (List.mem_of_mem_drop hx)⟩
              · simp only [seek, hk32]
                exact hd
              · intro he
                have := congrArg List.length he
                rw [List.length_drop, List.length_nil] at this
                omega

/-- A cluster of `[2, maxCluster)` has its bytes inside a data region that holds
the clusters below `maxCluster`, and its FAT entry inside a FAT that holds the
entries below `maxCluster`. -/
theorem cluster_in_regions (fat data : Region) (cs maxCluster x : Nat)
    (hfat : maxCluster * 3 ≤ fat.length * 2) (hdata : (maxCluster - 2) * cs ≤ data.length)
    (h2 : 2 ≤ x) (hx : x < maxCluster) :
    0 ≤ clusterAddr x cs 0 ∧ clusterAddr x cs 0 + (cs : Int) ≤ (data.length : Int)
      ∧ (getFatEntry x).ptr + 1 < fat.length := by
  have hle : (x - 2) * cs + cs ≤ (maxCluster - 2) * cs := by
    have h1 : (x - 2 + 1) * cs ≤ (maxCluster - 2) * cs := Nat.mul_le_mul_right cs (by omega)
    have h3 : (x - 2 + 1) * cs = (x - 2) * cs + cs := by ring
    omega
  rw [clusterAddr_of_ge x cs 0 h2]
  refine ⟨Int.ofNat_nonneg _, ?_, entry_in_bounds fat maxCluster x hfat hx⟩
  have h4 : (x - 2) * cs + 0 + cs ≤ data.length := by omega
  exact_mod_cast h4

/-! ## The value range of the FAT under write, truncate and free-chain -/

theorem writeFile_ownership (fat data : Region) (file : FileEntry)
    (cs : Nat) (bytes : List Nat) (offset maxCluster fuel : Nat)
    (hb : IsBytes fat) (hmax : maxCluster ≤ 0xFFF) (hcs : 0 < cs) (hcs32 : cs < 2 ^ 32)
    (hfuel : bytes.length ≤ fuel) :
    ∃ r, writeFile fuel fat data file cs bytes offset maxCluster = some r
      ∧ (∀ j, fatGet r.fat j ≠ fatGet fat j → fatGet fat j = 0 ∨ fatGet fat j = 0xFFF)
      ∧ (fatGet fat 0 ≠ 0 → fatGet fat 1 ≠ 0 → maxCluster * 3 ≤ fat.length * 2 →
          (∀ j, fatGet r.fat j ≠ fatGet fat j →
            (fatGet fat j = 0 ∧ fatGet r.fat j = 0xFFF)
              ∨ ((fatGet fat j = 0 ∨ fatGet fat j = 0xFFF)
                ∧ 2 ≤ fatGet r.fat j ∧ fatGet r.fat j < maxCluster
                ∧ fatGet fat (fatGet r.fat j) = 0))
          ∧ ∀ chains : List (Nat × List Nat), Owned fat chains →
              (file.firstDataClusterLow ≠ 0 →
                file.firstDataClusterLow ∈ chains.map Prod.fst) →
              ∃ chains2, Owned r.fat chains2
                ∧ chains2.map Prod.fst
                    = (if file.firstDataClusterLow = 0 ∧ r.file.firstDataClusterLow ≠ 0
                        then [r.file.firstDataClusterLow] else []) ++ chains.map Prod.fst
                ∧ (∀ p ∈ chains, ∃ q ∈ chains2, q.1 = p.1 ∧ p.2 <+: q.2)
                ∧ (r.file.firstDataClusterLow ≠ 0 →
                    r.file.firstDataClusterLow ∈ chains2.map Prod.fst)
                ∧ (file.firstDataClusterLow = 0
                    ∨ (seek fat file.firstDataClusterLow cs offset).cluster ≠ 0xFFF →
                    (∀ p ∈ chains, p.1 ≠ r.file.firstDataClusterLow → p ∈ chains2)
                    ∧ ∀ j, fatGet r.fat j ≠ fatGet fat j →
                        ∃ q ∈ chains2, q.1 = r.file.firstDataClusterLow ∧ j ∈ q.2)) := by
  -- every store of the loop replaces a 0 or a `0xFFF`
  have hstep1 : ∀ f x, (IsBytes f ∧ ∀ j, fatGet f j = fatGet fat j ∨ fatGet fat j = 0
        ∨ fatGet fat j = 0xFFF) →
      fatGet f x = 0xFFF → getFreeCluster f maxCluster ≠ 0xFFF →
      (IsBytes (fatSet (fatSet f x (getFreeCluster f maxCluster))
          (getFreeCluster f maxCluster) 0xFFF)
        ∧ ∀ j, fatGet (fatSet (fatSet f x (getFreeCluster f maxCluster))
              (getFreeCluster f maxCluster) 0xFFF) j = fatGet fat j
            ∨ fatGet fat j = 0 ∨ fatGet fat j = 0xFFF) := by
    intro f x ⟨hbf, hR⟩ hx hnew
    obtain ⟨hlt, hz⟩ := getFreeCluster_found f maxCluster hnew
    refine ⟨(hbf.fatSet _ _).fatSet _ _, fun j => ?_⟩
    by_cases hjx : j = x
    · subst hjx
      rcases hR j with e | e | e
      · right; right; rw [← e]; exact hx
      · right; left; exact e
      · right; right; exact e
    · by_cases hjn : j = getFreeCluster f maxCluster
      · rcases hR j with e | e | e
        · right; left; rw [← e, hjn]; exact hz
        · right; left; exact e
        · right; right; exact e
      · rw [alloc_frame f x _ hbf (by omega) j hjx hjn]
        exact hR j
  obtain ⟨r, hrun, hcase⟩ :=
    writeFile_cases fuel fat data file cs bytes offset maxCluster hcs hcs32 hfuel
  refine ⟨r, hrun, ?_, ?_⟩
  · -- the entries that changed
    have hfin : ∀ j, fatGet r.fat j = fatGet fat j ∨ fatGet fat j = 0
        ∨ fatGet fat j = 0xFFF := by
      rcases hcase with ⟨hf, _⟩ | ⟨_, hnew, _, pos, lr, _, hlr, hf⟩
        | ⟨_, _, pos, lr, _, hlr, hf⟩
      · intro j; left; rw [hf]
      · rw [hf]
        obtain ⟨hlt, hz⟩ := getFreeCluster_found fat maxCluster hnew
        refine (writeLoop_inv cs maxCluster bytes _ hstep1 fuel _ data pos 0 lr
          ⟨hb.fatSet _ _, fun j => ?_⟩ hlr).2
        by_cases hjn : j = getFreeCluster fat maxCluster
        · right; left; rw [hjn]; exact hz
        · left; exact fatGet_fatSet_other fat hb _ j 0xFFF (by omega) hjn
      · rw [hf]
        exact (writeLoop_inv cs maxCluster bytes _ hstep1 fuel _ data pos 0 lr
          ⟨hb, fun j => Or.inl rfl⟩ hlr).2
    intro j hj
    rcases hfin j with e | e
    · exact absurd e hj
    · exact e
  · intro h0 h1 hfat
    have hfin : ∀ (chains : List (Nat × List Nat)) (T : Prop), Owned fat chains →
        (T → file.firstDataClusterLow ≠ 0 →
          ∃ q ∈ chains, q.1 = file.firstDataClusterLow
            ∧ (seek fat file.firstDataClusterLow cs offset).cluster ∈ q.2) →
        (∀ j, fatGet r.fat j = fatGet fat j
            ∨ (fatGet fat j = 0 ∧ fatGet r.fat j = 0xFFF)
            ∨ ((fatGet fat j = 0 ∨ fatGet fat j = 0xFFF)
              ∧ 2 ≤ fatGet r.fat j ∧ fatGet r.fat j < maxCluster
              ∧ fatGet fat (fatGet r.fat j) = 0))
          ∧ ∃ chains2, Owned r.fat chains2
              ∧ chains2.map Prod.fst
                  = (if file.firstDataClusterLow = 0 ∧ r.file.firstDataClusterLow ≠ 0
                      then [r.file.firstDataClusterLow] else []) ++ chains.map Prod.fst
              ∧ (∀ p ∈ chains, ∃ q ∈ chains2, q.1 = p.1 ∧ p.2 <+: q.2)
              ∧ (T → (∀ p ∈ chains, p.1 ≠ r.file.firstDataClusterLow → p ∈ chains2)
                  ∧ ∀ j, fatGet r.fat j ≠ fatGet fat j →
                      ∃ q ∈ chains2, q.1 = r.file.firstDataClusterLow ∧ j ∈ q.2) := by
      intro chains T ho hseek
      rcases hcase with ⟨hf, hfile⟩ | ⟨hz0, hnew, hfile, pos, lr, hpos, hlr, hf⟩
        | ⟨hnz, hfile, pos, lr, hpos, hlr, hf⟩
      · rw [hf]
        refine ⟨fun j => Or.inl rfl, chains, ho, ?_,
          fun p hp => ⟨p, hp, rfl, List.prefix_refl _⟩,
          fun _ => ⟨fun p hp _ => hp, fun j hj => absurd rfl hj⟩⟩
        rw [if_neg (fun h => h.2 (by rw [hfile]; exact h.1))]
        rfl
      · obtain ⟨hlt, hz⟩ := getFreeCluster_found fat maxCluster hnew
        have hn2 : 2 ≤ getFreeCluster fat maxCluster := by
          by_contra hcon
          have hc : getFreeCluster fat maxCluster = 0 ∨ getFreeCluster fat maxCluster = 1 := by
            omega
          rcases hc with e | e
          · rw [e] at hz; exact h0 hz
          · rw [e] at hz; exact h1 hz
        have hnin := entry_in_bounds fat maxCluster _ hfat hlt
        have hsame : ∀ j, j ≠ getFreeCluster fat maxCluster →
            fatGet (fatSet fat (getFreeCluster fat maxCluster) 0xFFF) j = fatGet fat j :=
          fun j hj => fatGet_fatSet_other fat hb _ j 0xFFF (by omega) hj
        have hval : fatGet (fatSet fat (getFreeCluster fat maxCluster) 0xFFF)
            (getFreeCluster fat maxCluster) = 0xFFF :=
          fatGet_fatSet_same fat _ 0xFFF hnin (by omega)
        have hinit : WriteInv fat maxCluster chains
            (getFreeCluster fat maxCluster :: chains.map Prod.fst)
            (getFreeCluster fat maxCluster) T
            (fatSet fat (getFreeCluster fat maxCluster) 0xFFF) pos.cluster := by
          refine ⟨hb.fatSet _ _, fatSet_length _ _ _, ?_, ?_, ?_,
            _, Owned.first fat chains _ hb ho hz (by omega) hnin, rfl,
            fun p hp => ⟨p, List.mem_cons_of_mem _ hp, rfl, List.prefix_refl _⟩, fun _ => ?_⟩
          · rw [hsame 0 (by omega)]; exact h0
          · rw [hsame 1 (by omega)]; exact h1
          · intro j
            by_cases hjn : j = getFreeCluster fat maxCluster
            · right; left; rw [hjn]; exact ⟨hz, hval⟩
            · left; exact hsame j hjn
          · refine ⟨⟨_, List.mem_cons_self _ _, rfl, by rw [hpos]; exact List.mem_singleton_self _⟩,
              fun p hp _ => List.mem_cons_of_mem _ hp, fun j hj => ?_⟩
            by_cases hjn : j = getFreeCluster fat maxCluster
            · exact ⟨_, List.mem_cons_self _ _, rfl, by rw [hjn]; exact List.mem_singleton_self _⟩
            · exact absurd (hsame j hjn) hj
        obtain ⟨c, _, _, _, _, hI, chains2, ho2, hH, hpre, htr⟩ :=
          writeLoop_inv2 cs maxCluster bytes _
            (fun f x hinv hx hnew2 => WriteInv.grow fat maxCluster chains _ _ T f x hmax hfat
              hinv hx hnew2)
            (fun f x hinv hne => WriteInv.follow fat maxCluster chains _ _ T f x hinv hne)
            fuel _ data pos 0 lr hinit hlr
        rw [hf, hfile]
        refine ⟨hI, chains2, ho2, ?_, hpre, fun hT => (htr hT).2⟩
        rw [hH, if_pos ⟨hz0, by omega⟩]
        rfl
      · have hinit : WriteInv fat maxCluster chains (chains.map Prod.fst)
            file.firstDataClusterLow T fat pos.cluster := by
          refine ⟨hb, rfl, h0, h1, fun j => Or.inl rfl, chains, ho, rfl,
            fun p hp => ⟨p, hp, rfl, List.prefix_refl _⟩, fun hT => ?_⟩
          obtain ⟨q, hq, hqh, hmem⟩ := hseek hT hnz
          exact ⟨⟨q, hq, hqh, by rw [hpos]; exact hmem⟩, fun p hp _ => hp,
            fun j hj => absurd rfl hj⟩
        obtain ⟨c, _, _, _, _, hI, chains2, ho2, hH, hpre, htr⟩ :=
          writeLoop_inv2 cs maxCluster bytes _
            (fun f x hinv hx hnew2 => WriteInv.grow fat maxCluster chains _ _ T f x hmax hfat
              hinv hx hnew2)
            (fun f x hinv hne => WriteInv.follow fat maxCluster chains _ _ T f x hinv hne)
            fuel _ data pos 0 lr hinit hlr
        rw [hf, hfile]
        refine ⟨hI, chains2, ho2, ?_, hpre, fun hT => (htr hT).2⟩
        rw [hH, if_neg (fun h => hnz h.1)]
        rfl
    refine ⟨?_, ?_⟩
    · intro j hj
      have hempty : Owned fat [] :=
        ⟨fun p hp => absurd hp (List.not_mem_nil p), List.Pairwise.nil⟩
      rcases (hfin [] False hempty (fun hF => absurd hF id)).1 j with e | e | e
      · exact absurd e hj
      · exact Or.inl e
      · exact Or.inr e
    · intro chains ho hhead
      obtain ⟨_, chains2, ho2, hH, hpre, htr⟩ := hfin chains
        (file.firstDataClusterLow = 0
          ∨ (seek fat file.firstDataClusterLow cs offset).cluster ≠ 0xFFF) ho
        (fun hT hnz => by
          have hne : (seek fat file.firstDataClusterLow cs offset).cluster ≠ 0xFFF := by
            rcases hT with e | e
            · exact absurd e hnz
            · exact e
          obtain ⟨q, hq, hqh⟩ := List.mem_map.1 (hhead hnz)
          refine ⟨q, hq, hqh, ?_⟩
          have hc := (ho.1 q hq).1
          rw [hqh] at hc
          rcases seekLoop_mem fat (offset / cs % 2 ^ 32) q.2 file.firstDataClusterLow 0 hc
            with e | e
          · exact absurd e hne
          · exact e)
      refine ⟨chains2, ho2, hH, hpre, ?_, htr⟩
      intro hne
      rw [hH]
      by_cases hz0 : file.firstDataClusterLow = 0
      · rw [if_pos ⟨hz0, hne⟩]
        exact List.mem_append_left _ (List.mem_singleton_self _)
      · apply List.mem_append_right
        have hsamefile : r.file.firstDataClusterLow = file.firstDataClusterLow := by
          rcases hcase with ⟨_, hfile⟩ | ⟨hz1, _⟩ | ⟨_, hfile, _⟩
          · exact hfile
          · exact absurd hz1 hz0
          · exact hfile
        rw [hsamefile]
        exact hhead hz0

/-! ## The volume `imageOneFat` -/

theorem fatOne_length : fatOne.length = 512 := by
  rw [fatOne, List.length_append, List.length_replicate]
  rfl

theorem imageOneFat_length : imageOneFat.length = 4096 := by
  rw [imageOneFat, List.length_append, List.length_append, List.length_replicate,
    bootBlock_length, fatOne_length]

theorem imageOneFat_fat :
    memRead imageOneFat ((512 : Nat) : Int) 512 = fatOne := by
  rw [imageOneFat]
  exact memRead_mid (bootBlock 1 8) fatOne _ 512 512
    (by rw [bootBlock_length]) (by rw [fatOne_length])

theorem imageOneFat_layout :
    getFatVolume 2 imageOneFat = some (some
        { bootOffset := 0, volumeSize := 4096, reservedSize := 512, fatOffset := 512,
          fatRegionSize := 512, rootOffset := 1024, rootSize := 512, dataOffset := 1536,
          dataSize := 2560, clusterSize := 512, maxCluster := 5 }) := by
  have hlen := imageOneFat_length
  have hscan : scanForBPBRegion imageOneFat = some 0 :=
    (scanForBPBRegion_some _ 0).2 ⟨by rw [hlen]; omega, by decide, fun j hj => absurd hj (by omega)⟩
  have hb : BPB.ofBytes (memRead imageOneFat ((512 * 0 : Nat) : Int) 512)
      = BPB.ofBytes (bootBlock 1 8) := by decide
  obtain ⟨L, hL, h1, h2, h0, h3, h4, h5, h6, h7, h8, h9, h10⟩ :=
    getFatVolume_raw 2 imageOneFat 0 (BPB.ofBytes (bootBlock 1 8)) 4096 hscan hb (by decide)
      (by rw [hlen])
      (by
        have hfo : (BPB.ofBytes (bootBlock 1 8)).reservedSectors
            * (BPB.ofBytes (bootBlock 1 8)).bytesPerSector = 512 := by decide
        have hfs : (BPB.ofBytes (bootBlock 1 8)).sectorPerFat
            * (BPB.ofBytes (bootBlock 1 8)).bytesPerSector = 512 := by decide
        have hfc : (BPB.ofBytes (bootBlock 1 8)).fatCount = 1 := by decide
        rw [hfo, hfs, hfc]
        unfold checkFatTable
        rw [if_neg (by decide)]
        exact checkFatTableLoop_equal _ _ _ _ (by decide) 2 0 (by decide) (by decide)
          (fun j _ hj => absurd hj (by
            have : (1 + 2 ^ 64 - 1) % 2 ^ 64 = 0 := by decide
            omega)))
  rw [hL]
  have hd : L.dataSize = 2560 := by rw [h8]; decide
  have hc : L.clusterSize = 512 := by rw [h9]; decide
  have hm : L.maxCluster = 5 := by rw [h10, hd, hc]; decide
  cases L
  simp only at h1 h2 h0 h3 h4 h5 h6 h7 hd hc hm
  subst h1 h2 h0 h3 h4 h5 h6 h7 hd hc hm
  decide

/-! ## The claims -/

/-- C1 at a failing input: a file of 512 bytes in one cluster of 512 bytes
(`FAT[2] = 0xFFF`), one byte written at offset 512 = size.  `seek` stops on
the end-of-chain value, `writeFile` takes it for a cluster number (the byte
goes to the place of a cluster `0xFFF`, which this data region of four
clusters does not have), returns 1 and sets the size to 513; the read of 1
byte at offset 512 then returns no byte. -/
theorem C1_append_at_cluster_end_is_not_read_back :
    IsChain fatA 2 [2]
      ∧ seek fatA 2 512 512 = { cluster := 0xFFF, fileClusterOffset := 512, clusterOffset := 0 }
      ∧ (writeFile 8 fatA (zeroData 4) (fileA 2 512) 512 [7] 512 4).map
            (fun r => (r.ret, r.fat, r.file))
          = some (Ret.ok 1, fatA, fileA 2 513)
      ∧ (writeFile 8 fatA (zeroData 4) (fileA 2 512) 512 [7] 512 4).bind
            (fun r => dumpRegularFile 8 r.fat r.data r.file 512 1 512)
          = some (Ret.ok []) := by
  decide

/-- C2: for every file whose chain from `first_cluster_low` begins with a list
`l` of at least `ceil(size / cluster_size)` clusters, none of them `0xFFF`,
every offset below the size and every `n > 0`, `dumpRegularFile` returns
exactly `min(n, size - offset)` bytes, and they are the bytes
`[offset, offset + min(n, size - offset))` of the concatenation of the clusters
of `l` in chain order; when the size is 0 or the offset is not below the size
it returns no byte. -/
theorem C2_read_correctness (fat data : Region) (file : FileEntry) (cs n offset : Nat) :
    (∀ (l : List Nat) (fuel : Nat), 0 < cs → cs < 2 ^ 31 → file.size < 2 ^ 32 →
      ChainPrefix fat file.firstDataClusterLow l → (∀ c ∈ l, 2 ≤ c) →
      file.size ≤ l.length * cs → offset < file.size → 0 < n → l.length ≤ fuel →
      dumpRegularFile fuel fat data file cs n offset
          = some (Ret.ok
              (((chainBytes data cs l).drop offset).take (min n (file.size - offset))))
        ∧ (((chainBytes data cs l).drop offset).take (min n (file.size - offset))).length
          = min n (file.size - offset))
    ∧ (file.size = 0 ∨ file.size ≤ offset →
        ∀ fuel, dumpRegularFile fuel fat data file cs n offset = some (Ret.ok [])) := by
  constructor
  · intro l fuel hcs hcs31 hsize hp hge hlen hoff _ hfuel
    refine ⟨dumpRegularFile_chain fat data file cs n offset l fuel hcs hcs31 hsize hp hge hlen
      hoff hfuel, ?_⟩
    rw [List.length_take, List.length_drop, chainBytes_length]
    omega
  · intro h fuel
    unfold dumpRegularFile
    rw [if_pos]
    rcases h with h | h
    · simp [h]
    · simp [h]

theorem C2_read_correctness_witness :
    dumpRegularFile 2 fatC (zeroData 2) (fileA 2 600) 512 50 500
        = some (Ret.ok
            (((chainBytes (zeroData 2) 512 [2, 3]).drop 500).take
              (min 50 ((fileA 2 600).size - 500))))
      ∧ (((chainBytes (zeroData 2) 512 [2, 3]).drop 500).take
            (min 50 ((fileA 2 600).size - 500))).length
          = min 50 ((fileA 2 600).size - 500) :=
  (C2_read_correctness fatC (zeroData 2) (fileA 2 600) 512 50 500).1 [2, 3] 2
    (by decide) (by decide) (by decide) (by decide) (by decide) (by decide) (by decide)
    (by decide) (by decide)

/-- C3: for every image whose FAT entries 0 and 1 are non-zero, every file
with size 0 and `first_cluster_low` 0 and every `n > 0` bytes such that at
least `ceil(n / cluster_size)` clusters in `[2, maxCluster)` are free,
`writeFile` at offset 0 returns `n`, sets `size = n`, and leaves the file with
a chain `l` of exactly `ceil(n / cluster_size)` distinct clusters ending in
`0xFFF`, each in `[2, maxCluster)` and free before; no other FAT entry
changes, and reading `n` bytes at offset 0 returns the written bytes.  The FAT
holds bytes and the entries below `maxCluster`, the data region holds the
clusters below `maxCluster`, `maxCluster <= 0xFFF` and the cluster size is at
most 128 sectors of 4096 bytes, as `BPB::check` and `getFatVolume` provide. -/
theorem C3_grow_on_write (fat data : Region) (file : FileEntry) (cs maxCluster : Nat)
    (bytes : List Nat) (fuel : Nat) (hb : IsBytes fat) (hcs : 0 < cs) (hcs19 : cs ≤ 2 ^ 19)
    (hmax : maxCluster ≤ 0xFFF) (hfat : maxCluster * 3 ≤ fat.length * 2)
    (hdata : (maxCluster - 2) * cs ≤ data.length)
    (h0 : fatGet fat 0 ≠ 0) (h1 : fatGet fat 1 ≠ 0)
    (hsize : file.size = 0) (hfc : file.firstDataClusterLow = 0)
    (hn : 0 < bytes.length)
    (hfree : (bytes.length + cs - 1) / cs ≤ freeCount fat maxCluster)
    (hfuel : (bytes.length + cs - 1) / cs ≤ fuel) :
    ∃ (r : WriteResult) (l : List Nat),
      writeFile fuel fat data file cs bytes 0 maxCluster = some r
        ∧ r.ret = Ret.ok bytes.length
        ∧ r.file = { file with firstDataClusterLow := l.headD 0, size := bytes.length }
        ∧ IsChain r.fat r.file.firstDataClusterLow l
        ∧ l.length = (bytes.length + cs - 1) / cs
        ∧ l.Nodup
        ∧ (∀ c ∈ l, 2 ≤ c ∧ c < maxCluster ∧ fatGet fat c = 0)
        ∧ (∀ j, j ∉ l → fatGet r.fat j = fatGet fat j)
        ∧ (∀ fuel', l.length ≤ fuel' →
            dumpRegularFile fuel' r.fat r.data r.file cs bytes.length 0
              = some (Ret.ok bytes)) := by
  obtain ⟨k, hk, hlo, hhi⟩ := ceil_div_bounds bytes.length cs hcs hn
  rw [hk] at hfree hfuel
  have hcs31 : cs < 2 ^ 31 := by omega
  have hn32 : bytes.length < 2 ^ 32 := by
    have hfm : freeCount fat maxCluster ≤ maxCluster := by
      unfold freeCount
      exact le_trans (List.countP_le_length _) (by rw [List.length_range])
    have h3 : (k + 1) * cs ≤ 4095 * 2 ^ 19 := Nat.mul_le_mul (by omega) hcs19
    omega
  obtain ⟨hd2, hd, hdv⟩ := getFreeCluster_spec fat maxCluster h0 h1 (by omega)
  generalize hdd : getFreeCluster fat maxCluster = d at hd2 hd hdv
  obtain ⟨ha1, ha2, ha3⟩ := alloc_first fat maxCluster d hb hfat hd2 hd hdv
  obtain ⟨r, l, hrun, hexit, hwr, hlen, hchain, hnd, hmem, hframe, hbytes, _⟩ :=
    writeLoop_grow cs maxCluster bytes hmax k (fatSet fat d 0xFFF) data d 0 0 fuel
      (hb.fatSet _ _) (by rw [fatSet_length]; exact hfat) hdata
      (by rw [ha2 0 (by omega)]; exact h0) (by rw [ha2 1 (by omega)]; exact h1)
      hd2 hd ha1 (by omega) (by omega) (by omega) hfuel
  have hdmem : d ∈ l := by
    cases l with
    | nil => simp at hlen
    | cons y rest => rw [hchain.1]; exact List.mem_cons_self _ _
  have hhead : l.headD 0 = d := by
    cases l with
    | nil => simp at hlen
    | cons y rest => exact hchain.1
  have hlen0 : (bytes.length == 0) = false := by
    simp only [beq_eq_false_iff_ne]; omega
  have hdF : (d == 0xFFF) = false := by
    simp only [beq_eq_false_iff_ne]; omega
  have hw : writeFile fuel fat data file cs bytes 0 maxCluster
      = some { ret := Ret.ok bytes.length, fat := r.fat, data := r.data,
               file := { file with firstDataClusterLow := d, size := bytes.length } } := by
    unfold writeFile writeFileLoop
    simp only [seek_zero, hfc, hdd, hlen0, hdF, hrun, hexit, hwr, hsize, Option.map_some',
      Nat.zero_add, Nat.mod_eq_of_lt hn32, Nat.max_zero, Nat.zero_mod, bne_self_eq_false,
      beq_self_eq_true, Bool.false_eq_true, if_false, if_true, Bool.and_false, Nat.add_zero]
  refine ⟨_, l, hw, rfl, by rw [hhead], hchain, by rw [hlen, hk], hnd, ?_, ?_, ?_⟩
  · intro c hc
    obtain ⟨hc2, hcm, hor⟩ := hmem c hc
    refine ⟨hc2, hcm, ?_⟩
    rcases hor with e | e
    · rw [e]; exact hdv
    · by_cases hcd : c = d
      · rw [hcd]; exact hdv
      · rw [← ha2 c hcd]; exact e
  · intro j hj
    have hjd : j ≠ d := fun e => hj (e ▸ hdmem)
    show fatGet r.fat j = fatGet fat j
    rw [hframe j hj, ha2 j hjd]
  · intro fuel' hfuel'
    have := dumpRegularFile_chain r.fat r.data
      { file with firstDataClusterLow := d, size := bytes.length } cs bytes.length 0 l fuel'
      hcs hcs31 hn32 (IsChain.toPrefix l d hchain) (fun x hx => (hmem x hx).1)
      (by rw [hlen]; exact hhi) hn hfuel'
    rw [this]
    simp only [List.drop_zero, Nat.sub_zero, Nat.min_self] at hbytes ⊢
    rw [hbytes]

theorem C3_grow_on_write_witness :
    ∃ (r : WriteResult) (l : List Nat),
      writeFile 2 fatB (zeroData 4) (fileA 0 0) 512 (List.replicate 600 7) 0 4 = some r
        ∧ r.ret = Ret.ok (List.replicate 600 7).length
        ∧ r.file = { fileA 0 0 with firstDataClusterLow := l.headD 0,
                                     size := (List.replicate 600 7).length }
        ∧ IsChain r.fat r.file.firstDataClusterLow l
        ∧ l.length = ((List.replicate 600 7).length + 512 - 1) / 512
        ∧ l.Nodup
        ∧ (∀ c ∈ l, 2 ≤ c ∧ c < 4 ∧ fatGet fatB c = 0)
        ∧ (∀ j, j ∉ l → fatGet r.fat j = fatGet fatB j)
        ∧ (∀ fuel', l.length ≤ fuel' →
            dumpRegularFile fuel' r.fat r.data r.file 512 (List.replicate 600 7).length 0
              = some (Ret.ok (List.replicate 600 7))) :=
  C3_grow_on_write fatB (zeroData 4) (fileA 0 0) 512 4 (List.replicate 600 7) 2
    (by decide) (by decide) (by decide) (by decide) (by decide)
    (by rw [zeroData, List.length_replicate]; decide) (by decide)
    (by decide) (by decide) (by decide) (by decide) (by decide) (by decide)

/-- C4: for every FAT region, every cluster index `i` whose two bytes
`i*12/8` and `i*12/8 + 1` lie in the region and every value `v <= 0xFFF`,
`getValue` after `setValue(v)` on entry `i` returns `v`, for even and for odd `i`. -/
theorem C4_fat_entry_round_trip (fat : Region) (i v : Nat)
    (hin : i * 12 / 8 + 1 < fat.length) (hv : v ≤ 0xFFF) :
    (getFatEntry i).getValue ((getFatEntry i).setValue fat v) = v :=
  fatGet_fatSet_same fat i v hin hv

theorem C4_fat_entry_round_trip_witness :
    (getFatEntry 2).getValue ((getFatEntry 2).setValue fatA 0xABC) = 0xABC
      ∧ (getFatEntry 3).getValue ((getFatEntry 3).setValue fatA 0xABC) = 0xABC :=
  ⟨C4_fat_entry_round_trip fatA 2 0xABC (by decide) (by decide),
    C4_fat_entry_round_trip fatA 3 0xABC (by decide) (by decide)⟩

/-- C5: for every FAT region of bytes, every cluster index `i` (even or odd),
every value `v <= 0xFFF`: every entry `j != i` reads after `setValue(v)` on
entry `i` what it read before; the four bits of the neighbouring entry that
share a byte with entry `i` are kept (the high nibble of byte `i*12/8 + 1` for
even `i`, the low nibble of byte `i*12/8` for odd `i`); no byte other than
`i*12/8` and `i*12/8 + 1` changes, and the region keeps its length. -/
theorem C5_fat_entry_write_preserves_neighbours (fat : Region) (hb : IsBytes fat)
    (i v : Nat) (hv : v ≤ 0xFFF) :
    (∀ j, j ≠ i →
      (getFatEntry j).getValue ((getFatEntry i).setValue fat v) = (getFatEntry j).getValue fat)
    ∧ (i % 2 = 0 →
        ((getFatEntry i).setValue fat v).getD (i * 12 / 8 + 1) 0 >>> 4
          = fat.getD (i * 12 / 8 + 1) 0 >>> 4)
    ∧ (i % 2 = 1 →
        ((getFatEntry i).setValue fat v).getD (i * 12 / 8) 0 &&& 0x0f
          = fat.getD (i * 12 / 8) 0 &&& 0x0f)
    ∧ (∀ k, k ≠ i * 12 / 8 → k ≠ i * 12 / 8 + 1 →
        ((getFatEntry i).setValue fat v).getD k 0 = fat.getD k 0)
    ∧ ((getFatEntry i).setValue fat v).length = fat.length := by
  refine ⟨fun j hj => fatGet_fatSet_other fat hb i j v hv hj, ?_, ?_, ?_, ?_⟩
  · intro hi
    obtain ⟨k, rfl⟩ : ∃ k, i = 2 * k := ⟨i / 2, by omega⟩
    have hp : 2 * k * 12 / 8 = 3 * k := by omega
    rw [getFatEntry_even, hp, setValue_even_byte1, shr4, shr4]
    have hbyte := hb.getD_lt (3 * k + 1)
    by_cases hlen : 3 * k + 1 < fat.length
    · simp only [hlen, if_true]
      omega
    · simp only [hlen, if_false, getD_of_le fat (3 * k + 1) (by omega)]
  · intro hi
    obtain ⟨k, rfl⟩ : ∃ k, i = 2 * k + 1 := ⟨i / 2, by omega⟩
    have hp : (2 * k + 1) * 12 / 8 = 3 * k + 1 := by omega
    rw [getFatEntry_odd, hp, setValue_odd_byte0, and_15, and_15]
    by_cases hlen : 3 * k + 1 < fat.length
    · simp only [hlen, if_true]
      omega
    · simp only [hlen, if_false, getD_of_le fat (3 * k + 1) (by omega)]
  · intro k h0 h1
    exact setValue_getD_other _ fat v k h0 h1
  · exact setValue_length _ fat v

theorem C5_fat_entry_write_preserves_neighbours_witness :
    (getFatEntry 3).getValue ((getFatEntry 2).setValue fatC 0x123) = (getFatEntry 3).getValue fatC
      ∧ (getFatEntry 2).getValue ((getFatEntry 3).setValue fatC 0x123)
          = (getFatEntry 2).getValue fatC :=
  ⟨(C5_fat_entry_write_preserves_neighbours fatC (by decide) 2 0x123 (by decide)).1 3
      (by decide),
    (C5_fat_entry_write_preserves_neighbours fatC (by decide) 3 0x123 (by decide)).1 2
      (by decide)⟩

/-- C6, as stated, fails: the file has size 5 and one cluster of 512 bytes,
the offset 100 is greater than its size, and `writeFile` does not throw
`ESPIPE`: it stores the byte at offset 100 of cluster 2, returns 1 and sets
the size to 101. -/
theorem C6_counterexample :
    (fileA 2 5).size < 100
      ∧ (writeFile 1 fatA (zeroData 4) (fileA 2 5) 512 [7] 100 4).map
            (fun r => (r.ret, r.fat, r.file, r.data.getD 100 0))
          = some (Ret.ok 1, fatA, fileA 2 101, 7) := by
  decide

/-- C6, amended: for every file and every offset such that the chain from
`first_cluster_low` reaches `0xFFF` in fewer than `offset / cluster_size`
hops, `writeFile` throws `ESPIPE`, `fat12_ll_write` replies `ESPIPE`, and the
file entry, the FAT and the data region are left as they were. -/
theorem C6_write_beyond_chain_rejected (fuel : Nat) (fat data : Region) (file : FileEntry)
    (cs : Nat) (bytes : List Nat) (offset maxCluster : Nat) (l : List Nat)
    (hcs : 0 < cs) (hcs32 : cs < 2 ^ 32) (hl : IsChain fat file.firstDataClusterLow l)
    (hlt : l.length < offset / cs) :
    writeFile fuel fat data file cs bytes offset maxCluster
        = some { ret := Ret.throw Errno.ESPIPE, fat := fat, data := data, file := file }
      ∧ fat12_ll_write fuel fat data (some file) cs bytes offset maxCluster
        = some (WriteReply.err Errno.ESPIPE, fat, data, some file) := by
  have hne := seek_short_chain fat file.firstDataClusterLow cs offset l hcs hcs32 hl hlt
  have hw : writeFile fuel fat data file cs bytes offset maxCluster
      = some { ret := Ret.throw Errno.ESPIPE, fat := fat, data := data, file := file } := by
    unfold writeFile
    simp only [bne_iff_ne, ne_eq, hne, not_false_eq_true, if_true]
  refine ⟨hw, ?_⟩
  simp only [fat12_ll_write, hw, Option.map_some']

theorem C6_write_beyond_chain_rejected_witness :
    writeFile 1 fatA (zeroData 4) (fileA 2 5) 512 [7] 1200 4
        = some { ret := Ret.throw Errno.ESPIPE, fat := fatA, data := zeroData 4,
                 file := fileA 2 5 }
      ∧ fat12_ll_write 1 fatA (zeroData 4) (some (fileA 2 5)) 512 [7] 1200 4
        = some (WriteReply.err Errno.ESPIPE, fatA, zeroData 4, some (fileA 2 5)) :=
  C6_write_beyond_chain_rejected 1 fatA (zeroData 4) (fileA 2 5) 512 [7] 1200 4 [2]
    (by decide) (by decide) (by decide) (by decide)

/-- C7 at a failing input: an empty file on a volume whose only free cluster
is cluster 2 (`maxCluster = 3`), 600 bytes written at offset 0 with clusters
of 512 bytes.  `writeFile` returns the partial count 512 from inside the loop
and the size stays 0, not `max(0, 0 + 512)`. -/
theorem C7_partial_write_keeps_old_size :
    freeCount fatB 3 = 1
      ∧ (writeFile 8 fatB (zeroData 3) (fileA 0 0) 512 (List.replicate 600 7) 0 3).map
            (fun r => (r.ret, r.fat, r.file))
          = some (Ret.ok 512, fatA, fileA 2 0) := by
  decide

/-- C8 at a failing input: no cluster below `maxCluster = 3` is free, the file
has 512 bytes in one cluster of 512 bytes, one byte is written at offset 512,
the end of its last cluster.  `fat12_ll_write` does not reply `ENOSPC`: it
replies a written count of 1 and the size becomes 513. -/
theorem C8_append_on_full_volume_is_not_refused :
    getFreeCluster fatA 3 = 0xFFF
      ∧ freeCount fatA 3 = 0
      ∧ (fat12_ll_write 8 fatA (zeroData 3) (some (fileA 2 512)) 512 [7] 512 3).map
            (fun r => (r.1, r.2.1, r.2.2.2))
          = some (WriteReply.written 1, fatA, some (fileA 2 513)) := by
  decide

/-- C9 at a failing input: a regular file of 600 bytes with the chain
`2 -> 3 -> 0xFFF`, opened with `O_WRONLY | O_TRUNC`.  The entry gets
`first_cluster_low = 0` and `size = 0`, but `trunc` stores `0xFFF`, not 0, in
the FAT entries of clusters 2 and 3: no cluster becomes free. -/
theorem C9_trunc_leaves_clusters_allocated :
    IsChain fatC 2 [2, 3]
      ∧ fat12_ll_open_entry 8 (fileA 2 600) (O_WRONLY ||| O_TRUNC) fatC
          = some (none, fileA 0 0, fatFull)
      ∧ fatGet fatFull 2 = 0xFFF ∧ fatGet fatFull 3 = 0xFFF
      ∧ freeCount fatC 4 = 0 ∧ freeCount fatFull 4 = 0 := by
  decide

/-- C10: for every file entry whose chain from `first_cluster_low` is a list
`l` of `N >= 1` distinct clusters in `[2, maxCluster)` ending in `0xFFF`,
`f_unlink` returns, sets the FAT entry of each cluster of `l` to 0, changes no
other FAT entry, zeroes every field of the 32-byte entry, and the number of
zero entries in `[2, maxCluster)` grows by exactly `N`; when
`first_cluster_low == 0` only the entry is zeroed and the FAT is unchanged. -/
theorem C10_f_unlink_frees_chain (fat : Region) (file : FileEntry) (maxCluster : Nat) :
    (∀ (l : List Nat) (fuel : Nat), IsBytes fat → maxCluster * 3 ≤ fat.length * 2 →
      IsChain fat file.firstDataClusterLow l → l ≠ [] → l.Nodup →
      (∀ c ∈ l, 2 ≤ c ∧ c < maxCluster) → l.length ≤ fuel →
      ∃ fat', f_unlink fuel fat file
          = some (Ret.ok (), fat',
              { filename := List.replicate 11 0, attr := 0, reserved := 0,
                creationTimeTenth := 0, creationTime := 0, creationDate := 0,
                lastAccessDate := 0, firstDataClusterHigh := 0, writeTime := 0,
                writeDate := 0, firstDataClusterLow := 0, size := 0 })
        ∧ (∀ c ∈ l, fatGet fat' c = 0)
        ∧ (∀ j, j ∉ l → fatGet fat' j = fatGet fat j)
        ∧ freeCount fat' maxCluster = freeCount fat maxCluster + l.length)
    ∧ (file.firstDataClusterLow = 0 → ∀ fuel, f_unlink fuel fat file
          = some (Ret.ok (), fat,
              { filename := List.replicate 11 0, attr := 0, reserved := 0,
                creationTimeTenth := 0, creationTime := 0, creationDate := 0,
                lastAccessDate := 0, firstDataClusterHigh := 0, writeTime := 0,
                writeDate := 0, firstDataClusterLow := 0, size := 0 })) := by
  constructor
  · intro l fuel hb hfat hl hne hnd hr hfuel
    obtain ⟨fat', hrun, _, _, hzero, hframe⟩ :=
      unlinkLoop_chain l _ fat fuel hb hl hne hnd
        (fun x hx => entry_in_bounds fat maxCluster x hfat (hr x hx).2) hfuel
    refine ⟨fat', ?_, hzero, hframe, ?_⟩
    · cases l with
      | nil => exact absurd rfl hne
      | cons x rest =>
        have hx : x = file.firstDataClusterLow := hl.1
        have h2 : 2 ≤ file.firstDataClusterLow := hx ▸ (hr x (List.mem_cons_self _ _)).1
        have h0 : (file.firstDataClusterLow == 0) = false := by
          simp only [beq_eq_false_iff_ne]; omega
        have hF : (file.firstDataClusterLow == 0xFFF) = false := by
          simpa using hl.2.1
        simp only [f_unlink, h0, hF, Bool.false_eq_true, if_false, hrun, Option.map_some',
          FileEntry.reset]
    · exact freeCount_add fat fat' maxCluster l hnd hr
        (IsChain.entry_ne_zero l _ hl (fun x hx => (hr x hx).1)) hzero hframe
  · intro h0 fuel
    simp [f_unlink, h0, FileEntry.reset]

theorem C10_f_unlink_frees_chain_witness :
    ∃ fat', f_unlink 2 fatC (fileA 2 600)
        = some (Ret.ok (), fat',
            { filename := List.replicate 11 0, attr := 0, reserved := 0,
              creationTimeTenth := 0, creationTime := 0, creationDate := 0,
              lastAccessDate := 0, firstDataClusterHigh := 0, writeTime := 0,
              writeDate := 0, firstDataClusterLow := 0, size := 0 })
      ∧ (∀ c ∈ [2, 3], fatGet fat' c = 0)
      ∧ (∀ j, j ∉ [2, 3] → fatGet fat' j = fatGet fatC j)
      ∧ freeCount fat' 4 = freeCount fatC 4 + [2, 3].length :=
  (C10_f_unlink_frees_chain fatC (fileA 2 600) 4).1 [2, 3] 2 (by decide) (by decide)
    (by decide) (by decide) (by decide) (by decide) (by decide)

/-- C11, evaluated: `findParent` returns the node it is called on, not the
direct parent.  In the session `ctxZombie` the zombie `INNER.BIN` (inode 5,
`nlookup` 1) is the third child of `SUB` (inode 2) and `findParent(5)` on the
root returns the root.  `forget(5, 1)` frees the chain (`FAT[3] = 0`) and sets
byte 0 of the slot to `0xE5`, but it compacts the root directory (the deleted
entry in the last root slot becomes `0x00`) and looks for the node among the
children of the root, where `std::find` returns `end()`: the node is still a
child of `SUB`.  For the zombie `A.TXT` in the root directory the same steps
remove the node and reply 0. -/
theorem C11_findParent_returns_root :
    (ctxZombie.rootInode.at [0, 2]).map (fun n => (n.inode, n.nlookup, n.zombie))
      = some (5, 1, true)
    ∧ (ctxZombie.rootInode.at [0]).map (fun n => (n.inode, n.children.map Fat12Inode.inode))
      = some (2, [3, 4, 5])
    ∧ (ctxZombie.rootInode.findInode 5).map Prod.fst = some [0, 2]
    ∧ (ctxZombie.rootInode.findParent 5).map (fun r => (r.1, r.2.inode)) = some ([], 1)
    ∧ memRead ctxZombie.fat12Volume.rootRegion 480 1 = [0xE5]
    ∧ (fat12_ll_forget 16 ctxZombie 5 1).map
        (fun r => (r.1, fatGet r.2.fat12Volume.fatRegion 3,
          memRead r.2.fat12Volume.dataRegion 64 1))
      = some (ForgetExit.eraseEnd, 0, [0xE5])
    ∧ (fat12_ll_forget 16 ctxZombie 5 1).map
        (fun r => (memRead r.2.fat12Volume.rootRegion 480 1,
          (r.2.rootInode.at [0]).map (fun n => n.children.map Fat12Inode.inode),
          r.2.rootInode.children.map Fat12Inode.inode))
      = some ([0x00], some [3, 4, 5], [2, 6])
    ∧ (fat12_ll_forget 16
        (fat12_ll_unlink asciiTable
          (fat12_ll_lookup asciiTable ctxImg 1 [0x41, 0x2E, 0x54, 0x58, 0x54]).2
          1 [0x41, 0x2E, 0x54, 0x58, 0x54]).2 6 1).map
        (fun r => (r.1, memRead r.2.fat12Volume.rootRegion 32 1,
          r.2.rootInode.children.map Fat12Inode.inode))
      = some (ForgetExit.replied none, [0x00], [2]) := by
  decide

/-- C12, counterexample: in the session `ctxImg`, `unlink(1, "A.TXT")`
replies 0 and marks inode 6 zombie; the following `lookup(1, "A.TXT")` replies
with the entry of inode 6 and raises its `nlookup` from 0 to 1. -/
theorem C12_counterexample :
    (fat12_ll_unlink asciiTable ctxImg 1 [0x41, 0x2E, 0x54, 0x58, 0x54]).1 = none
    ∧ ((fat12_ll_unlink asciiTable ctxImg 1 [0x41, 0x2E, 0x54, 0x58, 0x54]).2.rootInode.at [1]).map
        (fun n => (n.inode, n.nlookup, n.zombie)) = some (6, 0, true)
    ∧ (fat12_ll_lookup asciiTable
        (fat12_ll_unlink asciiTable ctxImg 1 [0x41, 0x2E, 0x54, 0x58, 0x54]).2 1
        [0x41, 0x2E, 0x54, 0x58, 0x54]).1 = LookupReply.entry 6
    ∧ ((fat12_ll_lookup asciiTable
        (fat12_ll_unlink asciiTable ctxImg 1 [0x41, 0x2E, 0x54, 0x58, 0x54]).2 1
        [0x41, 0x2E, 0x54, 0x58, 0x54]).2.rootInode.at [1]).map
        (fun n => (n.inode, n.nlookup, n.zombie)) = some (6, 1, true) := by
  decide

/-- C12, amended: after `unlink(parent, name)` has replied 0, the parent has a
zombie child whose canonical name is `name`, and `lookup(parent, name)` does
not reply ENOENT: it replies with the entry of the first child whose canonical
name equals `name` ignoring ASCII case (the zombie child or a child before
it) and increments the `nlookup` of that child; the `zombie` flag is not
looked at. -/
theorem C12_lookup_after_unlink (t : MS932) (ctx ctx2 : FuseContext) (parent : Nat)
    (name : List Nat) (h : fat12_ll_unlink t ctx parent name = (none, ctx2)) :
    ∃ p parentNode i zombieChild j child,
      ctx2.rootInode.findInode parent = some (p, parentNode)
      ∧ parentNode.children.get? i = some zombieChild
      ∧ zombieChild.zombie = true
      ∧ getCanonicalString t (ctx2.readEntry zombieChild.file).filename = cstr name
      ∧ j ≤ i
      ∧ parentNode.children.get? j = some child
      ∧ strcasecmpEq (getCanonicalString t (ctx2.readEntry child.file).filename) name = true
      ∧ (∀ j2 c, j2 < j → parentNode.children.get? j2 = some c →
          strcasecmpEq (getCanonicalString t (ctx2.readEntry c.file).filename) name = false)
      ∧ fat12_ll_lookup t ctx2 parent name
          = (LookupReply.entry child.inode,
              { ctx2 with rootInode :=
                  ctx2.rootInode.update (p ++ [j]) fun n =>
                    n.setNlookup ((n.nlookup + 1) % 2 ^ 64) }) := by
  obtain ⟨p, node, i, child, hf, hc, hname, _, _, rfl⟩ := fat12_ll_unlink_ok t ctx ctx2 parent name h
  have hat := (findInode_at _ _ _ _ hf).1
  -- the parent is found at the same place in the new tree
  have hfst := findInode_update_fst parent (fun n => n.setZombie true)
    (fun n => setZombie_inode n true) (fun n => setZombie_children n true) (p ++ [i])
    ctx.rootInode
  rw [hf] at hfst
  cases hf2 : (ctx.rootInode.update (p ++ [i]) fun n => n.setZombie true).findInode parent with
  | none => rw [hf2] at hfst; simp at hfst
  | some r =>
    obtain ⟨p2, node2⟩ := r
    rw [hf2] at hfst
    simp only [Option.map_some', Option.some.injEq] at hfst
    subst hfst
    have hat2 := (findInode_at _ _ _ _ hf2).1
    rw [at_update_below _ i p2 ctx.rootInode node child hat hc] at hat2
    simp only [Option.some.injEq] at hat2
    subst hat2
    have hzc : (node.setChildren (node.children.set i (child.setZombie true))).children.get? i
        = some (child.setZombie true) := by
      rw [setChildren_children, get?_set_self _ _ _ _ hc]
    have hzname : getCanonicalString t
        (({ ctx with rootInode := ctx.rootInode.update (p2 ++ [i]) fun n => n.setZombie true }
          : FuseContext).readEntry (child.setZombie true).file).filename = cstr name := by
      rw [readEntry_rootInode, setZombie_file]; exact hname
    obtain ⟨j, d, hj, hs, hd, hpd, hbefore⟩ := scanChildren_exists
      (fun c => strcasecmpEq (getCanonicalString t
        (({ ctx with rootInode := ctx.rootInode.update (p2 ++ [i]) fun n => n.setZombie true }
          : FuseContext).readEntry c.file).filename) name)
      _ 0 i _ hzc (strcasecmpEq_of_eq _ _ hzname)
    rw [Nat.zero_add] at hs
    refine ⟨p2, _, i, child.setZombie true, j, d, rfl, hzc, setZombie_zombie _ _, hzname, hj, hd,
      hpd, hbefore, ?_⟩
    unfold fat12_ll_lookup lookup
    simp only [hf2, hs]

theorem C12_lookup_after_unlink_witness :
    ∃ p parentNode i zombieChild,
      (fat12_ll_unlink asciiTable ctxImg 1 [0x41, 0x2E, 0x54, 0x58, 0x54]).2.rootInode.findInode 1
        = some (p, parentNode)
      ∧ parentNode.children.get? i = some zombieChild ∧ zombieChild.zombie = true :=
  let ⟨p, parentNode, i, z, _, _, h1, h2, h3, _⟩ :=
    C12_lookup_after_unlink asciiTable ctxImg
      (fat12_ll_unlink asciiTable ctxImg 1 [0x41, 0x2E, 0x54, 0x58, 0x54]).2 1
      [0x41, 0x2E, 0x54, 0x58, 0x54] rfl
  ⟨p, parentNode, i, z, h1, h2, h3⟩

/-- C13: for every parent and every name that is the canonical name of one of
its children, `child` being the first such child: if some element of the
handle table `activeFiles` refers to the inode of the child, unlink replies
EBUSY and the session is unchanged; if no element of the handle table refers
to it, unlink replies 0, the volume (FAT, root region, data region), the root
entry, the inode counter and the handle table are unchanged, the tree is the
same up to `zombie` flags, the child has `zombie = true` and no other node has
changed its `zombie` flag.  If the parent is not found or no child has this
name, unlink replies ENOENT and the session is unchanged. -/
theorem C13_unlink_deferred_and_guarded (t : MS932) (ctx : FuseContext) (parent : Nat)
    (name : List Nat) :
    (∀ p parentNode i child,
        ctx.rootInode.findInode parent = some (p, parentNode) →
        parentNode.children.get? i = some child →
        getCanonicalString t (ctx.readEntry child.file).filename = cstr name →
        (∀ j c, j < i → parentNode.children.get? j = some c →
            getCanonicalString t (ctx.readEntry c.file).filename ≠ cstr name) →
        ((∃ f ∈ ctx.activeFiles, f.inode.inode = child.inode) →
            fat12_ll_unlink t ctx parent name = (some Errno.EBUSY, ctx))
        ∧ ((∀ f ∈ ctx.activeFiles, f.inode.inode ≠ child.inode) →
            (fat12_ll_unlink t ctx parent name).1 = none
            ∧ (fat12_ll_unlink t ctx parent name).2.fat12Volume = ctx.fat12Volume
            ∧ (fat12_ll_unlink t ctx parent name).2.entry = ctx.entry
            ∧ (fat12_ll_unlink t ctx parent name).2.inodeCounter = ctx.inodeCounter
            ∧ (fat12_ll_unlink t ctx parent name).2.activeFiles = ctx.activeFiles
            ∧ (fat12_ll_unlink t ctx parent name).2.rootInode.clearZombie
                = ctx.rootInode.clearZombie
            ∧ (fat12_ll_unlink t ctx parent name).2.rootInode.at (p ++ [i])
                = some (child.setZombie true)
            ∧ ∀ q, q ≠ p ++ [i] →
                ((fat12_ll_unlink t ctx parent name).2.rootInode.at q).map Fat12Inode.zombie
                  = (ctx.rootInode.at q).map Fat12Inode.zombie))
    ∧ (ctx.rootInode.findInode parent = none →
        fat12_ll_unlink t ctx parent name = (some Errno.ENOENT, ctx))
    ∧ (∀ p parentNode, ctx.rootInode.findInode parent = some (p, parentNode) →
        (∀ c ∈ parentNode.children,
            getCanonicalString t (ctx.readEntry c.file).filename ≠ cstr name) →
        fat12_ll_unlink t ctx parent name = (some Errno.ENOENT, ctx)) := by
  refine ⟨?_, ?_, ?_⟩
  · intro p parentNode i child hf hc hname hbefore
    have hscan : scanChildren
        (fun child => getCanonicalString t (ctx.readEntry child.file).filename == cstr name)
        0 parentNode.children = some (i, child) := by
      have := scanChildren_first
        (fun child => getCanonicalString t (ctx.readEntry child.file).filename == cstr name)
        parentNode.children 0 i child hc (by simpa using hname)
        (fun j c hj hcj => by simpa using hbefore j c hj hcj)
      rw [Nat.zero_add] at this
      exact this
    constructor
    · intro hopen
      have hu : ctx.isInUse child.inode = true := by
        obtain ⟨f, hf1, hf2⟩ := hopen
        unfold FuseContext.isInUse
        rw [List.any_eq_true]
        exact ⟨f, hf1, by simpa using hf2⟩
      unfold fat12_ll_unlink
      simp only [hf, hscan, hu, if_true]
    · intro hclosed
      have hu : ctx.isInUse child.inode = false := by
        unfold FuseContext.isInUse
        rw [List.any_eq_false]
        intro f hf1
        simpa using hclosed f hf1
      have hres : fat12_ll_unlink t ctx parent name
          = (none, { ctx with rootInode :=
              ctx.rootInode.update (p ++ [i]) fun n => n.setZombie true }) := by
        unfold fat12_ll_unlink
        simp only [hf, hscan, hu, Bool.false_eq_true, if_false]
      have hat := at_child p ctx.rootInode parentNode child i (findInode_at _ _ _ _ hf).1 hc
      rw [hres]
      refine ⟨rfl, rfl, rfl, rfl, rfl, clearZombie_update true _ _,
        at_update _ _ _ _ hat, ?_⟩
      intro q hq
      exact zombie_update_other true (p ++ [i]) q ctx.rootInode hq
  · intro hf
    unfold fat12_ll_unlink
    simp only [hf]
  · intro p parentNode hf hall
    unfold fat12_ll_unlink
    simp only [hf]
    rw [scanChildren_none _ _ _ (fun c hc => by simpa using hall c hc)]

theorem C13_unlink_deferred_and_guarded_witness :
    (ctxOpenA.activeFiles.map (fun f => (f.handle, f.inode.inode)) = [(0, 6)]
      ∧ fat12_ll_unlink asciiTable ctxOpenA 1 [0x41, 0x2E, 0x54, 0x58, 0x54]
        = (some Errno.EBUSY, ctxOpenA))
    ∧ (ctxImg.activeFiles.length = 0
      ∧ (fat12_ll_unlink asciiTable ctxImg 1 [0x41, 0x2E, 0x54, 0x58, 0x54]).1 = none
      ∧ (fat12_ll_unlink asciiTable ctxImg 1 [0x41, 0x2E, 0x54, 0x58, 0x54]).2.fat12Volume
          = ctxImg.fat12Volume
      ∧ ((fat12_ll_unlink asciiTable ctxImg 1 [0x41, 0x2E, 0x54, 0x58, 0x54]).2.rootInode.at
          [1]).map Fat12Inode.zombie = some true) :=
  have hbefore : ∀ (j : Nat) (c : Fat12Inode), j < 1 → treeImg.children.get? j = some c →
      getCanonicalString asciiTable (ctxImg.readEntry c.file).filename
        ≠ cstr [0x41, 0x2E, 0x54, 0x58, 0x54] := by
    intro j c hj hc
    have hj0 : j = 0 := by omega
    subst hj0
    simp only [treeImg, Fat12Inode.children, List.get?_cons_zero, Option.some.injEq] at hc
    subst hc
    decide
  have hbusy := ((C13_unlink_deferred_and_guarded asciiTable ctxOpenA 1
      [0x41, 0x2E, 0x54, 0x58, 0x54]).1 [] treeImg 1 (.mk (.root 32) [] 6 0 false) rfl rfl
      (by decide) hbefore).1 (by decide)
  have h := ((C13_unlink_deferred_and_guarded asciiTable ctxImg 1
      [0x41, 0x2E, 0x54, 0x58, 0x54]).1 [] treeImg 1 (.mk (.root 32) [] 6 0 false) rfl rfl
      (by decide) hbefore).2 (by decide)
  ⟨⟨by decide, hbusy⟩, by decide, h.1, h.2.1,
    congrArg (Option.map Fat12Inode.zombie) h.2.2.2.2.2.2.1⟩

/-- C15, evaluated: `getFreeCluster` scans from cluster 0, not from cluster 2.
On a FAT of four entries that are all 0 it returns 0, and on the FAT with
`FAT[0] = 0xFF8`, `FAT[1] = 0` and free clusters 2 and 3 it returns 1, where
the smallest free cluster in `[2, maxCluster)` is 2; with `FAT[0]` and `FAT[1]`
in use (`fatB`) it returns 2. -/
theorem C15_getFreeCluster_returns_reserved_cluster :
    getFreeCluster (List.replicate 6 0) 4 = 0
    ∧ fatGet [0xF8, 0x0F, 0x00, 0x00, 0x00, 0x00] 0 = 0xFF8
    ∧ fatGet [0xF8, 0x0F, 0x00, 0x00, 0x00, 0x00] 1 = 0
    ∧ fatGet [0xF8, 0x0F, 0x00, 0x00, 0x00, 0x00] 2 = 0
    ∧ getFreeCluster [0xF8, 0x0F, 0x00, 0x00, 0x00, 0x00] 4 = 1
    ∧ getFreeCluster fatB 4 = 2 := by
  decide

/-- C16: for every FAT, start cluster, cluster size `0 < cs` (a `uint32_t`) and
`offset < 2^32`, `seek` returns `(c, m * cs, offset % cs)`, where `c` is the
cluster reached after `m` FAT hops from `start`, `m ≤ offset / cs`, none of the
clusters before hop `m` is `0xFFF`, and either `m = offset / cs` or the walk
has reached `0xFFF` after `m` hops (so `m` is the smaller of `offset / cs` and
the number of hops to the first `0xFFF`); `bytes_skipped + intra_offset`
equals `offset` iff all `offset / cs` hops were made.  `seek` is a total
function: it has no failing result. -/
theorem C16_seek_postcondition (fat : Region) (start cs offset : Nat)
    (hcs : 0 < cs) (hcs32 : cs < 2 ^ 32) (hoff : offset < 2 ^ 32) :
    ∃ m, seek fat start cs offset
        = { cluster := (fatGet fat)^[m] start, fileClusterOffset := m * cs,
            clusterOffset := offset % cs }
      ∧ m ≤ offset / cs
      ∧ (∀ j, j < m → (fatGet fat)^[j] start ≠ 0xFFF)
      ∧ (m = offset / cs ∨ (fatGet fat)^[m] start = 0xFFF)
      ∧ (m * cs + offset % cs = offset ↔ m = offset / cs) := by
  have hk32 : offset / cs % 2 ^ 32 = offset / cs :=
    Nat.mod_eq_of_lt (lt_of_le_of_lt (Nat.div_le_self _ _) hoff)
  obtain ⟨m, hm, hrun, hbefore, hend⟩ := seekLoop_walk fat (offset / cs) start 0
  have hmul : offset / cs * cs ≤ offset := Nat.div_mul_le_self offset cs
  have hmcs : m * cs ≤ offset / cs * cs := Nat.mul_le_mul_right cs hm
  have hdm : offset / cs * cs + offset % cs = offset := by
    rw [Nat.mul_comm]; exact Nat.div_add_mod offset cs
  have hmod : offset % cs < cs := Nat.mod_lt _ hcs
  refine ⟨m, ?_, hm, hbefore, hend, ?_⟩
  · simp only [seek, hk32, hrun, Nat.zero_add]
    rw [Nat.mod_eq_of_lt (show m * cs < 2 ^ 64 by omega), Nat.mod_eq_of_lt hoff,
      Nat.mod_eq_of_lt hcs32]
  · constructor
    · intro h
      by_contra hne
      have h1 : (m + 1) * cs ≤ offset / cs * cs := Nat.mul_le_mul_right cs (by omega)
      have h2 : (m + 1) * cs = m * cs + cs := by ring
      omega
    · intro h
      rw [h]; exact hdm

theorem C16_seek_postcondition_witness :
    ∃ m, seek fatC 2 512 1500
        = { cluster := (fatGet fatC)^[m] 2, fileClusterOffset := m * 512,
            clusterOffset := 1500 % 512 }
      ∧ m ≤ 1500 / 512
      ∧ (∀ j, j < m → (fatGet fatC)^[j] 2 ≠ 0xFFF)
      ∧ (m = 1500 / 512 ∨ (fatGet fatC)^[m] 2 = 0xFFF)
      ∧ (m * 512 + 1500 % 512 = 1500 ↔ m = 1500 / 512) :=
  C16_seek_postcondition fatC 2 512 1500 (by decide) (by decide) (by decide)

/-- C17, counterexample: with the table that maps every ASCII code point to
itself, the name `"A "` (base of two characters, the second a space) is
encoded as `A` followed by ten spaces and its canonical string is `"A"`, not
`"A "`; the name `"A B"` also comes back as `"A"`. -/
theorem C17_counterexample :
    ((List.range 0x80).all fun c =>
        asciiTable.unicodeToMS932 c == some c && asciiTable.ms932ToUnicode c == some c
          && !asciiTable.isLeadByte c) = true
    ∧ getDOSName asciiTable [0x41, 0x20]
        = (true, [0x41, 0x20, 0x20, 0x20, 0x20, 0x20, 0x20, 0x20, 0x20, 0x20, 0x20])
    ∧ getCanonicalString asciiTable (getDOSName asciiTable [0x41, 0x20]).2 = [0x41]
    ∧ [0x41, 0x20].map upperCodePoint = [0x41, 0x20]
    ∧ getCanonicalString asciiTable (getDOSName asciiTable [0x41, 0x20, 0x42]).2 = [0x41] := by
  decide

/-- C17, amended: if the table maps every ASCII code point to itself in both
directions and reports no ASCII byte as a lead byte, then for every base of 1
to 8 characters and every extension of 0 to 3 characters (none: no `'.'`),
the characters being any ASCII other than NUL, `'.'` and space and the first
character of the base not `0x05`, `getDOSName` succeeds on the name and
`getCanonicalString` of the eleven bytes is the name with `a`-`z` folded to
`A`-`Z`. -/
theorem C17_name_round_trip (t : MS932)
    (ht : ∀ c, c < 0x80 → t.unicodeToMS932 c = some c ∧ t.ms932ToUnicode c = some c
        ∧ t.isLeadByte c = false)
    (base ext : List Nat)
    (hbase : ∀ c ∈ base, 0 < c ∧ c < 0x80 ∧ c ≠ 0x2E ∧ c ≠ 0x20)
    (hext : ∀ c ∈ ext, 0 < c ∧ c < 0x80 ∧ c ≠ 0x2E ∧ c ≠ 0x20)
    (hb1 : 1 ≤ base.length) (hb8 : base.length ≤ 8) (he3 : ext.length ≤ 3)
    (h05 : base.getD 0 0 ≠ 0x05) :
    (getDOSName t (if ext = [] then base else base ++ 0x2E :: ext)).1 = true
    ∧ getCanonicalString t (getDOSName t (if ext = [] then base else base ++ 0x2E :: ext)).2
        = (if ext = [] then base else base ++ 0x2E :: ext).map upperCodePoint := by
  have hd := getDOSNameDirty_ascii t (fun c hc => (ht c hc).1) base ext
    (fun c hc => ⟨(hbase c hc).1, (hbase c hc).2.1, (hbase c hc).2.2.1⟩)
    (fun c hc => ⟨(hext c hc).1, (hext c hc).2.1, (hext c hc).2.2.1⟩) hb1 hb8 he3
  have hUB : ∀ c ∈ base.map upperCodePoint, c < 0x80 ∧ c ≠ 0x20 := by
    intro c hc
    obtain ⟨a, ha, rfl⟩ := List.mem_map.1 hc
    exact ⟨upperCodePoint_ascii a (hbase a ha).2.1,
      upperCodePoint_ne a 0x20 (hbase a ha).2.2.2 (by omega)⟩
  have hUE : ∀ c ∈ ext.map upperCodePoint, c < 0x80 ∧ c ≠ 0x20 := by
    intro c hc
    obtain ⟨a, ha, rfl⟩ := List.mem_map.1 hc
    exact ⟨upperCodePoint_ascii a (hext a ha).2.1,
      upperCodePoint_ne a 0x20 (hext a ha).2.2.2 (by omega)⟩
  have hfirst : (base.map upperCodePoint).getD 0 0 = upperCodePoint (base.getD 0 0) := by
    cases base with
    | nil => simp at hb1
    | cons a b => rfl
  have hb0 : base.getD 0 0 < 0x80 := by
    cases base with
    | nil => simp at hb1
    | cons a b => exact (hbase a (List.mem_cons_self _ _)).2.1
  have hd0 : (base.map upperCodePoint ++ List.replicate (8 - base.length) 0x20
        ++ (ext.map upperCodePoint ++ List.replicate (3 - ext.length) 0x20)).getD 0 0
      = upperCodePoint (base.getD 0 0) := by
    rw [← hfirst]
    cases base with
    | nil => simp at hb1
    | cons a b => rfl
  have hname : getDOSName t (if ext = [] then base else base ++ 0x2E :: ext) =
      (true, base.map upperCodePoint ++ List.replicate (8 - base.length) 0x20
        ++ (ext.map upperCodePoint ++ List.replicate (3 - ext.length) 0x20)) := by
    unfold getDOSName
    simp only [hd, hd0, Bool.true_and]
    rw [if_neg]
    have := upperCodePoint_ascii _ hb0
    simp only [beq_iff_eq]
    omega
  rw [hname]
  refine ⟨rfl, ?_⟩
  have h := getUTF8Name_ascii t (fun c hc => ⟨(ht c hc).2.1, (ht c hc).2.2⟩)
    (base.map upperCodePoint) (ext.map upperCodePoint) hUB hUE
    (by simpa using hb1) (by simpa using hb8) (by simpa using he3)
    (by rw [hfirst]; exact upperCodePoint_ne _ 0x05 h05 (by omega))
  simp only [List.length_map] at h
  unfold getCanonicalString
  simp only [h]
  by_cases he : ext = []
  · simp [he]
  · have : ¬ ext.map upperCodePoint = [] := by simpa using he
    rw [if_neg this, if_neg he]
    simp [upperCodePoint]

theorem C17_name_round_trip_witness :
    getCanonicalString asciiTable
        (getDOSName asciiTable [0x68, 0x65, 0x6C, 0x6C, 0x6F, 0x2E, 0x74, 0x78, 0x74]).2
      = [0x48, 0x45, 0x4C, 0x4C, 0x4F, 0x2E, 0x54, 0x58, 0x54] :=
  (C17_name_round_trip asciiTable (by intro c hc; simp [asciiTable, hc])
    [0x68, 0x65, 0x6C, 0x6C, 0x6F] [0x74, 0x78, 0x74]
    (by decide) (by decide) (by decide) (by decide) (by decide) (by decide)).2

/-- C18, evaluated: `decodeLimited` stores a two-byte value low byte first.
With a table that maps U+3000 to `0x8140`, the name U+3000 is encoded as the
bytes `0x40 0x81`; `getUnicodeFromDOSName` reads the high byte first, so it
decodes `0x81 0x40` to U+3000 but fails on the bytes that were stored, and the
canonical string of the stored name is the hexadecimal fallback. -/
theorem C18_two_byte_value_is_stored_low_byte_first :
    decodeLimited [0x8140] (List.replicate 11 0x20) 0 8
      = (true, [0x40, 0x81, 0x20, 0x20, 0x20, 0x20, 0x20, 0x20, 0x20, 0x20, 0x20])
    ∧ getMS932UpperCaseString sampleTable [0xE3, 0x80, 0x80] = some [0x8140]
    ∧ getDOSName sampleTable [0xE3, 0x80, 0x80]
        = (true, [0x40, 0x81, 0x20, 0x20, 0x20, 0x20, 0x20, 0x20, 0x20, 0x20, 0x20])
    ∧ getUnicodeFromDOSName sampleTable
        [0x40, 0x81, 0x20, 0x20, 0x20, 0x20, 0x20, 0x20, 0x20, 0x20, 0x20] 8 = none
    ∧ getUnicodeFromDOSName sampleTable
        [0x81, 0x40, 0x20, 0x20, 0x20, 0x20, 0x20, 0x20, 0x20, 0x20, 0x20] 8
        = some [0x3000, 0x20, 0x20, 0x20, 0x20, 0x20, 0x20]
    ∧ getCanonicalString sampleTable (getDOSName sampleTable [0xE3, 0x80, 0x80]).2
        = hexenc [0x40, 0x81, 0x20, 0x20, 0x20, 0x20, 0x20, 0x20, 0x20, 0x20, 0x20] 11 := by
  decide

/-- C19, counterexample: for the name `"a.bb.c"` the text after the first
`'.'` is `"bb.c"`, which encodes to 4 bytes, yet `getDOSName` succeeds: it
takes `"bb"` as the extension and ignores `"c"`. -/
theorem C19_counterexample :
    getMS932UpperCaseString asciiTable [0x62, 0x62, 0x2E, 0x63] = some [0x42, 0x42, 0x2E, 0x43]
    ∧ decodeLen [0x42, 0x42, 0x2E, 0x43] = 4
    ∧ split (cstr [0x61, 0x2E, 0x62, 0x62, 0x2E, 0x63]) 0x2E = [[0x61], [0x62, 0x62], [0x63]]
    ∧ getDOSName asciiTable [0x61, 0x2E, 0x62, 0x62, 0x2E, 0x63]
        = (true, [0x41, 0x20, 0x20, 0x20, 0x20, 0x20, 0x20, 0x20, 0x42, 0x42, 0x20]) := by
  decide

/-- C19, amended: for every UTF-8 name that has a non-empty piece between its
`'.'` characters, where the base is the first non-empty piece and the
extension is the second one if there is one (further pieces are ignored),
`getDOSName` fails iff the decoding or mapping of the base or of the extension
fails, or the base encodes to more than 8 bytes, or the extension to more than
3 bytes (two bytes per MS932 value above `0xFF`, one otherwise); on success
the output has 11 bytes and every byte not covered by the encoded base or
extension is `0x20`. -/
theorem C19_name_length_limit (t : MS932) (name base : List Nat) (rest : List (List Nat))
    (hsplit : split (cstr name) 0x2E = base :: rest) :
    ((getDOSName t name).1 = false ↔
      (getMS932UpperCaseString t base = none
        ∨ (∃ ms, getMS932UpperCaseString t base = some ms ∧ 8 < decodeLen ms)
        ∨ ∃ ext tail, rest = ext :: tail ∧
            (getMS932UpperCaseString t ext = none
              ∨ ∃ ms, getMS932UpperCaseString t ext = some ms ∧ 3 < decodeLen ms)))
    ∧ ((getDOSName t name).1 = true →
        (getDOSName t name).2.length = 11
        ∧ ∃ msb, getMS932UpperCaseString t base = some msb ∧ decodeLen msb ≤ 8
          ∧ (∀ i, decodeLen msb ≤ i → i < 8 → (getDOSName t name).2.getD i 0 = 0x20)
          ∧ (rest = [] → ∀ i, 8 ≤ i → i < 11 → (getDOSName t name).2.getD i 0 = 0x20)
          ∧ ∀ ext tail, rest = ext :: tail →
              ∃ mse, getMS932UpperCaseString t ext = some mse ∧ decodeLen mse ≤ 3
                ∧ ∀ i, 8 + decodeLen mse ≤ i → i < 11 →
                    (getDOSName t name).2.getD i 0 = 0x20) := by
  cases rest with
  | nil =>
    have hd := getDOSNameDirty_one t name base hsplit
    constructor
    · rw [getDOSName_fst, hd, getDOSNameBase_fst]
      simp
    · intro hok
      rw [getDOSName_fst, hd] at hok
      refine ⟨getDOSName_length t name, ?_⟩
      cases hms : getMS932UpperCaseString t base with
      | none =>
        have := (getDOSNameBase_fst t base (List.replicate 11 0x20)).2 (Or.inl hms)
        rw [this] at hok; exact absurd hok (by decide)
      | some msb =>
        obtain ⟨h2, h8⟩ := getDOSNameBase_snd t base _ msb hok hms
        refine ⟨msb, rfl, h8, ?_, ?_, ?_⟩
        · intro i h1 hi
          apply getDOSName_space
          rw [hd, h2, decodeStore_getD_outside _ _ _ _ (by omega)]
          exact getD_replicate_space i (by omega)
        · intro _ i h1 hi
          apply getDOSName_space
          rw [hd, h2, decodeStore_getD_outside _ _ _ _ (by omega)]
          exact getD_replicate_space i (by omega)
        · intro ext tail hr; exact absurd hr (by simp)
  | cons ext tail =>
    have hd := getDOSNameDirty_two t name base ext tail hsplit
    constructor
    · rw [getDOSName_fst, hd, getDOSNameBaseExt_fst, getDOSNameBase_fst]
      constructor
      · rintro (h | h | h)
        · rcases h with h | h
          · exact Or.inl h
          · exact Or.inr (Or.inl h)
        · exact Or.inr (Or.inr ⟨ext, tail, rfl, Or.inl h⟩)
        · exact Or.inr (Or.inr ⟨ext, tail, rfl, Or.inr h⟩)
      · rintro (h | h | ⟨e, tl, hr, h⟩)
        · exact Or.inl (Or.inl h)
        · exact Or.inl (Or.inr h)
        · obtain ⟨rfl, rfl⟩ := List.cons.inj hr
          rcases h with h | h
          · exact Or.inr (Or.inl h)
          · exact Or.inr (Or.inr h)
    · intro hok
      rw [getDOSName_fst, hd] at hok
      refine ⟨getDOSName_length t name, ?_⟩
      cases hmse : getMS932UpperCaseString t ext with
      | none =>
        have := (getDOSNameBaseExt_fst t base ext (List.replicate 11 0x20)).2 (Or.inr (Or.inl hmse))
        rw [this] at hok; exact absurd hok (by decide)
      | some mse =>
        obtain ⟨hb, h2, h3⟩ := getDOSNameBaseExt_snd t base ext _ mse hok hmse
        cases hms : getMS932UpperCaseString t base with
        | none =>
          have := (getDOSNameBase_fst t base (List.replicate 11 0x20)).2 (Or.inl hms)
          rw [this] at hb; exact absurd hb (by decide)
        | some msb =>
          obtain ⟨hb2, h8⟩ := getDOSNameBase_snd t base _ msb hb hms
          refine ⟨msb, rfl, h8, ?_, ?_, ?_⟩
          · intro i h1 hi
            apply getDOSName_space
            rw [hd, h2, decodeStore_getD_outside _ _ _ _ (by omega), hb2,
              decodeStore_getD_outside _ _ _ _ (by omega)]
            exact getD_replicate_space i (by omega)
          · intro hr; exact absurd hr (by simp)
          · intro e tl hr
            obtain ⟨rfl, rfl⟩ := List.cons.inj hr
            refine ⟨mse, hmse, h3, ?_⟩
            intro i h1 hi
            apply getDOSName_space
            rw [hd, h2, decodeStore_getD_outside _ _ _ _ (by omega), hb2,
              decodeStore_getD_outside _ _ _ _ (by omega)]
            exact getD_replicate_space i (by omega)

theorem C19_name_length_limit_witness :
    (getDOSName asciiTable [0x68, 0x65, 0x6C, 0x6C, 0x6F, 0x2E, 0x74, 0x78, 0x74]).2.length = 11 :=
  ((C19_name_length_limit asciiTable [0x68, 0x65, 0x6C, 0x6C, 0x6F, 0x2E, 0x74, 0x78, 0x74]
    [0x68, 0x65, 0x6C, 0x6C, 0x6F] [[0x74, 0x78, 0x74]] (by decide)).2 (by decide)).1

/-- C20: for every input on which `getDOSName` succeeds, byte 0 of the
produced name is not `0xE5`: it is `0x05` where `getDOSNameDirty` produced
`0xE5` and the byte of `getDOSNameDirty` otherwise; the other ten bytes are
those of `getDOSNameDirty`; and `getUTF8Name` decodes a name that starts with
`0x05` as it decodes the same name starting with `0xE5`. -/
theorem C20_deleted_marker_escape (t : MS932) (name : List Nat)
    (h : (getDOSName t name).1 = true) :
    (getDOSName t name).2.getD 0 0 ≠ 0xE5
    ∧ ((getDOSNameDirty t name).2.getD 0 0 = 0xE5 → (getDOSName t name).2.getD 0 0 = 0x05)
    ∧ ((getDOSNameDirty t name).2.getD 0 0 ≠ 0xE5 →
        (getDOSName t name).2.getD 0 0 = (getDOSNameDirty t name).2.getD 0 0)
    ∧ (∀ i, 0 < i → (getDOSName t name).2.getD i 0 = (getDOSNameDirty t name).2.getD i 0)
    ∧ (getDOSName t name).2.length = 11
    ∧ ∀ rest : List Nat, getUTF8Name t (0x05 :: rest) = getUTF8Name t (0xE5 :: rest) := by
  have h0 := getDOSName_getD_zero t name h
  refine ⟨?_, ?_, ?_, fun i hi => getDOSName_getD_succ t name i hi, getDOSName_length t name,
    getUTF8Name_escape t⟩
  · rw [h0]; split
    · decide
    · assumption
  · intro h5; rw [h0, if_pos h5]
  · intro h5; rw [h0, if_neg h5]

theorem C20_deleted_marker_escape_witness :
    (getDOSNameDirty e5Table [0xC3, 0xA5]).2.getD 0 0 = 0xE5
    ∧ (getDOSName e5Table [0xC3, 0xA5]).2.getD 0 0 = 0x05
    ∧ (getDOSName e5Table [0xC3, 0xA5]).2.getD 0 0 ≠ 0xE5 :=
  ⟨by decide,
   (C20_deleted_marker_escape e5Table [0xC3, 0xA5] (by decide)).2.1 (by decide),
   (C20_deleted_marker_escape e5Table [0xC3, 0xA5] (by decide)).1⟩

/-- C21: for every list of code points each in `[1, 0x10FFFF]`,
`getUTF8FromUnicode` succeeds, and `getUnicodeFromUTF8` applied to its output
followed by the terminator `0` returns exactly the same list (as it does on
the output alone, where the model reads the terminator past the end). The
encoding of a code point has 1, 2, 3 or 4 bytes for the ranges `< 0x80`,
`< 0x800`, `< 0x10000` and `<= 0x10FFFF`, and no byte of the output is 0. -/
theorem C21_utf8_round_trip (cps : List Nat) (h : ∀ e ∈ cps, 1 ≤ e ∧ e ≤ 0x10FFFF) :
    ∃ bytes, getUTF8FromUnicode cps = some bytes
      ∧ getUnicodeFromUTF8 (bytes ++ [0]) = some cps
      ∧ getUnicodeFromUTF8 bytes = some cps
      ∧ bytes.length = (cps.map fun e =>
          if e < 0x80 then 1 else if e < 0x800 then 2 else if e < 0x10000 then 3 else 4).sum
      ∧ ∀ b ∈ bytes, 0 < b ∧ b < 256 := by
  obtain ⟨bytes, henc, hlen, hb, hdec⟩ := utf8_round_trip [0] rfl cps h
  obtain ⟨bytes2, henc2, _, _, hdec2⟩ := utf8_round_trip [] rfl cps h
  have hsame : bytes2 = bytes := by
    rw [henc] at henc2
    exact (Option.some.inj henc2).symm
  subst hsame
  refine ⟨bytes2, henc, hdec _ (Nat.lt_succ_self _), ?_, hlen, hb⟩
  have := hdec2 (bytes2.length + 1) (by simp)
  rw [List.append_nil] at this
  exact this

theorem C21_utf8_round_trip_witness :
    getUTF8FromUnicode [0x41, 0xE9, 0x3042, 0x1F600]
        = some [0x41, 0xC3, 0xA9, 0xE3, 0x81, 0x82, 0xF0, 0x9F, 0x98, 0x80]
    ∧ getUnicodeFromUTF8 [0x41, 0xC3, 0xA9, 0xE3, 0x81, 0x82, 0xF0, 0x9F, 0x98, 0x80, 0]
        = some [0x41, 0xE9, 0x3042, 0x1F600]
    ∧ ∃ bytes, getUTF8FromUnicode [0x41, 0xE9, 0x3042, 0x1F600] = some bytes
      ∧ getUnicodeFromUTF8 (bytes ++ [0]) = some [0x41, 0xE9, 0x3042, 0x1F600]
      ∧ getUnicodeFromUTF8 bytes = some [0x41, 0xE9, 0x3042, 0x1F600]
      ∧ bytes.length = ([0x41, 0xE9, 0x3042, 0x1F600].map fun e =>
          if e < 0x80 then 1 else if e < 0x800 then 2 else if e < 0x10000 then 3 else 4).sum
      ∧ ∀ b ∈ bytes, 0 < b ∧ b < 256 :=
  ⟨by decide, by decide, C21_utf8_round_trip [0x41, 0xE9, 0x3042, 0x1F600] (by decide)⟩

/-- C22, counterexample: the buffer `imageTwoFats fatA fatB` holds the valid
boot block `bootBlock 2 5` at offset 0; the volume of 5 sectors is the whole
buffer, and the two FATs, the root directory and the reserved sector (2048
bytes) fit in it. `getFatVolume` does not return the regions: the two FAT
copies differ and `checkFatTable` throws. -/
theorem C22_counterexample :
    scanForBPBRegion (imageTwoFats fatA fatB) = some 0
    ∧ (BPB.ofBytes (memRead (imageTwoFats fatA fatB) ((512 * 0 : Nat) : Int) 512)).check = true
    ∧ (BPB.ofBytes (memRead (imageTwoFats fatA fatB) ((512 * 0 : Nat) : Int) 512)).totalSectors16
        * (BPB.ofBytes (memRead (imageTwoFats fatA fatB) ((512 * 0 : Nat) : Int) 512)).bytesPerSector
        = 2560
    ∧ (imageTwoFats fatA fatB).length - 0 = 2560
    ∧ (BPB.ofBytes (memRead (imageTwoFats fatA fatB) ((512 * 0 : Nat) : Int) 512)).fatCount
          * ((BPB.ofBytes (memRead (imageTwoFats fatA fatB) ((512 * 0 : Nat) : Int) 512)).sectorPerFat
            * (BPB.ofBytes (memRead (imageTwoFats fatA fatB) ((512 * 0 : Nat) : Int) 512)).bytesPerSector)
        + (BPB.ofBytes (memRead (imageTwoFats fatA fatB) ((512 * 0 : Nat) : Int) 512)).rootEntries * 32
        + (BPB.ofBytes (memRead (imageTwoFats fatA fatB) ((512 * 0 : Nat) : Int) 512)).reservedSectors
          * (BPB.ofBytes (memRead (imageTwoFats fatA fatB) ((512 * 0 : Nat) : Int) 512)).bytesPerSector
        = 2048
    ∧ getFatVolume 2 (imageTwoFats fatA fatB) = some none := by
  have hlen : (imageTwoFats fatA fatB).length = 2560 := imageTwoFats_length _ _ rfl rfl
  have hscan : scanForBPBRegion (imageTwoFats fatA fatB) = some 0 :=
    (scanForBPBRegion_some _ 0).2 ⟨by rw [hlen]; omega, by decide, fun j hj => absurd hj (by omega)⟩
  refine ⟨hscan, by decide, by decide, by rw [hlen], by decide, ?_⟩
  exact (getFatVolume_cases 2 (imageTwoFats fatA fatB) 0 _ 2560
    (imageTwoFats_isBytes _ _ (by decide) (by decide)) hscan rfl (by decide)
    (by decide)).2.2 (by omega) (by decide) (by decide) (by decide) (by decide)

/-- C22, amended: let `i` be the first index with `(i + 1) * 512 < buffer.length`
whose block of 512 bytes `BPB::check` accepts (the block `scanForBPBRegion`
finds, at offset `b = 512 * i`), and let `volumeBytes` be
`totalSectors16 * bytesPerSector` when `totalSectors16` is not 0 and
`totalSectors32 * bytesPerSector`, taken below `2^32`, otherwise. When
`volumeBytes > buffer.length - b`, `getFatVolume` throws. When the volume fits
in the buffer, the FATs, the root directory and the reserved area fit in the
volume, `fatCount >= 1` and all FAT copies are byte-identical, `getFatVolume`
returns `fatOffset = reservedSectors * bytesPerSector`, FAT region size
`fatCount * sectorPerFat * bytesPerSector`, root offset `fatOffset` + FAT region
size, root size `rootEntries * 32`, data offset root offset + root size, data
size `volumeBytes` - FAT region size - root size - reserved size, cluster size
`sectorsPerCluster * bytesPerSector` and
`maxCluster = min(dataSize / clusterSize, 4094, fatSize * 8 / 12)`. -/
theorem C22_region_derivation (fuel : Nat) (filedata : List Nat) (i : Nat) (bpb : BPB)
    (volumeBytes : Nat) (hbytes : IsBytes filedata)
    (hscan : scanForBPBRegion filedata = some i)
    (hbpb : BPB.ofBytes (memRead filedata ((512 * i : Nat) : Int) 512) = bpb)
    (hvb : volumeBytes = if bpb.totalSectors16 ≠ 0 then bpb.totalSectors16 * bpb.bytesPerSector
      else bpb.totalSectors32 * bpb.bytesPerSector)
    (h32 : bpb.totalSectors16 = 0 → bpb.totalSectors32 * bpb.bytesPerSector < 2 ^ 32) :
    ((i + 1) * 512 < filedata.length ∧ bpb.check = true
      ∧ ∀ j, j < i → (BPB.ofBytes (memRead filedata ((512 * j : Nat) : Int) 512)).check = false)
    ∧ (filedata.length - i * 512 < volumeBytes → getFatVolume fuel filedata = some none)
    ∧ (volumeBytes ≤ filedata.length - i * 512 →
        bpb.fatCount * (bpb.sectorPerFat * bpb.bytesPerSector) + bpb.rootEntries * 32
          + bpb.reservedSectors * bpb.bytesPerSector ≤ volumeBytes →
        1 ≤ bpb.fatCount → bpb.fatCount ≤ fuel →
        (∀ j, j + 1 < bpb.fatCount →
          memRead (filedata.drop (i * 512))
              ((bpb.reservedSectors * bpb.bytesPerSector
                + j * (bpb.sectorPerFat * bpb.bytesPerSector) : Nat) : Int)
              (bpb.sectorPerFat * bpb.bytesPerSector)
            = memRead (filedata.drop (i * 512))
              ((bpb.reservedSectors * bpb.bytesPerSector
                + (j + 1) * (bpb.sectorPerFat * bpb.bytesPerSector) : Nat) : Int)
              (bpb.sectorPerFat * bpb.bytesPerSector)) →
        getFatVolume fuel filedata = some (some
          { bootOffset := i * 512, volumeSize := volumeBytes,
            reservedSize := bpb.reservedSectors * bpb.bytesPerSector,
            fatOffset := bpb.reservedSectors * bpb.bytesPerSector,
            fatRegionSize := bpb.fatCount * (bpb.sectorPerFat * bpb.bytesPerSector),
            rootOffset := bpb.reservedSectors * bpb.bytesPerSector
              + bpb.fatCount * (bpb.sectorPerFat * bpb.bytesPerSector),
            rootSize := bpb.rootEntries * 32,
            dataOffset := bpb.reservedSectors * bpb.bytesPerSector
              + bpb.fatCount * (bpb.sectorPerFat * bpb.bytesPerSector) + bpb.rootEntries * 32,
            dataSize := volumeBytes - bpb.fatCount * (bpb.sectorPerFat * bpb.bytesPerSector)
              - bpb.rootEntries * 32 - bpb.reservedSectors * bpb.bytesPerSector,
            clusterSize := bpb.sectorsPerCluster * bpb.bytesPerSector,
            maxCluster :=
              min (min ((volumeBytes - bpb.fatCount * (bpb.sectorPerFat * bpb.bytesPerSector)
                    - bpb.rootEntries * 32 - bpb.reservedSectors * bpb.bytesPerSector)
                  / (bpb.sectorsPerCluster * bpb.bytesPerSector)) 4094)
                (bpb.sectorPerFat * bpb.bytesPerSector * 8 / 12) })) := by
  have h := getFatVolume_cases fuel filedata i bpb volumeBytes hbytes hscan hbpb hvb h32
  have hs := (scanForBPBRegion_some filedata i).1 hscan
  rw [hbpb] at hs
  exact ⟨hs, h.1, h.2.1⟩

theorem C22_region_derivation_witness :
    scanForBPBRegion (imageTwoFats fatA fatA) = some 0
    ∧ getFatVolume 2 (imageTwoFats fatA fatA)
        = some (some
            { bootOffset := 0, volumeSize := 2560, reservedSize := 512, fatOffset := 512,
              fatRegionSize := 1024, rootOffset := 1536, rootSize := 512, dataOffset := 2048,
              dataSize := 512, clusterSize := 512, maxCluster := 1 }) := by
  have hlen : (imageTwoFats fatA fatA).length = 2560 := imageTwoFats_length _ _ rfl rfl
  have hscan : scanForBPBRegion (imageTwoFats fatA fatA) = some 0 :=
    (scanForBPBRegion_some _ 0).2 ⟨by rw [hlen]; omega, by decide, fun j hj => absurd hj (by omega)⟩
  have hfc : (BPB.ofBytes (memRead (imageTwoFats fatA fatA) ((512 * 0 : Nat) : Int) 512)).fatCount
      = 2 := by decide
  have h := (C22_region_derivation 2 (imageTwoFats fatA fatA) 0
      (BPB.ofBytes (memRead (imageTwoFats fatA fatA) ((512 * 0 : Nat) : Int) 512)) 2560
      (imageTwoFats_isBytes _ _ (by decide) (by decide)) hscan rfl (by decide)
      (by decide)).2.2 (by omega) (by decide) (by decide) (by decide)
      (by
        intro j hj
        have hj0 : j = 0 := by omega
        subst hj0
        have hfo : (BPB.ofBytes (memRead (imageTwoFats fatA fatA)
            ((512 * 0 : Nat) : Int) 512)).reservedSectors
            * (BPB.ofBytes (memRead (imageTwoFats fatA fatA)
              ((512 * 0 : Nat) : Int) 512)).bytesPerSector = 512 := by decide
        have hfs : (BPB.ofBytes (memRead (imageTwoFats fatA fatA)
            ((512 * 0 : Nat) : Int) 512)).sectorPerFat
            * (BPB.ofBytes (memRead (imageTwoFats fatA fatA)
              ((512 * 0 : Nat) : Int) 512)).bytesPerSector = 512 := by decide
        rw [hfo, hfs]
        exact (imageTwoFats_fat0 fatA fatA rfl).trans (imageTwoFats_fat1 fatA fatA rfl rfl).symm)
  refine ⟨hscan, h.trans ?_⟩
  decide

/-- C23, counterexample: the 512-byte block `bootBlock 2 0` has
`totalSectors16 = 0` and `totalSectors32 = 0`, and `BPB::check` accepts it:
`checkSectorCount` only prints a message and never throws. -/
theorem C23_counterexample :
    (bootBlock 2 0).length = 512
    ∧ (BPB.ofBytes (bootBlock 2 0)).totalSectors16 = 0
    ∧ (BPB.ofBytes (bootBlock 2 0)).totalSectors32 = 0
    ∧ (BPB.ofBytes (bootBlock 2 0)).check = true := by
  decide

/-- C23, amended: `BPB::check` accepts a block iff all of these hold: jump[0] is
`0xEB` and jump[2] is `0x90`, or jump[0] is `0xE9`; `bytesPerSector` is one of
512, 1024, 2048, 4096; `sectorsPerCluster` is a power of two from 1 to 128;
`mediaType` is `0xF0` or in `0xF8..0xFF`; `rootEntries * 32` is a multiple of
`bytesPerSector`; `driveNumber` is `0x00` or `0x80`; `reserved` is 0. The two
sector counts and the trailing signature take no part in the decision. -/
theorem C23_bpb_check_accepts (block : List Nat) (hb : IsBytes block) :
    (BPB.ofBytes block).check = true ↔
      ((block.getD 0 0 = 0xEB ∧ block.getD 2 0 = 0x90) ∨ block.getD 0 0 = 0xE9)
      ∧ ((BPB.ofBytes block).bytesPerSector = 512 ∨ (BPB.ofBytes block).bytesPerSector = 1024
          ∨ (BPB.ofBytes block).bytesPerSector = 2048 ∨ (BPB.ofBytes block).bytesPerSector = 4096)
      ∧ ((BPB.ofBytes block).sectorsPerCluster = 1 ∨ (BPB.ofBytes block).sectorsPerCluster = 2
          ∨ (BPB.ofBytes block).sectorsPerCluster = 4 ∨ (BPB.ofBytes block).sectorsPerCluster = 8
          ∨ (BPB.ofBytes block).sectorsPerCluster = 16 ∨ (BPB.ofBytes block).sectorsPerCluster = 32
          ∨ (BPB.ofBytes block).sectorsPerCluster = 64
          ∨ (BPB.ofBytes block).sectorsPerCluster = 128)
      ∧ ((BPB.ofBytes block).mediaType = 0xF0
          ∨ (0xF8 ≤ (BPB.ofBytes block).mediaType ∧ (BPB.ofBytes block).mediaType ≤ 0xFF))
      ∧ ((BPB.ofBytes block).rootEntries * 32) % (BPB.ofBytes block).bytesPerSector = 0
      ∧ ((BPB.ofBytes block).driveNumber = 0x00 ∨ (BPB.ofBytes block).driveNumber = 0x80)
      ∧ (BPB.ofBytes block).reserved = 0 := by
  have hre : (BPB.ofBytes block).rootEntries < 2 ^ 16 := le16_lt block 17 hb
  have hj0 : (BPB.ofBytes block).jump.getD 0 0 = block.getD 0 0 := by
    simp only [BPB.ofBytes]
    rcases block with _ | ⟨a, _ | ⟨b, _ | ⟨c, r⟩⟩⟩ <;> rfl
  have hj2 : (BPB.ofBytes block).jump.getD 2 0 = block.getD 2 0 := by
    simp only [BPB.ofBytes]
    rcases block with _ | ⟨a, _ | ⟨b, _ | ⟨c, r⟩⟩⟩ <;> rfl
  rw [← hj0, ← hj2]
  generalize BPB.ofBytes block = b at hre ⊢
  simp only [BPB.check, Bool.and_eq_true, checkJump_iff, checkBytesPerSector_iff,
    checkSectorsPerCluster_iff, checkMediaType_iff, checkDriveNumber_iff, checkReserved_iff,
    checkRootEntries_iff _ _ hre, checkSectorCount, checkSignature, and_true]
  simp only [and_assoc]
  constructor
  · rintro ⟨h1, h2, h3, h4, h5, h6, h7⟩
    exact ⟨h1, h2, h3, h5, h4, h6, h7⟩
  · rintro ⟨h1, h2, h3, h5, h4, h6, h7⟩
    exact ⟨h1, h2, h3, h4, h5, h6, h7⟩

theorem C23_bpb_check_accepts_witness :
    IsBytes (bootBlock 2 5)
    ∧ (BPB.ofBytes (bootBlock 2 5)).check = true
    ∧ (BPB.ofBytes (bootBlock 2 5)).rootEntries * 32
        % (BPB.ofBytes (bootBlock 2 5)).bytesPerSector = 0 :=
  ⟨by decide, by decide,
   ((C23_bpb_check_accepts (bootBlock 2 5) (by decide)).1 (by decide)).2.2.2.2.1⟩

/-- C24: for every boot block with `1 <= fatCount` (a byte) and every volume
that holds all the FAT copies, `fatOffset` and `fatSize` being the products
`reservedSectors * bytesPerSector` and `sectorPerFat * bytesPerSector` (below
`2^31`, they are `int` products in the source): after `syncFAT` the volume has
the same length, every FAT copy `j < fatCount` is byte-identical to the FAT 0
of before, every byte of FAT 0 and every byte outside the copies
`1..fatCount-1` is unchanged, `checkFatTable` accepts the result for every volume size that
holds the FAT copies (its loop given `fatCount` iterations), and a second `syncFAT` changes nothing. -/
theorem C24_syncFAT_makes_copies_equal (bootBlock : BPB) (volume : Region)
    (hcount : 1 ≤ bootBlock.fatCount) (hbyte : bootBlock.fatCount < 256)
    (_hfo : bootBlock.reservedSectors * bootBlock.bytesPerSector < 2 ^ 31)
    (_hfs : bootBlock.sectorPerFat * bootBlock.bytesPerSector < 2 ^ 31)
    (hfit : bootBlock.reservedSectors * bootBlock.bytesPerSector
        + bootBlock.fatCount * (bootBlock.sectorPerFat * bootBlock.bytesPerSector)
        ≤ volume.length) :
    (syncFAT bootBlock volume).length = volume.length
    ∧ (∀ j, j < bootBlock.fatCount →
        memRead (syncFAT bootBlock volume)
            ((bootBlock.reservedSectors * bootBlock.bytesPerSector
              + j * (bootBlock.sectorPerFat * bootBlock.bytesPerSector) : Nat) : Int)
            (bootBlock.sectorPerFat * bootBlock.bytesPerSector)
          = memRead volume ((bootBlock.reservedSectors * bootBlock.bytesPerSector : Nat) : Int)
              (bootBlock.sectorPerFat * bootBlock.bytesPerSector))
    ∧ (∀ k, k < bootBlock.reservedSectors * bootBlock.bytesPerSector
              + bootBlock.sectorPerFat * bootBlock.bytesPerSector
          ∨ bootBlock.reservedSectors * bootBlock.bytesPerSector
              + bootBlock.fatCount * (bootBlock.sectorPerFat * bootBlock.bytesPerSector) ≤ k →
        (syncFAT bootBlock volume).getD k 0 = volume.getD k 0)
    ∧ (∀ fuel size, bootBlock.fatCount ≤ fuel →
        bootBlock.reservedSectors * bootBlock.bytesPerSector
          + bootBlock.fatCount * (bootBlock.sectorPerFat * bootBlock.bytesPerSector) ≤ size →
        checkFatTable fuel (syncFAT bootBlock volume) size
          (bootBlock.reservedSectors * bootBlock.bytesPerSector)
          (bootBlock.sectorPerFat * bootBlock.bytesPerSector) bootBlock.fatCount = some true)
    ∧ syncFAT bootBlock (syncFAT bootBlock volume) = syncFAT bootBlock volume := by
  generalize hfo : bootBlock.reservedSectors * bootBlock.bytesPerSector = fo at *
  generalize hfs : bootBlock.sectorPerFat * bootBlock.bytesPerSector = fs at *
  obtain ⟨n, hn⟩ : ∃ n, bootBlock.fatCount = n + 1 := ⟨bootBlock.fatCount - 1, by omega⟩
  have hsync : ∀ v, syncFAT bootBlock v = syncFATLoop fo fs n 0 v := by
    intro v
    unfold syncFAT
    rw [hfo, hfs, hn, Nat.add_sub_cancel]
  have hmul : (0 + n + 1) * fs = bootBlock.fatCount * fs := by rw [hn]; ring
  have hfit2 : fo + (0 + n + 1) * fs ≤ volume.length := by rw [hmul]; exact hfit
  obtain ⟨hlen, hout, hcopies⟩ := syncFATLoop_spec fo fs n 0 volume hfit2
  have hz : fo + 0 * fs = fo := by simp
  have hcopies2 : ∀ j, j < bootBlock.fatCount →
      memRead (syncFATLoop fo fs n 0 volume) ((fo + j * fs : Nat) : Int) fs
        = memRead volume ((fo : Nat) : Int) fs := by
    intro j hj
    have := hcopies j (Nat.zero_le _) (by omega)
    rwa [hz] at this
  rw [hsync volume, hsync]
  refine ⟨hlen, hcopies2, ?_, ?_, ?_⟩
  · intro k hk
    apply hout
    rcases hk with hk | hk
    · left
      have : (0 + 1) * fs = fs := by simp
      omega
    · right; omega
  · intro fuel size hfuel hsize
    unfold checkFatTable
    rw [if_neg (by rw [Nat.mul_comm]; omega)]
    have hbound : (bootBlock.fatCount + 2 ^ 64 - 1) % 2 ^ 64 = n := by
      rw [hn]; omega
    rw [hbound]
    apply checkFatTableLoop_equal _ fo fs n (by omega) fuel 0 (Nat.zero_le _) (by omega)
    intro j _ hj
    rw [hcopies2 j (by omega), hcopies2 (j + 1) (by omega)]
  · apply syncFATLoop_fixed fo fs n 0 _ (by rw [hlen]; exact hfit2)
    intro j _ hj
    rw [hcopies2 j (by omega), hcopies2 (j + 1) (by omega)]

theorem C24_syncFAT_makes_copies_equal_witness :
    checkFatTable 2 (imageTwoFats fatA fatB) 2560 512 512 2 = some false
    ∧ checkFatTable 2 (syncFAT (BPB.ofBytes (bootBlock 2 5)) (imageTwoFats fatA fatB)) 2560
        ((BPB.ofBytes (bootBlock 2 5)).reservedSectors * (BPB.ofBytes (bootBlock 2 5)).bytesPerSector)
        ((BPB.ofBytes (bootBlock 2 5)).sectorPerFat * (BPB.ofBytes (bootBlock 2 5)).bytesPerSector)
        (BPB.ofBytes (bootBlock 2 5)).fatCount = some true :=
  ⟨by decide,
   (C24_syncFAT_makes_copies_equal (BPB.ofBytes (bootBlock 2 5)) (imageTwoFats fatA fatB)
      (by decide) (by decide) (by decide) (by decide)
      (by simp [imageTwoFats, bootBlock, fatA, fatB, BPB.ofBytes, le16])).2.2.2.1 2 2560
      (by decide) (by decide)⟩

/-- C25: for every volume whose directories are well formed (the slots of the
root lie inside the root region, and every directory met from the root that is
not dot or dot-dot has a chain that ends in `0xFFF` within `fuel` links and
whose slots lie inside the data region, to the depth `depth`), the constructor of `FuseContext`
returns, and in the tree it builds the root has id 1 and the entry of the
session, the children of the root are exactly the valid slots of the root
region in slot order, the children of every other node are exactly the valid
slots of the clusters of its chain in chain order when its entry is a
directory other than dot and dot-dot, and none otherwise. The ids in
depth-first pre-order are the successive values of one `uint32_t` counter that
starts at 1, and the counter is left one past the last of them; when the tree
has fewer than `2^32 - 1` nodes this is the list `1, 2, ..., n`, so all ids are
pairwise distinct, every id below the root is at least 2, and the counter is
greater than every id. -/
theorem C25_mount_tree (vol : Fat12Volume) (fuel depth : Nat)
    (hwf : ∀ e ∈ rootSlots vol, e.inside vol = true
      ∧ ((vol.slot e).isValid = true → wellFormedDir vol fuel depth e = true)) :
    ∃ ctx, FuseContext.construct vol fuel depth = some ctx
      ∧ ctx.rootInode.inode = 1
      ∧ ctx.rootInode.file = EntryPtr.rootEntry
      ∧ ctx.rootInode.children.map Fat12Inode.file
          = (rootSlots vol).filter (fun e => (vol.slot e).isValid)
      ∧ MountedBelowList vol ctx.rootInode.children
      ∧ ctx.rootInode.preorderIds = idsFrom 1 ctx.rootInode.preorderIds.length
      ∧ ctx.inodeCounter = (1 + ctx.rootInode.preorderIds.length) % 2 ^ 32
      ∧ (ctx.rootInode.preorderIds.length + 1 < 2 ^ 32 →
          ctx.rootInode.preorderIds = List.range' 1 ctx.rootInode.preorderIds.length
          ∧ ctx.inodeCounter = 1 + ctx.rootInode.preorderIds.length
          ∧ ctx.rootInode.preorderIds.Nodup
          ∧ (∀ id ∈ preorderIdsList ctx.rootInode.children, 2 ≤ id)
          ∧ ∀ id ∈ ctx.rootInode.preorderIds, id < ctx.inodeCounter) := by
  obtain ⟨⟨children, c1⟩, hs⟩ := constructSlots_total
    (fun entry counter => Fat12Inode.construct vol fuel depth entry counter)
    (fun entry => (vol.slot entry).isValid) (rootSlots vol)
    (fun e he hv c0 => construct_total vol fuel depth e ((hwf e he).2 hv) c0) ((1 + 1) % 2 ^ 32)
  obtain ⟨hf, hm, hids, hc1⟩ := constructSlots_spec vol _ _ (rootSlots vol) _ children c1
    (Nat.mod_lt _ (by decide)) (fun e _ _ c0 r hc0 hr => construct_spec vol fuel depth e c0 r hc0 hr)
    hs
  have hroot : (Fat12Inode.mk EntryPtr.rootEntry children 1 0 false).preorderIds
      = idsFrom 1 (Fat12Inode.mk EntryPtr.rootEntry children 1 0 false).preorderIds.length := by
    simp only [preorderIds_mk, List.length_cons]
    rw [Nat.add_comm _ 1, idsFrom_add, idsFrom_one 1 (by decide), hids, idsFrom_length]
    rfl
  have hcount : c1 = (1 + (Fat12Inode.mk EntryPtr.rootEntry children 1 0 false).preorderIds.length)
      % 2 ^ 32 := by
    simp only [preorderIds_mk, List.length_cons]
    rw [hc1]
    simp only [Nat.mod_add_mod]
    congr 1
    omega
  refine ⟨{ fat12Volume := vol, inodeCounter := c1, entry := rootDirEntry,
            rootInode := Fat12Inode.mk EntryPtr.rootEntry children 1 0 false,
            activeFiles := [] }, ?_, rfl, rfl, hf, hm, hroot, hcount, ?_⟩
  · simp only [FuseContext.construct, Fat12Inode.constructRoot, hs, Option.map_some']
  · intro hn
    simp only at hn ⊢
    generalize hk : (Fat12Inode.mk EntryPtr.rootEntry children 1 0 false).preorderIds.length = n
      at hroot hcount hn
    have hrange : idsFrom 1 n = List.range' 1 n := idsFrom_eq_range 1 n (by omega)
    have hc : c1 = 1 + n := by rw [hcount]; exact Nat.mod_eq_of_lt (by omega)
    have htail : preorderIdsList children = idsFrom 2 (preorderIdsList children).length := hids
    refine ⟨by rw [hroot, hrange], hc, ?_, ?_, ?_⟩
    · rw [hroot, hrange]
      exact List.nodup_range' 1 n
    · intro id hid
      have hid2 : id ∈ preorderIdsList children := hid
      clear hid
      rw [htail] at hid2
      have hid := hid2
      simp only [idsFrom, List.mem_map, List.mem_range] at hid
      obtain ⟨i, hi, rfl⟩ := hid
      have hlen : (preorderIdsList children).length + 1 = n := by
        rw [← hk]; simp only [preorderIds_mk, List.length_cons]
      rw [Nat.mod_eq_of_lt (by omega)]
      omega
    · intro id hid
      rw [hroot, hrange, List.mem_range'_1] at hid
      omega

theorem C25_mount_tree_witness :
    (FuseContext.construct ctxImg.fat12Volume 3 3).map
        (fun c => (c.rootInode.preorderIds, c.inodeCounter)) = some ([1, 2, 3, 4, 5, 6], 7)
    ∧ ∃ ctx, FuseContext.construct ctxImg.fat12Volume 3 3 = some ctx
      ∧ ctx.rootInode.inode = 1
      ∧ ctx.rootInode.file = EntryPtr.rootEntry
      ∧ ctx.rootInode.children.map Fat12Inode.file
          = (rootSlots ctxImg.fat12Volume).filter (fun e => (ctxImg.fat12Volume.slot e).isValid)
      ∧ MountedBelowList ctxImg.fat12Volume ctx.rootInode.children
      ∧ ctx.rootInode.preorderIds = idsFrom 1 ctx.rootInode.preorderIds.length
      ∧ ctx.inodeCounter = (1 + ctx.rootInode.preorderIds.length) % 2 ^ 32
      ∧ (ctx.rootInode.preorderIds.length + 1 < 2 ^ 32 →
          ctx.rootInode.preorderIds = List.range' 1 ctx.rootInode.preorderIds.length
          ∧ ctx.inodeCounter = 1 + ctx.rootInode.preorderIds.length
          ∧ ctx.rootInode.preorderIds.Nodup
          ∧ (∀ id ∈ preorderIdsList ctx.rootInode.children, 2 ≤ id)
          ∧ ∀ id ∈ ctx.rootInode.preorderIds, id < ctx.inodeCounter) :=
  ⟨by decide, C25_mount_tree ctxImg.fat12Volume 3 3 (by decide)⟩

/-- C26, evaluated: `getDateTime` stores the month field unchanged in `tm_mon`
(`temp.tm_mon = month`), not `month - 1`. For every valid date and time word
the result has `tm_mon` equal to the month field `m` of the date, which is not
`m - 1`; the date 2000-06-15 (`0x28CF`) at 12:00:00 gives `tm_mon = 6`, which
`struct tm` reads as July, a date in December gives `tm_mon = 12`, and the
access time of an entry with that date shows the same month. -/
theorem C26_getDateTime_month_is_one_based :
    (∀ date clock : Nat, date < 2 ^ 16 →
      1 ≤ date &&& 0b11111 →
      1 ≤ (date >>> 5) &&& 0b1111 → (date >>> 5) &&& 0b1111 ≤ 12 →
      (clock &&& 0b11111) * 2 ≤ 58 → (clock >>> 5) &&& 0b111111 ≤ 59 → clock >>> 11 ≤ 23 →
      getDateTime date clock =
        { tm_sec := (clock &&& 0b11111) * 2, tm_min := (clock >>> 5) &&& 0b111111,
          tm_hour := clock >>> 11, tm_mday := date &&& 0b11111,
          tm_mon := (date >>> 5) &&& 0b1111, tm_year := 80 + date >>> 9 }
      ∧ (getDateTime date clock).tm_mon ≠ ((date >>> 5) &&& 0b1111) - 1)
    ∧ (0x28CF &&& 0b11111 = 15 ∧ (0x28CF >>> 5) &&& 0b1111 = 6 ∧ 0x28CF >>> 9 = 20)
    ∧ getDateTime 0x28CF 0x6000
        = { tm_sec := 0, tm_min := 0, tm_hour := 12, tm_mday := 15, tm_mon := 6, tm_year := 100 }
    ∧ ((0x299F >>> 5) &&& 0b1111 = 12 ∧ (getDateTime 0x299F 0).tm_mon = 12)
    ∧ statAtime { fileA 0 0 with lastAccessDate := 0x28CF }
        = { tm_sec := 0, tm_min := 0, tm_hour := 0, tm_mday := 15, tm_mon := 6, tm_year := 100 } := by
  refine ⟨?_, by decide, by decide, by decide, by decide⟩
  intro date clock hd hday hmon hmon12 hsec hmin hhour
  have h := getDateTime_valid date clock hd hday hmon hmon12 hsec hmin hhour
  refine ⟨h, ?_⟩
  rw [h]
  show (date >>> 5) &&& 0b1111 ≠ ((date >>> 5) &&& 0b1111) - 1
  omega

/-- C27: `getFreeFileHandle` returns the smallest integer in `[0, 128)` that is
not the handle of an active file, and throws, with `EMFILE` only, iff all 128
values are handles of active files. In every session reached from one whose
handles are pairwise distinct and below 128 (the session after mount has no
active file) by requests `open`, `opendir`, `create`, `release` and
`releasedir` that return, the handles are again pairwise distinct and below
128, and there `release` and `releasedir` remove exactly the active file with
the given handle and keep the others in their order. -/
theorem C27_handle_allocation (ctx : FuseContext) (hok : HandlesOK ctx) :
    (∀ h, ctx.existsFile h = true ↔ h ∈ ctx.activeFiles.map FuseFile.handle)
    ∧ (∀ h, ctx.getFreeFileHandle = Ret.ok h ↔
        h < 128 ∧ h ∉ ctx.activeFiles.map FuseFile.handle
          ∧ ∀ j, j < h → j ∈ ctx.activeFiles.map FuseFile.handle)
    ∧ (∀ e, ctx.getFreeFileHandle = Ret.throw e ↔
        e = Errno.EMFILE ∧ ∀ j, j < 128 → j ∈ ctx.activeFiles.map FuseFile.handle)
    ∧ (∀ (fuel : Nat) (t : MS932) (ops : List HandleOp) (ctx1 : FuseContext),
        runOps fuel t ops ctx = some ctx1 →
          HandlesOK ctx1
          ∧ ∀ fh, (fat12_ll_release ctx1 fh).activeFiles
                = ctx1.activeFiles.filter (fun f => f.handle != fh)
              ∧ (fat12_ll_releasedir ctx1 fh).activeFiles
                = ctx1.activeFiles.filter (fun f => f.handle != fh)) := by
  refine ⟨existsFile_iff ctx, ?_, ?_, ?_⟩
  · intro h
    rw [getFreeFileHandle_ok]
    have hnot : ctx.existsFile h = false ↔ h ∉ ctx.activeFiles.map FuseFile.handle := by
      rw [← existsFile_iff]; simp
    rw [hnot]
    simp only [existsFile_iff]
  · intro e
    rw [getFreeFileHandle_throw]
    simp only [existsFile_iff]
  · intro fuel t ops ctx1 hrun
    have h1 := runOps_handles fuel t ops ctx ctx1 hok hrun
    exact ⟨h1, fun fh => ⟨releaseFileLoop_eq_filter fh ctx1.activeFiles h1.1,
      releaseFileLoop_eq_filter fh ctx1.activeFiles h1.1⟩⟩

theorem C27_handle_allocation_witness :
    HandlesOK ctxImg
    ∧ (runOps 8 asciiTable
        [HandleOp.open 6 0, HandleOp.opendir 1, HandleOp.opendir 2, HandleOp.release 1,
          HandleOp.create 1 [0x42], HandleOp.opendir 1] ctxImg).map
          (fun c => c.activeFiles.map FuseFile.handle) = some [0, 2, 1, 3]
    ∧ (∀ ctx1, runOps 8 asciiTable
        [HandleOp.open 6 0, HandleOp.opendir 1, HandleOp.opendir 2, HandleOp.release 1,
          HandleOp.create 1 [0x42], HandleOp.opendir 1] ctxImg = some ctx1 → HandlesOK ctx1) :=
  ⟨by decide, by decide,
   fun ctx1 h => ((C27_handle_allocation ctxImg (by decide)).2.2.2 8 asciiTable _ ctx1 h).1⟩

/-- C28, evaluated: the loop of `cleanDirectoryFilesRoot` stops as soon as
`entry` has been decremented to the start of the region, so slot 0 is never
examined. On `rootDeleted` (16 slots, none valid, slot 0 deleted) it returns
with `name[0]` of slot 0 still `0xE5`, not `0x00`. With `rootEntries = 1` and
an invalid slot 0 the pointer is decremented below the region and the loop
never meets its exit: in the model no amount of fuel gives a result. -/
theorem C28_root_compaction_skips_slot_zero :
    (∀ i : Nat, i < 16 →
      (FileEntry.ofBytes (memRead rootDeleted (32 * (i : Int)) 32)).isValid = false)
    ∧ (cleanDirectoryFilesRoot 16 rootDeleted 16).map (fun r => r.getD 0 0) = some 0xE5
    ∧ (cleanDirectoryFilesRoot 16 rootDeleted 16).map
        (fun r => (List.range 16).map fun (i : Nat) => r.getD (32 * i) 0)
        = some [0xE5, 0, 0, 0, 0, 0, 0, 0, 0, 0, 0, 0, 0, 0, 0, 0]
    ∧ (∀ (fuel : Nat) (rootRegion : Region),
        (FileEntry.ofBytes (memRead rootRegion 0 32)).isValid = false →
        cleanDirectoryFilesRoot fuel rootRegion 1 = none) := by
  refine ⟨by decide, by decide, by decide, ?_⟩
  intro fuel rootRegion hv
  cases fuel with
  | zero => rfl
  | succ fuel =>
    have h0 : (32 * (((1 : Nat) : Int) - 1)) = 0 := by norm_num
    simp only [cleanDirectoryFilesRoot, h0, cleanDirectoryFilesRootLoop, hv, Bool.false_eq_true,
      if_false]
    rw [if_neg (by omega)]
    exact cleanDirectoryFilesRootLoop_below fuel _ (0 - 32) (by omega)

/-- C29, evaluated: `removeTrailingSpaces` cuts the string at its first space
(`std::find_first_of`), not at the start of its trailing run of spaces. For
every string `a` without a space and every `b`, `a ++ " " ++ b` is cut down to
`a`. The DOS name `"A B     TXT"` decodes to base `"A B     "` and extension
`"TXT"`, and its canonical name is `"A.TXT"`, not `"A B.TXT"`; the DOS name
`"A       T X"` gives `"A.T"`, not `"A.T X"`. -/
theorem C29_name_is_cut_at_first_space :
    (∀ a b : List Nat, (∀ c ∈ a, c ≠ 0x20) → removeTrailingSpaces (a ++ 0x20 :: b) = a)
    ∧ getUnicodeFromDOSName asciiTable
        [0x41, 0x20, 0x42, 0x20, 0x20, 0x20, 0x20, 0x20, 0x54, 0x58, 0x54] 8
        = some [0x41, 0x20, 0x42, 0x20, 0x20, 0x20, 0x20, 0x20]
    ∧ getUTF8Name asciiTable [0x41, 0x20, 0x42, 0x20, 0x20, 0x20, 0x20, 0x20, 0x54, 0x58, 0x54]
        = some [0x41, 0x2E, 0x54, 0x58, 0x54]
    ∧ getCanonicalString asciiTable
        [0x41, 0x20, 0x42, 0x20, 0x20, 0x20, 0x20, 0x20, 0x54, 0x58, 0x54]
        = [0x41, 0x2E, 0x54, 0x58, 0x54]
    ∧ getUTF8Name asciiTable [0x41, 0x20, 0x20, 0x20, 0x20, 0x20, 0x20, 0x20, 0x54, 0x20, 0x58]
        = some [0x41, 0x2E, 0x54] := by
  refine ⟨?_, by decide, by decide, by decide, by decide⟩
  intro a b ha
  induction a with
  | nil => simp [removeTrailingSpaces]
  | cons x xs ih =>
    have hx : x ≠ 0x20 := ha x (List.mem_cons_self _ _)
    have := ih (fun c hc => ha c (List.mem_cons_of_mem _ hc))
    simp only [removeTrailingSpaces] at this ⊢
    have hb : (x != 0x20) = true := by simpa using hx
    rw [List.cons_append, List.takeWhile_cons, hb]
    simp only [if_true]
    rw [this]

/-- C30, evaluated at two writes that return. (a) A file of 512 bytes in one
cluster of 512 bytes (`FAT[2] = 0xFFF`) satisfies the invariant; one byte is
written at offset 512. `writeFile` returns 1 and the size becomes 513, while
the chain is still the single cluster 2: no walk from cluster 2 has two
clusters before `0xFFF`, where `ceil(513 / 512) = 2`. (b) An empty file
(size 0, first cluster 0) on a volume whose only free cluster is cluster 2;
600 bytes are written. `writeFile` returns the partial count 512 and leaves
size 0 with first cluster 2, so `size == 0` no longer goes with
`first_cluster_low == 0`. -/
theorem C30_write_breaks_chain_covers_size :
    (IsChain fatA 2 [2] ∧ (fileA 2 512).size ≤ [2].length * 512)
    ∧ (writeFile 8 fatA (zeroData 4) (fileA 2 512) 512 [7] 512 4).map
          (fun r => (r.ret, r.fat, r.file))
        = some (Ret.ok 1, fatA, fileA 2 513)
    ∧ (∀ l : List Nat, ChainPrefix fatA (fileA 2 513).firstDataClusterLow l →
        l.length * 512 < (fileA 2 513).size)
    ∧ ((fileA 0 0).size = 0 ∧ (fileA 0 0).firstDataClusterLow = 0)
    ∧ (writeFile 8 fatB (zeroData 3) (fileA 0 0) 512 (List.replicate 600 7) 0 3).map
          (fun r => (r.ret, r.file.size, r.file.firstDataClusterLow))
        = some (Ret.ok 512, 0, 2) := by
  refine ⟨by decide, by decide, ?_, by decide, by decide⟩
  intro l hl
  show l.length * 512 < 513
  match l, hl with
  | [], _ => simp
  | [_], _ => simp
  | _ :: y :: rest, h =>
    exfalso
    obtain ⟨_, _, hy, hne, _⟩ := h
    exact hne (by decide)

/-- C32, evaluated at a failing input, with the part of the claim that holds. The
failing input: the volume `imageOneFat` (one FAT copy at byte 512, the root
directory at byte 1024, the data region at byte 1536, clusters of 512 bytes,
`maxCluster = 5`), whose FAT holds the chains `2 -> 3` and `4` (no cluster in
two chains, no cluster of a chain free) and `FAT[0] = 0`; the six bytes
`FF FF FF 04 F0 FF` are written at offset 0 of an empty file. `getFreeCluster`
scans from cluster 0 and returns it; `writeFile` makes cluster 0 the first
cluster of the file and its loop stores the bytes through cluster 0, that is
1024 bytes before the data region: at byte 512 of the volume, the first byte
of the FAT. With these six bytes stored there, the entry of cluster 2, which
held the link 3, holds 4, and cluster 4 is a member of the chain of cluster 2
and of its own chain.

The part that holds: for every FAT of bytes that holds the entries below
`maxCluster` (`maxCluster <= 0xFFF`) and whose reserved entries 0 and 1 are
non-zero, every data region that holds the clusters below `maxCluster`, and
every file that has no cluster or whose chain is a list `l` of clusters in
`[2, maxCluster)` ending in `0xFFF`: a write at an offset below `2^32` that
does not begin in the cluster after the last one of the chain returns and goes
through clusters of `[2, maxCluster)` only, whose bytes lie inside the data
region and whose FAT entries lie inside the FAT; an entry whose value has changed
held 0 and holds `0xFFF`, or held 0 or `0xFFF` and holds a cluster of
`[2, maxCluster)` that was free before; and for every list of chains of the
image in which no cluster is a member of two chains and no cluster of a chain
is free (the chain of the written file among them when it has a cluster), the
image after the write has such a list again, with the same heads (and the
first cluster of the written file as one more head when the write gave it
one), every chain of before being the beginning of the chain of the same
head; when `seek` ended on a cluster, the chains of the other heads are the
same as before and every entry that has changed is the entry of a cluster of
the chain of the written file. -/
theorem C32_write_through_cluster_zero_overwrites_a_link :
    getFatVolume 2 imageOneFat = some (some
        { bootOffset := 0, volumeSize := 4096, reservedSize := 512, fatOffset := 512,
          fatRegionSize := 512, rootOffset := 1024, rootSize := 512, dataOffset := 1536,
          dataSize := 2560, clusterSize := 512, maxCluster := 5 })
    ∧ memRead imageOneFat ((512 : Nat) : Int) 512 = fatOne
    ∧ Owned fatOne [(2, [2, 3]), (4, [4])]
    ∧ fatGet fatOne 0 = 0
    ∧ getFreeCluster fatOne 5 = 0
    ∧ (writeFileTrace 2 fatOne (zeroData 5) (fileA 0 0) 512 [0xFF, 0xFF, 0xFF, 0x04, 0xF0, 0xFF]
          0 5).map (fun r => (r.1.ret, r.1.file.firstDataClusterLow, r.2))
        = some (Ret.ok 6, 0, [0])
    ∧ clusterAddr 0 512 0 = -1024
    ∧ (1536 : Int) + clusterAddr 0 512 0 = 512
    ∧ fatGet fatOne 2 = 3
    ∧ (writeFileTrace 2 fatOne (zeroData 5) (fileA 0 0) 512 [0xFF, 0xFF, 0xFF, 0x04, 0xF0, 0xFF]
          0 5).map (fun r =>
            (fatGet (memWrite r.1.fat 0 [0xFF, 0xFF, 0xFF, 0x04, 0xF0, 0xFF]) 2,
              decide (IsChain (memWrite r.1.fat 0 [0xFF, 0xFF, 0xFF, 0x04, 0xF0, 0xFF]) 2 [2, 4]),
              decide (IsChain (memWrite r.1.fat 0 [0xFF, 0xFF, 0xFF, 0x04, 0xF0, 0xFF]) 4 [4])))
        = some (4, true, true)
    ∧ (∀ (fat data : Region) (file : FileEntry) (cs : Nat) (bytes : List Nat)
        (offset maxCluster fuel : Nat) (l : List Nat),
        IsBytes fat → maxCluster ≤ 0xFFF → maxCluster * 3 ≤ fat.length * 2 →
        (maxCluster - 2) * cs ≤ data.length →
        fatGet fat 0 ≠ 0 → fatGet fat 1 ≠ 0 →
        0 < cs → cs < 2 ^ 32 → offset < 2 ^ 32 → bytes.length ≤ fuel →
        ((file.firstDataClusterLow = 0 ∧ offset < cs)
          ∨ (IsChain fat file.firstDataClusterLow l ∧ (∀ x ∈ l, 2 ≤ x ∧ x < maxCluster)
              ∧ offset / cs ≠ l.length)) →
        ∃ r tr, writeFileTrace fuel fat data file cs bytes offset maxCluster = some (r, tr)
          ∧ writeFile fuel fat data file cs bytes offset maxCluster = some r
          ∧ (∀ x ∈ tr, 2 ≤ x ∧ x < maxCluster)
          ∧ (∀ x ∈ tr, 0 ≤ clusterAddr x cs 0
              ∧ clusterAddr x cs 0 + (cs : Int) ≤ (data.length : Int)
              ∧ (getFatEntry x).ptr + 1 < fat.length)
          ∧ (∀ j, fatGet r.fat j ≠ fatGet fat j →
              (fatGet fat j = 0 ∧ fatGet r.fat j = 0xFFF)
                ∨ ((fatGet fat j = 0 ∨ fatGet fat j = 0xFFF)
                  ∧ 2 ≤ fatGet r.fat j ∧ fatGet r.fat j < maxCluster
                  ∧ fatGet fat (fatGet r.fat j) = 0))
          ∧ ∀ chains : List (Nat × List Nat), Owned fat chains →
              (file.firstDataClusterLow ≠ 0 →
                file.firstDataClusterLow ∈ chains.map Prod.fst) →
              ∃ chains2, Owned r.fat chains2
                ∧ chains2.map Prod.fst
                    = (if file.firstDataClusterLow = 0 ∧ r.file.firstDataClusterLow ≠ 0
                        then [r.file.firstDataClusterLow] else []) ++ chains.map Prod.fst
                ∧ (∀ p ∈ chains, ∃ q ∈ chains2, q.1 = p.1 ∧ p.2 <+: q.2)
                ∧ (r.file.firstDataClusterLow ≠ 0 →
                    r.file.firstDataClusterLow ∈ chains2.map Prod.fst)
                ∧ (file.firstDataClusterLow = 0
                    ∨ (seek fat file.firstDataClusterLow cs offset).cluster ≠ 0xFFF →
                    (∀ p ∈ chains, p.1 ≠ r.file.firstDataClusterLow → p ∈ chains2)
                    ∧ ∀ j, fatGet r.fat j ≠ fatGet fat j →
                        ∃ q ∈ chains2, q.1 = r.file.firstDataClusterLow ∧ j ∈ q.2)) := by
  refine ⟨imageOneFat_layout, imageOneFat_fat, by decide, by decide, by decide, by decide,
    by decide, by decide, by decide, by decide, ?_⟩
  intro fat data file cs bytes offset maxCluster fuel l hb hmax hfat hdata h0 h1 hcs hcs32 hoff
    hfuel hwf
  obtain ⟨r, tr, htr, hrun, hrange⟩ := writeFileTrace_in_range fuel fat data file cs bytes
    offset maxCluster l hb hmax hfat h0 h1 hcs hcs32 hoff hfuel hwf
  obtain ⟨r2, hrun2, _, hown⟩ := writeFile_ownership fat data file cs bytes offset maxCluster
    fuel hb hmax hcs hcs32 hfuel
  rw [hrun] at hrun2
  simp only [Option.some.injEq] at hrun2
  subst hrun2
  obtain ⟨hchg, hchains⟩ := hown h0 h1 hfat
  exact ⟨r, tr, htr, hrun, hrange,
    fun x hx => cluster_in_regions fat data cs maxCluster x hfat hdata (hrange x hx).1
      (hrange x hx).2, hchg, hchains⟩

/-- C33, counterexample: `seek` and the read loop compare with `0xFFF` only.
In `fatE` the chain of cluster 2 ends with the value `0xFF8`. A `seek` to
offset 1024 stops on `0xFFF` after one hop in `fatA`, but makes two hops in
`fatE`: it reads the FAT entry of "cluster" `0xFF8`. For a file of 600 bytes
on that chain of one cluster of 512 bytes, a read of 600 bytes returns 512
bytes with `fatA` and 600 bytes with `fatE`, the last 88 taken from the place
of a cluster `0xFF8`. -/
theorem C33_counterexample :
    (ChainPrefix fatE 2 [2] ∧ fatGet fatE 2 = 0xFF8 ∧ IsChain fatA 2 [2])
    ∧ seek fatA 2 512 1024 = { cluster := 0xFFF, fileClusterOffset := 512, clusterOffset := 0 }
    ∧ seek fatE 2 512 1024
        = { cluster := fatGet fatE 0xFF8, fileClusterOffset := 1024, clusterOffset := 0 }
    ∧ (dumpRegularFile 8 fatA (List.replicate 512 7) (fileA 2 600) 512 600 0).map
          (fun r => match r with | Ret.ok bytes => bytes.length | Ret.throw _ => 0)
        = some 512
    ∧ (dumpRegularFile 8 fatE (List.replicate 512 7) (fileA 2 600) 512 600 0).map
          (fun r => match r with | Ret.ok bytes => bytes.length | Ret.throw _ => 0)
        = some 600
    ∧ (dumpRegularFile 8 fatE (List.replicate 512 7) (fileA 2 600) 512 600 0).map
          (fun r => match r with | Ret.ok bytes => bytes.drop 512 | Ret.throw _ => [])
        = some (memRead (List.replicate 512 7) (clusterAddr 0xFF8 512 0) 88) := by
  decide

/-- C33, amended: only `0xFFF` ends a chain for reads. Let the chain of a file
begin with the clusters `l ++ [x]` (none of them `0xFFF`, all at least 2, their
FAT entries inside the FAT and their bytes inside the data region).

* If the FAT entry of `x` is `0xFFF`, `seek` and the read loop stop there:
  every `seek` to an offset at or behind the end of these clusters ends on
  `0xFFF` with exactly these clusters skipped, and a read returns bytes of
  these clusters only, however large the recorded size is.
* If the FAT entry of `x` is any `v` in `0xFF8..0xFFE`, they do not stop:
  a `seek` two clusters further has skipped `l.length + 2` clusters, the last
  hop being the read of the FAT entry with index `v`; and when the size
  reaches into the next cluster, a read returns, after the bytes of
  `l ++ [x]`, the bytes stored at the place of cluster `v` of the data
  region.
* A read returns the same bytes in both cases only when the clusters
  `l ++ [x]` cover the size: then the entry of `x` is not looked at.

The entry `v` of the FAT and the cluster `v` of the data region are named
under the condition that they lie inside these regions. -/
theorem C33_only_fff_ends_a_chain (fat data : Region) (file : FileEntry)
    (cs n offset fuel : Nat) (l : List Nat) (x : Nat)
    (hcs : 0 < cs) (hcs31 : cs < 2 ^ 31) (hsize : file.size < 2 ^ 32)
    (hp : ChainPrefix fat file.firstDataClusterLow (l ++ [x]))
    (hge : ∀ y ∈ l ++ [x], 2 ≤ y)
    (_hfatin : ∀ y ∈ l ++ [x], (getFatEntry y).ptr + 1 < fat.length)
    (_hdatain : ∀ y ∈ l ++ [x], (y - 2) * cs + cs ≤ data.length)
    (hoff : offset < file.size) (hfuel : l.length + 2 ≤ fuel) :
    (fatGet fat x = 0xFFF →
        (∀ off2, off2 < 2 ^ 32 → l.length + 1 ≤ off2 / cs →
          (seek fat file.firstDataClusterLow cs off2).cluster = 0xFFF
          ∧ (seek fat file.firstDataClusterLow cs off2).fileClusterOffset
            = (l.length + 1) * cs)
        ∧ (offset / cs ≤ l.length + 1 →
          dumpRegularFile fuel fat data file cs n offset
            = some (Ret.ok (((chainBytes data cs (l ++ [x])).drop offset).take
                (min n (file.size - offset))))))
    ∧ (∀ v, fatGet fat x = v → 0xFF8 ≤ v → v < 0xFFF →
        (∀ off2, off2 < 2 ^ 32 → off2 / cs = l.length + 2 →
          (seek fat file.firstDataClusterLow cs off2).fileClusterOffset
            = (l.length + 2) * cs
          ∧ ((getFatEntry v).ptr + 1 < fat.length →
            (seek fat file.firstDataClusterLow cs off2).cluster = fatGet fat v))
        ∧ (file.size ≤ (l.length + 2) * cs → (v - 2) * cs + cs ≤ data.length →
          dumpRegularFile fuel fat data file cs n offset
            = some (Ret.ok (((chainBytes data cs (l ++ [x])
                  ++ memRead data (clusterAddr v cs 0) cs).drop offset).take
                (min n (file.size - offset))))))
    ∧ (file.size ≤ (l.length + 1) * cs →
        dumpRegularFile fuel fat data file cs n offset
          = some (Ret.ok (((chainBytes data cs (l ++ [x])).drop offset).take
              (min n (file.size - offset))))) := by
  have hlen1 : (l ++ [x]).length = l.length + 1 := by simp
  refine ⟨fun hx => ⟨fun off2 h32 hk => ?_, fun hk => ?_⟩,
    fun v hv h8 hF => ⟨fun off2 h32 hk => ?_, fun hsz _ => ?_⟩, fun hsz => ?_⟩
  · have hchain := ChainPrefix.close x hx l _ hp
    have hk32 : off2 / cs % 2 ^ 32 = off2 / cs :=
      Nat.mod_eq_of_lt (lt_of_le_of_lt (Nat.div_le_self _ _) h32)
    have hrun := seekLoop_isChain fat (l ++ [x]) (off2 / cs) file.firstDataClusterLow 0
      hchain (by rw [hlen1]; exact hk)
    have h1 : (l.length + 1) * cs ≤ off2 / cs * cs := Nat.mul_le_mul_right cs hk
    have h2 : off2 / cs * cs ≤ off2 := Nat.div_mul_le_self off2 cs
    simp only [seek, hk32, hrun, hlen1, Nat.zero_add]
    exact ⟨trivial, Nat.mod_eq_of_lt (by omega)⟩
  · have hchain := ChainPrefix.close x hx l _ hp
    exact dumpRegularFile_isChain fat data file cs n offset (l ++ [x]) fuel hcs hcs31 hsize
      hchain hge (by rw [hlen1]; exact hk) hoff (by rw [hlen1]; omega)
  · have hp2 := ChainPrefix.snoc x v hv (by omega) l _ hp
    have hk32 : off2 / cs % 2 ^ 32 = off2 / cs :=
      Nat.mod_eq_of_lt (lt_of_le_of_lt (Nat.div_le_self _ _) h32)
    have hrun : seekLoop fat (l.length + 2) file.firstDataClusterLow 0
        = (fatGet fat v, 0 + (l.length + 2)) := by
      have h := seekLoop_snoc fat v (l ++ [x]) file.firstDataClusterLow 0 hp2
      rw [hlen1] at h
      exact h
    have h2 : off2 / cs * cs ≤ off2 := Nat.div_mul_le_self off2 cs
    rw [hk] at h2 hk32
    simp only [seek, hk, hk32, hrun, Nat.zero_add]
    exact ⟨Nat.mod_eq_of_lt (by omega), fun _ => trivial⟩
  · have hp2 := ChainPrefix.snoc x v hv (by omega) l _ hp
    have hge2 : ∀ y ∈ l ++ [x] ++ [v], 2 ≤ y := by
      intro y hy
      rcases List.mem_append.1 hy with h | h
      · exact hge y h
      · have : y = v := by simpa using h
        omega
    have hrun := dumpRegularFile_chain fat data file cs n offset (l ++ [x] ++ [v]) fuel
      hcs hcs31 hsize hp2 hge2 (by simpa using hsz) hoff (by simpa using hfuel)
    rw [hrun, chainBytes_append data cs (l ++ [x]) [v]]
    have hv2 : 2 ≤ v := by omega
    rw [memRead_cluster data v cs 0 cs hv2 (by omega)]
    have e : List.take cs (clusterBytes data cs v) = clusterBytes data cs v :=
      List.take_of_length_le (by rw [clusterBytes_length])
    rw [List.drop_zero, e]
    simp [chainBytes]
  · exact dumpRegularFile_chain fat data file cs n offset (l ++ [x]) fuel hcs hcs31 hsize
      hp hge (by rw [hlen1]; exact hsz) hoff (by rw [hlen1]; omega)

theorem C33_only_fff_ends_a_chain_witness :
    (fatGet fatA 2 = 0xFFF
      ∧ (seek fatA (fileA 2 600).firstDataClusterLow 512 1024).cluster = 0xFFF
      ∧ (seek fatA (fileA 2 600).firstDataClusterLow 512 1024).fileClusterOffset
          = (([] : List Nat).length + 1) * 512
      ∧ dumpRegularFile 2 fatA (List.replicate 512 7) (fileA 2 600) 512 600 0
          = some (Ret.ok (((chainBytes (List.replicate 512 7) 512 ([] ++ [2])).drop 0).take
              (min 600 ((fileA 2 600).size - 0)))))
    ∧ (fatGet fatF 2 = 0xFF8
      ∧ (seek fatF (fileA 2 2).firstDataClusterLow 1 2).fileClusterOffset
          = (([] : List Nat).length + 2) * 1
      ∧ (seek fatF (fileA 2 2).firstDataClusterLow 1 2).cluster = fatGet fatF 0xFF8
      ∧ dumpRegularFile 2 fatF (List.replicate 4087 7) (fileA 2 2) 1 2 0
          = some (Ret.ok (((chainBytes (List.replicate 4087 7) 1 ([] ++ [2])
                ++ memRead (List.replicate 4087 7) (clusterAddr 0xFF8 1 0) 1).drop 0).take
              (min 2 ((fileA 2 2).size - 0))))) :=
  have hA := C33_only_fff_ends_a_chain fatA (List.replicate 512 7) (fileA 2 600) 512 600 0 2
    [] 2 (by decide) (by decide) (by decide) (by decide) (by decide) (by decide)
    (by intro y hy; rw [List.length_replicate]; revert y; decide) (by decide) (by decide)
  have hF := C33_only_fff_ends_a_chain fatF (List.replicate 4087 7) (fileA 2 2) 1 2 0 2
    [] 2 (by decide) (by decide) (by decide) (by decide) (by decide)
    (by intro y hy; rw [fatF, List.length_append, List.length_replicate]; revert y; decide)
    (by intro y hy; rw [List.length_replicate]; revert y; decide) (by decide) (by decide)
  have hFv := hF.2.1 0xFF8 (by decide) (by decide) (by decide)
  ⟨⟨by decide, ((hA.1 (by decide)).1 1024 (by decide) (by decide)).1,
      ((hA.1 (by decide)).1 1024 (by decide) (by decide)).2,
      (hA.1 (by decide)).2 (by decide)⟩,
    by decide, (hFv.1 2 (by decide) (by decide)).1,
      (hFv.1 2 (by decide) (by decide)).2
        (by rw [fatF, List.length_append, List.length_replicate]; decide),
      hFv.2 (by decide) (by rw [List.length_replicate])⟩

/-- C34, counterexample: the constructor of a node walks every slot of the
container and keeps each one that `isValid` accepts; it does not stop at a slot
whose `name[0]` is `0x00`. In the root region `rootGap` slot 0 is all zero and
slot 1 holds a valid entry `A.TXT`: the mount makes slot 1 a child of the root
(with id 2), although it lies after a slot whose `name[0]` is `0x00`. -/
theorem C34_counterexample :
    (volGap.slot (EntryPtr.root 0)).filename.getD 0 0 = 0
    ∧ (volGap.slot (EntryPtr.root 32)).isValid = true
    ∧ (FuseContext.construct volGap 3 3).map
          (fun ctx => ctx.rootInode.children.map fun child => (child.file, child.inode))
        = some [(EntryPtr.root 32, 2)] := by
  decide

/-- C34, amended: a `0x00` slot does not end the directory. For every volume
whose directories are well formed, the mount returns, and in every directory
container (the root region, and the clusters of the chain of every directory
node other than dot and dot-dot) a slot becomes a child of the directory's
inode exactly when its own bytes satisfy the entry validity predicate, wherever
it is located; a slot whose own `name[0]` is `0x00` does not satisfy it, so
only such a slot itself is never a child. -/
theorem C34_zero_slot_is_skipped_not_final (vol : Fat12Volume) (fuel depth : Nat)
    (hwf : ∀ e ∈ rootSlots vol, e.inside vol = true
      ∧ ((vol.slot e).isValid = true → wellFormedDir vol fuel depth e = true)) :
    ∃ ctx, FuseContext.construct vol fuel depth = some ctx
      ∧ (∀ e ∈ rootSlots vol,
          e ∈ ctx.rootInode.children.map Fat12Inode.file ↔ (vol.slot e).isValid = true)
      ∧ MountedBelowList vol ctx.rootInode.children
      ∧ (∀ file children inode nlookup zombie,
          (Fat12Inode.mk file children inode nlookup zombie).MountedBelow vol →
          ((vol.slot file).isDirectory && !(vol.slot file).isDotOrDotDot) = true →
          ∃ chain, IsChain vol.fatRegion (vol.slot file).firstDataClusterLow chain
            ∧ ∀ e ∈ chain.flatMap (clusterSlots vol),
                e ∈ children.map Fat12Inode.file ↔ (vol.slot e).isValid = true)
      ∧ (∀ e, (vol.slot e).filename.getD 0 0 = 0 → (vol.slot e).isValid = false) := by
  obtain ⟨⟨children, c1⟩, hs⟩ := constructSlots_total
    (fun entry counter => Fat12Inode.construct vol fuel depth entry counter)
    (fun entry => (vol.slot entry).isValid) (rootSlots vol)
    (fun e he hv c0 => construct_total vol fuel depth e ((hwf e he).2 hv) c0) ((1 + 1) % 2 ^ 32)
  obtain ⟨hf, hm, _, _⟩ := constructSlots_spec vol _ _ (rootSlots vol) _ children c1
    (Nat.mod_lt _ (by decide)) (fun e _ _ c0 r hc0 hr => construct_spec vol fuel depth e c0 r hc0 hr)
    hs
  refine ⟨{ fat12Volume := vol, inodeCounter := c1, entry := rootDirEntry,
            rootInode := Fat12Inode.mk EntryPtr.rootEntry children 1 0 false,
            activeFiles := [] }, ?_, ?_, hm, ?_, ?_⟩
  · simp only [FuseContext.construct, Fat12Inode.constructRoot, hs, Option.map_some']
  · intro e he
    show e ∈ children.map Fat12Inode.file ↔ _
    rw [hf, List.mem_filter]
    simp [he]
  · intro file children inode nlookup zombie hmb hdir
    rw [MountedBelow_mk, if_pos hdir] at hmb
    obtain ⟨⟨chain, hchain, hch⟩, _⟩ := hmb
    refine ⟨chain, hchain, fun e he => ?_⟩
    rw [hch, List.mem_filter]
    simp [he]
  · intro e h0
    unfold FileEntry.isValid
    rw [h0]
    rfl

theorem C34_zero_slot_is_skipped_not_final_witness :
    ∃ ctx, FuseContext.construct ctxImg.fat12Volume 3 3 = some ctx
      ∧ (∀ e ∈ rootSlots ctxImg.fat12Volume,
          e ∈ ctx.rootInode.children.map Fat12Inode.file
            ↔ (ctxImg.fat12Volume.slot e).isValid = true)
      ∧ MountedBelowList ctxImg.fat12Volume ctx.rootInode.children
      ∧ (∀ file children inode nlookup zombie,
          (Fat12Inode.mk file children inode nlookup zombie).MountedBelow ctxImg.fat12Volume →
          ((ctxImg.fat12Volume.slot file).isDirectory
            && !(ctxImg.fat12Volume.slot file).isDotOrDotDot) = true →
          ∃ chain, IsChain ctxImg.fat12Volume.fatRegion
              (ctxImg.fat12Volume.slot file).firstDataClusterLow chain
            ∧ ∀ e ∈ chain.flatMap (clusterSlots ctxImg.fat12Volume),
                e ∈ children.map Fat12Inode.file ↔ (ctxImg.fat12Volume.slot e).isValid = true)
      ∧ (∀ e, (ctxImg.fat12Volume.slot e).filename.getD 0 0 = 0 →
          (ctxImg.fat12Volume.slot e).isValid = false) :=
  C34_zero_slot_is_skipped_not_final ctxImg.fat12Volume 3 3 (by decide)

/-- C36, evaluated: `getFatVolume` checks that the volume fits in the buffer
and (in `checkFatTable`) that the FAT copies fit in the volume, and for every
buffer on which it succeeds these two bounds hold. It checks neither the root
directory nor the data region. On the buffer `imageNoRoot` of 1025 bytes,
whose boot block declares a volume of 2 sectors with one reserved sector, one
FAT of one sector and 16 root entries, `getFatVolume` succeeds and returns a
root region at the offsets 1024 to 1536 of a volume of 1024 bytes (past the end
of the buffer too) and a data region at offset 1536 whose size is the wrapped
`size_t` difference `2^64 - 512`. -/
theorem C36_root_and_data_regions_are_not_checked :
    (∀ fuel filedata L, getFatVolume fuel filedata = some (some L) →
      L.bootOffset + L.volumeSize ≤ filedata.length
        ∧ L.fatOffset + L.fatRegionSize ≤ L.volumeSize)
    ∧ imageNoRoot.length = 1025
    ∧ ∃ L, getFatVolume 1 imageNoRoot = some (some L)
      ∧ L = { bootOffset := 0, volumeSize := 1024, reservedSize := 512, fatOffset := 512,
              fatRegionSize := 512, rootOffset := 1024, rootSize := 512, dataOffset := 1536,
              dataSize := 2 ^ 64 - 512, clusterSize := 512, maxCluster := 341 }
      ∧ L.volumeSize < L.rootOffset + L.rootSize
      ∧ imageNoRoot.length < L.bootOffset + L.rootOffset + L.rootSize
      ∧ L.volumeSize < L.dataOffset + L.dataSize := by
  refine ⟨?_, by decide, _, by decide, rfl, by decide, by decide, by decide⟩
  intro fuel filedata L h
  obtain ⟨i, bpb, vs, hscan, _, _, hfit, hfat, hb, hv, _, hfo, hfr, _⟩ :=
    getFatVolume_inv fuel filedata L h
  have hlen := ((scanForBPBRegion_some filedata i).1 hscan).1
  rw [hb, hv, hfo, hfr, Nat.mul_comm bpb.fatCount]
  exact ⟨by omega, hfat⟩

/-- C38, evaluated: for every buffer of bytes on which `getFatVolume` succeeds
with a data size computed without underflow, every cluster `c` with
`2 <= c < maxCluster` has both bytes of its FAT entry inside FAT copy 0 and its
bytes inside the data region. But `getFreeCluster` scans from cluster 0 and
hands out clusters outside that range: on the volume `imageZeroFat`, which
`getFatVolume` returns with `maxCluster = 4` and no underflow, FAT copy 0 is
all zero, `getFreeCluster` returns cluster 0, a write to an empty file makes
cluster 0 its first cluster, and the bytes of cluster 0 begin 1024 bytes
before the data region. -/
theorem C38_getFreeCluster_hands_out_cluster_outside_data :
    (∀ fuel filedata L, IsBytes filedata → getFatVolume fuel filedata = some (some L) →
      L.fatRegionSize + L.rootSize + L.reservedSize ≤ L.volumeSize →
      ∀ c, 2 ≤ c → c < L.maxCluster →
        (getFatEntry c).ptr = c * 12 / 8
        ∧ c * 12 / 8 + 1
            < (BPB.ofBytes (memRead filedata (L.bootOffset : Int) 512)).sectorPerFat
              * (BPB.ofBytes (memRead filedata (L.bootOffset : Int) 512)).bytesPerSector
        ∧ 0 ≤ clusterAddr c L.clusterSize 0
        ∧ clusterAddr c L.clusterSize 0 + (L.clusterSize : Int) ≤ (L.dataSize : Int))
    ∧ getFatVolume 2 imageZeroFat = some (some
        { bootOffset := 0, volumeSize := 4096, reservedSize := 512, fatOffset := 512,
          fatRegionSize := 1024, rootOffset := 1536, rootSize := 512, dataOffset := 2048,
          dataSize := 2048, clusterSize := 512, maxCluster := 4 })
    ∧ memRead imageZeroFat ((512 : Nat) : Int) 512 = List.replicate 512 0
    ∧ getFreeCluster (List.replicate 512 0) 4 = 0
    ∧ clusterAddr 0 512 0 = -1024
    ∧ (writeFile 2 (List.replicate 512 0) (List.replicate 2048 0) (fileA 0 0) 512 [1] 0 4).map
          (fun r => (r.ret, r.file.firstDataClusterLow, fatGet r.fat 0))
        = some (Ret.ok 1, 0, 0xFFF) := by
  refine ⟨?_, imageZeroFat_layout, imageZeroFat_fat0, by decide, by decide, by decide⟩
  intro fuel filedata L hbytes h hno c hc2 hcm
  obtain ⟨i, bpb, vs, hscan, hbpb, hvs, hfit, hfat, hb, hv, hres, hfo, hfr, hro, hrs, hdo, hds,
    hcs, hmc⟩ := getFatVolume_inv fuel filedata L h
  have hcheck : bpb.check = true := by
    rw [← hbpb]; exact ((scanForBPBRegion_some filedata i).1 hscan).2.1
  obtain ⟨hbps, hspc⟩ := BPB.check_bounds bpb hcheck
  have hblock : IsBytes (memRead filedata ((512 * i : Nat) : Int) 512) :=
    memRead_isBytes filedata hbytes _ _
  have hbps16 : bpb.bytesPerSector < 2 ^ 16 := by rw [← hbpb]; exact le16_lt _ 11 hblock
  have hts16 : bpb.totalSectors16 < 2 ^ 16 := by rw [← hbpb]; exact le16_lt _ 19 hblock
  have hv32 : vs < 2 ^ 32 := by
    rw [hvs]
    split
    · calc bpb.totalSectors16 * bpb.bytesPerSector < 2 ^ 16 * 2 ^ 16 :=
            Nat.mul_lt_mul'' hts16 hbps16
        _ = 2 ^ 32 := by norm_num
    · exact Nat.mod_lt _ (by norm_num)
  have hbo : ((L.bootOffset : Nat) : Int) = ((512 * i : Nat) : Int) := by
    rw [hb, Nat.mul_comm]
  rw [hbo, hbpb]
  have hcspos : 512 ≤ L.clusterSize := by
    rw [hcs]
    calc 512 ≤ bpb.bytesPerSector := hbps
      _ = 1 * bpb.bytesPerSector := (Nat.one_mul _).symm
      _ ≤ bpb.sectorsPerCluster * bpb.bytesPerSector := Nat.mul_le_mul_right _ hspc
  have hdsz : L.dataSize = vs - L.fatRegionSize - L.rootSize - L.reservedSize := by
    rw [hds]
    rw [hv] at hno
    have e : vs + 3 * 2 ^ 64 - L.fatRegionSize - L.rootSize - L.reservedSize
        = (vs - L.fatRegionSize - L.rootSize - L.reservedSize) + 2 ^ 64 * 3 := by omega
    rw [e, Nat.add_mul_mod_self_left]
    exact Nat.mod_eq_of_lt (by omega)
  have hdlt : L.dataSize < 2 ^ 32 := by omega
  have hq23 : L.dataSize / L.clusterSize < 2 ^ 23 := by
    apply Nat.div_lt_of_lt_mul
    calc L.dataSize < 2 ^ 32 := hdlt
      _ = 512 * 2 ^ 23 := by norm_num
      _ ≤ L.clusterSize * 2 ^ 23 := Nat.mul_le_mul_right _ hcspos
  have hqmod : (L.dataSize / L.clusterSize) % 2 ^ 32 = L.dataSize / L.clusterSize :=
    Nat.mod_eq_of_lt (by omega)
  have hm0 : (min (if (L.dataSize / L.clusterSize) % 2 ^ 32 < 2 ^ 31 then
                    (((L.dataSize / L.clusterSize) % 2 ^ 32 : Nat) : Int)
                  else (((L.dataSize / L.clusterSize) % 2 ^ 32 : Nat) : Int) - 2 ^ 32)
                ((1 <<< 12 : Nat) - 2 : Int) % 2 ^ 16).toNat
      ≤ L.dataSize / L.clusterSize := by
    rw [hqmod, if_pos (by omega)]
    have e12 : ((1 <<< 12 : Nat) : Int) = 4096 := by decide
    rw [e12]
    omega
  have hmle1 : L.maxCluster ≤ L.dataSize / L.clusterSize := by
    rw [hmc]
    exact (Nat.mod_le _ _).trans ((Nat.min_le_left _ _).trans hm0)
  have hmle2 : L.maxCluster ≤ bpb.sectorPerFat * bpb.bytesPerSector * 8 / 12 := by
    rw [hmc]
    exact (Nat.mod_le _ _).trans (Nat.min_le_right _ _)
  have hmul : (c + 1) * L.clusterSize ≤ L.dataSize :=
    (Nat.mul_le_mul_right _ (by omega : c + 1 ≤ L.dataSize / L.clusterSize)).trans
      (Nat.div_mul_le_self _ _)
  refine ⟨rfl, by omega, ?_, ?_⟩
  · unfold clusterAddr
    have : (0 : Int) ≤ ((c : Int) - 2) := by omega
    have h2 : (0 : Int) ≤ (L.clusterSize : Int) := Int.ofNat_nonneg _
    have := Int.mul_nonneg this h2
    omega
  · unfold clusterAddr
    obtain ⟨k, rfl⟩ : ∃ k, c = k + 2 := ⟨c - 2, by omega⟩
    have e : (((k + 2 : Nat) : Int) - 2) * (L.clusterSize : Int) + ((0 : Nat) : Int)
        + (L.clusterSize : Int) = (((k + 1) * L.clusterSize : Nat) : Int) := by
      push_cast; ring
    rw [e]
    have : (k + 1) * L.clusterSize ≤ (k + 2 + 1) * L.clusterSize :=
      Nat.mul_le_mul_right _ (by omega)
    exact_mod_cast this.trans hmul

/-- C39, evaluated: `lookup` compares with `strcasecmp`, `fat12_ll_unlink` with
`==` of `std::string`. In the session `ctxImg`, whose root directory holds the
file with canonical name `"A.TXT"` (inode 6), `lookup(1, "a.txt")` replies with
the entry of inode 6, while `unlink(1, "a.txt")` replies `ENOENT` and leaves
the tree as it is; for the name `"A.TXT"` both find inode 6. For every
session, parent and name, a reply of `unlink` other than `ENOENT` comes with
`lookup` finding an entry, as equal strings are equal ignoring case. -/
theorem C39_unlink_is_case_sensitive :
    (fat12_ll_lookup asciiTable ctxImg 1 [0x61, 0x2E, 0x74, 0x78, 0x74]).1 = LookupReply.entry 6
    ∧ (fat12_ll_unlink asciiTable ctxImg 1 [0x61, 0x2E, 0x74, 0x78, 0x74]).1
        = some Errno.ENOENT
    ∧ ((fat12_ll_unlink asciiTable ctxImg 1 [0x61, 0x2E, 0x74, 0x78, 0x74]).2.rootInode.at [1]).map
        (fun n => (n.inode, n.zombie)) = some (6, false)
    ∧ (fat12_ll_lookup asciiTable ctxImg 1 [0x41, 0x2E, 0x54, 0x58, 0x54]).1 = LookupReply.entry 6
    ∧ (fat12_ll_unlink asciiTable ctxImg 1 [0x41, 0x2E, 0x54, 0x58, 0x54]).1 = none
    ∧ ((fat12_ll_unlink asciiTable ctxImg 1 [0x41, 0x2E, 0x54, 0x58, 0x54]).2.rootInode.at [1]).map
        (fun n => (n.inode, n.zombie)) = some (6, true)
    ∧ (∀ (t : MS932) (ctx : FuseContext) (parent : Nat) (name : List Nat),
        (fat12_ll_unlink t ctx parent name).1 ≠ some Errno.ENOENT →
        ∃ ino, (fat12_ll_lookup t ctx parent name).1 = LookupReply.entry ino) := by
  refine ⟨by decide, by decide, by decide, by decide, by decide, by decide, ?_⟩
  intro t ctx parent name h
  unfold fat12_ll_unlink at h
  unfold fat12_ll_lookup lookup
  cases hf : ctx.rootInode.findInode parent with
  | none => rw [hf] at h; exact absurd rfl h
  | some r =>
    obtain ⟨p, parentNode⟩ := r
    rw [hf] at h
    simp only at h ⊢
    cases hs : scanChildren
        (fun child => getCanonicalString t (ctx.readEntry child.file).filename == cstr name)
        0 parentNode.children with
    | none => rw [hs] at h; exact absurd rfl h
    | some r2 =>
      obtain ⟨i, child⟩ := r2
      obtain ⟨k, _, hget, hpred, _⟩ := scanChildren_some _ _ _ _ _ hs
      have hpred2 : strcasecmpEq (getCanonicalString t (ctx.readEntry child.file).filename) name
          = true := strcasecmpEq_of_eq _ _ (by simpa using hpred)
      obtain ⟨j, d, _, hscan, _, _, _⟩ := scanChildren_exists
        (fun child => strcasecmpEq (getCanonicalString t (ctx.readEntry child.file).filename) name)
        parentNode.children 0 k child hget hpred2
      rw [hscan]
      exact ⟨d.inode, rfl⟩

/-- C40, evaluated: the test `i == sz` under `isLeadByte` is inside the loop
`for (i = 0; i < sz; i++)` and is never true, so a lead byte in the last
position of the part takes the byte at index `sz` as its second byte. For
every table and every byte array, the decoding of a part of length 1 that is
a lead byte succeeds or fails with the mapping of the two-byte value built
from the bytes at the indices 0 and 1. With the sample table (lead byte `0x81`,
`0x8140` mapped to U+3000) the base `"AAAAAAA" 0x81` followed by the
extension byte `0x40` decodes to seven `A` and U+3000, and the same eight
bytes followed by a space fail: the result depends on the byte at index 8. -/
theorem C40_lead_byte_reads_past_the_part :
    (∀ (t : MS932) (mem : List Nat), t.isLeadByte (mem.getD 0 0) = true →
      getUnicodeFromDOSName t mem 1
        = (t.ms932ToUnicode (((mem.getD 0 0 <<< 8) % 2 ^ 16 + mem.getD 1 0) % 2 ^ 16)).map
            fun codePoint => [codePoint])
    ∧ sampleTable.isLeadByte 0x81 = true
    ∧ getUnicodeFromDOSName sampleTable
        [0x41, 0x41, 0x41, 0x41, 0x41, 0x41, 0x41, 0x81, 0x40, 0x20, 0x20] 8
        = some [0x41, 0x41, 0x41, 0x41, 0x41, 0x41, 0x41, 0x3000]
    ∧ getUnicodeFromDOSName sampleTable
        [0x41, 0x41, 0x41, 0x41, 0x41, 0x41, 0x41, 0x81, 0x20, 0x20, 0x20] 8 = none
    ∧ getUnicodeFromDOSName sampleTable [0x41, 0x41, 0x81] 3 = none
    ∧ getUnicodeFromDOSName sampleTable [0x41, 0x41, 0x81, 0x40] 3 = some [0x41, 0x41, 0x3000] := by
  refine ⟨?_, by decide, by decide, by decide, by decide, by decide⟩
  intro t mem h
  simp only [getUnicodeFromDOSName, getUnicodeFromDOSNameLoop, h, if_true]
  cases t.ms932ToUnicode (((mem.getD 0 0 <<< 8) % 2 ^ 16 + mem.getD 1 0) % 2 ^ 16) <;> rfl

end Hdifuse
